import Mathlib

/-!
# Human-language summary of recurrence rules (`to_text.go`)

A shallow embedding of `to_text.go`: the default formatter, the list joiners,
the per-frequency writers and `ToString`.  A Go `strings.Builder` is the string
written so far, passed in and returned; a Go call that can panic (an array
index out of range, a missing plural form) returns `none`.
-/

namespace rrule

/-! ## Machine integers and the standard library -/

/-- Two's-complement wrap of a mathematical integer into the 64-bit range of Go's `int`. -/
def wrapInt (i : Int) : Int := (i + 2 ^ 63) % 2 ^ 64 - 2 ^ 63

/-- The values of Go's `int` on a 64-bit platform. -/
def isInt (i : Int) : Prop := -(2 ^ 63) ≤ i ∧ i < 2 ^ 63

instance (i : Int) : Decidable (isInt i) := by unfold isInt; infer_instance

/-- `abs` of `to_text.go`: `-i` when `i < 0` (the negation wraps), else `i`. -/
def abs (i : Int) : Int :=
  if i < 0 then wrapInt (-i) else i

/-- `strconv.Itoa`: the decimal numeral of an integer, with a leading `-` when negative. -/
def Itoa (i : Int) : String :=
  if i < 0 then "-" ++ Nat.repr i.natAbs else Nat.repr i.natAbs

/-- `strings.Join`: the elements separated by `sep`. -/
def Join : List String → String → String
  | [], _ => ""
  | [a], _ => a
  | a :: b :: rest, sep => a ++ sep ++ Join (b :: rest) sep

/-- The observations of a `time.Time` that the summary uses: the calendar date
in the value's location and whether it is the zero instant. -/
structure Time where
  Year : Int
  Month : Int
  Day : Int
  IsZero : Bool
deriving DecidableEq, Repr

/-- The zero `time.Time`: January 1, year 1. -/
def Time.zero : Time := ⟨1, 1, 1, true⟩

/-- English month names, the table of `defaultFormatter.MonthName`. -/
def monthNames : List String :=
  ["January", "February", "March", "April", "May", "June", "July", "August",
   "September", "October", "November", "December"]

/-- `time.Month.String`: the English name for 1..12, otherwise a diagnostic text with
the value converted to `uint64`. -/
def Month.String (m : Int) : String :=
  if 1 ≤ m ∧ m ≤ 12 then (monthNames.get? (m - 1).toNat).getD ""
  else "%!Month(" ++ Nat.repr (m % 2 ^ 64).toNat ++ ")"

/-! ## The option model read by the summary -/

/-- Modelled from the spec: the type `Frequency` is declared outside `to_text.go`;
the spec lists its seven values. -/
inductive Frequency where
  | YEARLY | MONTHLY | WEEKLY | DAILY | HOURLY | MINUTELY | SECONDLY
deriving DecidableEq, Repr

/-- Modelled from the spec: the type `Weekday` is declared outside `to_text.go`;
a day of the week (Monday = 0 .. Sunday = 6) and a signed ordinal `n`. -/
structure Weekday where
  weekday : Int
  n : Int
deriving DecidableEq, Repr

/-- Accessor `Weekday.Day`. -/
def Weekday.Day (w : Weekday) : Int := w.weekday

/-- Accessor `Weekday.N`. -/
def Weekday.N (w : Weekday) : Int := w.n

def MO : Weekday := ⟨0, 0⟩
def TU : Weekday := ⟨1, 0⟩
def WE : Weekday := ⟨2, 0⟩
def TH : Weekday := ⟨3, 0⟩
def FR : Weekday := ⟨4, 0⟩
def SA : Weekday := ⟨5, 0⟩
def SU : Weekday := ⟨6, 0⟩

/-- Modelled from the spec: the type `ROption` is declared outside `to_text.go`;
the fields are those of the spec's recurrence options. -/
structure ROption where
  Freq : Frequency
  Dtstart : Time
  Interval : Int
  Wkst : Weekday
  Count : Int
  Until : Time
  Bysetpos : List Int
  Bymonth : List Int
  Bymonthday : List Int
  Byyearday : List Int
  Byweekno : List Int
  Byweekday : List Weekday
  Byhour : List Int
  Byminute : List Int
  Bysecond : List Int
  Byeaster : List Int
deriving DecidableEq, Repr

/-- Modelled from the spec: the type `RRule` is declared outside `to_text.go`;
a rule owns its original and its normalized options. -/
structure RRule where
  OrigOptions : ROption
  Options : ROption
deriving DecidableEq, Repr

/-- Modelled from the spec: `indexOfWeekDay` is defined outside `to_text.go`;
the position of the first element equal to `wd`, or -1. -/
def indexOfWeekDay : List Weekday → Weekday → Int
  | [], _ => -1
  | w :: rest, wd =>
    if w = wd then 0
    else
      let r := indexOfWeekDay rest wd
      if r = -1 then -1 else r + 1

/-- Modelled from the spec: the sort order `weekDays` is defined outside
`to_text.go`; weekdays are ordered by day of the week. -/
def weekDaysSort (ws : List Weekday) : List Weekday :=
  ws.insertionSort (fun a b => a.Day ≤ b.Day)

/-! ## Message localization (English plural rules of go-i18n) -/

/-- One piece of a message template: literal text or a `.Name` action. -/
inductive Piece where
  | text (s : String)
  | field (name : String)
deriving DecidableEq, Repr

/-- A parsed message template; the empty list is an absent plural form. -/
abbrev Template := List Piece

/-- A template that is plain text. -/
def plain (s : String) : Template := [Piece.text s]

/-- The plural categories of CLDR. -/
inductive PluralForm where
  | Zero | One | Two | Few | Many | Other
deriving DecidableEq, Repr

/-- An `i18n.Message`: an identifier and one template per plural form. -/
structure Message where
  ID : String
  Zero : Template := []
  One : Template := []
  Two : Template := []
  Few : Template := []
  Many : Template := []
  Other : Template := []
deriving DecidableEq, Repr

/-- The template of a message for a plural form. -/
def Message.template (m : Message) : PluralForm → Template
  | .Zero => m.Zero
  | .One => m.One
  | .Two => m.Two
  | .Few => m.Few
  | .Many => m.Many
  | .Other => m.Other

/-- An `i18n.LocalizeConfig` as used by the summary. -/
structure LocalizeConfig where
  DefaultMessage : Message
  TemplateData : List (String × Int) := []
  PluralCount : Option Int := none

/-- A localizer: the bundle lookup (the default message when the bundle has no
translation) and the plural rule of its language. -/
structure Localizer where
  lookup : Message → Message
  pluralForm : Int → PluralForm

/-- English plural rule for an integer count: `one` for 1 (the operand is the
absolute value), `other` otherwise. -/
def enPluralForm (c : Int) : PluralForm :=
  if c.natAbs = 1 then PluralForm.One else PluralForm.Other

/-- The English localizer over an empty bundle (the one the tests build). -/
def enLocalizer : Localizer := ⟨fun m => m, enPluralForm⟩

/-- Rendering of a template against integer template data. -/
def execute (data : List (String × Int)) : Template → String
  | [] => ""
  | Piece.text s :: rest => s ++ execute data rest
  | Piece.field name :: rest =>
    (match data.lookup name with
     | some v => Itoa v
     | none => "<no value>") ++ execute data rest

/-- `Localizer.MustLocalize`: picks the plural form (`other` without a plural
count) and renders it; panics (`none`) when the message lacks that form. -/
def Localizer.MustLocalize (l : Localizer) (lc : LocalizeConfig) : Option String :=
  let m := l.lookup lc.DefaultMessage
  let form := match lc.PluralCount with
    | none => PluralForm.Other
    | some c => l.pluralForm c
  let data := match lc.PluralCount, lc.TemplateData with
    | some c, [] => [("PluralCount", c)]
    | _, d => d
  match m.template form with
  | [] => none
  | t => some (execute data t)

/-! ## Formatter -/

/-- The interface `TimeFormatter`; a method that panics returns `none`. -/
structure TimeFormatter where
  MonthName : Int → Option String
  Format : Time → Option String
  Nth : Int → Option String
  WeekDayName : Weekday → Option String

/-- Indexing of a Go array by an `int`: a panic (`none`) outside the bounds. -/
def index (arr : List String) (i : Int) : Option String :=
  if 0 ≤ i then arr.get? i.toNat else none

/-- Method `defaultFormatter.Format`. -/
def defaultFormatter.Format (t : Time) : Option String :=
  some (Month.String t.Month ++ " " ++ Itoa t.Day ++ ", " ++ Itoa t.Year)

/-- Method `defaultFormatter.MonthName`. -/
def defaultFormatter.MonthName (i : Int) : Option String :=
  index monthNames (i - 1)

/-- Method `defaultFormatter.Nth`. -/
def defaultFormatter.Nth (i : Int) : Option String :=
  if i = -1 then some "last"
  else
    let npos := abs i
    let nth :=
      if npos = 1 ∨ npos = 21 ∨ npos = 31 then Itoa npos ++ "st"
      else if npos = 2 ∨ npos = 22 then Itoa npos ++ "nd"
      else if npos = 3 ∨ npos = 23 then Itoa npos ++ "rd"
      else Itoa npos ++ "th"
    if i < 0 then some (nth ++ " last")
    else some nth

/-- English day names, the table of `defaultFormatter.WeekDayName`. -/
def weekdayNames : List String :=
  ["Monday", "Tuesday", "Wednesday", "Thursday", "Friday", "Saturday", "Sunday"]

/-- Method `defaultFormatter.WeekDayName`. -/
def defaultFormatter.WeekDayName (w : Weekday) : Option String := do
  let weekday ← index weekdayNames w.Day
  if w.N ≠ 0 then
    let nth ← defaultFormatter.Nth w.N
    pure (nth ++ " " ++ weekday)
  else
    pure weekday

/-- The value `defaultFormatter{}`. -/
def defaultFormatter : TimeFormatter :=
  ⟨defaultFormatter.MonthName, defaultFormatter.Format, defaultFormatter.Nth,
   defaultFormatter.WeekDayName⟩

/-! ## The summary writer -/

/-- The struct `byweekday`. -/
structure byweekday where
  allWeeks : List Weekday
  someWeeks : List Weekday
  isWeekdays : Bool
  isEveryDay : Bool
deriving DecidableEq, Repr

/-- The struct `toText`; a nil `byweekday` pointer is `none`. -/
structure toText where
  bymonthday : List Int
  byweekday : Option byweekday
  option : ROption
  origOption : ROption
  loc : Localizer
  formatter : TimeFormatter

def langAnd : LocalizeConfig := { DefaultMessage := { ID := "And", Other := plain "and" } }
def langOr : LocalizeConfig := { DefaultMessage := { ID := "Or", Other := plain "or" } }
def langOnThe : LocalizeConfig := { DefaultMessage := { ID := "OnThe", Other := plain "on the" } }
def langIn : LocalizeConfig := { DefaultMessage := { ID := "In", Other := plain "in" } }

/-- A message whose singular is `one` and whose other plural forms are all `many`. -/
def pluralMessage (id one many : String) : Message :=
  { ID := id, One := plain one, Two := plain many, Few := plain many, Many := plain many,
    Other := plain many }

/-- A message with the single form `other`. -/
def otherMessage (id other : String) : Message := { ID := id, Other := plain other }

/-- The message `TimeCount` of `ToString`. -/
def msgTimeCount : Message :=
  { ID := "TimeCount",
    One := [Piece.text "for ", Piece.field "Count", Piece.text " time"],
    Two := [Piece.text "for ", Piece.field "Count", Piece.text " times"],
    Few := [Piece.text "for ", Piece.field "Count", Piece.text " times"],
    Many := [Piece.text "for ", Piece.field "Count", Piece.text " times"],
    Other := [Piece.text "for ", Piece.field "Count", Piece.text " times"] }

/-- The closure `delimJoin` of `list` and `listWeekDay`: the loop from index `i`
over the remaining elements, `n` being `len(arr)`. -/
def delimJoinLoop (n : Int) (delimiter finalDelimiter : String) :
    Int → List String → String → String
  | _, [], sb => sb
  | i, a :: rest, sb =>
    let sb :=
      if i ≠ 0 then
        if i = n - 1 then sb ++ " " ++ finalDelimiter ++ " "
        else sb ++ delimiter ++ " "
      else sb
    delimJoinLoop n delimiter finalDelimiter (i + 1) rest (sb ++ a)

/-- The closure `delimJoin`. -/
def delimJoin (arr : List String) (delimiter finalDelimiter : String) : String :=
  delimJoinLoop arr.length delimiter finalDelimiter 0 arr ""

/-- Method `toText.list`. -/
def toText.list (numbers : List Int) (callback : Int → Option String)
    (finalDelim delim : String) : Option String := do
  let cbRes ← numbers.mapM callback
  if finalDelim ≠ "" then
    pure (delimJoin cbRes delim finalDelim)
  else
    pure (Join cbRes (delim ++ " "))

/-- Method `toText.listWeekDay`. -/
def toText.listWeekDay (weekdays : List Weekday) (callback : Weekday → Option String)
    (finalDelim delim : String) : Option String := do
  let cbRes ← weekdays.mapM callback
  if finalDelim ≠ "" then
    pure (delimJoin cbRes delim finalDelim)
  else
    pure (Join cbRes (delim ++ " "))

/-- Method `toText.byHour`. -/
def toText.byHour (t : toText) (sb : String) : Option String := do
  let sb := sb ++ " "
  let sb := sb ++ (← t.loc.MustLocalize { DefaultMessage := otherMessage "AtHour" "at" })
  let sb := sb ++ " "
  let sb := sb ++ (← toText.list t.origOption.Byhour (fun i => some (Itoa i))
    (← t.loc.MustLocalize langAnd) ",")
  pure sb

/-- Method `toText.byMonth`. -/
def toText.byMonth (t : toText) (sb : String) : Option String := do
  let sb := sb ++ " "
  let sb := sb ++ (← toText.list t.option.Bymonth t.formatter.MonthName
    (← t.loc.MustLocalize langAnd) ",")
  pure sb

/-- Method `toText.byMonthDay`. -/
def toText.byMonthDay (t : toText) (sb : String) : Option String := do
  if t.byweekday.any (fun b => 0 < b.allWeeks.length) then
    let b ← t.byweekday
    let sb := sb ++ " "
    let sb := sb ++ (← t.loc.MustLocalize { DefaultMessage := otherMessage "OnAllWeeks" "on" })
    let sb := sb ++ " "
    let sb := sb ++ (← toText.listWeekDay b.allWeeks t.formatter.WeekDayName
      (← t.loc.MustLocalize langOr) ",")
    let sb := sb ++ " "
    let sb := sb ++ (← t.loc.MustLocalize { DefaultMessage := otherMessage "TheAllWeeks" "the" })
    let sb := sb ++ " "
    let sb := sb ++ (← toText.list t.bymonthday t.formatter.Nth
      (← t.loc.MustLocalize langOr) ",")
    pure sb
  else
    let sb := sb ++ " "
    let sb := sb ++ (← t.loc.MustLocalize langOnThe)
    let sb := sb ++ " "
    let sb := sb ++ (← toText.list t.bymonthday t.formatter.Nth
      (← t.loc.MustLocalize langAnd) ",")
    pure sb

/-- Method `toText.byWeekDay`; it dereferences `t.byweekday`, a panic when nil. -/
def toText.byWeekDay (t : toText) (sb : String) : Option String := do
  let b ← t.byweekday
  let sb ←
    if 0 < b.allWeeks.length ∧ ¬ b.isWeekdays then do
      let sb := sb ++ " "
      let sb := sb ++ (← t.loc.MustLocalize { DefaultMessage := otherMessage "OnWeekDays" "on" })
      let sb := sb ++ " "
      let sb := sb ++ (← toText.listWeekDay b.allWeeks t.formatter.WeekDayName "" ",")
      pure sb
    else pure sb
  if 0 < b.someWeeks.length then
    let sb ←
      if 0 < b.allWeeks.length then do
        let sb := sb ++ " "
        pure (sb ++ (← t.loc.MustLocalize langAnd))
      else pure sb
    let sb := sb ++ " "
    let sb := sb ++ (← t.loc.MustLocalize langOnThe)
    let sb := sb ++ " "
    let sb := sb ++ (← toText.listWeekDay b.someWeeks t.formatter.WeekDayName
      (← t.loc.MustLocalize langAnd) ",")
    pure sb
  else
    pure sb

/-- The interval prefix shared by the frequency writers: a space and the
decimal interval when the interval is not 1. -/
def writeInterval (t : toText) (sb : String) : String :=
  if t.option.Interval ≠ 1 then sb ++ " " ++ Itoa t.option.Interval else sb

/-- Method `toText.hourly`. -/
def toText.hourly (t : toText) (sb : String) : Option String := do
  let sb := writeInterval t sb
  let sb := sb ++ " "
  let sb := sb ++ (← t.loc.MustLocalize
    { DefaultMessage := pluralMessage "HourlyHours" "hour" "hours",
      PluralCount := some t.option.Interval })
  pure sb

/-- Method `toText.minutely`. -/
def toText.minutely (t : toText) (sb : String) : Option String := do
  let sb := writeInterval t sb
  let sb := sb ++ " "
  let sb := sb ++ (← t.loc.MustLocalize
    { DefaultMessage := pluralMessage "MinutelyMinutes" "minute" "minutes",
      PluralCount := some t.option.Interval })
  pure sb

/-- The choice `if len(t.bymonthday) > 0 ... else if t.byweekday != nil ...` of
`yearly` and `weekly`. -/
def toText.byMonthDayOrWeekDay (t : toText) (sb : String) : Option String :=
  if 0 < t.bymonthday.length then t.byMonthDay sb
  else if t.byweekday.isSome then t.byWeekDay sb
  else some sb

/-- Method `toText.yearly`. -/
def toText.yearly (t : toText) (sb : String) : Option String := do
  let sb ←
    if 0 < t.origOption.Bymonth.length then do
      let sb ←
        if t.option.Interval ≠ 1 then do
          let sb := sb ++ " "
          let sb := sb ++ Itoa t.option.Interval
          let sb := sb ++ " "
          pure (sb ++ (← t.loc.MustLocalize
            { DefaultMessage := pluralMessage "YearlyYears" "year" "years",
              PluralCount := some t.option.Interval }))
        else pure sb
      t.byMonth sb
    else do
      let sb := writeInterval t sb
      let sb := sb ++ " "
      pure (sb ++ (← t.loc.MustLocalize
        { DefaultMessage := pluralMessage "YearlyYears" "year" "years",
          PluralCount := some t.option.Interval }))
  let sb ← t.byMonthDayOrWeekDay sb
  let sb ←
    if 0 < t.option.Byyearday.length then do
      let sb := sb ++ " "
      let sb := sb ++ (← t.loc.MustLocalize langOnThe)
      let sb := sb ++ " "
      let sb := sb ++ (← toText.list t.option.Byyearday t.formatter.Nth
        (← t.loc.MustLocalize langAnd) ",")
      let sb := sb ++ " "
      pure (sb ++ (← t.loc.MustLocalize { DefaultMessage := otherMessage "YearlyDays" "day" }))
    else pure sb
  if 0 < t.option.Byweekno.length then
    let sb := sb ++ " "
    let sb := sb ++ (← t.loc.MustLocalize langIn)
    let sb := sb ++ " "
    let sb := sb ++ (← t.loc.MustLocalize
      { DefaultMessage := pluralMessage "YearlyWeeks" "week" "weeks",
        PluralCount := some (t.option.Byweekno.length : Int) })
    let sb := sb ++ " "
    let sb := sb ++ (← toText.list t.option.Byweekno (fun i => some (Itoa i))
      (← t.loc.MustLocalize langAnd) ",")
    pure sb
  else
    pure sb

/-- Method `toText.monthly`. -/
def toText.monthly (t : toText) (sb : String) : Option String := do
  let sb ←
    if 0 < t.origOption.Bymonth.length then do
      let sb ←
        if t.option.Interval ≠ 1 then do
          let sb := sb ++ " "
          let sb := sb ++ Itoa t.option.Interval
          let sb := sb ++ " "
          let sb := sb ++ (← t.loc.MustLocalize
            { DefaultMessage := pluralMessage "MonthlyMonths" "month" "months",
              PluralCount := some (t.origOption.Bymonth.length : Int) })
          if 1 < t.option.Interval then
            let sb := sb ++ " "
            pure (sb ++ (← t.loc.MustLocalize langIn))
          else pure sb
        else pure sb
      t.byMonth sb
    else do
      let sb := writeInterval t sb
      let sb := sb ++ " "
      pure (sb ++ (← t.loc.MustLocalize
        { DefaultMessage := pluralMessage "MonthlyMonths" "month" "months",
          PluralCount := some t.option.Interval }))
  if 0 < t.bymonthday.length then
    t.byMonthDay sb
  else if t.byweekday.any (fun b => b.isWeekdays) then
    let sb := sb ++ " "
    let sb := sb ++ (← t.loc.MustLocalize { DefaultMessage := otherMessage "OnMonthly" "on" })
    let sb := sb ++ " "
    pure (sb ++ (← t.loc.MustLocalize
      { DefaultMessage := otherMessage "MonthlyWeekdays" "weekdays" }))
  else if t.byweekday.isSome then
    t.byWeekDay sb
  else
    pure sb

/-- The localize configuration of the message `Weekdays`, used by `weekly` and `daily`. -/
def cfgWeekdays (t : toText) : LocalizeConfig :=
  { DefaultMessage := pluralMessage "Weekdays" "weekday" "weekdays",
    PluralCount := some t.option.Interval }

/-- The localize configuration of the message `WeeklyWeeks`. -/
def cfgWeeklyWeeks (t : toText) : LocalizeConfig :=
  { DefaultMessage := pluralMessage "WeeklyWeeks" "week" "weeks",
    PluralCount := some t.option.Interval }

/-- Method `toText.weekly`. -/
def toText.weekly (t : toText) (sb : String) : Option String := do
  let sb ←
    if t.option.Interval ≠ 1 then do
      let sb := sb ++ " "
      let sb := sb ++ Itoa t.option.Interval
      let sb := sb ++ " "
      pure (sb ++ (← t.loc.MustLocalize (cfgWeeklyWeeks t)))
    else pure sb
  if t.byweekday.any (fun b => b.isWeekdays) then
    if t.option.Interval = 1 then
      let sb := sb ++ " "
      pure (sb ++ (← t.loc.MustLocalize (cfgWeekdays t)))
    else
      let sb := sb ++ " "
      let sb := sb ++ (← t.loc.MustLocalize { DefaultMessage := otherMessage "OnWeekly" "on" })
      let sb := sb ++ " "
      pure (sb ++ (← t.loc.MustLocalize (cfgWeekdays t)))
  else if t.byweekday.any (fun b => b.isEveryDay) then
    let sb := sb ++ " "
    pure (sb ++ (← t.loc.MustLocalize
      { DefaultMessage := pluralMessage "WeeklyDay" "day" "days",
        PluralCount := some t.option.Interval }))
  else
    let sb ←
      if t.option.Interval = 1 then do
        let sb := sb ++ " "
        pure (sb ++ (← t.loc.MustLocalize (cfgWeeklyWeeks t)))
      else pure sb
    let sb ←
      if 0 < t.origOption.Bymonth.length then do
        let sb := sb ++ " "
        let sb := sb ++ (← t.loc.MustLocalize langIn)
        t.byMonth sb
      else pure sb
    let sb ← t.byMonthDayOrWeekDay sb
    if 0 < t.origOption.Byhour.length then
      t.byHour sb
    else
      pure sb

/-- Method `toText.daily`. -/
def toText.daily (t : toText) (sb : String) : Option String := do
  let sb := writeInterval t sb
  let sb ←
    if t.byweekday.any (fun b => b.isWeekdays) then do
      let sb := sb ++ " "
      pure (sb ++ (← t.loc.MustLocalize (cfgWeekdays t)))
    else do
      let sb := sb ++ " "
      pure (sb ++ (← t.loc.MustLocalize
        { DefaultMessage := pluralMessage "DailyDay" "day" "days",
          PluralCount := some t.option.Interval }))
  let sb ←
    if 0 < t.origOption.Bymonth.length then do
      let sb := sb ++ " "
      let sb := sb ++ (← t.loc.MustLocalize langIn)
      t.byMonth sb
    else pure sb
  if 0 < t.bymonthday.length then
    t.byMonthDay sb
  else if t.byweekday.isSome then
    t.byWeekDay sb
  else if 0 < t.origOption.Byhour.length then
    t.byHour sb
  else
    pure sb

/-- The `switch t.option.Freq` of `ToString`; `SECONDLY` has no case. -/
def toText.writeFreq (t : toText) (text : String) : Option String :=
  match t.option.Freq with
  | .MINUTELY => t.minutely text
  | .HOURLY => t.hourly text
  | .DAILY => t.daily text
  | .WEEKLY => t.weekly text
  | .MONTHLY => t.monthly text
  | .YEARLY => t.yearly text
  | .SECONDLY => some text

/-- The until/count tail of `ToString`. -/
def toText.writeEnd (t : toText) (text : String) : Option String := do
  if ¬ t.option.Until.IsZero then
    let text := text ++ " "
    let text := text ++ (← t.loc.MustLocalize { DefaultMessage := otherMessage "Until" "until" })
    let text := text ++ " "
    pure (text ++ (← t.formatter.Format t.option.Until))
  else if 0 < t.option.Count then
    let text := text ++ " "
    pure (text ++ (← t.loc.MustLocalize
      { DefaultMessage := msgTimeCount,
        TemplateData := [("Count", t.option.Count)],
        PluralCount := some t.option.Count }))
  else
    pure text

/-- Method `toText.ToString`. -/
def toText.ToString (t : toText) : Option String := do
  let text ← t.loc.MustLocalize { DefaultMessage := otherMessage "Every" "every" }
  let text ← t.writeFreq text
  t.writeEnd text

/-- The month days of `newToText`: the positive ones ascending, then the others descending. -/
def sortMonthDays (days : List Int) : List Int :=
  let pos := days.filter (fun d => 0 < d)
  let neg := days.filter (fun d => ¬ 0 < d)
  pos.insertionSort (fun a b => a ≤ b) ++ neg.insertionSort (fun a b => b ≤ a)

/-- Function `newToText`. -/
def newToText (rule : RRule) (loc : Localizer) (formatter : TimeFormatter) : toText :=
  let byMonthDay : List Int :=
    if 0 < rule.OrigOptions.Bymonthday.length then sortMonthDays rule.OrigOptions.Bymonthday
    else []
  if 0 < rule.OrigOptions.Byweekday.length then
    let allWeeks := rule.OrigOptions.Byweekday.filter (fun w => w.N = 0)
    let someWeeks := rule.OrigOptions.Byweekday.filter (fun w => w.N ≠ 0)
    let has := fun (wd : Weekday) => indexOfWeekDay rule.Options.Byweekday wd ≠ -1
    let isWeekDays : Bool :=
      has MO ∧ has TU ∧ has WE ∧ has TH ∧ has FR ∧
        indexOfWeekDay rule.Options.Byweekday SA = -1 ∧
        indexOfWeekDay rule.Options.Byweekday SU = -1
    let isEveryDay : Bool :=
      has MO ∧ has TU ∧ has WE ∧ has TH ∧ has FR ∧ has SA ∧ has SU
    { bymonthday := byMonthDay,
      byweekday := some
        { allWeeks := weekDaysSort allWeeks,
          someWeeks := weekDaysSort someWeeks,
          isWeekdays := isWeekDays,
          isEveryDay := isEveryDay },
      option := rule.Options,
      origOption := rule.OrigOptions,
      loc := loc,
      formatter := formatter }
  else
    { bymonthday := byMonthDay,
      byweekday := none,
      option := rule.Options,
      origOption := rule.OrigOptions,
      loc := loc,
      formatter := formatter }

/-! ## Notions used to state the properties -/

/-- The English ordinal suffix of a positive integer: "st", "nd", "rd" when the
last digit is 1, 2, 3 and the last two digits are not 11, 12, 13; "th" otherwise. -/
def ordinalSuffix (i : Int) : String :=
  if i % 10 = 1 ∧ i % 100 ≠ 11 then "st"
  else if i % 10 = 2 ∧ i % 100 ≠ 12 then "nd"
  else if i % 10 = 3 ∧ i % 100 ≠ 13 then "rd"
  else "th"

/-- The text `sub` occurs in `s` as a contiguous run of characters. -/
def containsText (s sub : String) : Prop := sub.data <:+: s.data

instance (s sub : String) : Decidable (containsText s sub) := by
  unfold containsText; infer_instance

/-- The singular English noun of a frequency. -/
def unitName : Frequency → String
  | .YEARLY => "year"
  | .MONTHLY => "month"
  | .WEEKLY => "week"
  | .DAILY => "day"
  | .HOURLY => "hour"
  | .MINUTELY => "minute"
  | .SECONDLY => "second"

/-- The English name of day `d` of the week, Monday being day 0. -/
def dayName (d : Int) : String :=
  if d = 0 then "Monday"
  else if d = 1 then "Tuesday"
  else if d = 2 then "Wednesday"
  else if d = 3 then "Thursday"
  else if d = 4 then "Friday"
  else if d = 5 then "Saturday"
  else if d = 6 then "Sunday"
  else ""

/-- A list of items read out: nothing for no item, the item itself for one, and
for more the items but the last separated by `sep`, then `last`, then the last item. -/
def phrase (sep last : String) : List String → String
  | [] => ""
  | [a] => a
  | a :: b :: rest =>
    String.intercalate sep (a :: b :: rest).dropLast ++ last ++ (a :: b :: rest).getLastD ""

/-- The options of a plain daily rule: interval 1, no count, zero until, every list empty. -/
def plainOptions : ROption :=
  { Freq := .DAILY, Dtstart := Time.zero, Interval := 1, Wkst := MO, Count := 0,
    Until := Time.zero, Bysetpos := [], Bymonth := [], Bymonthday := [], Byyearday := [],
    Byweekno := [], Byweekday := [], Byhour := [], Byminute := [], Bysecond := [],
    Byeaster := [] }

/-- The rule `FREQ=MONTHLY;INTERVAL=6`; normalization adds the month day of the start. -/
def everySixMonths : RRule :=
  { OrigOptions := { plainOptions with Freq := .MONTHLY, Interval := 6 },
    Options :=
      { plainOptions with
        Freq := .MONTHLY, Interval := 6, Bymonthday := [1],
        Byhour := [0], Byminute := [0], Bysecond := [0] } }

/-- The rule `FREQ=WEEKLY;UNTIL=20070101T080000Z`. -/
def weeklyUntil2007 : RRule :=
  { OrigOptions := { plainOptions with Freq := .WEEKLY, Until := ⟨2007, 1, 1, false⟩ },
    Options :=
      { plainOptions with
        Freq := .WEEKLY, Until := ⟨2007, 1, 1, false⟩, Byweekday := [MO],
        Byhour := [0], Byminute := [0], Bysecond := [0] } }

/-- The rule `FREQ=WEEKLY;COUNT=20`. -/
def weeklyTwentyTimes : RRule :=
  { OrigOptions := { plainOptions with Freq := .WEEKLY, Count := 20 },
    Options :=
      { plainOptions with
        Freq := .WEEKLY, Count := 20, Byweekday := [MO],
        Byhour := [0], Byminute := [0], Bysecond := [0] } }

/-- The rule `FREQ=DAILY;BYDAY=MO;BYHOUR=10`. -/
def dailyMondayAtTen : RRule :=
  { OrigOptions := { plainOptions with Byweekday := [MO], Byhour := [10] },
    Options :=
      { plainOptions with
        Byweekday := [MO], Byhour := [10], Byminute := [0], Bysecond := [0] } }

/-- The rule `FREQ=DAILY;BYHOUR=10,12,17`. -/
def dailyAtHours : RRule :=
  { OrigOptions := { plainOptions with Byhour := [10, 12, 17] },
    Options := { plainOptions with Byhour := [10, 12, 17], Byminute := [0], Bysecond := [0] } }

/-- The rule `FREQ=MONTHLY;INTERVAL=2;BYMONTH=1`. -/
def everyTwoMonthsInJanuary : RRule :=
  { OrigOptions := { plainOptions with Freq := .MONTHLY, Interval := 2, Bymonth := [1] },
    Options :=
      { plainOptions with
        Freq := .MONTHLY, Interval := 2, Bymonth := [1], Bymonthday := [1],
        Byhour := [0], Byminute := [0], Bysecond := [0] } }

/-- The rule `FREQ=YEARLY;BYDAY=+41MO`. -/
def yearlyFortyFirstMonday : RRule :=
  { OrigOptions := { plainOptions with Freq := .YEARLY, Byweekday := [⟨0, 41⟩] },
    Options :=
      { plainOptions with
        Freq := .YEARLY, Byweekday := [⟨0, 41⟩], Bymonth := [1],
        Byhour := [0], Byminute := [0], Bysecond := [0] } }

/-- The rule with the count of its normalized options replaced by `c`. -/
def RRule.withCount (rule : RRule) (c : Int) : RRule :=
  { rule with Options := { rule.Options with Count := c } }

/-- The English name of month `i`, January being month 1. -/
def englishMonth (i : Int) : String :=
  if i = 1 then "January"
  else if i = 2 then "February"
  else if i = 3 then "March"
  else if i = 4 then "April"
  else if i = 5 then "May"
  else if i = 6 then "June"
  else if i = 7 then "July"
  else if i = 8 then "August"
  else if i = 9 then "September"
  else if i = 10 then "October"
  else if i = 11 then "November"
  else if i = 12 then "December"
  else ""

/-- The weekdays without ordinal of a summary writer; none when `byweekday` is nil. -/
def toText.allWeeksOf (t : toText) : List Weekday :=
  match t.byweekday with
  | some b => b.allWeeks
  | none => []

/-! ## Textual grammar

The serializer, the parser and the rule constructor are not among the sources; only their
tests are.  They are modelled from the spec's description of the grammar, and the tests of
`str_test.go` and `example_test.go` fix what the description leaves open or states
differently.  Reading and writing an instant, and the normalization of the options, are
parameters. -/

/-- Modelled from the spec: the serializer is missing; the name of a frequency in a rule string. -/
def freqName : Frequency → String
  | .YEARLY => "YEARLY"
  | .MONTHLY => "MONTHLY"
  | .WEEKLY => "WEEKLY"
  | .DAILY => "DAILY"
  | .HOURLY => "HOURLY"
  | .MINUTELY => "MINUTELY"
  | .SECONDLY => "SECONDLY"

/-- The two-letter weekday codes, Monday first. -/
def weekdayCodes : List String := ["MO", "TU", "WE", "TH", "FR", "SA", "SU"]

/-- Modelled from the spec: the serializer is missing; a weekday token is its code, preceded by
the signed ordinal when there is one, as in `BYDAY=MO,+2FR` of `TestCompatibility`. -/
def Weekday.String (w : Weekday) : String :=
  let code := (index weekdayCodes w.Day).getD ""
  if w.N = 0 then code
  else if 0 < w.N then "+" ++ Itoa w.N ++ code
  else Itoa w.N ++ code

/-- The parameter of a multi-valued integer field: omitted when the list is empty, else the
values in their order, comma-joined. -/
def intsParam (key : String) (vs : List Int) : List (String × String) :=
  if vs = [] then [] else [(key, Join (vs.map Itoa) ",")]

/-- Modelled from the spec: the serializer is missing; the parameters of the `RRULE:` line.
Each field is omitted at its default or unset value and multi-valued fields keep their order.
The keys come in one fixed order; `TestCompatibility` and `ExampleRRule` expect BYSETPOS
after UNTIL, where the spec lists it last. -/
def ROption.params (timeToStr : Time → String) (o : ROption) : List (String × String) :=
  [("FREQ", freqName o.Freq)]
  ++ (if o.Interval = 0 ∨ o.Interval = 1 then [] else [("INTERVAL", Itoa o.Interval)])
  ++ (if o.Wkst = MO then [] else [("WKST", o.Wkst.String)])
  ++ (if o.Count = 0 then [] else [("COUNT", Itoa o.Count)])
  ++ (if o.Until.IsZero then [] else [("UNTIL", timeToStr o.Until)])
  ++ intsParam "BYSETPOS" o.Bysetpos
  ++ intsParam "BYMONTH" o.Bymonth
  ++ intsParam "BYMONTHDAY" o.Bymonthday
  ++ intsParam "BYYEARDAY" o.Byyearday
  ++ intsParam "BYWEEKNO" o.Byweekno
  ++ (if o.Byweekday = [] then [] else [("BYDAY", Join (o.Byweekday.map Weekday.String) ",")])
  ++ intsParam "BYHOUR" o.Byhour
  ++ intsParam "BYMINUTE" o.Byminute
  ++ intsParam "BYSECOND" o.Bysecond
  ++ intsParam "BYEASTER" o.Byeaster

/-- Modelled from the spec: the serializer is missing; the text after `RRULE:`, the
parameters written `KEY=VALUE` and joined by semicolons. -/
def ROption.RRuleString (timeToStr : Time → String) (o : ROption) : String :=
  Join ((o.params timeToStr).map (fun kv => kv.1 ++ "=" ++ kv.2)) ";"

/-- The order of the keys that the tests of the serializer expect. -/
def keyOrder : List String :=
  ["FREQ", "INTERVAL", "WKST", "COUNT", "UNTIL", "BYSETPOS", "BYMONTH", "BYMONTHDAY",
   "BYYEARDAY", "BYWEEKNO", "BYDAY", "BYHOUR", "BYMINUTE", "BYSECOND", "BYEASTER"]

/-- The order of the keys as the spec lists it, BYSETPOS last. -/
def specKeyOrder : List String :=
  ["FREQ", "INTERVAL", "WKST", "COUNT", "UNTIL", "BYMONTH", "BYMONTHDAY", "BYYEARDAY",
   "BYWEEKNO", "BYDAY", "BYHOUR", "BYMINUTE", "BYSECOND", "BYEASTER", "BYSETPOS"]

/-- The options of `TestCompatibility`:
`FREQ=WEEKLY;INTERVAL=5;WKST=TU;COUNT=2;UNTIL=20130130T230000Z;BYSETPOS=2;BYMONTH=3;`
`BYYEARDAY=95;BYWEEKNO=1;BYDAY=MO,+2FR;BYHOUR=9;BYMINUTE=30;BYSECOND=0;BYEASTER=-1`. -/
def compatibilityOptions : ROption :=
  { Freq := .WEEKLY, Dtstart := ⟨2012, 2, 1, false⟩, Interval := 5, Wkst := TU, Count := 2,
    Until := ⟨2013, 1, 30, false⟩, Bysetpos := [2], Bymonth := [3], Bymonthday := [],
    Byyearday := [95], Byweekno := [1], Byweekday := [MO, ⟨4, 2⟩], Byhour := [9],
    Byminute := [30], Bysecond := [0], Byeaster := [-1] }

/-- `strings.Split` on a one-character separator: the pieces between the separators. -/
def splitOn (c : Char) : List Char → List (List Char)
  | [] => [[]]
  | x :: xs =>
    if x = c then [] :: splitOn c xs
    else
      match splitOn c xs with
      | [] => [[x]]
      | p :: ps => (x :: p) :: ps

/-- White space as `strings.TrimSpace` sees it, for the characters of a rule string. -/
def isSpace (c : Char) : Bool := c = ' ' ∨ c = '\t' ∨ c = '\n' ∨ c = '\r'

/-- `strings.TrimSpace`. -/
def trimSpace (cs : List Char) : List Char :=
  ((cs.dropWhile isSpace).reverse.dropWhile isSpace).reverse

/-- `strings.TrimPrefix`: the text without the given beginning, when it begins so. -/
def dropLeading (lead cs : List Char) : List Char :=
  if lead.isPrefixOf cs then cs.drop lead.length else cs

/-- The value of a run of decimal digits read after the value `acc`; none on another character. -/
def parseDigits : List Char → Nat → Option Nat
  | [], acc => some acc
  | c :: cs, acc => if c.isDigit then parseDigits cs (acc * 10 + (c.toNat - 48)) else none

/-- A non-empty run of decimal digits. -/
def strToNat (cs : List Char) : Option Nat :=
  if cs = [] then none else parseDigits cs 0

/-- Modelled from the spec: the parser is missing; an integer value as `strconv.Atoi` reads
it: an optional sign and at least one digit, within the range of `int`. -/
def strToInt (cs : List Char) : Option Int :=
  let r : Option Int :=
    match cs with
    | [] => none
    | c :: ds =>
      if c = '+' then (strToNat ds).map (fun (n : Nat) => Int.ofNat n)
      else if c = '-' then (strToNat ds).map (fun (n : Nat) => -Int.ofNat n)
      else (strToNat (c :: ds)).map (fun (n : Nat) => Int.ofNat n)
  r.bind (fun i => if isInt i then some i else none)

/-- Modelled from the spec: the parser is missing; a comma-separated list of integers. -/
def strToInts (cs : List Char) : Option (List Int) :=
  (splitOn ',' cs).mapM strToInt

/-- The day of the week of a two-letter code. -/
def codeToDay (code : List Char) : Option Int :=
  if code = ['M', 'O'] then some 0
  else if code = ['T', 'U'] then some 1
  else if code = ['W', 'E'] then some 2
  else if code = ['T', 'H'] then some 3
  else if code = ['F', 'R'] then some 4
  else if code = ['S', 'A'] then some 5
  else if code = ['S', 'U'] then some 6
  else none

/-- Modelled from the spec: the parser is missing; a weekday token is a two-letter code,
alone ("MO", every occurrence) or after an ordinal.  The ordinal is an integer with or
without a sign: `TestStrToOption` requires `BYDAY=21MO` to parse and `TestInvalidString`
requires `BYDAY=+MO` to fail, where the spec asks for a sign. -/
def strToWeekday (cs : List Char) : Option Weekday :=
  if cs.length < 2 then none
  else
    match codeToDay (cs.drop (cs.length - 2)) with
    | none => none
    | some d =>
      if cs.length = 2 then some ⟨d, 0⟩
      else (strToInt (cs.take (cs.length - 2))).map (fun (n : Int) => Weekday.mk d n)

/-- Modelled from the spec: the parser is missing; a comma-separated list of weekday tokens. -/
def strToWeekdays (cs : List Char) : Option (List Weekday) :=
  (splitOn ',' cs).mapM strToWeekday

/-- Modelled from the spec: the parser is missing; the frequency of a name. -/
def strToFreq (cs : List Char) : Option Frequency :=
  if cs = "YEARLY".data then some .YEARLY
  else if cs = "MONTHLY".data then some .MONTHLY
  else if cs = "WEEKLY".data then some .WEEKLY
  else if cs = "DAILY".data then some .DAILY
  else if cs = "HOURLY".data then some .HOURLY
  else if cs = "MINUTELY".data then some .MINUTELY
  else if cs = "SECONDLY".data then some .SECONDLY
  else none

/-- The options before any parameter is read: every field unset, and no frequency seen. -/
def unsetOptions : ROption :=
  { Freq := .YEARLY, Dtstart := Time.zero, Interval := 0, Wkst := MO, Count := 0,
    Until := Time.zero, Bysetpos := [], Bymonth := [], Bymonthday := [], Byyearday := [],
    Byweekno := [], Byweekday := [], Byhour := [], Byminute := [], Bysecond := [],
    Byeaster := [] }

/-- Modelled from the spec: the parser is missing; one `KEY=VALUE` parameter read into the
options.  The key is case-insensitive, the value must not be empty, an unknown key or a
value that does not read is a failure.  The flag tells whether FREQ has been seen. -/
def parseParam (strToTime : List Char → Option Time) (acc : ROption × Bool)
    (attr : List Char) : Option (ROption × Bool) :=
  match splitOn '=' attr with
  | [key, value] =>
    if value = [] then none
    else
      let o := acc.1
      let k := String.mk (key.map Char.toUpper)
      if k = "FREQ" then (strToFreq value).map (fun v => ({ o with Freq := v }, true))
      else if k = "DTSTART" then (strToTime value).map (fun v => ({ o with Dtstart := v }, acc.2))
      else if k = "INTERVAL" then (strToInt value).map (fun v => ({ o with Interval := v }, acc.2))
      else if k = "WKST" then (strToWeekday value).map (fun v => ({ o with Wkst := v }, acc.2))
      else if k = "COUNT" then (strToInt value).map (fun v => ({ o with Count := v }, acc.2))
      else if k = "UNTIL" then (strToTime value).map (fun v => ({ o with Until := v }, acc.2))
      else if k = "BYSETPOS" then (strToInts value).map (fun v => ({ o with Bysetpos := v }, acc.2))
      else if k = "BYMONTH" then (strToInts value).map (fun v => ({ o with Bymonth := v }, acc.2))
      else if k = "BYMONTHDAY" then
        (strToInts value).map (fun v => ({ o with Bymonthday := v }, acc.2))
      else if k = "BYYEARDAY" then
        (strToInts value).map (fun v => ({ o with Byyearday := v }, acc.2))
      else if k = "BYWEEKNO" then (strToInts value).map (fun v => ({ o with Byweekno := v }, acc.2))
      else if k = "BYDAY" then
        (strToWeekdays value).map (fun v => ({ o with Byweekday := v }, acc.2))
      else if k = "BYHOUR" then (strToInts value).map (fun v => ({ o with Byhour := v }, acc.2))
      else if k = "BYMINUTE" then (strToInts value).map (fun v => ({ o with Byminute := v }, acc.2))
      else if k = "BYSECOND" then (strToInts value).map (fun v => ({ o with Bysecond := v }, acc.2))
      else if k = "BYEASTER" then (strToInts value).map (fun v => ({ o with Byeaster := v }, acc.2))
      else none
  | _ => none

/-- The parameters of a rule read one after the other. -/
def parseParams (strToTime : List Char → Option Time) :
    List (List Char) → ROption × Bool → Option (ROption × Bool)
  | [], acc => some acc
  | attr :: rest, acc =>
    (parseParam strToTime acc attr).bind (parseParams strToTime rest)

/-- Modelled from the spec: the parser is missing; a rule string is a `;`-separated
parameter string, with or without the beginning `RRULE:`, alone or after a `DTSTART` line.
FREQ is required.  `strToTime` reads an instant value, `strToDtStart` what follows the
name of a `DTSTART` line. -/
def StrToROption (strToTime strToDtStart : List Char → Option Time) (s : String) :
    Option ROption :=
  let readRule := fun (start : ROption) (line : List Char) =>
    (parseParams strToTime (splitOn ';' (dropLeading "RRULE:".data line)) (start, false)).bind
      (fun r => if r.2 then some r.1 else none)
  match splitOn '\n' (trimSpace s.data) with
  | [rule] => readRule unsetOptions rule
  | [dtstart, rule] =>
    if "DTSTART:".data.isPrefixOf dtstart ∨ "DTSTART;".data.isPrefixOf dtstart then
      (strToDtStart (dtstart.drop 8)).bind (fun d => readRule { unsetOptions with Dtstart := d } rule)
    else none
  | _ => none

/-- Every value of the list lies within `lo..hi` and, when `nonzero` is set, is not 0. -/
def inRange (lo hi : Int) (nonzero : Bool) (vs : List Int) : Bool :=
  vs.all (fun v => lo ≤ v ∧ v ≤ hi ∧ (nonzero = true → v ≠ 0))

/-- Modelled from the spec: the rule constructor is missing; the ranges of the BY-fields
that the data model lists, a non-negative interval and count. -/
def validOptions (o : ROption) : Bool :=
  0 ≤ o.Interval ∧ 0 ≤ o.Count ∧
  inRange 1 12 false o.Bymonth ∧
  inRange (-31) 31 true o.Bymonthday ∧
  inRange (-366) 366 true o.Byyearday ∧
  inRange (-53) 53 true o.Byweekno ∧
  inRange 0 23 false o.Byhour ∧
  inRange 0 59 false o.Byminute ∧
  inRange 0 59 false o.Bysecond ∧
  inRange (-366) 366 true o.Bysetpos ∧
  o.Byweekday.all (fun w => 0 ≤ w.Day ∧ w.Day ≤ 6)

/-- Modelled from the spec: the rule constructor is missing; a rule is built from valid
options only and keeps them as its original options beside the normalized ones. -/
def NewRRule (normalize : ROption → ROption) (o : ROption) : Option RRule :=
  if validOptions o then some { OrigOptions := o, Options := normalize o } else none

/-- Modelled from the spec: the parser is missing; a rule string is read into options, from
which the rule is built; a failure of either leaves no rule. -/
def StrToRRule (strToTime strToDtStart : List Char → Option Time)
    (normalize : ROption → ROption) (s : String) : Option RRule :=
  (StrToROption strToTime strToDtStart s).bind (NewRRule normalize)

/-- Modelled from the spec: the type `Set` is missing; the inclusion rules in the order in
which they were added, the explicit inclusion and exclusion instants, the exclusion rules
and the start instant. -/
structure Set where
  dtstart : Time
  rrules : List RRule
  rdate : List Time
  exrules : List RRule
  exdate : List Time
deriving DecidableEq, Repr

/-- The empty set, `Set{}`. -/
def Set.empty : Set :=
  { dtstart := Time.zero, rrules := [], rdate := [], exrules := [], exdate := [] }

/-- Modelled from the spec: the method `Set.RRule` is missing; it adds an inclusion rule.
A rule with a start gives it to the set: in `ExampleSet` the text of a set that was given
only a rule begins with the `DTSTART` line of that rule. -/
def Set.RRule (s : Set) (r : RRule) : Set :=
  { s with
    dtstart := if r.OrigOptions.Dtstart.IsZero then s.dtstart else r.OrigOptions.Dtstart
    rrules := s.rrules ++ [r] }

/-- Modelled from the spec: the method `Set.GetRRule` is missing; the accessor of "the" rule
of the set.  `TestSetStrCompatibility` adds a DAILY and then a WEEKLY rule and expects the
WEEKLY one, the rule added last, where the spec names the first. -/
def Set.GetRRule (s : Set) : Option rrule.RRule :=
  s.rrules.getLast?

/-- The first rule of `TestSetStrCompatibility`, `FREQ=DAILY;UNTIL=20180517T235959Z`. -/
def setFirstRule : RRule :=
  { OrigOptions := { unsetOptions with Freq := .DAILY, Until := ⟨2018, 5, 17, false⟩ },
    Options :=
      { plainOptions with
        Freq := .DAILY, Until := ⟨2018, 5, 17, false⟩, Dtstart := ⟨2018, 1, 1, false⟩,
        Byhour := [9], Byminute := [0], Bysecond := [0] } }

/-- The second rule of `TestSetStrCompatibility`, `FREQ=WEEKLY;INTERVAL=2;BYDAY=MO,TU`. -/
def setSecondRule : RRule :=
  { OrigOptions := { unsetOptions with Freq := .WEEKLY, Interval := 2, Byweekday := [MO, TU] },
    Options :=
      { plainOptions with
        Freq := .WEEKLY, Interval := 2, Byweekday := [MO, TU], Dtstart := ⟨2018, 1, 1, false⟩,
        Byhour := [9], Byminute := [0], Bysecond := [0] } }

/-- The rule `FREQ=WEEKLY;BYDAY=MO,TU,WE,TH,FR`. -/
def weeklyOnWeekdays : RRule :=
  { OrigOptions := { plainOptions with Freq := .WEEKLY, Byweekday := [MO, TU, WE, TH, FR] },
    Options :=
      { plainOptions with
        Freq := .WEEKLY, Byweekday := [MO, TU, WE, TH, FR],
        Byhour := [0], Byminute := [0], Bysecond := [0] } }

/-- The rule `FREQ=WEEKLY;INTERVAL=3;BYDAY=MO,TU,WE,TH,FR`. -/
def thirdWeekOnWeekdays : RRule :=
  { OrigOptions :=
      { plainOptions with Freq := .WEEKLY, Interval := 3, Byweekday := [MO, TU, WE, TH, FR] },
    Options :=
      { plainOptions with
        Freq := .WEEKLY, Interval := 3, Byweekday := [MO, TU, WE, TH, FR],
        Byhour := [0], Byminute := [0], Bysecond := [0] } }

/-- The rule `FREQ=WEEKLY;BYDAY=SU;BYHOUR=10,12,17`. -/
def weeklySundayAtHours : RRule :=
  { OrigOptions := { plainOptions with Freq := .WEEKLY, Byweekday := [SU], Byhour := [10, 12, 17] },
    Options :=
      { plainOptions with
        Freq := .WEEKLY, Byweekday := [SU], Byhour := [10, 12, 17],
        Byminute := [0], Bysecond := [0] } }

/-- The rule `FREQ=WEEKLY;BYDAY=WE,MO`. -/
def weeklyWednesdayMonday : RRule :=
  { OrigOptions := { plainOptions with Freq := .WEEKLY, Byweekday := [WE, MO] },
    Options :=
      { plainOptions with
        Freq := .WEEKLY, Byweekday := [WE, MO], Byhour := [0], Byminute := [0], Bysecond := [0] } }

/-- The rule `FREQ=MONTHLY;BYDAY=+3TU`. -/
def monthlyThirdTuesday : RRule :=
  { OrigOptions := { plainOptions with Freq := .MONTHLY, Byweekday := [⟨1, 3⟩] },
    Options :=
      { plainOptions with
        Freq := .MONTHLY, Byweekday := [⟨1, 3⟩], Byhour := [0], Byminute := [0], Bysecond := [0] } }

/-- The rule `FREQ=MONTHLY;BYMONTHDAY=4`. -/
def monthlyOnFourth : RRule :=
  { OrigOptions := { plainOptions with Freq := .MONTHLY, Bymonthday := [4] },
    Options :=
      { plainOptions with
        Freq := .MONTHLY, Bymonthday := [4], Byhour := [0], Byminute := [0], Bysecond := [0] } }

/-- The rule `FREQ=MONTHLY;BYMONTHDAY=-4`. -/
def monthlyOnFourthLast : RRule :=
  { OrigOptions := { plainOptions with Freq := .MONTHLY, Bymonthday := [-4] },
    Options :=
      { plainOptions with
        Freq := .MONTHLY, Bymonthday := [-4], Byhour := [0], Byminute := [0], Bysecond := [0] } }

/-- The summary writer of a rule whose normalized BYMONTH is March and November. -/
def marchNovemberWriter : toText :=
  newToText
    { OrigOptions := { plainOptions with Freq := .YEARLY, Bymonth := [3, 11] },
      Options := { plainOptions with Freq := .YEARLY, Bymonth := [3, 11] } }
    enLocalizer defaultFormatter

/-- The options read from `FREQ=WEEKLY;BYDAY=` and one weekday token. -/
def weeklyOn (w : Weekday) : ROption :=
  { unsetOptions with Freq := Frequency.WEEKLY, Byweekday := [w] }

/-- A reader of instants that accepts every text, for strings whose instants do not matter. -/
def anyInstant : List Char → Option Time := fun _ => some ⟨2000, 1, 1, false⟩

/-- A reader of instants that accepts no text. -/
def noInstant : List Char → Option Time := fun _ => none

/-! ## Slices and their backing arrays

`newToText` is the only function of `to_text.go` that writes to slices of integers or of
weekdays: it appends to slices it makes and sorts them in place.  To state that the slices
of the rule are left alone, the function is written once more over a store of backing
arrays, with the slice operations of Go. -/

/-- A Go slice header: the backing array, the position of the first element in it, the
length and the capacity. -/
structure Slice where
  arr : Nat
  off : Nat
  len : Nat
  cap : Nat
deriving DecidableEq, Repr

/-- The backing arrays of one element type: the contents of each array by its identifier;
the identifiers below `next` are in use. -/
structure Arrays (α : Type) where
  cells : Nat → List α
  next : Nat

/-- The elements of a slice. -/
def Arrays.read {α : Type} (m : Arrays α) (s : Slice) : List α :=
  ((m.cells s.arr).drop s.off).take s.len

/-- The arrays with the contents of array `a` replaced. -/
def Arrays.put {α : Type} (m : Arrays α) (a : Nat) (contents : List α) : Arrays α :=
  { m with cells := fun i => if i = a then contents else m.cells i }

/-- The expression `make([]T, 0, n)`: a new backing array of `n` zero values and the empty
slice over it. -/
def Arrays.make {α : Type} (zero : α) (m : Arrays α) (n : Nat) : Arrays α × Slice :=
  ({ cells := fun i => if i = m.next then List.replicate n zero else m.cells i,
     next := m.next + 1 },
   { arr := m.next, off := 0, len := 0, cap := n })

/-- The expression `append(s, v)`: the value is written behind the slice in its backing array
when the capacity allows, otherwise the elements and the value go to a new, larger array. -/
def Arrays.append {α : Type} (zero : α) (m : Arrays α) (s : Slice) (v : α) :
    Arrays α × Slice :=
  if s.len < s.cap then
    (m.put s.arr ((m.cells s.arr).set (s.off + s.len) v), { s with len := s.len + 1 })
  else
    ({ cells := fun i =>
         if i = m.next then m.read s ++ v :: List.replicate (s.cap + 1) zero else m.cells i,
       next := m.next + 1 },
     { arr := m.next, off := 0, len := s.len + 1, cap := 2 * s.cap + 2 })

/-- The expression `append(s, vs...)`. -/
def Arrays.appendAll {α : Type} (zero : α) (m : Arrays α) (s : Slice) (vs : List α) :
    Arrays α × Slice :=
  vs.foldl (fun acc v => Arrays.append zero acc.1 acc.2 v) (m, s)

/-- Sorting a slice: its elements are rearranged within its backing array. -/
def Arrays.sort {α : Type} (order : List α → List α) (m : Arrays α) (s : Slice) : Arrays α :=
  m.put s.arr
    ((m.cells s.arr).take s.off ++ order (m.read s) ++ (m.cells s.arr).drop (s.off + s.len))

/-- The two stores that `newToText` works on. -/
structure Memory where
  ints : Arrays Int
  days : Arrays Weekday

/-- The slice headers of the four fields of a rule that `newToText` reads element by
element or measures. -/
structure RuleSlices where
  origBymonthday : Slice
  bymonthday : Slice
  origByweekday : Slice
  byweekday : Slice
deriving DecidableEq, Repr

/-- The slices that `newToText` builds: the month days (nil when the rule gives none) and
the two lists of weekdays with their flags (nil when the rule gives no weekday). -/
structure WriterSlices where
  bymonthday : Option Slice
  byweekday : Option (Slice × Slice × Bool × Bool)
deriving DecidableEq, Repr

/-- One round of the loop of `newToText` over the original month days: the day is appended
to `pos` when positive, to `neg` otherwise. -/
def monthDayStep (acc : Arrays Int × Slice × Slice) (monthDay : Int) :
    Arrays Int × Slice × Slice :=
  if 0 < monthDay then
    ((Arrays.append 0 acc.1 acc.2.1 monthDay).1, (Arrays.append 0 acc.1 acc.2.1 monthDay).2,
      acc.2.2)
  else
    ((Arrays.append 0 acc.1 acc.2.2 monthDay).1, acc.2.1,
      (Arrays.append 0 acc.1 acc.2.2 monthDay).2)

/-- The month-day part of `newToText` over the store: `pos` and `neg` are made, filled by
`append`, sorted in place, and `neg` is appended to `pos`. -/
def monthDaysMem (m : Arrays Int) (r : RuleSlices) : Arrays Int × Option Slice :=
  if 0 < r.origBymonthday.len then
    let m1 := Arrays.make 0 m r.bymonthday.len
    let m2 := Arrays.make 0 m1.1 r.bymonthday.len
    let m3 := (m2.1.read r.origBymonthday).foldl monthDayStep (m2.1, m1.2, m2.2)
    let m4 := Arrays.sort (fun l => l.insertionSort (fun a b => a ≤ b)) m3.1 m3.2.1
    let m5 := Arrays.sort (fun l => l.insertionSort (fun a b => b ≤ a)) m4 m3.2.2
    let m6 := Arrays.appendAll 0 m5 m3.2.1 (m5.read m3.2.2)
    (m6.1, some m6.2)
  else (m, none)

/-- One round of the loop of `newToText` over the original weekdays: the weekday is appended
to `allWeeks` when it has no ordinal, to `someWeeks` when it has one. -/
def weekDayStep (acc : Arrays Weekday × Slice × Slice) (weekday : Weekday) :
    Arrays Weekday × Slice × Slice :=
  let a :=
    if weekday.N = 0 then Arrays.append MO acc.1 acc.2.1 weekday else (acc.1, acc.2.1)
  let b :=
    if weekday.N ≠ 0 then Arrays.append MO a.1 acc.2.2 weekday else (a.1, acc.2.2)
  (b.1, a.2, b.2)

/-- The weekday part of `newToText` over the store: `allWeeks` and `someWeeks` are made,
filled by `append` and sorted in place; the flags are read off the normalized BYDAY. -/
def weekDaysMem (m : Arrays Weekday) (r : RuleSlices) :
    Arrays Weekday × Option (Slice × Slice × Bool × Bool) :=
  if 0 < r.origByweekday.len then
    let m1 := Arrays.make MO m r.origByweekday.len
    let m2 := Arrays.make MO m1.1 r.origByweekday.len
    let m3 := (m2.1.read r.origByweekday).foldl weekDayStep (m2.1, m1.2, m2.2)
    let normalized := m3.1.read r.byweekday
    let has := fun (wd : Weekday) => indexOfWeekDay normalized wd ≠ -1
    let isWeekDays : Bool :=
      has MO ∧ has TU ∧ has WE ∧ has TH ∧ has FR ∧
        indexOfWeekDay normalized SA = -1 ∧ indexOfWeekDay normalized SU = -1
    let isEveryDay : Bool :=
      has MO ∧ has TU ∧ has WE ∧ has TH ∧ has FR ∧ has SA ∧ has SU
    let m4 := Arrays.sort weekDaysSort m3.1 m3.2.1
    let m5 := Arrays.sort weekDaysSort m4 m3.2.2
    (m5, some (m3.2.1, m3.2.2, isWeekDays, isEveryDay))
  else (m, none)

/-- Function `newToText` over the store: the store after the call and the slices built. -/
def newToTextMem (m : Memory) (r : RuleSlices) : Memory × WriterSlices :=
  let (ints, byMonthDay) := monthDaysMem m.ints r
  let (days, byWeekDay) := weekDaysMem m.days r
  ({ ints := ints, days := days }, { bymonthday := byMonthDay, byweekday := byWeekDay })

/-- The rule as the store holds it: the four lists are read through their slices, the other
fields are those of `rule`. -/
def readRule (m : Memory) (r : RuleSlices) (rule : RRule) : RRule :=
  { OrigOptions :=
      { rule.OrigOptions with
        Bymonthday := m.ints.read r.origBymonthday, Byweekday := m.days.read r.origByweekday },
    Options :=
      { rule.Options with
        Bymonthday := m.ints.read r.bymonthday, Byweekday := m.days.read r.byweekday } }

/-- The summary writer as the store holds it after `newToTextMem`. -/
def readWriter (m : Memory) (w : WriterSlices) (r : RuleSlices) (rule : RRule)
    (loc : Localizer) (formatter : TimeFormatter) : toText :=
  { bymonthday := match w.bymonthday with
      | some s => m.ints.read s
      | none => [],
    byweekday := w.byweekday.map (fun b =>
      { allWeeks := m.days.read b.1, someWeeks := m.days.read b.2.1,
        isWeekdays := b.2.2.1, isEveryDay := b.2.2.2 }),
    option := (readRule m r rule).Options,
    origOption := (readRule m r rule).OrigOptions,
    loc := loc,
    formatter := formatter }

/-- Building the summary over the store: `newToText`, then `ToString`, which reads the
store and writes to its string builder only. -/
def summaryMem (m : Memory) (r : RuleSlices) (rule : RRule) (loc : Localizer)
    (formatter : TimeFormatter) : Memory × Option String :=
  let (m1, w) := newToTextMem m r
  (m1, (readWriter m1 w r rule loc formatter).ToString)

/-- The slice lies within an array that is in use. -/
def Slice.within {α : Type} (m : Arrays α) (s : Slice) : Prop := s.arr < m.next

/-- A store of integers holding the month days `[15, -1, 1, -2]` of a rule in array 0. -/
def sampleInts : Arrays Int :=
  { cells := fun i => if i = 0 then [15, -1, 1, -2] else [], next := 1 }

/-- A store of weekdays holding the BYDAY list `[FR, +2TU, MO]` of a rule in array 0. -/
def sampleDays : Arrays Weekday :=
  { cells := fun i => if i = 0 then [FR, ⟨1, 2⟩, MO] else [], next := 1 }

/-- The slices of the rule in the sample stores: original and normalized lists coincide. -/
def sampleSlices : RuleSlices :=
  { origBymonthday := ⟨0, 0, 4, 4⟩, bymonthday := ⟨0, 0, 4, 4⟩,
    origByweekday := ⟨0, 0, 3, 3⟩, byweekday := ⟨0, 0, 3, 3⟩ }

/-- The arrays with identifier below `n` have the same contents in `m'` as in `m`. -/
def Arrays.keeps {α : Type} (n : Nat) (m m' : Arrays α) : Prop :=
  ∀ i, i < n → m'.cells i = m.cells i

/-- The elements of the slice lie within its backing array. -/
def Slice.fits {α : Type} (m : Arrays α) (s : Slice) : Prop :=
  s.off + s.len ≤ (m.cells s.arr).length

/-- The slice, with its whole capacity, lies within its backing array. -/
def Slice.owned {α : Type} (m : Arrays α) (s : Slice) : Prop :=
  s.len ≤ s.cap ∧ s.off + s.cap ≤ (m.cells s.arr).length

/-- Two slices over different arrays in use, each with its capacity within its array, that
hold the elements `ps` and `ns`. -/
def Arrays.holds {α : Type} (st : Arrays α × Slice × Slice) (ps ns : List α) : Prop :=
  st.2.1.owned st.1 ∧ st.2.2.owned st.1 ∧ st.2.1.arr ≠ st.2.2.arr ∧
    st.2.1.arr < st.1.next ∧ st.2.2.arr < st.1.next ∧
    st.1.read st.2.1 = ps ∧ st.1.read st.2.2 = ns

/-- The rule `FREQ=MONTHLY;BYMONTHDAY=15,-1,1,-2,3`. -/
def monthDaysMixed : RRule :=
  { OrigOptions := { plainOptions with Freq := .MONTHLY, Bymonthday := [15, -1, 1, -2, 3] },
    Options :=
      { plainOptions with
        Freq := .MONTHLY, Bymonthday := [15, -1, 1, -2, 3],
        Byhour := [0], Byminute := [0], Bysecond := [0] } }

/-- The rule `FREQ=MONTHLY;BYDAY=FR,+2TU,MO,-1SU`. -/
def weekdaysMixed : RRule :=
  { OrigOptions :=
      { plainOptions with Freq := .MONTHLY, Byweekday := [FR, ⟨1, 2⟩, MO, ⟨6, -1⟩] },
    Options :=
      { plainOptions with
        Freq := .MONTHLY, Byweekday := [FR, ⟨1, 2⟩, MO, ⟨6, -1⟩],
        Byhour := [0], Byminute := [0], Bysecond := [0] } }

/-- The rule `FREQ=SECONDLY;COUNT=3`. -/
def secondlyThreeTimes : RRule :=
  { OrigOptions := { plainOptions with Freq := .SECONDLY, Count := 3 },
    Options := { plainOptions with Freq := .SECONDLY, Count := 3 } }

/-- The rule `FREQ=SECONDLY;INTERVAL=5;BYHOUR=10;BYDAY=MO;UNTIL=20070101T080000Z`. -/
def secondlyFiltered : RRule :=
  { OrigOptions :=
      { plainOptions with
        Freq := .SECONDLY, Interval := 5, Byhour := [10], Byweekday := [MO],
        Until := ⟨2007, 1, 1, false⟩ },
    Options :=
      { plainOptions with
        Freq := .SECONDLY, Interval := 5, Byhour := [10], Byweekday := [MO],
        Until := ⟨2007, 1, 1, false⟩ } }

/-- The rule `FREQ=WEEKLY;BYDAY=MO,TU,WE,TH,FR,SA,SU;BYMONTH=3;BYHOUR=10`. -/
def weeklyEveryDay : RRule :=
  { OrigOptions :=
      { plainOptions with
        Freq := .WEEKLY, Byweekday := [MO, TU, WE, TH, FR, SA, SU], Bymonth := [3],
        Byhour := [10] },
    Options :=
      { plainOptions with
        Freq := .WEEKLY, Byweekday := [MO, TU, WE, TH, FR, SA, SU], Bymonth := [3],
        Byhour := [10], Byminute := [0], Bysecond := [0] } }

/-- The rule `FREQ=WEEKLY;INTERVAL=2;BYDAY=MO,TU,WE,TH,FR,SA,SU`. -/
def secondWeekEveryDay : RRule :=
  { OrigOptions :=
      { plainOptions with
        Freq := .WEEKLY, Interval := 2, Byweekday := [MO, TU, WE, TH, FR, SA, SU] },
    Options :=
      { plainOptions with
        Freq := .WEEKLY, Interval := 2, Byweekday := [MO, TU, WE, TH, FR, SA, SU],
        Byhour := [0], Byminute := [0], Bysecond := [0] } }

/-- The summary writer with the weekdays that carry an ordinal replaced by `ws`. -/
def toText.withSomeWeeks (t : toText) (ws : List Weekday) : toText :=
  { t with byweekday := t.byweekday.map (fun b => { b with someWeeks := ws }) }

/-- The rule of `ExampleRRule`:
`FREQ=YEARLY;INTERVAL=4;COUNT=3;BYMONTH=11;BYMONTHDAY=2,3,4,5,6,7,8;BYDAY=TU`. -/
def electionDay : RRule :=
  { OrigOptions :=
      { plainOptions with
        Freq := .YEARLY, Interval := 4, Count := 3, Bymonth := [11], Byweekday := [TU],
        Bymonthday := [2, 3, 4, 5, 6, 7, 8], Dtstart := ⟨1996, 11, 5, false⟩ },
    Options :=
      { plainOptions with
        Freq := .YEARLY, Interval := 4, Count := 3, Bymonth := [11], Byweekday := [TU],
        Bymonthday := [2, 3, 4, 5, 6, 7, 8], Dtstart := ⟨1996, 11, 5, false⟩,
        Byhour := [9], Byminute := [0], Bysecond := [0] } }

/-- A summary writer whose weekdays flag is set while its only weekday carries an ordinal:
no weekday without ordinal, and the first Monday. -/
def flaggedFirstMonday : toText :=
  { bymonthday := [],
    byweekday := some
      { allWeeks := [], someWeeks := [⟨0, 1⟩], isWeekdays := true, isEveryDay := false },
    option := plainOptions, origOption := plainOptions,
    loc := enLocalizer, formatter := defaultFormatter }

/-- A summary writer with the weekdays Monday and Wednesday, the first Friday and the last
Sunday. -/
def mixedWeekdays : toText :=
  { bymonthday := [],
    byweekday := some
      { allWeeks := [MO, WE], someWeeks := [⟨4, 1⟩, ⟨6, -1⟩], isWeekdays := false,
        isEveryDay := false },
    option := plainOptions, origOption := plainOptions,
    loc := enLocalizer, formatter := defaultFormatter }

/-- The rule `FREQ=YEARLY;BYMONTH=1,3`. -/
def yearlyJanuaryMarch : RRule :=
  { OrigOptions := { plainOptions with Freq := .YEARLY, Bymonth := [1, 3] },
    Options :=
      { plainOptions with
        Freq := .YEARLY, Bymonth := [1, 3], Bymonthday := [1],
        Byhour := [0], Byminute := [0], Bysecond := [0] } }

/-- The rule `FREQ=YEARLY;INTERVAL=2;BYMONTH=6`. -/
def secondYearInJune : RRule :=
  { OrigOptions := { plainOptions with Freq := .YEARLY, Interval := 2, Bymonth := [6] },
    Options :=
      { plainOptions with
        Freq := .YEARLY, Interval := 2, Bymonth := [6], Bymonthday := [1],
        Byhour := [0], Byminute := [0], Bysecond := [0] } }

/-- The summary writer with the normalized BYYEARDAY and BYWEEKNO lists emptied. -/
def toText.withoutYearClauses (t : toText) : toText :=
  { t with option := { t.option with Byyearday := [], Byweekno := [] } }

/-- The rule `FREQ=YEARLY;BYYEARDAY=1,100,-1;BYWEEKNO=20`. -/
def yearlyDaysAndWeek : RRule :=
  { OrigOptions :=
      { plainOptions with Freq := .YEARLY, Byyearday := [1, 100, -1], Byweekno := [20] },
    Options :=
      { plainOptions with
        Freq := .YEARLY, Byyearday := [1, 100, -1], Byweekno := [20],
        Byhour := [0], Byminute := [0], Bysecond := [0] } }

/-- The rule `FREQ=YEARLY;BYMONTH=3;BYWEEKNO=10,11,12;COUNT=2`. -/
def yearlyMarchWeeks : RRule :=
  { OrigOptions :=
      { plainOptions with Freq := .YEARLY, Bymonth := [3], Byweekno := [10, 11, 12], Count := 2 },
    Options :=
      { plainOptions with
        Freq := .YEARLY, Bymonth := [3], Byweekno := [10, 11, 12], Count := 2,
        Byhour := [0], Byminute := [0], Bysecond := [0] } }

/-- The options as they are read back from their text: the fields that the text omits are
unset, the start and the until are those read back. -/
def canonicalOptions (strToTime : List Char → Option Time) (timeToStr : Time → String)
    (d : Time) (o : ROption) : ROption :=
  { Freq := o.Freq,
    Dtstart := d,
    Interval := if o.Interval = 0 ∨ o.Interval = 1 then 0 else o.Interval,
    Wkst := o.Wkst,
    Count := o.Count,
    Until :=
      if o.Until.IsZero then Time.zero else (strToTime (timeToStr o.Until).data).getD Time.zero,
    Bysetpos := o.Bysetpos,
    Bymonth := o.Bymonth,
    Bymonthday := o.Bymonthday,
    Byyearday := o.Byyearday,
    Byweekno := o.Byweekno,
    Byweekday := o.Byweekday,
    Byhour := o.Byhour,
    Byminute := o.Byminute,
    Bysecond := o.Bysecond,
    Byeaster := o.Byeaster }

/-- Modelled from the spec: the serializer is missing; the text of the options.  A `DTSTART`
line comes before the `RRULE:` line when the start is set, as in `ExampleRRule`; without a
start the text is the bare parameter string, as in `TestSetStr`.  `dtStartToStr` writes what
follows the name `DTSTART`: a colon or a semicolon with the zone, and the instant. -/
def ROption.String (timeToStr dtStartToStr : Time → String) (o : ROption) : String :=
  if o.Dtstart.IsZero then o.RRuleString timeToStr
  else "DTSTART" ++ dtStartToStr o.Dtstart ++ "\nRRULE:" ++ o.RRuleString timeToStr

/-- Modelled from the spec: the serializer is missing; the text of a rule is that of its
original options. -/
def RRule.String (timeToStr dtStartToStr : Time → String) (r : RRule) : String :=
  r.OrigOptions.String timeToStr dtStartToStr

/-- The options hold values of Go's `int` only, and the week start is a day of the week. -/
def ROption.inGo (o : ROption) : Prop :=
  isInt o.Interval ∧ isInt o.Count ∧
  (0 ≤ o.Wkst.Day ∧ o.Wkst.Day ≤ 6 ∧ isInt o.Wkst.N) ∧
  (∀ w ∈ o.Byweekday, 0 ≤ w.Day ∧ w.Day ≤ 6 ∧ isInt w.N) ∧
  (∀ v ∈ o.Bysetpos ++ o.Bymonth ++ o.Bymonthday ++ o.Byyearday ++ o.Byweekno ++ o.Byhour ++
    o.Byminute ++ o.Bysecond ++ o.Byeaster, isInt v)

instance (o : ROption) : Decidable o.inGo := by unfold ROption.inGo; infer_instance

/-- The characters of the text are neither separators of the grammar nor white space; a
comma is allowed. -/
def plainText (s : String) : Prop :=
  ∀ c ∈ s.data, c ≠ '=' ∧ c ≠ ';' ∧ c ≠ '\n' ∧ isSpace c = false

instance (s : String) : Decidable (plainText s) := by unfold plainText; infer_instance

/-- The reader `strToTime` reads what the writer `timeToStr` writes for an instant that is
not zero: a text of the value grammar, read as an instant that is not zero and is written
the same. -/
def readsBack (timeToStr : Time → String) (strToTime : List Char → Option Time) : Prop :=
  ∀ t : Time, t.IsZero = false →
    (timeToStr t).data ≠ [] ∧ plainText (timeToStr t) ∧
    ∃ u, strToTime (timeToStr t).data = some u ∧ u.IsZero = false ∧
      timeToStr u = timeToStr t

/-- The reader `strToDtStart` reads set instants only, and it reads what the writer
`dtStartToStr` writes after the name of a line: a colon or semicolon, then a text without
line break or white space that is read as an instant that is written the same. -/
def readsBackLine (dtStartToStr : Time → String)
    (strToDtStart : List Char → Option Time) : Prop :=
  (∀ body d, strToDtStart body = some d → d.IsZero = false) ∧
  ∀ t : Time, t.IsZero = false →
    ∃ c body, (dtStartToStr t).data = c :: body ∧ (c = ':' ∨ c = ';') ∧
      (∀ x ∈ body, x ≠ '\n' ∧ isSpace x = false) ∧
      ∃ u, strToDtStart body = some u ∧ dtStartToStr u = dtStartToStr t

/-- The characters of a parameter as `RRuleString` writes it, `KEY=VALUE`. -/
def paramText (kv : String × String) : List Char := (kv.1 ++ "=" ++ kv.2).data

/-- Modelled from the spec: the method `Set.DTStart` is missing; it sets the start of the
set. -/
def Set.DTStart (s : Set) (t : Time) : Set := { s with dtstart := t }

/-- Modelled from the spec: the method `Set.RDate` is missing; it adds an instant to
include. -/
def Set.RDate (s : Set) (t : Time) : Set := { s with rdate := s.rdate ++ [t] }

/-- Modelled from the spec: the method `Set.ExDate` is missing; it adds an instant to
exclude. -/
def Set.ExDate (s : Set) (t : Time) : Set := { s with exdate := s.exdate ++ [t] }

/-- Modelled from the spec: the method `Set.ExRule` is missing; it adds an exclusion rule. -/
def Set.ExRule (s : Set) (r : rrule.RRule) : Set := { s with exrules := s.exrules ++ [r] }

/-- Modelled from the spec: the serializer is missing; the lines of a set.  The `DTSTART`
line comes first when the start is set, then one `RRULE:` line for every inclusion rule,
one `EXRULE:` line for every exclusion rule, and one `RDATE` and one `EXDATE` line for
every instant, each kind in the order of addition; `ExampleSet` shows the order DTSTART,
RRULE, RDATE, EXDATE.  `dtStartToStr` writes what follows the name of a line of instants. -/
def Set.Recurrence (timeToStr dtStartToStr : Time → String) (s : Set) : List String :=
  (if s.dtstart.IsZero then [] else ["DTSTART" ++ dtStartToStr s.dtstart]) ++
  s.rrules.map (fun r => "RRULE:" ++ r.OrigOptions.RRuleString timeToStr) ++
  s.exrules.map (fun r => "EXRULE:" ++ r.OrigOptions.RRuleString timeToStr) ++
  s.rdate.map (fun t => "RDATE" ++ dtStartToStr t) ++
  s.exdate.map (fun t => "EXDATE" ++ dtStartToStr t)

/-- Modelled from the spec: the parser is missing; whether one of the parameters has the key
`DTSTART`, the legacy form of the start that the grammar accepts in a single rule string
only. -/
def hasLegacyStart (attrs : List (List Char)) : Bool :=
  attrs.any (fun a => "DTSTART=".data.isPrefixOf (a.map Char.toUpper))

/-- Modelled from the spec: the parser is missing; the parameters of a rule line of a set,
read after the start of the set and built into a rule.  The legacy key `DTSTART` is a
failure here. -/
def readSetRule (strToTime : List Char → Option Time) (normalize : ROption → ROption)
    (start : Time) (text : List Char) : Option RRule :=
  if hasLegacyStart (splitOn ';' text) then none
  else
    ((parseParams strToTime (splitOn ';' text) ({ unsetOptions with Dtstart := start }, false)).bind
      (fun r => if r.2 then some r.1 else none)).bind (NewRRule normalize)

/-- Modelled from the spec: the parser is missing; one line of a set is recognized by its
name, `DTSTART`, `RRULE`, `EXRULE`, `RDATE` or `EXDATE`, and read into the set; a line with
another beginning is a failure.  `strToDates` reads the instants that follow the name of an
`RDATE` or `EXDATE` line. -/
def parseSetLine (strToTime strToDtStart : List Char → Option Time)
    (strToDates : List Char → Option (List Time)) (normalize : ROption → ROption)
    (s : Set) (line : List Char) : Option Set :=
  if "DTSTART:".data.isPrefixOf line ∨ "DTSTART;".data.isPrefixOf line then
    (strToDtStart (line.drop 8)).map (fun d => s.DTStart d)
  else if "RRULE:".data.isPrefixOf line then
    (readSetRule strToTime normalize s.dtstart (line.drop 6)).map (fun r => s.RRule r)
  else if "EXRULE:".data.isPrefixOf line then
    (readSetRule strToTime normalize s.dtstart (line.drop 7)).map (fun r => s.ExRule r)
  else if "RDATE:".data.isPrefixOf line ∨ "RDATE;".data.isPrefixOf line then
    (strToDates (line.drop 6)).map (fun ts => ts.foldl Set.RDate s)
  else if "EXDATE:".data.isPrefixOf line ∨ "EXDATE;".data.isPrefixOf line then
    (strToDates (line.drop 7)).map (fun ts => ts.foldl Set.ExDate s)
  else none

/-- Modelled from the spec: the parser is missing; the lines of the text, without the white
space around it, are read one after the other into the empty set; an empty text is a
failure, as is a line that is not read. -/
def StrToRRuleSet (strToTime strToDtStart : List Char → Option Time)
    (strToDates : List Char → Option (List Time)) (normalize : ROption → ROption)
    (s : String) : Option Set :=
  if trimSpace s.data = [] then none
  else
    (splitOn '\n' (trimSpace s.data)).foldlM
      (parseSetLine strToTime strToDtStart strToDates normalize) Set.empty

/-- The reader `strToDates` reads at least one instant, and it reads what the writer
`dtStartToStr` writes after the name of a line: a colon or semicolon, then a text without
line break or white space that is read as one instant that is written the same. -/
def readsBackDates (dtStartToStr : Time → String)
    (strToDates : List Char → Option (List Time)) : Prop :=
  (∀ body ts, strToDates body = some ts → ts ≠ []) ∧
  ∀ t : Time,
    ∃ c body, (dtStartToStr t).data = c :: body ∧ (c = ':' ∨ c = ';') ∧
      (∀ x ∈ body, x ≠ '\n' ∧ isSpace x = false) ∧
      ∃ u, strToDates body = some [u] ∧ dtStartToStr u = dtStartToStr t

/-- The rules of the set hold valid options of Go integers. -/
def Set.wellFormed (s : Set) : Prop :=
  ∀ r ∈ s.rrules ++ s.exrules, r.OrigOptions.inGo ∧ validOptions r.OrigOptions = true

/-- Something has been added to the set. -/
def Set.inhabited (s : Set) : Prop :=
  s.dtstart.IsZero = false ∨ s.rrules ≠ [] ∨ s.exrules ≠ [] ∨ s.rdate ≠ [] ∨ s.exdate ≠ []

/-- The rule as it is read back from its line in a set with the start `d`. -/
def canonicalRule (strToTime : List Char → Option Time) (timeToStr : Time → String)
    (normalize : ROption → ROption) (d : Time) (r : RRule) : RRule :=
  { OrigOptions := canonicalOptions strToTime timeToStr d r.OrigOptions,
    Options := normalize (canonicalOptions strToTime timeToStr d r.OrigOptions) }

/-- Modelled from the spec: the serializer is missing; the text of a set is its lines, one
below the other. -/
def Set.String (timeToStr dtStartToStr : Time → String) (s : Set) : String :=
  Join (s.Recurrence timeToStr dtStartToStr) "\n"

/-- A writer of instants for a calendar of years: the year of the instant, 0 for a year that
is not a Go `int`. -/
def yearToStr (t : Time) : String := Itoa (if isInt t.Year then t.Year else 0)

/-- The reader of the calendar of years: the first day of the year that the text names. -/
def strToYear (cs : List Char) : Option Time :=
  (strToInt cs).map (fun (y : Int) => Time.mk y 1 1 false)

/-- What the calendar of years writes after the name of a line: a colon and the year. -/
def yearLine (t : Time) : String := ":" ++ yearToStr t

/-- The reader of a comma-separated list of years. -/
def strToYears (cs : List Char) : Option (List Time) :=
  (splitOn ',' cs).mapM strToYear

/-- The set of the text `DTSTART:2018`, `RRULE:FREQ=DAILY;COUNT=5`, `EXDATE:2019,2020` in the
calendar of years, with options that are not normalized. -/
def yearSet : Set :=
  { dtstart := ⟨2018, 1, 1, false⟩,
    rrules := [{ OrigOptions :=
                   { unsetOptions with Freq := .DAILY, Count := 5, Dtstart := ⟨2018, 1, 1, false⟩ },
                 Options :=
                   { unsetOptions with Freq := .DAILY, Count := 5, Dtstart := ⟨2018, 1, 1, false⟩ } }],
    rdate := [],
    exrules := [],
    exdate := [⟨2019, 1, 1, false⟩, ⟨2020, 1, 1, false⟩] }

/-- Go's `ws[i]` on a slice of weekdays with an `int` index: a panic (`none`) outside the
bounds. -/
def weekdayAt (ws : List Weekday) (i : Int) : Option Weekday :=
  if 0 ≤ i then ws.get? i.toNat else none

/-- The indices `0, 1, ..., n - 1` as values of `int`. -/
def indices (n : Nat) : List Int := (List.range n).map Int.ofNat

/-- Whether the field of a key is set: FREQ always, another field when it is not at its
default or unset value (interval 0 or 1, week start Monday, count 0, zero until, empty
list). -/
def keyIsSet (o : ROption) (k : String) : Bool :=
  if k = "FREQ" then true
  else if k = "INTERVAL" then decide (¬ (o.Interval = 0 ∨ o.Interval = 1))
  else if k = "WKST" then decide (¬ o.Wkst = MO)
  else if k = "COUNT" then decide (¬ o.Count = 0)
  else if k = "UNTIL" then decide (¬ o.Until.IsZero = true)
  else if k = "BYSETPOS" then decide (¬ o.Bysetpos = [])
  else if k = "BYMONTH" then decide (¬ o.Bymonth = [])
  else if k = "BYMONTHDAY" then decide (¬ o.Bymonthday = [])
  else if k = "BYYEARDAY" then decide (¬ o.Byyearday = [])
  else if k = "BYWEEKNO" then decide (¬ o.Byweekno = [])
  else if k = "BYDAY" then decide (¬ o.Byweekday = [])
  else if k = "BYHOUR" then decide (¬ o.Byhour = [])
  else if k = "BYMINUTE" then decide (¬ o.Byminute = [])
  else if k = "BYSECOND" then decide (¬ o.Bysecond = [])
  else if k = "BYEASTER" then decide (¬ o.Byeaster = [])
  else false

/-- The key of a parameter text: what stands before the first equals sign, in upper case. -/
def paramKey (a : List Char) : List Char := (a.takeWhile (fun c => c ≠ '=')).map Char.toUpper

/-- What a parameter sets: a field of the options, with its value. -/
inductive Update where
  | freq (v : Frequency)
  | dtstart (v : Time)
  | interval (v : Int)
  | wkst (v : Weekday)
  | count (v : Int)
  | until (v : Time)
  | bysetpos (v : List Int)
  | bymonth (v : List Int)
  | bymonthday (v : List Int)
  | byyearday (v : List Int)
  | byweekno (v : List Int)
  | byday (v : List Weekday)
  | byhour (v : List Int)
  | byminute (v : List Int)
  | bysecond (v : List Int)
  | byeaster (v : List Int)

/-- The key of the field that is set. -/
def Update.key : Update → String
  | .freq _ => "FREQ"
  | .dtstart _ => "DTSTART"
  | .interval _ => "INTERVAL"
  | .wkst _ => "WKST"
  | .count _ => "COUNT"
  | .until _ => "UNTIL"
  | .bysetpos _ => "BYSETPOS"
  | .bymonth _ => "BYMONTH"
  | .bymonthday _ => "BYMONTHDAY"
  | .byyearday _ => "BYYEARDAY"
  | .byweekno _ => "BYWEEKNO"
  | .byday _ => "BYDAY"
  | .byhour _ => "BYHOUR"
  | .byminute _ => "BYMINUTE"
  | .bysecond _ => "BYSECOND"
  | .byeaster _ => "BYEASTER"

/-- The options after a field has been set; FREQ also marks the frequency as seen. -/
def Update.apply (acc : ROption × Bool) : Update → ROption × Bool
  | .freq v => ({ acc.1 with Freq := v }, true)
  | .dtstart v => ({ acc.1 with Dtstart := v }, acc.2)
  | .interval v => ({ acc.1 with Interval := v }, acc.2)
  | .wkst v => ({ acc.1 with Wkst := v }, acc.2)
  | .count v => ({ acc.1 with Count := v }, acc.2)
  | .until v => ({ acc.1 with Until := v }, acc.2)
  | .bysetpos v => ({ acc.1 with Bysetpos := v }, acc.2)
  | .bymonth v => ({ acc.1 with Bymonth := v }, acc.2)
  | .bymonthday v => ({ acc.1 with Bymonthday := v }, acc.2)
  | .byyearday v => ({ acc.1 with Byyearday := v }, acc.2)
  | .byweekno v => ({ acc.1 with Byweekno := v }, acc.2)
  | .byday v => ({ acc.1 with Byweekday := v }, acc.2)
  | .byhour v => ({ acc.1 with Byhour := v }, acc.2)
  | .byminute v => ({ acc.1 with Byminute := v }, acc.2)
  | .bysecond v => ({ acc.1 with Bysecond := v }, acc.2)
  | .byeaster v => ({ acc.1 with Byeaster := v }, acc.2)

/-- What the parameter `KEY=VALUE` sets, as `parseParam` reads it: the reading does not
depend on the options read before. -/
def parseUpdate (strToTime : List Char → Option Time) (attr : List Char) : Option Update :=
  match splitOn '=' attr with
  | [key, value] =>
    if value = [] then none
    else
      let k := String.mk (key.map Char.toUpper)
      if k = "FREQ" then (strToFreq value).map Update.freq
      else if k = "DTSTART" then (strToTime value).map Update.dtstart
      else if k = "INTERVAL" then (strToInt value).map Update.interval
      else if k = "WKST" then (strToWeekday value).map Update.wkst
      else if k = "COUNT" then (strToInt value).map Update.count
      else if k = "UNTIL" then (strToTime value).map Update.until
      else if k = "BYSETPOS" then (strToInts value).map Update.bysetpos
      else if k = "BYMONTH" then (strToInts value).map Update.bymonth
      else if k = "BYMONTHDAY" then (strToInts value).map Update.bymonthday
      else if k = "BYYEARDAY" then (strToInts value).map Update.byyearday
      else if k = "BYWEEKNO" then (strToInts value).map Update.byweekno
      else if k = "BYDAY" then (strToWeekdays value).map Update.byday
      else if k = "BYHOUR" then (strToInts value).map Update.byhour
      else if k = "BYMINUTE" then (strToInts value).map Update.byminute
      else if k = "BYSECOND" then (strToInts value).map Update.bysecond
      else if k = "BYEASTER" then (strToInts value).map Update.byeaster
      else none
  | _ => none

/-- Parameter texts as a rule string without the beginning `RRULE:` holds them: at least
one, none beginning with the letter R, none with a semicolon, a line break or white
space. -/
def plainParams (attrs : List (List Char)) : Prop :=
  attrs ≠ [] ∧
  ∀ a ∈ attrs, a.head? ≠ some 'R' ∧ ∀ c ∈ a, c ≠ ';' ∧ c ≠ '\n' ∧ isSpace c = false

/-! ## Lemmas on the standard library model -/

theorem abs_neg_eq (i : Int) (h : i < 0) (h2 : isInt (-i)) : abs i = -i := by
  unfold isInt at h2
  unfold abs wrapInt
  rw [if_pos h]
  omega

/-- `abs` leaves a non-negative integer unchanged. -/
theorem abs_nonneg_eq (i : Int) (h : 0 ≤ i) : abs i = i := by
  unfold abs
  rw [if_neg (by omega)]

/-- Every character produced by the decimal digit loop is a digit. -/
theorem toDigitsCore_isDigit (fuel : Nat) : ∀ (n : Nat) (ds : List Char),
    (∀ c ∈ ds, c.isDigit = true) → ∀ c ∈ Nat.toDigitsCore 10 fuel n ds, c.isDigit = true := by
  induction fuel with
  | zero => intro n ds h; simpa [Nat.toDigitsCore] using h
  | succ fuel ih =>
    intro n ds h
    have hd : (Nat.digitChar (n % 10)).isDigit = true := by
      have : n % 10 < 10 := Nat.mod_lt _ (by decide)
      interval_cases (n % 10) <;> decide
    unfold Nat.toDigitsCore
    simp only
    split
    · intro c hc
      rcases List.mem_cons.mp hc with rfl | hc
      · exact hd
      · exact h c hc
    · apply ih
      intro c hc
      rcases List.mem_cons.mp hc with rfl | hc
      · exact hd
      · exact h c hc

/-- The decimal numeral of a natural number consists of digits. -/
theorem repr_isDigit (n : Nat) : ∀ c ∈ (Nat.repr n).data, c.isDigit = true := by
  unfold Nat.repr Nat.toDigits
  simp only [List.asString]
  exact toDigitsCore_isDigit _ _ _ (by simp)

/-- `Itoa` of a non-negative integer consists of digits. -/
theorem Itoa_nonneg_isDigit (i : Int) (h : 0 ≤ i) : ∀ c ∈ (Itoa i).data, c.isDigit = true := by
  unfold Itoa
  rw [if_neg (by omega)]
  exact repr_isDigit _

/-- `Nth` of a positive integer: its numeral and one of the four suffixes. -/
theorem Nth_pos (i : Int) (h : 1 ≤ i) :
    ∃ suf, suf ∈ ["st", "nd", "rd", "th"] ∧ defaultFormatter.Nth i = some (Itoa i ++ suf) := by
  unfold defaultFormatter.Nth
  rw [if_neg (by omega), abs_nonneg_eq i (by omega)]
  simp only [if_neg (show ¬ i < 0 by omega)]
  split_ifs
  · exact ⟨"st", by simp, rfl⟩
  · exact ⟨"nd", by simp, rfl⟩
  · exact ⟨"rd", by simp, rfl⟩
  · exact ⟨"th", by simp, rfl⟩

/-- `Nth` of `i ≤ -2` is `Nth` of `-i` followed by " last". -/
theorem Nth_neg (i : Int) (h : i ≤ -2) (h2 : isInt (-i)) :
    ∃ s, defaultFormatter.Nth (-i) = some s ∧ defaultFormatter.Nth i = some (s ++ " last") := by
  obtain ⟨suf, _, hpos⟩ := Nth_pos (-i) (by omega)
  refine ⟨_, hpos, ?_⟩
  have hpos2 := hpos
  unfold defaultFormatter.Nth at hpos2 ⊢
  rw [if_neg (by omega)] at hpos2 ⊢
  rw [abs_nonneg_eq (-i) (by omega)] at hpos2
  rw [abs_neg_eq i (by omega) h2]
  simp only [if_neg (show ¬ -i < 0 by omega)] at hpos2
  simp only [if_pos (show i < 0 by omega)]
  injection hpos2 with hpos2
  rw [hpos2]

/-- At the least `int` the negation inside `abs` wraps, and the numeral keeps its sign. -/
theorem Nth_least_int :
    defaultFormatter.Nth (-(2 ^ 63)) = some "-9223372036854775808th last" := by
  decide

/-- The text "last" does not occur in `Nth` of a positive integer. -/
theorem Nth_not_last (i : Int) (h : 1 ≤ i) (s : String) (hs : defaultFormatter.Nth i = some s) :
    ¬ containsText s "last" := by
  obtain ⟨suf, hsuf, heq⟩ := Nth_pos i h
  rw [heq] at hs
  injection hs with hs
  subst hs
  intro hc
  have hl : 'l' ∈ (Itoa i ++ suf).data := hc.subset (by decide)
  rw [String.data_append, List.mem_append] at hl
  rcases hl with hl | hl
  · have := Itoa_nonneg_isDigit i (by omega) _ hl
    exact absurd this (by decide)
  · simp only [List.mem_cons, List.mem_singleton, List.not_mem_nil, or_false] at hsuf
    rcases hsuf with rfl | rfl | rfl | rfl <;> exact absurd hl (by decide)

/-- Collecting the results of a callback that returns on every element. -/
theorem mapM_total {α : Type} (f : α → Option String) (g : α → String) :
    ∀ xs : List α, (∀ x ∈ xs, f x = some (g x)) → xs.mapM f = some (xs.map g) := by
  intro xs
  induction xs with
  | nil => intro _; rfl
  | cons x xs ih =>
    intro h
    rw [List.mapM_cons, h x (List.mem_cons_self _ _), ih (fun y hy => h y (List.mem_cons_of_mem _ hy))]
    rfl

/-- A text in front of the accumulator of `String.intercalate.go` stays in front. -/
theorem intercalate_go_append (x s : String) :
    ∀ (as : List String) (acc : String),
      String.intercalate.go (x ++ acc) s as = x ++ String.intercalate.go acc s as := by
  intro as
  induction as with
  | nil => intro acc; rfl
  | cons a as ih =>
    intro acc
    simp only [String.intercalate.go]
    rw [String.append_assoc, String.append_assoc, ih, String.append_assoc]

/-- `Join` is the intercalation of the separator. -/
theorem Join_eq_intercalate (sep : String) :
    ∀ arr : List String, Join arr sep = String.intercalate sep arr := by
  intro arr
  induction arr with
  | nil => rfl
  | cons a rest ih =>
    cases rest with
    | nil => rfl
    | cons b rest =>
      rw [Join, ih]
      simp only [String.intercalate, String.intercalate.go]
      rw [String.append_assoc, intercalate_go_append, String.append_assoc]

/-- The loop of `delimJoin` from index `i ≥ 1` up to the last element. -/
theorem delimJoinLoop_tail (n : Int) (d fd l : String) :
    ∀ (mid : List String) (i : Int) (sb : String), 1 ≤ i → i + mid.length = n - 1 →
      delimJoinLoop n d fd i (mid ++ [l]) sb =
        String.intercalate.go sb (d ++ " ") mid ++ " " ++ fd ++ " " ++ l := by
  intro mid
  induction mid with
  | nil =>
    intro i sb h1 h2
    have hi : i = n - 1 := by simpa using h2
    simp only [List.nil_append, delimJoinLoop, String.intercalate.go]
    rw [if_pos (by omega), if_pos hi]
  | cons m mid ih =>
    intro i sb h1 h2
    have hlen : ((m :: mid).length : Int) = (mid.length : Int) + 1 := by simp
    have hi : ¬ i = n - 1 := by omega
    simp only [List.cons_append, delimJoinLoop, String.intercalate.go]
    rw [if_pos (by omega), if_neg hi]
    have key := ih (i + 1) (sb ++ d ++ " " ++ m) (by omega) (by omega)
    simp only [List.append_eq] at key ⊢
    rw [key]
    simp only [String.append_assoc]

/-- `delimJoin` on two or more elements. -/
theorem delimJoin_snoc (a l d fd : String) (mid : List String) :
    delimJoin (a :: (mid ++ [l])) d fd =
      String.intercalate (d ++ " ") (a :: mid) ++ " " ++ fd ++ " " ++ l := by
  unfold delimJoin
  simp only [delimJoinLoop]
  rw [if_neg (by simp)]
  have hq : ("" : String) ++ a = a := String.empty_append a
  rw [hq, delimJoinLoop_tail _ d fd l mid (0 + 1) a (by omega) (by simp; omega)]
  rfl

/-- The English localizer returns the form `other` of a message without plural count. -/
theorem localize_other (id s : String) :
    enLocalizer.MustLocalize { DefaultMessage := otherMessage id s } = some s := by
  simp [Localizer.MustLocalize, enLocalizer, otherMessage, Message.template, plain, execute]

/-- The English localizer picks `one` for a count of absolute value 1, `other` otherwise. -/
theorem localize_plural (id one many : String) (c : Int) :
    enLocalizer.MustLocalize { DefaultMessage := pluralMessage id one many, PluralCount := some c } =
      some (if c.natAbs = 1 then one else many) := by
  by_cases h : c.natAbs = 1 <;>
    simp [Localizer.MustLocalize, enLocalizer, pluralMessage, Message.template, plain, execute,
      enPluralForm, h]

/-- The message `And`. -/
theorem localize_langAnd : enLocalizer.MustLocalize langAnd = some "and" := by decide

/-- The message `Or`. -/
theorem localize_langOr : enLocalizer.MustLocalize langOr = some "or" := by decide

/-- The message `OnThe`. -/
theorem localize_langOnThe : enLocalizer.MustLocalize langOnThe = some "on the" := by decide

/-- The message `In`. -/
theorem localize_langIn : enLocalizer.MustLocalize langIn = some "in" := by decide

/-- The message `TimeCount` rendered for a count. -/
theorem localize_timeCount (c : Int) :
    enLocalizer.MustLocalize
      { DefaultMessage := msgTimeCount, TemplateData := [("Count", c)], PluralCount := some c } =
      some (if c.natAbs = 1 then "for " ++ Itoa c ++ " time" else "for " ++ Itoa c ++ " times") := by
  by_cases h : c.natAbs = 1 <;>
    simp [Localizer.MustLocalize, enLocalizer, msgTimeCount, Message.template, execute,
      enPluralForm, h, List.lookup, String.append_assoc]

/-- `list` with a callback that returns on every element. -/
theorem list_total (xs : List Int) (f : Int → Option String) (g : Int → String)
    (h : ∀ x ∈ xs, f x = some (g x)) (fd d : String) :
    toText.list xs f fd d =
      some (if fd ≠ "" then delimJoin (xs.map g) d fd else Join (xs.map g) (d ++ " ")) := by
  unfold toText.list
  rw [mapM_total f g xs h]
  by_cases hfd : fd = "" <;> simp [hfd]

/-- `listWeekDay` with a callback that returns on every element. -/
theorem listWeekDay_total (ws : List Weekday) (f : Weekday → Option String) (g : Weekday → String)
    (h : ∀ w ∈ ws, f w = some (g w)) (fd d : String) :
    toText.listWeekDay ws f fd d =
      some (if fd ≠ "" then delimJoin (ws.map g) d fd else Join (ws.map g) (d ++ " ")) := by
  unfold toText.listWeekDay
  rw [mapM_total f g ws h]
  by_cases hfd : fd = "" <;> simp [hfd]

/-- `delimJoin` reads the list out as `phrase` does. -/
theorem delimJoin_eq_phrase (d fd : String) :
    ∀ arr : List String, delimJoin arr d fd = phrase (d ++ " ") (" " ++ fd ++ " ") arr := by
  intro arr
  cases arr with
  | nil => rfl
  | cons a rest =>
    rcases List.eq_nil_or_concat rest with rfl | ⟨mid, l, rfl⟩
    · simp [delimJoin, delimJoinLoop, phrase]
    · rw [List.concat_eq_append, delimJoin_snoc]
      cases mid with
      | nil => simp [phrase, String.append_assoc]
      | cons m mid =>
        have h1 : (a :: m :: (mid ++ [l])).dropLast = a :: m :: mid := by
          have : a :: m :: (mid ++ [l]) = (a :: m :: mid) ++ [l] := by simp
          rw [this, List.dropLast_concat]
        have h2 : (a :: m :: (mid ++ [l])).getLastD "" = l := by
          have : a :: m :: (mid ++ [l]) = (a :: m :: mid) ++ [l] := by simp
          rw [this]; exact List.getLastD_concat _ _ _
        simp only [List.cons_append, phrase, h1, h2, String.append_assoc]

/-! ## Lemmas on the summary writer -/

theorem Nth_total (i : Int) : ∃ s, defaultFormatter.Nth i = some s := by
  unfold defaultFormatter.Nth
  split_ifs <;> exact ⟨_, rfl⟩

/-- The table of day names at an index in 0..6. -/
theorem index_weekdayNames (d : Int) (h0 : 0 ≤ d) (h6 : d ≤ 6) :
    index weekdayNames d = some (dayName d) := by
  interval_cases d <;> decide

/-- The fields that `newToText` copies. -/
theorem newToText_fields (rule : RRule) (loc : Localizer) (fmt : TimeFormatter) :
    (newToText rule loc fmt).option = rule.Options ∧
    (newToText rule loc fmt).origOption = rule.OrigOptions ∧
    (newToText rule loc fmt).loc = loc ∧
    (newToText rule loc fmt).formatter = fmt := by
  unfold newToText
  split_ifs <;> exact ⟨rfl, rfl, rfl, rfl⟩

/-- The frequency part does not depend on the count. -/
theorem writeFreq_count (rule : RRule) (loc : Localizer) (fmt : TimeFormatter) (c : Int)
    (text : String) :
    (newToText (rule.withCount c) loc fmt).writeFreq text =
      (newToText rule loc fmt).writeFreq text := by
  unfold newToText RRule.withCount
  split_ifs <;> rfl

/-- With the English localizer `ToString` is "every", the frequency part and the tail. -/
theorem ToString_eq (t : toText) (hl : t.loc = enLocalizer) :
    t.ToString = (t.writeFreq "every").bind t.writeEnd := by
  unfold toText.ToString
  rw [hl, localize_other]
  rfl

/-- The tail of `ToString` for a non-zero until. -/
theorem writeEnd_until (t : toText) (hl : t.loc = enLocalizer)
    (hu : t.option.Until.IsZero = false) (f : String)
    (hf : t.formatter.Format t.option.Until = some f) (pre : String) :
    t.writeEnd pre = some (pre ++ " until " ++ f) := by
  unfold toText.writeEnd
  simp [hl, hu, hf, localize_other, String.append_assoc]
  rfl

/-- The default `MonthName` returns for 1..12. -/
theorem MonthName_valid (m : Int) (h1 : 1 ≤ m) (h12 : m ≤ 12) :
    defaultFormatter.MonthName m = some ((defaultFormatter.MonthName m).getD "") := by
  interval_cases m <;> rfl

/-- `byMonth` with the default formatter and valid months appends a space and a text. -/
theorem byMonth_default (t : toText) (hl : t.loc = enLocalizer)
    (hf : t.formatter = defaultFormatter)
    (hm : ∀ m ∈ t.option.Bymonth, 1 ≤ m ∧ m ≤ 12) :
    ∃ months, ∀ sb, t.byMonth sb = some (sb ++ " " ++ months) := by
  have hlist := list_total t.option.Bymonth defaultFormatter.MonthName
    (fun m => (defaultFormatter.MonthName m).getD "")
    (fun m hmem => MonthName_valid m (hm m hmem).1 (hm m hmem).2) "and" ","
  rw [if_pos (by decide)] at hlist
  refine ⟨delimJoin (List.map (fun m => (defaultFormatter.MonthName m).getD "")
    t.option.Bymonth) "," "and", fun sb => ?_⟩
  unfold toText.byMonth
  rw [hl, hf, localize_langAnd]
  simp only [defaultFormatter]
  rw [Option.bind_eq_bind, Option.some_bind, hlist]
  rfl

/-- `byHour` appends " at " and the hours read out with a final " and ". -/
theorem byHour_en (t : toText) (hl : t.loc = enLocalizer) (sb : String) :
    t.byHour sb =
      some (sb ++ " at " ++ phrase ", " " and " (t.origOption.Byhour.map Itoa)) := by
  have hlist := list_total t.origOption.Byhour (fun i => some (Itoa i)) Itoa
    (fun _ _ => rfl) "and" ","
  unfold toText.byHour
  rw [hl, localize_langAnd, localize_other]
  simp only [Option.bind_eq_bind, Option.some_bind]
  rw [hlist, if_pos (by decide), delimJoin_eq_phrase]
  simp only [Option.some_bind, pure, String.append_assoc]
  rfl

/-- With the default formatter the tail of `ToString` appends a text that does not depend on
what was written. -/
theorem writeEnd_default (t : toText) (hl : t.loc = enLocalizer)
    (hf : t.formatter = defaultFormatter) :
    ∃ post, ∀ pre, t.writeEnd pre = some (pre ++ post) := by
  by_cases hu : t.option.Until.IsZero = true
  · by_cases hc : 0 < t.option.Count
    · refine ⟨" " ++ (if t.option.Count.natAbs = 1 then "for " ++ Itoa t.option.Count ++ " time"
        else "for " ++ Itoa t.option.Count ++ " times"), fun pre => ?_⟩
      unfold toText.writeEnd
      simp [hu, hc, hl, localize_timeCount, String.append_assoc]
    · refine ⟨"", fun pre => ?_⟩
      unfold toText.writeEnd
      simp [hu, hc]
  · refine ⟨" until " ++ (Month.String t.option.Until.Month ++ " " ++ Itoa t.option.Until.Day
      ++ ", " ++ Itoa t.option.Until.Year), fun pre => ?_⟩
    have hu2 : t.option.Until.IsZero = false := by simpa using hu
    rw [writeEnd_until t hl hu2 _ (by rw [hf]; rfl)]
    simp only [String.append_assoc]

/-- Sorting weekdays keeps the elements. -/
theorem mem_weekDaysSort (ws : List Weekday) (w : Weekday) : w ∈ weekDaysSort ws ↔ w ∈ ws := by
  unfold weekDaysSort
  exact (List.perm_insertionSort _ ws).mem_iff

/-- A weekday that `indexOfWeekDay` finds is in the list. -/
theorem indexOfWeekDay_mem (ws : List Weekday) (wd : Weekday) :
    indexOfWeekDay ws wd ≠ -1 → wd ∈ ws := by
  induction ws with
  | nil => intro h; exact absurd rfl h
  | cons w rest ih =>
    intro h
    unfold indexOfWeekDay at h
    by_cases hw : w = wd
    · subst hw; exact List.mem_cons_self _ _
    · rw [if_neg hw] at h
      by_cases hr : indexOfWeekDay rest wd = -1
      · simp [hr] at h
      · exact List.mem_cons_of_mem _ (ih hr)

/-- The weekday part that `newToText` builds for a non-empty original BYDAY. -/
theorem newToText_byweekday (rule : RRule) (loc : Localizer) (fmt : TimeFormatter)
    (hne : rule.OrigOptions.Byweekday ≠ []) :
    ∃ b, (newToText rule loc fmt).byweekday = some b ∧
      b.allWeeks = weekDaysSort (rule.OrigOptions.Byweekday.filter (fun w => w.N = 0)) ∧
      b.someWeeks = weekDaysSort (rule.OrigOptions.Byweekday.filter (fun w => w.N ≠ 0)) ∧
      (b.isWeekdays = true → MO ∈ rule.Options.Byweekday) := by
  have hlen : 0 < rule.OrigOptions.Byweekday.length := List.length_pos.mpr hne
  unfold newToText
  rw [if_pos hlen]
  refine ⟨_, rfl, rfl, rfl, ?_⟩
  intro h
  simp only [decide_eq_true_eq] at h
  exact indexOfWeekDay_mem _ _ h.1

/-- The month days that `newToText` builds. -/
theorem newToText_bymonthday (rule : RRule) (loc : Localizer) (fmt : TimeFormatter) :
    (newToText rule loc fmt).bymonthday =
      if rule.OrigOptions.Bymonthday = [] then [] else sortMonthDays rule.OrigOptions.Bymonthday := by
  unfold newToText
  by_cases h : rule.OrigOptions.Bymonthday = []
  · simp only [h, List.length_nil, lt_self_iff_false, if_false, if_true]
    split_ifs <;> rfl
  · have hlen : 0 < rule.OrigOptions.Bymonthday.length := List.length_pos.mpr h
    simp only [hlen, if_true, h, if_false]
    split_ifs <;> rfl

/-- `newToText` leaves `byweekday` nil for an empty original BYDAY. -/
theorem newToText_byweekday_none (rule : RRule) (loc : Localizer) (fmt : TimeFormatter)
    (h : rule.OrigOptions.Byweekday = []) : (newToText rule loc fmt).byweekday = none := by
  unfold newToText
  simp [h]

/-- With the English messages `byWeekDay` appends the "on" clause of the weekdays without
ordinal, unless the weekdays flag is set, and the "on the" clause of those with one. -/
theorem byWeekDay_en (t : toText) (b : byweekday) (hl : t.loc = enLocalizer)
    (hb : t.byweekday = some b) (g : Weekday → String)
    (hg : ∀ w, w ∈ b.allWeeks ∨ w ∈ b.someWeeks → t.formatter.WeekDayName w = some (g w))
    (sb : String) :
    t.byWeekDay sb = some (sb ++
      (if b.allWeeks ≠ [] ∧ b.isWeekdays = false
        then " on " ++ String.intercalate ", " (b.allWeeks.map g) else "") ++
      (if b.someWeeks ≠ []
        then (if b.allWeeks ≠ [] then " and" else "") ++ " on the " ++
          phrase ", " " and " (b.someWeeks.map g)
        else "")) := by
  have h1 := listWeekDay_total b.allWeeks t.formatter.WeekDayName g
    (fun w hw => hg w (Or.inl hw)) "" ","
  have h2 := listWeekDay_total b.someWeeks t.formatter.WeekDayName g
    (fun w hw => hg w (Or.inr hw)) "and" ","
  rw [if_neg (by decide), Join_eq_intercalate] at h1
  rw [if_pos (by decide), delimJoin_eq_phrase] at h2
  have e1 : ("," ++ " " : String) = ", " := by decide
  have e2 : (" " ++ "and" ++ " " : String) = " and " := by decide
  rw [e1] at h1 h2
  rw [e2] at h2
  unfold toText.byWeekDay
  rw [hb, hl]
  have ha : (0 < b.allWeeks.length) ↔ b.allWeeks ≠ [] := List.length_pos
  have hs : (0 < b.someWeeks.length) ↔ b.someWeeks ≠ [] := List.length_pos
  by_cases c1 : b.allWeeks = [] <;> by_cases c2 : b.someWeeks = [] <;>
    by_cases c3 : b.isWeekdays = true <;>
    simp [c1, c2, c3, ha, hs, h1, h2, localize_other, localize_langAnd, localize_langOnThe,
      String.append_assoc]
  all_goals rfl

/-- With the English messages `byMonthDay` appends the weekdays without ordinal and the
month days joined with "or" when there are such weekdays, else "on the" and the month days. -/
theorem byMonthDay_en (t : toText) (hl : t.loc = enLocalizer)
    (gw : Weekday → String) (gn : Int → String)
    (hgw : ∀ w ∈ t.allWeeksOf, t.formatter.WeekDayName w = some (gw w))
    (hgn : ∀ d ∈ t.bymonthday, t.formatter.Nth d = some (gn d)) (sb : String) :
    t.byMonthDay sb = some (sb ++
      (if t.allWeeksOf ≠ []
        then " on " ++ phrase ", " " or " (t.allWeeksOf.map gw) ++ " the " ++
          phrase ", " " or " (t.bymonthday.map gn)
        else " on the " ++ phrase ", " " and " (t.bymonthday.map gn))) := by
  have h1 := listWeekDay_total t.allWeeksOf t.formatter.WeekDayName gw hgw "or" ","
  have h2 := list_total t.bymonthday t.formatter.Nth gn hgn "or" ","
  have h3 := list_total t.bymonthday t.formatter.Nth gn hgn "and" ","
  rw [if_pos (by decide), delimJoin_eq_phrase] at h1 h2 h3
  have e1 : ("," ++ " " : String) = ", " := by decide
  have e2 : (" " ++ "or" ++ " " : String) = " or " := by decide
  have e3 : (" " ++ "and" ++ " " : String) = " and " := by decide
  rw [e1] at h1 h2 h3
  rw [e2] at h1 h2
  rw [e3] at h3
  unfold toText.byMonthDay
  rw [hl]
  cases hb : t.byweekday with
  | none =>
    have ha : t.allWeeksOf = [] := by simp [toText.allWeeksOf, hb]
    simp [ha, h3, localize_langAnd, localize_langOnThe, String.append_assoc]
    rfl
  | some b =>
    have ha : t.allWeeksOf = b.allWeeks := by simp [toText.allWeeksOf, hb]
    rw [ha] at h1
    have hlen : (0 < b.allWeeks.length) ↔ b.allWeeks ≠ [] := List.length_pos
    by_cases c : b.allWeeks = []
    · simp [ha, c, h3, localize_langAnd, localize_langOnThe, String.append_assoc]
      rfl
    · simp [ha, c, hlen, h1, h2, localize_langOr, localize_other, String.append_assoc]
      rfl

/-- The default `WeekDayName` of a weekday without ordinal is its day name. -/
theorem WeekDayName_plain (w : Weekday) (hn : w.N = 0) (h0 : 0 ≤ w.Day) (h6 : w.Day ≤ 6) :
    defaultFormatter.WeekDayName w = some (dayName w.Day) := by
  simp [defaultFormatter.WeekDayName, index_weekdayNames w.Day h0 h6, hn]

/-- The default `WeekDayName` returns for a day in 0..6. -/
theorem WeekDayName_valid (w : Weekday) (h0 : 0 ≤ w.Day) (h6 : w.Day ≤ 6) :
    defaultFormatter.WeekDayName w = some ((defaultFormatter.WeekDayName w).getD "") := by
  by_cases hn : w.N = 0
  · rw [WeekDayName_plain w hn h0 h6]; rfl
  · obtain ⟨s, hs⟩ := Nth_total w.N
    have : defaultFormatter.WeekDayName w = some (s ++ " " ++ dayName w.Day) := by
      simp [defaultFormatter.WeekDayName, index_weekdayNames w.Day h0 h6, hn, hs]
    rw [this]; rfl

/-- The default `Nth` returns its own text. -/
theorem Nth_valid (i : Int) :
    defaultFormatter.Nth i = some ((defaultFormatter.Nth i).getD "") := by
  obtain ⟨s, hs⟩ := Nth_total i
  rw [hs]; rfl

/-- The default `MonthName` of 1..12 is the English month name. -/
theorem MonthName_english (i : Int) (h1 : 1 ≤ i) (h12 : i ≤ 12) :
    defaultFormatter.MonthName i = some (englishMonth i) := by
  interval_cases i <;> decide

/-- The default `MonthName` indexes out of range outside 1..12. -/
theorem MonthName_panics (i : Int) (h : ¬ (1 ≤ i ∧ i ≤ 12)) :
    defaultFormatter.MonthName i = none := by
  unfold defaultFormatter.MonthName index
  by_cases h0 : 0 ≤ i - 1
  · rw [if_pos h0]
    have hlen : monthNames.length ≤ (i - 1).toNat := by
      have : monthNames.length = 12 := by decide
      omega
    exact List.get?_eq_none.mpr hlen
  · rw [if_neg h0]

/-! ## Lemmas on the textual grammar -/

/-- Reading digits over a concatenation. -/
theorem parseDigits_append (xs ys : List Char) :
    ∀ acc, parseDigits (xs ++ ys) acc = (parseDigits xs acc).bind (parseDigits ys) := by
  induction xs with
  | nil => intro acc; rfl
  | cons c cs ih =>
    intro acc
    simp only [List.cons_append, parseDigits]
    split_ifs
    · exact ih _
    · rfl

/-- A decimal digit character is a digit and has the value of its digit. -/
theorem digitChar_value (d : Nat) (h : d < 10) :
    (Nat.digitChar d).isDigit = true ∧ (Nat.digitChar d).toNat - 48 = d := by
  interval_cases d <;> decide

/-- The digit loop puts its digits in front of the accumulator. -/
theorem toDigitsCore_acc (fuel : Nat) : ∀ (n : Nat) (ds : List Char),
    Nat.toDigitsCore 10 fuel n ds = Nat.toDigitsCore 10 fuel n [] ++ ds := by
  induction fuel with
  | zero => intro n ds; simp [Nat.toDigitsCore]
  | succ fuel ih =>
    intro n ds
    unfold Nat.toDigitsCore
    simp only
    split_ifs
    · rfl
    · rw [ih (n / 10) (Nat.digitChar (n % 10) :: ds), ih (n / 10) [Nat.digitChar (n % 10)]]
      simp

/-- Reading the digits that the digit loop writes gives the number back. -/
theorem parseDigits_toDigitsCore (fuel : Nat) : ∀ n : Nat, n < fuel →
    parseDigits (Nat.toDigitsCore 10 fuel n []) 0 = some n := by
  induction fuel with
  | zero => intro n h; omega
  | succ fuel ih =>
    intro n h
    have hd := digitChar_value (n % 10) (Nat.mod_lt _ (by decide))
    unfold Nat.toDigitsCore
    simp only
    split_ifs with h0
    · simp only [parseDigits, hd.1, if_true, hd.2]
      congr 1
      omega
    · rw [toDigitsCore_acc, parseDigits_append, ih (n / 10) (by omega)]
      simp only [Option.some_bind, parseDigits, hd.1, if_true, hd.2]
      congr 1
      omega

/-- The digit loop writes at least one digit. -/
theorem toDigitsCore_ne_nil (fuel n : Nat) : Nat.toDigitsCore 10 (fuel + 1) n [] ≠ [] := by
  unfold Nat.toDigitsCore
  simp only
  split_ifs
  · simp
  · rw [toDigitsCore_acc]; simp

/-- Reading the decimal numeral of a natural number gives the number back. -/
theorem strToNat_repr (k : Nat) : strToNat (Nat.repr k).data = some k := by
  unfold strToNat Nat.repr Nat.toDigits
  simp only [List.asString]
  rw [if_neg (toDigitsCore_ne_nil k k)]
  exact parseDigits_toDigitsCore (k + 1) k (by omega)

/-- A decimal numeral starts with a digit. -/
theorem repr_head_isDigit (k : Nat) :
    ∃ c cs, (Nat.repr k).data = c :: cs ∧ c.isDigit = true := by
  have hne : (Nat.repr k).data ≠ [] := by
    unfold Nat.repr Nat.toDigits
    simp only [List.asString]
    exact toDigitsCore_ne_nil k k
  obtain ⟨c, cs, h⟩ := List.exists_cons_of_ne_nil hne
  exact ⟨c, cs, h, repr_isDigit k c (by rw [h]; exact List.mem_cons_self _ _)⟩

/-- `strToInt` on a non-empty text. -/
theorem strToInt_cons (c : Char) (ds : List Char) :
    strToInt (c :: ds) =
      (if c = '+' then (strToNat ds).map (fun (n : Nat) => Int.ofNat n)
       else if c = '-' then (strToNat ds).map (fun (n : Nat) => -Int.ofNat n)
       else (strToNat (c :: ds)).map (fun (n : Nat) => Int.ofNat n)).bind
        (fun i => if isInt i then some i else none) := rfl

/-- `strToInt` reads a decimal numeral, bare or after a sign, within the range of `int`. -/
theorem strToInt_repr (k : Nat) (hk : Int.ofNat k < 2 ^ 63) :
    strToInt (Nat.repr k).data = some (Int.ofNat k) ∧
    strToInt ('+' :: (Nat.repr k).data) = some (Int.ofNat k) ∧
    strToInt ('-' :: (Nat.repr k).data) = some (-Int.ofNat k) := by
  have h := strToNat_repr k
  have hnn : (0 : Int) ≤ Int.ofNat k := Int.ofNat_nonneg k
  have hi1 : isInt (Int.ofNat k) := ⟨by omega, hk⟩
  have hi2 : isInt (-Int.ofNat k) := ⟨by omega, by omega⟩
  obtain ⟨c, cs, hcs, hc⟩ := repr_head_isDigit k
  have hp : c ≠ '+' := by intro e; rw [e] at hc; exact absurd hc (by decide)
  have hm : c ≠ '-' := by intro e; rw [e] at hc; exact absurd hc (by decide)
  refine ⟨?_, ?_, ?_⟩
  · rw [hcs] at h ⊢
    rw [strToInt_cons, if_neg hp, if_neg hm, h, Option.map_some', Option.some_bind, if_pos hi1]
  · rw [strToInt_cons, if_pos rfl, h, Option.map_some', Option.some_bind, if_pos hi1]
  · rw [strToInt_cons, if_neg (by decide), if_pos rfl, h, Option.map_some', Option.some_bind,
      if_pos hi2]

/-- A sign without digits is not an integer. -/
theorem strToInt_sign_only : strToInt ['+'] = none ∧ strToInt ['-'] = none := by
  constructor <;> rfl

/-- A weekday code has two letters. -/
theorem codeToDay_length (code : List Char) (d : Int) (h : codeToDay code = some d) :
    code.length = 2 := by
  unfold codeToDay at h
  split_ifs at h with h1 h2 h3 h4 h5 h6 h7 <;> (subst_vars; rfl)

/-- A weekday token made of an integer text and a code. -/
theorem strToWeekday_ordinal (pre code : List Char) (d n : Int)
    (hcode : codeToDay code = some d) (hpre : pre ≠ []) (hn : strToInt pre = some n) :
    strToWeekday (pre ++ code) = some ⟨d, n⟩ := by
  have hlen := codeToDay_length code d hcode
  have hpl : 0 < pre.length := List.length_pos.mpr hpre
  unfold strToWeekday
  have hl : (pre ++ code).length = pre.length + 2 := by rw [List.length_append, hlen]
  rw [hl, if_neg (by omega), Nat.add_sub_cancel, List.drop_left, hcode]
  simp only
  rw [if_neg (by omega), List.take_left, hn]
  rfl

/-- A weekday token that is a code alone. -/
theorem strToWeekday_bare (code : List Char) (d : Int) (hcode : codeToDay code = some d) :
    strToWeekday code = some ⟨d, 0⟩ := by
  have hlen := codeToDay_length code d hcode
  unfold strToWeekday
  rw [hlen, if_neg (by omega), Nat.sub_self, List.drop_zero, hcode]
  simp only
  rw [if_pos trivial]

/-- A weekday token whose ordinal does not read is rejected. -/
theorem strToWeekday_fail (pre code : List Char) (d : Int)
    (hcode : codeToDay code = some d) (hpre : pre ≠ []) (hn : strToInt pre = none) :
    strToWeekday (pre ++ code) = none := by
  have hlen := codeToDay_length code d hcode
  have hpl : 0 < pre.length := List.length_pos.mpr hpre
  unfold strToWeekday
  have hl : (pre ++ code).length = pre.length + 2 := by rw [List.length_append, hlen]
  rw [hl, if_neg (by omega), Nat.add_sub_cancel, List.drop_left, hcode]
  simp only
  rw [if_neg (by omega), List.take_left, hn]
  rfl

/-- The codes of the table are read back as their days. -/
theorem codeToDay_codes (d : Int) (h0 : 0 ≤ d) (h6 : d ≤ 6) :
    codeToDay ((index weekdayCodes d).getD "").data = some d := by
  interval_cases d <;> rfl

/-- A text without the separator is its own single piece. -/
theorem splitOn_not_mem (c : Char) : ∀ cs : List Char, c ∉ cs → splitOn c cs = [cs] := by
  intro cs
  induction cs with
  | nil => intro _; rfl
  | cons x xs ih =>
    intro h
    have hx : x ≠ c := fun e => h (e ▸ List.mem_cons_self _ _)
    have hxs : c ∉ xs := fun hm => h (List.mem_cons_of_mem _ hm)
    simp only [splitOn, if_neg hx, ih hxs]

/-- The first piece ends at the first separator. -/
theorem splitOn_append (c : Char) (ys : List Char) :
    ∀ xs : List Char, c ∉ xs → splitOn c (xs ++ c :: ys) = xs :: splitOn c ys := by
  intro xs
  induction xs with
  | nil => intro _; simp [splitOn]
  | cons x xs ih =>
    intro h
    have hx : x ≠ c := fun e => h (e ▸ List.mem_cons_self _ _)
    have hxs : c ∉ xs := fun hm => h (List.mem_cons_of_mem _ hm)
    have key := ih hxs
    simp only [List.cons_append, splitOn, if_neg hx]
    simp only [List.append_eq] at key ⊢
    rw [key]

/-- The parameter `FREQ=WEEKLY` read into the unset options. -/
theorem parseParam_freq (p : List Char → Option Time) :
    parseParam p (unsetOptions, false) "FREQ=WEEKLY".data =
      some ({ unsetOptions with Freq := Frequency.WEEKLY }, true) := by
  rfl

set_option maxRecDepth 100000 in
/-- A `BYDAY` parameter reads its value as a list of weekday tokens. -/
theorem parseParam_byday (p : List Char → Option Time) (acc : ROption × Bool)
    (value : List Char) (hne : value ≠ []) (heq : '=' ∉ value) :
    parseParam p acc ("BYDAY=".data ++ value) =
      (strToWeekdays value).map (fun v => ({ acc.1 with Byweekday := v }, acc.2)) := by
  have hs : splitOn '=' ("BYDAY=".data ++ value) = ["BYDAY".data, value] := by
    have := splitOn_append '=' value "BYDAY".data (by decide)
    rw [splitOn_not_mem '=' value heq] at this
    exact this
  unfold parseParam
  rw [hs]
  simp only
  rw [if_neg hne]
  rfl

/-- A text that neither begins nor ends with white space is trimmed to itself. -/
theorem trimSpace_id (a b : Char) (mid : List Char) (ha : isSpace a = false)
    (hb : isSpace b = false) : trimSpace (a :: (mid ++ [b])) = a :: (mid ++ [b]) := by
  unfold trimSpace
  have h1 : (a :: (mid ++ [b])).dropWhile isSpace = a :: (mid ++ [b]) := by
    simp [List.dropWhile, ha]
  rw [h1]
  have h2 : (a :: (mid ++ [b])).reverse = b :: (a :: mid).reverse := by simp
  rw [h2]
  have h3 : (b :: (a :: mid).reverse).dropWhile isSpace = b :: (a :: mid).reverse := by
    simp [List.dropWhile, hb]
  rw [h3]
  simp

/-- A value without comma is a single weekday token. -/
theorem strToWeekdays_single (tok : List Char) (hc : ',' ∉ tok) :
    strToWeekdays tok = (strToWeekday tok).map (fun w => [w]) := by
  unfold strToWeekdays
  rw [splitOn_not_mem ',' tok hc]
  rw [List.mapM_cons, List.mapM_nil]
  cases strToWeekday tok <;> rfl

set_option maxRecDepth 100000 in
/-- The rule string `FREQ=WEEKLY;BYDAY=` followed by one weekday token reads as the token does. -/
theorem StrToROption_byday (p q : List Char → Option Time) (tok : List Char)
    (hne : tok ≠ [])
    (hchars : ∀ c ∈ tok, c ≠ '=' ∧ c ≠ ';' ∧ c ≠ ',' ∧ c ≠ '\n' ∧ isSpace c = false) :
    StrToROption p q (String.mk ("FREQ=WEEKLY;BYDAY=".data ++ tok)) =
      (strToWeekday tok).map
        (fun w => { unsetOptions with Freq := Frequency.WEEKLY, Byweekday := [w] }) := by
  obtain ⟨t, b, rfl⟩ : ∃ t b, tok = t ++ [b] := by
    rcases List.eq_nil_or_concat tok with h | ⟨t, b, h⟩
    · exact absurd h hne
    · exact ⟨t, b, by rw [h, List.concat_eq_append]⟩
  have hb := hchars b (by simp)
  have hmem : ∀ c : Char, (c ∉ "FREQ=WEEKLY;BYDAY=".data) → (∀ x ∈ t ++ [b], x ≠ c) →
      c ∉ "FREQ=WEEKLY;BYDAY=".data ++ (t ++ [b]) := by
    intro c h1 h2 hm
    rcases List.mem_append.mp hm with hm | hm
    · exact h1 hm
    · exact h2 c hm rfl
  have htrim : trimSpace ("FREQ=WEEKLY;BYDAY=".data ++ (t ++ [b])) =
      "FREQ=WEEKLY;BYDAY=".data ++ (t ++ [b]) := by
    have := trimSpace_id 'F' b ("REQ=WEEKLY;BYDAY=".data ++ t) (by decide) hb.2.2.2.2
    simpa using this
  have hnl : splitOn '\n' ("FREQ=WEEKLY;BYDAY=".data ++ (t ++ [b])) =
      ["FREQ=WEEKLY;BYDAY=".data ++ (t ++ [b])] :=
    splitOn_not_mem _ _ (hmem _ (by decide) (fun x hx => (hchars x hx).2.2.2.1))
  have hsemi : splitOn ';' ("FREQ=WEEKLY;BYDAY=".data ++ (t ++ [b])) =
      ["FREQ=WEEKLY".data, "BYDAY=".data ++ (t ++ [b])] := by
    have h1 := splitOn_append ';' ("BYDAY=".data ++ (t ++ [b])) "FREQ=WEEKLY".data (by decide)
    have h2 : ';' ∉ "BYDAY=".data ++ (t ++ [b]) := by
      intro hm
      rcases List.mem_append.mp hm with hm | hm
      · exact absurd hm (by decide)
      · exact (hchars _ hm).2.1 rfl
    rw [splitOn_not_mem _ _ h2] at h1
    exact h1
  have hlead : dropLeading "RRULE:".data ("FREQ=WEEKLY;BYDAY=".data ++ (t ++ [b])) =
      "FREQ=WEEKLY;BYDAY=".data ++ (t ++ [b]) := rfl
  have hday := parseParam_byday p ({ unsetOptions with Freq := Frequency.WEEKLY }, true)
    (t ++ [b]) hne (fun hm => (hchars _ hm).1 rfl)
  rw [strToWeekdays_single _ (fun hm => (hchars _ hm).2.2.1 rfl)] at hday
  have hfreq := parseParam_freq p
  have hdata : (String.mk ("FREQ=WEEKLY;BYDAY=".data ++ (t ++ [b]))).data =
      "FREQ=WEEKLY;BYDAY=".data ++ (t ++ [b]) := rfl
  unfold StrToROption
  rw [hdata]
  generalize "FREQ=WEEKLY;BYDAY=".data ++ (t ++ [b]) = L at htrim hnl hsemi hlead ⊢
  generalize "BYDAY=".data ++ (t ++ [b]) = M at hsemi hday
  generalize "FREQ=WEEKLY".data = F at hsemi hfreq
  simp only [htrim, hnl]
  rw [hlead, hsemi]
  simp only [parseParams]
  rw [hfreq, Option.some_bind, hday]
  cases strToWeekday (t ++ [b]) <;> rfl

/-- A digit is neither a separator of the grammar nor white space. -/
theorem digit_not_separator (c : Char) (h : c.isDigit = true) :
    c ≠ '=' ∧ c ≠ ';' ∧ c ≠ ',' ∧ c ≠ '\n' ∧ isSpace c = false := by
  have key : ∀ s : Char, s.isDigit = false → c ≠ s := by
    intro s hs e
    rw [e, hs] at h
    exact absurd h (by decide)
  refine ⟨key _ (by decide), key _ (by decide), key _ (by decide), key _ (by decide), ?_⟩
  unfold isSpace
  have h1 := key ' ' (by decide)
  have h2 := key '\t' (by decide)
  have h3 := key '\n' (by decide)
  have h4 := key '\r' (by decide)
  simp [h1, h2, h3, h4]

/-- The letters of a weekday code are neither separators of the grammar nor white space. -/
theorem code_not_separator (code : List Char) (d : Int) (h : codeToDay code = some d) :
    ∀ c ∈ code, c ≠ '=' ∧ c ≠ ';' ∧ c ≠ ',' ∧ c ≠ '\n' ∧ isSpace c = false := by
  unfold codeToDay at h
  split_ifs at h with h1 h2 h3 h4 h5 h6 h7 <;> (subst_vars; decide)

/-- The characters of a weekday token are neither separators of the grammar nor white space. -/
theorem token_chars (pre code : List Char) (d : Int) (hcode : codeToDay code = some d)
    (hpre : ∀ c ∈ pre, c ≠ '=' ∧ c ≠ ';' ∧ c ≠ ',' ∧ c ≠ '\n' ∧ isSpace c = false) :
    ∀ c ∈ pre ++ code, c ≠ '=' ∧ c ≠ ';' ∧ c ≠ ',' ∧ c ≠ '\n' ∧ isSpace c = false := by
  intro c hc
  rcases List.mem_append.mp hc with h | h
  · exact hpre c h
  · exact code_not_separator code d hcode c h

/-! ## Lemmas on the store of backing arrays -/

/-- A store keeps its own arrays. -/
theorem keeps_refl {α : Type} (n : Nat) (m : Arrays α) : Arrays.keeps n m m :=
  fun _ _ => rfl

/-- Keeping the arrays below `n` composes. -/
theorem keeps_trans {α : Type} {n : Nat} {m1 m2 m3 : Arrays α}
    (h12 : Arrays.keeps n m1 m2) (h23 : Arrays.keeps n m2 m3) : Arrays.keeps n m1 m3 :=
  fun i hi => (h23 i hi).trans (h12 i hi)

/-- A slice over a kept array reads the same elements. -/
theorem keeps_read {α : Type} {n : Nat} {m m' : Arrays α} (h : Arrays.keeps n m m')
    (s : Slice) (hs : s.arr < n) : m'.read s = m.read s := by
  unfold Arrays.read
  rw [h s.arr hs]

/-- `make` keeps the arrays in use and returns a slice over a new one. -/
theorem make_keeps {α : Type} (zero : α) (n : Nat) (m : Arrays α) (k : Nat)
    (hn : n ≤ m.next) :
    Arrays.keeps n m (Arrays.make zero m k).1 ∧ n ≤ (Arrays.make zero m k).2.arr ∧
      n ≤ (Arrays.make zero m k).1.next := by
  refine ⟨?_, hn, Nat.le_succ_of_le hn⟩
  intro i hi
  simp only [Arrays.make]
  rw [if_neg (by omega)]

/-- Replacing an array keeps the arrays below it. -/
theorem put_keeps {α : Type} (n : Nat) (m : Arrays α) (a : Nat) (c : List α) (ha : n ≤ a) :
    Arrays.keeps n m (m.put a c) := by
  intro i hi
  simp only [Arrays.put]
  rw [if_neg (by omega)]

/-- `append` to a slice over a new array keeps the older arrays. -/
theorem append_keeps {α : Type} (zero : α) (n : Nat) (m : Arrays α) (s : Slice) (v : α)
    (hn : n ≤ m.next) (hs : n ≤ s.arr) :
    Arrays.keeps n m (Arrays.append zero m s v).1 ∧ n ≤ (Arrays.append zero m s v).2.arr ∧
      n ≤ (Arrays.append zero m s v).1.next := by
  unfold Arrays.append
  split_ifs
  · exact ⟨put_keeps n m _ _ hs, hs, hn⟩
  · refine ⟨?_, hn, Nat.le_succ_of_le hn⟩
    intro i hi
    simp only
    rw [if_neg (by omega)]

/-- Appending several values to a slice over a new array keeps the older arrays. -/
theorem appendAll_keeps {α : Type} (zero : α) (n : Nat) (vs : List α) :
    ∀ (m : Arrays α) (s : Slice), n ≤ m.next → n ≤ s.arr →
      Arrays.keeps n m (Arrays.appendAll zero m s vs).1 ∧
        n ≤ (Arrays.appendAll zero m s vs).2.arr ∧
        n ≤ (Arrays.appendAll zero m s vs).1.next := by
  induction vs with
  | nil => intro m s hn hs; exact ⟨keeps_refl n m, hs, hn⟩
  | cons v vs ih =>
    intro m s hn hs
    obtain ⟨h1, h2, h3⟩ := append_keeps zero n m s v hn hs
    obtain ⟨g1, g2, g3⟩ := ih (Arrays.append zero m s v).1 (Arrays.append zero m s v).2 h3 h2
    exact ⟨keeps_trans h1 g1, g2, g3⟩

/-- Sorting a slice over a new array keeps the older arrays. -/
theorem sort_keeps {α : Type} (order : List α → List α) (n : Nat) (m : Arrays α) (s : Slice)
    (hs : n ≤ s.arr) :
    Arrays.keeps n m (Arrays.sort order m s) ∧ (Arrays.sort order m s).next = m.next :=
  ⟨put_keeps n m _ _ hs, rfl⟩

/-- The loop over the month days keeps the arrays older than `pos` and `neg`. -/
theorem monthDays_fold_keeps (n : Nat) (vs : List Int) :
    ∀ (acc : Arrays Int × Slice × Slice), n ≤ acc.1.next → n ≤ acc.2.1.arr → n ≤ acc.2.2.arr →
      Arrays.keeps n acc.1 (vs.foldl monthDayStep acc).1 ∧
        n ≤ (vs.foldl monthDayStep acc).1.next ∧
        n ≤ (vs.foldl monthDayStep acc).2.1.arr ∧ n ≤ (vs.foldl monthDayStep acc).2.2.arr := by
  induction vs with
  | nil => intro acc h1 h2 h3; exact ⟨keeps_refl n _, h1, h2, h3⟩
  | cons v vs ih =>
    intro acc h1 h2 h3
    simp only [List.foldl_cons]
    by_cases hv : 0 < v
    · obtain ⟨a1, a2, a3⟩ := append_keeps 0 n acc.1 acc.2.1 v h1 h2
      have hstep : monthDayStep acc v = ((Arrays.append 0 acc.1 acc.2.1 v).1,
          (Arrays.append 0 acc.1 acc.2.1 v).2, acc.2.2) := by
        unfold monthDayStep; rw [if_pos hv]
      rw [hstep]
      obtain ⟨g1, g2, g3, g4⟩ := ih ((Arrays.append 0 acc.1 acc.2.1 v).1,
        (Arrays.append 0 acc.1 acc.2.1 v).2, acc.2.2) a3 a2 h3
      exact ⟨keeps_trans a1 g1, g2, g3, g4⟩
    · obtain ⟨a1, a2, a3⟩ := append_keeps 0 n acc.1 acc.2.2 v h1 h3
      have hstep : monthDayStep acc v = ((Arrays.append 0 acc.1 acc.2.2 v).1, acc.2.1,
          (Arrays.append 0 acc.1 acc.2.2 v).2) := by
        unfold monthDayStep; rw [if_neg hv]
      rw [hstep]
      obtain ⟨g1, g2, g3, g4⟩ := ih ((Arrays.append 0 acc.1 acc.2.2 v).1, acc.2.1,
        (Arrays.append 0 acc.1 acc.2.2 v).2) a3 h2 a2
      exact ⟨keeps_trans a1 g1, g2, g3, g4⟩

/-- The month-day part of `newToText` keeps every array that was in use. -/
theorem monthDaysMem_keeps (m : Arrays Int) (r : RuleSlices) :
    Arrays.keeps m.next m (monthDaysMem m r).1 := by
  unfold monthDaysMem
  split_ifs
  · simp only
    obtain ⟨a1, a2, a3⟩ := make_keeps (0 : Int) m.next m r.bymonthday.len (Nat.le_refl _)
    generalize Arrays.make (0 : Int) m r.bymonthday.len = m1 at a1 a2 a3 ⊢
    obtain ⟨b1, b2, b3⟩ := make_keeps (0 : Int) m.next m1.1 r.bymonthday.len a3
    generalize Arrays.make (0 : Int) m1.1 r.bymonthday.len = m2 at b1 b2 b3 ⊢
    obtain ⟨c1, c2, c3, c4⟩ := monthDays_fold_keeps m.next (m2.1.read r.origBymonthday)
      (m2.1, m1.2, m2.2) b3 a2 b2
    generalize (m2.1.read r.origBymonthday).foldl monthDayStep (m2.1, m1.2, m2.2) = m3
      at c1 c2 c3 c4 ⊢
    obtain ⟨d1, d2⟩ := sort_keeps
      (fun l : List Int => l.insertionSort (fun a b => a ≤ b)) m.next m3.1 m3.2.1 c3
    generalize Arrays.sort (fun l : List Int => l.insertionSort (fun a b => a ≤ b))
      m3.1 m3.2.1 = m4 at d1 d2 ⊢
    obtain ⟨e1, e2⟩ := sort_keeps
      (fun l : List Int => l.insertionSort (fun a b => b ≤ a)) m.next m4 m3.2.2 c4
    generalize Arrays.sort (fun l : List Int => l.insertionSort (fun a b => b ≤ a))
      m4 m3.2.2 = m5 at e1 e2 ⊢
    obtain ⟨f1, _, _⟩ := appendAll_keeps (0 : Int) m.next (m5.read m3.2.2) m5 m3.2.1
      (by rw [e2, d2]; exact c2) c3
    exact keeps_trans a1 (keeps_trans b1 (keeps_trans c1 (keeps_trans d1 (keeps_trans e1 f1))))
  · exact keeps_refl _ _

/-- The loop over the weekdays keeps the arrays older than `allWeeks` and `someWeeks`. -/
theorem weekDays_fold_keeps (n : Nat) (vs : List Weekday) :
    ∀ (acc : Arrays Weekday × Slice × Slice),
      n ≤ acc.1.next → n ≤ acc.2.1.arr → n ≤ acc.2.2.arr →
      Arrays.keeps n acc.1 (vs.foldl weekDayStep acc).1 ∧
        n ≤ (vs.foldl weekDayStep acc).1.next ∧
        n ≤ (vs.foldl weekDayStep acc).2.1.arr ∧ n ≤ (vs.foldl weekDayStep acc).2.2.arr := by
  induction vs with
  | nil => intro acc h1 h2 h3; exact ⟨keeps_refl n _, h1, h2, h3⟩
  | cons v vs ih =>
    intro acc h1 h2 h3
    simp only [List.foldl_cons]
    by_cases hv : v.N = 0
    · obtain ⟨a1, a2, a3⟩ := append_keeps MO n acc.1 acc.2.1 v h1 h2
      have hstep : weekDayStep acc v = ((Arrays.append MO acc.1 acc.2.1 v).1,
          (Arrays.append MO acc.1 acc.2.1 v).2, acc.2.2) := by
        unfold weekDayStep; simp [hv]
      rw [hstep]
      obtain ⟨g1, g2, g3, g4⟩ := ih ((Arrays.append MO acc.1 acc.2.1 v).1,
        (Arrays.append MO acc.1 acc.2.1 v).2, acc.2.2) a3 a2 h3
      exact ⟨keeps_trans a1 g1, g2, g3, g4⟩
    · obtain ⟨a1, a2, a3⟩ := append_keeps MO n acc.1 acc.2.2 v h1 h3
      have hstep : weekDayStep acc v = ((Arrays.append MO acc.1 acc.2.2 v).1, acc.2.1,
          (Arrays.append MO acc.1 acc.2.2 v).2) := by
        unfold weekDayStep; simp [hv]
      rw [hstep]
      obtain ⟨g1, g2, g3, g4⟩ := ih ((Arrays.append MO acc.1 acc.2.2 v).1, acc.2.1,
        (Arrays.append MO acc.1 acc.2.2 v).2) a3 h2 a2
      exact ⟨keeps_trans a1 g1, g2, g3, g4⟩

/-- The weekday part of `newToText` keeps every array that was in use. -/
theorem weekDaysMem_keeps (m : Arrays Weekday) (r : RuleSlices) :
    Arrays.keeps m.next m (weekDaysMem m r).1 := by
  unfold weekDaysMem
  split_ifs
  · simp only
    obtain ⟨a1, a2, a3⟩ := make_keeps MO m.next m r.origByweekday.len (Nat.le_refl _)
    generalize Arrays.make MO m r.origByweekday.len = m1 at a1 a2 a3 ⊢
    obtain ⟨b1, b2, b3⟩ := make_keeps MO m.next m1.1 r.origByweekday.len a3
    generalize Arrays.make MO m1.1 r.origByweekday.len = m2 at b1 b2 b3 ⊢
    obtain ⟨c1, c2, c3, c4⟩ := weekDays_fold_keeps m.next (m2.1.read r.origByweekday)
      (m2.1, m1.2, m2.2) b3 a2 b2
    generalize (m2.1.read r.origByweekday).foldl weekDayStep (m2.1, m1.2, m2.2) = m3
      at c1 c2 c3 c4 ⊢
    obtain ⟨d1, d2⟩ := sort_keeps weekDaysSort m.next m3.1 m3.2.1 c3
    generalize Arrays.sort weekDaysSort m3.1 m3.2.1 = m4 at d1 d2 ⊢
    obtain ⟨e1, _⟩ := sort_keeps weekDaysSort m.next m4 m3.2.2 c4
    exact keeps_trans a1 (keeps_trans b1 (keeps_trans c1 (keeps_trans d1 e1)))
  · exact keeps_refl _ _

/-- Writing at position `k` and keeping the first `k + 1` elements. -/
theorem set_take_succ {α : Type} (l : List α) (k : Nat) (v : α) (h : k < l.length) :
    (l.set k v).take (k + 1) = l.take k ++ [v] := by
  induction l generalizing k with
  | nil => simp at h
  | cons a l ih =>
    cases k with
    | zero => simp
    | succ k =>
      simp only [List.set_cons_succ, List.take_succ_cons, List.cons_append, List.cons.injEq,
        true_and]
      exact ih k (by simpa using h)

/-- Writing right behind a window of a list extends the window by the value. -/
theorem drop_take_set {α : Type} (l : List α) (off len : Nat) (v : α)
    (h : off + len < l.length) :
    ((l.set (off + len) v).drop off).take (len + 1) = (l.drop off).take len ++ [v] := by
  induction l generalizing off with
  | nil => simp at h
  | cons a l ih =>
    cases off with
    | zero =>
      simp only [Nat.zero_add, List.drop_zero]
      exact set_take_succ _ _ _ (by simpa using h)
    | succ off =>
      have e : off + 1 + len = (off + len) + 1 := by omega
      rw [e]
      simp only [List.set_cons_succ, List.drop_succ_cons]
      exact ih off (by simp at h; omega)

/-- A slice that fits its array reads as many elements as its length. -/
theorem read_length {α : Type} (m : Arrays α) (s : Slice) (h : s.fits m) :
    (m.read s).length = s.len := by
  unfold Slice.fits at h
  unfold Arrays.read
  rw [List.length_take, List.length_drop]
  omega

/-- An owned slice fits its array. -/
theorem owned_fits {α : Type} (m : Arrays α) (s : Slice) (h : s.owned m) : s.fits m := by
  unfold Slice.owned at h
  unfold Slice.fits
  omega

/-- The slice that `make` returns is empty, owned and over a new array. -/
theorem make_spec {α : Type} (zero : α) (m : Arrays α) (k : Nat) :
    (Arrays.make zero m k).2.owned (Arrays.make zero m k).1 ∧
    (Arrays.make zero m k).1.read (Arrays.make zero m k).2 = [] ∧
    (Arrays.make zero m k).2.arr = m.next ∧
    (Arrays.make zero m k).1.next = m.next + 1 ∧
    ∀ i, i ≠ m.next → (Arrays.make zero m k).1.cells i = m.cells i := by
  refine ⟨?_, ?_, rfl, rfl, ?_⟩
  · simp [Slice.owned, Arrays.make]
  · simp [Arrays.read, Arrays.make]
  · intro i hi
    simp [Arrays.make, hi]

/-- The slice that `append` returns holds the elements of its argument and the value; it is
owned, and the other arrays in use are as before. -/
theorem append_spec {α : Type} (zero : α) (m : Arrays α) (s : Slice) (v : α)
    (h : s.owned m) (hs : s.arr < m.next) :
    (Arrays.append zero m s v).1.read (Arrays.append zero m s v).2 = m.read s ++ [v] ∧
    (Arrays.append zero m s v).2.owned (Arrays.append zero m s v).1 ∧
    (Arrays.append zero m s v).2.arr < (Arrays.append zero m s v).1.next ∧
    m.next ≤ (Arrays.append zero m s v).1.next ∧
    ((Arrays.append zero m s v).2.arr = s.arr ∨ (Arrays.append zero m s v).2.arr = m.next) ∧
    ∀ i, i < m.next → i ≠ s.arr → (Arrays.append zero m s v).1.cells i = m.cells i := by
  obtain ⟨hl, hc⟩ := h
  unfold Arrays.append
  split_ifs with hlt
  · refine ⟨?_, ?_, hs, Nat.le_refl _, Or.inl rfl, ?_⟩
    · simp only [Arrays.read, Arrays.put, if_true]
      exact drop_take_set _ _ _ _ (by omega)
    · simp only [Slice.owned, Arrays.put, if_true, List.length_set]
      exact ⟨by omega, hc⟩
    · intro i _ hi
      simp only [Arrays.put]
      rw [if_neg hi]
  · have hlen : (m.read s).length = s.len := read_length m s (by unfold Slice.fits; omega)
    refine ⟨?_, ?_, Nat.lt_succ_self _, Nat.le_succ _, Or.inr rfl, ?_⟩
    · simp only [Arrays.read, if_true, List.drop_zero]
      have e : m.read s ++ v :: List.replicate (s.cap + 1) zero =
          (m.read s ++ [v]) ++ List.replicate (s.cap + 1) zero := by simp
      unfold Arrays.read at e hlen
      rw [e, List.take_append_of_le_length (by simp [hlen])]
      exact List.take_of_length_le (by simp [hlen])
    · simp only [Slice.owned, if_true, List.length_append, List.length_cons,
        List.length_replicate, hlen]
      omega
    · intro i hi _
      simp only
      rw [if_neg (by omega)]


/-- Reading and ownership of a slice depend on its own array only. -/
theorem read_owned_congr {α : Type} (m m' : Arrays α) (t : Slice)
    (h : m'.cells t.arr = m.cells t.arr) :
    m'.read t = m.read t ∧ (t.owned m → t.owned m') := by
  refine ⟨?_, ?_⟩
  · unfold Arrays.read; rw [h]
  · unfold Slice.owned; rw [h]; exact id

/-- Appending to the first of two slices. -/
theorem append_left {α : Type} (zero : α) (m : Arrays α) (p n : Slice) (v : α)
    (ps ns : List α) (h : Arrays.holds (m, p, n) ps ns) :
    Arrays.holds ((Arrays.append zero m p v).1, (Arrays.append zero m p v).2, n)
      (ps ++ [v]) ns := by
  obtain ⟨h1, h2, h3, h4, h5, h6, h7⟩ := h
  simp only at h1 h2 h3 h4 h5 h6 h7
  obtain ⟨a1, a2, a3, a4, a5, a6⟩ := append_spec zero m p v h1 h4
  obtain ⟨b1, b2⟩ := read_owned_congr m (Arrays.append zero m p v).1 n
    (a6 n.arr h5 (Ne.symm h3))
  refine ⟨a2, b2 h2, ?_, a3, Nat.lt_of_lt_of_le h5 a4, ?_, ?_⟩
  · simp only
    rcases a5 with e | e
    · rw [e]; exact h3
    · rw [e]; omega
  · simp only; rw [a1, h6]
  · simp only; rw [b1, h7]

/-- Appending to the second of two slices. -/
theorem append_right {α : Type} (zero : α) (m : Arrays α) (p n : Slice) (v : α)
    (ps ns : List α) (h : Arrays.holds (m, p, n) ps ns) :
    Arrays.holds ((Arrays.append zero m n v).1, p, (Arrays.append zero m n v).2)
      ps (ns ++ [v]) := by
  obtain ⟨h1, h2, h3, h4, h5, h6, h7⟩ := h
  simp only at h1 h2 h3 h4 h5 h6 h7
  obtain ⟨a1, a2, a3, a4, a5, a6⟩ := append_spec zero m n v h2 h5
  obtain ⟨b1, b2⟩ := read_owned_congr m (Arrays.append zero m n v).1 p (a6 p.arr h4 h3)
  refine ⟨b2 h1, a2, ?_, Nat.lt_of_lt_of_le h4 a4, a3, ?_, ?_⟩
  · simp only
    rcases a5 with e | e
    · rw [e]; exact h3
    · rw [e]; omega
  · simp only; rw [b1, h6]
  · simp only; rw [a1, h7]

/-- The loop over the month days fills `pos` with the positive days and `neg` with the
others, in the order of the list. -/
theorem monthDays_fold_holds (vs : List Int) :
    ∀ (acc : Arrays Int × Slice × Slice) (ps ns : List Int), Arrays.holds acc ps ns →
      Arrays.holds (vs.foldl monthDayStep acc)
        (ps ++ vs.filter (fun d => 0 < d)) (ns ++ vs.filter (fun d => ¬ 0 < d)) := by
  induction vs with
  | nil => intro acc ps ns h; simpa using h
  | cons v vs ih =>
    intro acc ps ns h
    simp only [List.foldl_cons]
    by_cases hv : 0 < v
    · have hstep : monthDayStep acc v = ((Arrays.append 0 acc.1 acc.2.1 v).1,
          (Arrays.append 0 acc.1 acc.2.1 v).2, acc.2.2) := by
        unfold monthDayStep; rw [if_pos hv]
      rw [hstep]
      have := ih _ _ _ (append_left 0 acc.1 acc.2.1 acc.2.2 v ps ns h)
      simpa [List.filter_cons, hv] using this
    · have hstep : monthDayStep acc v = ((Arrays.append 0 acc.1 acc.2.2 v).1, acc.2.1,
          (Arrays.append 0 acc.1 acc.2.2 v).2) := by
        unfold monthDayStep; rw [if_neg hv]
      rw [hstep]
      have := ih _ _ _ (append_right 0 acc.1 acc.2.1 acc.2.2 v ps ns h)
      have hle : v ≤ 0 := not_lt.mp hv
      simpa [List.filter_cons, hv, hle] using this

/-- The loop over the weekdays fills `allWeeks` with the weekdays without ordinal and
`someWeeks` with the others, in the order of the list. -/
theorem weekDays_fold_holds (vs : List Weekday) :
    ∀ (acc : Arrays Weekday × Slice × Slice) (ps ns : List Weekday), Arrays.holds acc ps ns →
      Arrays.holds (vs.foldl weekDayStep acc)
        (ps ++ vs.filter (fun w => w.N = 0)) (ns ++ vs.filter (fun w => w.N ≠ 0)) := by
  induction vs with
  | nil => intro acc ps ns h; simpa using h
  | cons v vs ih =>
    intro acc ps ns h
    simp only [List.foldl_cons]
    by_cases hv : v.N = 0
    · have hstep : weekDayStep acc v = ((Arrays.append MO acc.1 acc.2.1 v).1,
          (Arrays.append MO acc.1 acc.2.1 v).2, acc.2.2) := by
        unfold weekDayStep; simp [hv]
      rw [hstep]
      have := ih _ _ _ (append_left MO acc.1 acc.2.1 acc.2.2 v ps ns h)
      simpa [List.filter_cons, hv] using this
    · have hstep : weekDayStep acc v = ((Arrays.append MO acc.1 acc.2.2 v).1, acc.2.1,
          (Arrays.append MO acc.1 acc.2.2 v).2) := by
        unfold weekDayStep; simp [hv]
      rw [hstep]
      have := ih _ _ _ (append_right MO acc.1 acc.2.1 acc.2.2 v ps ns h)
      simpa [List.filter_cons, hv] using this


/-- Sorting an owned slice in place: the slice holds its elements in the new order and the
array keeps its length. -/
theorem sort_spec {α : Type} (order : List α → List α)
    (hlen : ∀ l, (order l).length = l.length) (m : Arrays α) (s : Slice) (h : s.owned m) :
    (Arrays.sort order m s).read s = order (m.read s) ∧ s.owned (Arrays.sort order m s) ∧
    (Arrays.sort order m s).next = m.next ∧
    ∀ i, i ≠ s.arr → (Arrays.sort order m s).cells i = m.cells i := by
  have hf := owned_fits m s h
  have hr := read_length m s hf
  obtain ⟨hl, hc⟩ := h
  unfold Slice.fits at hf
  have htake : ((m.cells s.arr).take s.off).length = s.off := by
    rw [List.length_take]; omega
  have hcell : (Arrays.sort order m s).cells s.arr =
      (m.cells s.arr).take s.off ++ (order (m.read s) ++ (m.cells s.arr).drop (s.off + s.len)) := by
    simp [Arrays.sort, Arrays.put]
  refine ⟨?_, ?_, rfl, ?_⟩
  · rw [Arrays.read, hcell]
    rw [List.drop_append_of_le_length (by omega), List.drop_of_length_le (by omega),
      List.nil_append, List.take_append_of_le_length (by rw [hlen, hr]),
      List.take_of_length_le (by rw [hlen, hr])]
  · unfold Slice.owned
    rw [hcell]
    refine ⟨hl, ?_⟩
    simp only [List.length_append, htake, hlen, hr, List.length_drop]
    omega
  · intro i hi
    simp only [Arrays.sort, Arrays.put]
    rw [if_neg hi]

/-- Sorting the first of two slices. -/
theorem sort_left {α : Type} (order : List α → List α)
    (hlen : ∀ l, (order l).length = l.length) (m : Arrays α) (p n : Slice)
    (ps ns : List α) (h : Arrays.holds (m, p, n) ps ns) :
    Arrays.holds (Arrays.sort order m p, p, n) (order ps) ns := by
  obtain ⟨h1, h2, h3, h4, h5, h6, h7⟩ := h
  simp only at h1 h2 h3 h4 h5 h6 h7
  obtain ⟨a1, a2, a3, a4⟩ := sort_spec order hlen m p h1
  obtain ⟨b1, b2⟩ := read_owned_congr m (Arrays.sort order m p) n (a4 n.arr (Ne.symm h3))
  refine ⟨a2, b2 h2, h3, ?_, ?_, ?_, ?_⟩
  · simp only; rw [a3]; exact h4
  · simp only; rw [a3]; exact h5
  · simp only; rw [a1, h6]
  · simp only; rw [b1, h7]

/-- Sorting the second of two slices. -/
theorem sort_right {α : Type} (order : List α → List α)
    (hlen : ∀ l, (order l).length = l.length) (m : Arrays α) (p n : Slice)
    (ps ns : List α) (h : Arrays.holds (m, p, n) ps ns) :
    Arrays.holds (Arrays.sort order m n, p, n) ps (order ns) := by
  obtain ⟨h1, h2, h3, h4, h5, h6, h7⟩ := h
  simp only at h1 h2 h3 h4 h5 h6 h7
  obtain ⟨a1, a2, a3, a4⟩ := sort_spec order hlen m n h2
  obtain ⟨b1, b2⟩ := read_owned_congr m (Arrays.sort order m n) p (a4 p.arr h3)
  refine ⟨b2 h1, a2, h3, ?_, ?_, ?_, ?_⟩
  · simp only; rw [a3]; exact h4
  · simp only; rw [a3]; exact h5
  · simp only; rw [b1, h6]
  · simp only; rw [a1, h7]

/-- Appending several values to an owned slice gives a slice that holds its elements and
then the values. -/
theorem appendAll_spec {α : Type} (zero : α) (vs : List α) :
    ∀ (m : Arrays α) (s : Slice), s.owned m → s.arr < m.next →
      (Arrays.appendAll zero m s vs).1.read (Arrays.appendAll zero m s vs).2 =
        m.read s ++ vs := by
  induction vs with
  | nil => intro m s _ _; simp [Arrays.appendAll]
  | cons v vs ih =>
    intro m s h hs
    obtain ⟨a1, a2, a3, _, _, _⟩ := append_spec zero m s v h hs
    have := ih (Arrays.append zero m s v).1 (Arrays.append zero m s v).2 a2 a3
    unfold Arrays.appendAll at this ⊢
    rw [List.foldl_cons, this, a1]
    simp

/-- Two slices made one after the other are empty, owned and over different arrays. -/
theorem make_two_holds {α : Type} (zero : α) (m : Arrays α) (k j : Nat) :
    Arrays.holds ((Arrays.make zero (Arrays.make zero m k).1 j).1, (Arrays.make zero m k).2,
      (Arrays.make zero (Arrays.make zero m k).1 j).2) [] [] := by
  simp [Arrays.holds, Slice.owned, Arrays.make, Arrays.read]
  omega


/-- The month-day part of `newToText` over the store builds the list that the function on
lists builds. -/
theorem monthDaysMem_read (m : Arrays Int) (r : RuleSlices)
    (hw : r.origBymonthday.within m) (hf : r.origBymonthday.fits m) :
    (match (monthDaysMem m r).2 with
      | some s => (monthDaysMem m r).1.read s
      | none => []) =
    if 0 < (m.read r.origBymonthday).length then sortMonthDays (m.read r.origBymonthday)
    else [] := by
  rw [read_length m _ hf]
  unfold monthDaysMem
  split_ifs with hpos
  · simp only
    obtain ⟨a1, _, _⟩ := make_keeps (0 : Int) m.next m r.bymonthday.len (Nat.le_refl _)
    obtain ⟨b1, _, _⟩ := make_keeps (0 : Int) m.next (Arrays.make (0 : Int) m r.bymonthday.len).1
      r.bymonthday.len (Nat.le_succ _)
    have hread : (Arrays.make (0 : Int) (Arrays.make (0 : Int) m r.bymonthday.len).1
        r.bymonthday.len).1.read r.origBymonthday = m.read r.origBymonthday :=
      keeps_read (keeps_trans a1 b1) _ hw
    rw [hread]
    have h0 := make_two_holds (0 : Int) m r.bymonthday.len r.bymonthday.len
    have h3 := monthDays_fold_holds (m.read r.origBymonthday) _ _ _ h0
    simp only [List.nil_append] at h3
    generalize (m.read r.origBymonthday).foldl monthDayStep
      ((Arrays.make (0 : Int) (Arrays.make (0 : Int) m r.bymonthday.len).1
        r.bymonthday.len).1, (Arrays.make (0 : Int) m r.bymonthday.len).2,
      (Arrays.make (0 : Int) (Arrays.make (0 : Int) m r.bymonthday.len).1
        r.bymonthday.len).2) = m3 at h3 ⊢
    have h4 := sort_left (fun l : List Int => l.insertionSort (fun a b => a ≤ b))
      (fun l => List.length_insertionSort _ l) m3.1 m3.2.1 m3.2.2 _ _ h3
    generalize Arrays.sort (fun l : List Int => l.insertionSort (fun a b => a ≤ b))
      m3.1 m3.2.1 = m4 at h4 ⊢
    have h5 := sort_right (fun l : List Int => l.insertionSort (fun a b => b ≤ a))
      (fun l => List.length_insertionSort _ l) m4 m3.2.1 m3.2.2 _ _ h4
    generalize Arrays.sort (fun l : List Int => l.insertionSort (fun a b => b ≤ a))
      m4 m3.2.2 = m5 at h5 ⊢
    obtain ⟨g1, _, _, g4, _, g6, g7⟩ := h5
    simp only at g1 g4 g6 g7
    rw [appendAll_spec (0 : Int) _ m5 m3.2.1 g1 g4, g6, g7]
    rfl
  · rfl


/-- The weekday part of `newToText` over the store builds the lists and the flags that the
function on lists builds. -/
theorem weekDaysMem_read (m : Arrays Weekday) (r : RuleSlices)
    (hw : r.origByweekday.within m) (hf : r.origByweekday.fits m)
    (hn : r.byweekday.within m) :
    (weekDaysMem m r).2.map (fun b =>
      ({ allWeeks := (weekDaysMem m r).1.read b.1,
         someWeeks := (weekDaysMem m r).1.read b.2.1,
         isWeekdays := b.2.2.1, isEveryDay := b.2.2.2 } : byweekday)) =
    if 0 < (m.read r.origByweekday).length then
      some
        { allWeeks := weekDaysSort ((m.read r.origByweekday).filter (fun w => w.N = 0)),
          someWeeks := weekDaysSort ((m.read r.origByweekday).filter (fun w => w.N ≠ 0)),
          isWeekdays :=
            indexOfWeekDay (m.read r.byweekday) MO ≠ -1 ∧
            indexOfWeekDay (m.read r.byweekday) TU ≠ -1 ∧
            indexOfWeekDay (m.read r.byweekday) WE ≠ -1 ∧
            indexOfWeekDay (m.read r.byweekday) TH ≠ -1 ∧
            indexOfWeekDay (m.read r.byweekday) FR ≠ -1 ∧
            indexOfWeekDay (m.read r.byweekday) SA = -1 ∧
            indexOfWeekDay (m.read r.byweekday) SU = -1,
          isEveryDay :=
            indexOfWeekDay (m.read r.byweekday) MO ≠ -1 ∧
            indexOfWeekDay (m.read r.byweekday) TU ≠ -1 ∧
            indexOfWeekDay (m.read r.byweekday) WE ≠ -1 ∧
            indexOfWeekDay (m.read r.byweekday) TH ≠ -1 ∧
            indexOfWeekDay (m.read r.byweekday) FR ≠ -1 ∧
            indexOfWeekDay (m.read r.byweekday) SA ≠ -1 ∧
            indexOfWeekDay (m.read r.byweekday) SU ≠ -1 }
    else none := by
  rw [read_length m _ hf]
  unfold weekDaysMem
  split_ifs with hpos
  · simp only [Option.map_some']
    obtain ⟨a1, _, a3⟩ := make_keeps MO m.next m r.origByweekday.len (Nat.le_refl _)
    obtain ⟨b1, b2, b3⟩ := make_keeps MO m.next (Arrays.make MO m r.origByweekday.len).1
      r.origByweekday.len a3
    have hread : (Arrays.make MO (Arrays.make MO m r.origByweekday.len).1
        r.origByweekday.len).1.read r.origByweekday = m.read r.origByweekday :=
      keeps_read (keeps_trans a1 b1) _ hw
    rw [hread]
    have h0 := make_two_holds MO m r.origByweekday.len r.origByweekday.len
    have h3 := weekDays_fold_holds (m.read r.origByweekday) _ _ _ h0
    obtain ⟨c1, _, _, _⟩ := weekDays_fold_keeps m.next (m.read r.origByweekday)
      ((Arrays.make MO (Arrays.make MO m r.origByweekday.len).1 r.origByweekday.len).1,
        (Arrays.make MO m r.origByweekday.len).2,
        (Arrays.make MO (Arrays.make MO m r.origByweekday.len).1 r.origByweekday.len).2)
      b3 (Nat.le_refl _) b2
    simp only [List.nil_append] at h3
    generalize (m.read r.origByweekday).foldl weekDayStep
      ((Arrays.make MO (Arrays.make MO m r.origByweekday.len).1 r.origByweekday.len).1,
        (Arrays.make MO m r.origByweekday.len).2,
        (Arrays.make MO (Arrays.make MO m r.origByweekday.len).1 r.origByweekday.len).2)
      = m3 at h3 c1 ⊢
    have hnorm : m3.1.read r.byweekday = m.read r.byweekday :=
      keeps_read (keeps_trans a1 (keeps_trans b1 c1)) _ hn
    rw [hnorm]
    have h4 := sort_left weekDaysSort (fun l => List.length_insertionSort _ l)
      m3.1 m3.2.1 m3.2.2 _ _ h3
    generalize Arrays.sort weekDaysSort m3.1 m3.2.1 = m4 at h4 ⊢
    have h5 := sort_right weekDaysSort (fun l => List.length_insertionSort _ l)
      m4 m3.2.1 m3.2.2 _ _ h4
    generalize Arrays.sort weekDaysSort m4 m3.2.2 = m5 at h5 ⊢
    obtain ⟨_, _, _, _, _, g6, g7⟩ := h5
    simp only at g6 g7
    rw [g6, g7]
  · rfl


/-- The summary writer that `newToText` builds over the store is the one that the function
on lists builds from the rule that the store holds. -/
theorem newToTextMem_refines (m : Memory) (r : RuleSlices) (rule : RRule) (loc : Localizer)
    (formatter : TimeFormatter)
    (h1 : r.origBymonthday.within m.ints) (h2 : r.bymonthday.within m.ints)
    (h3 : r.origByweekday.within m.days) (h4 : r.byweekday.within m.days)
    (f1 : r.origBymonthday.fits m.ints) (f3 : r.origByweekday.fits m.days) :
    readWriter (newToTextMem m r).1 (newToTextMem m r).2 r rule loc formatter =
      newToText (readRule m r rule) loc formatter := by
  have hi := monthDaysMem_keeps m.ints r
  have hd := weekDaysMem_keeps m.days r
  have hrule : readRule (newToTextMem m r).1 r rule = readRule m r rule := by
    unfold readRule
    have e1 : (newToTextMem m r).1.ints = (monthDaysMem m.ints r).1 := rfl
    have e2 : (newToTextMem m r).1.days = (weekDaysMem m.days r).1 := rfl
    rw [e1, e2, keeps_read hi _ h1, keeps_read hi _ h2, keeps_read hd _ h3, keeps_read hd _ h4]
  have hmd := monthDaysMem_read m.ints r h1 f1
  have hwd := weekDaysMem_read m.days r h3 f3 h4
  have hnew : newToText (readRule m r rule) loc formatter =
      { bymonthday :=
          if 0 < (m.ints.read r.origBymonthday).length then
            sortMonthDays (m.ints.read r.origBymonthday)
          else [],
        byweekday := (weekDaysMem m.days r).2.map (fun b =>
          ({ allWeeks := (weekDaysMem m.days r).1.read b.1,
             someWeeks := (weekDaysMem m.days r).1.read b.2.1,
             isWeekdays := b.2.2.1, isEveryDay := b.2.2.2 } : byweekday)),
        option := (readRule m r rule).Options,
        origOption := (readRule m r rule).OrigOptions,
        loc := loc,
        formatter := formatter } := by
    rw [hwd]
    unfold newToText
    have e3 : (readRule m r rule).OrigOptions.Byweekday = m.days.read r.origByweekday := rfl
    have e4 : (readRule m r rule).OrigOptions.Bymonthday = m.ints.read r.origBymonthday := rfl
    have e5 : (readRule m r rule).Options.Byweekday = m.days.read r.byweekday := rfl
    rw [e3, e4, e5]
    split_ifs <;> rfl
  rw [hnew, ← hmd]
  unfold readWriter
  rw [hrule]
  rfl

/-- The summary built over the store is the summary of the rule that the store holds. -/
theorem summaryMem_text (m : Memory) (r : RuleSlices) (rule : RRule) (loc : Localizer)
    (formatter : TimeFormatter)
    (h1 : r.origBymonthday.within m.ints) (h2 : r.bymonthday.within m.ints)
    (h3 : r.origByweekday.within m.days) (h4 : r.byweekday.within m.days)
    (f1 : r.origBymonthday.fits m.ints) (f3 : r.origByweekday.fits m.days) :
    (summaryMem m r rule loc formatter).2 =
      (newToText (readRule m r rule) loc formatter).ToString := by
  rw [← newToTextMem_refines m r rule loc formatter h1 h2 h3 h4 f1 f3]
  rfl

/-- The month days that `newToText` builds are those of `sortMonthDays` for every rule. -/
theorem newToText_bymonthday_sort (rule : RRule) (loc : Localizer) (fmt : TimeFormatter) :
    (newToText rule loc fmt).bymonthday = sortMonthDays rule.OrigOptions.Bymonthday := by
  rw [newToText_bymonthday]
  split_ifs with h
  · rw [h]; rfl
  · rfl

/-- The two parts of a list split by a test are a rearrangement of the list. -/
theorem filter_not_perm {α : Type} (p : α → Prop) [DecidablePred p] (l : List α) :
    (l.filter (fun x => p x) ++ l.filter (fun x => ¬ p x)).Perm l := by
  have h := List.filter_append_perm (fun x => decide (p x)) l
  have e : (fun x => !decide (p x)) = (fun x => decide (¬ p x)) := by
    funext x; simp
  rw [e] at h
  exact h

/-- The weekday part that `newToText` builds, with its two flags. -/
theorem newToText_byweekday_flags (rule : RRule) (loc : Localizer) (fmt : TimeFormatter)
    (b : byweekday) (hb : (newToText rule loc fmt).byweekday = some b) :
    rule.OrigOptions.Byweekday ≠ [] ∧
    b.allWeeks = weekDaysSort (rule.OrigOptions.Byweekday.filter (fun w => w.N = 0)) ∧
    b.someWeeks = weekDaysSort (rule.OrigOptions.Byweekday.filter (fun w => w.N ≠ 0)) ∧
    (b.isWeekdays = true → indexOfWeekDay rule.Options.Byweekday SA = -1) ∧
    (b.isEveryDay = true → indexOfWeekDay rule.Options.Byweekday SA ≠ -1) := by
  by_cases hne : rule.OrigOptions.Byweekday = []
  · rw [newToText_byweekday_none rule loc fmt hne] at hb
    exact absurd hb (by simp)
  · have hlen : 0 < rule.OrigOptions.Byweekday.length := List.length_pos.mpr hne
    unfold newToText at hb
    rw [if_pos hlen] at hb
    have hb' := Option.some.inj hb
    subst hb'
    refine ⟨hne, rfl, rfl, ?_, ?_⟩
    · intro h
      simp only [decide_eq_true_eq] at h
      exact h.2.2.2.2.2.1
    · intro h
      simp only [decide_eq_true_eq] at h
      exact h.2.2.2.2.2.1

/-- `byMonthDay` does not read the weekdays that carry an ordinal. -/
theorem byMonthDay_withSomeWeeks (t : toText) (ws : List Weekday) (sb : String) :
    (t.withSomeWeeks ws).byMonthDay sb = t.byMonthDay sb := by
  unfold toText.byMonthDay toText.withSomeWeeks
  cases t.byweekday <;> rfl

/-- `byMonth` with the default formatter and months in 1..12 appends a space and the English
month names read out with a final " and ". -/
theorem byMonth_english (t : toText) (hl : t.loc = enLocalizer)
    (hf : t.formatter = defaultFormatter)
    (hm : ∀ m ∈ t.option.Bymonth, 1 ≤ m ∧ m ≤ 12) (sb : String) :
    t.byMonth sb = some (sb ++ " " ++ phrase ", " " and " (t.option.Bymonth.map englishMonth)) := by
  have hlist := list_total t.option.Bymonth defaultFormatter.MonthName englishMonth
    (fun m hmem => MonthName_english m (hm m hmem).1 (hm m hmem).2) "and" ","
  rw [if_pos (by decide), delimJoin_eq_phrase] at hlist
  unfold toText.byMonth
  rw [hl, hf, localize_langAnd]
  simp only [defaultFormatter]
  rw [Option.bind_eq_bind, Option.some_bind, hlist]
  rfl

/-- `Join` on the characters: the pieces with the separator between them. -/
theorem Join_data (sep : String) :
    ∀ l : List String, (Join l sep).data = List.intercalate sep.data (l.map String.data) := by
  intro l
  induction l with
  | nil => rfl
  | cons a rest ih =>
    cases rest with
    | nil => simp [Join, List.intercalate]
    | cons b rest =>
      rw [Join, String.data_append, String.data_append, ih]
      simp [List.intercalate, List.intersperse]

/-- Splitting at a separator gives back the pieces that were joined by it. -/
theorem splitOn_intercalate (c : Char) :
    ∀ pieces : List (List Char), pieces ≠ [] → (∀ p ∈ pieces, c ∉ p) →
      splitOn c (List.intercalate [c] pieces) = pieces := by
  intro pieces
  induction pieces with
  | nil => intro h; exact absurd rfl h
  | cons a rest ih =>
    intro _ hp
    cases rest with
    | nil =>
      simp only [List.intercalate, List.intersperse, List.flatten, List.append_nil]
      exact splitOn_not_mem c a (hp a (List.mem_cons_self _ _))
    | cons b rest =>
      have hrec := ih (by simp) (fun p hm => hp p (List.mem_cons_of_mem _ hm))
      have e : List.intercalate [c] (a :: b :: rest) =
          a ++ c :: List.intercalate [c] (b :: rest) := by
        simp [List.intercalate, List.intersperse]
      rw [e, splitOn_append c _ a (hp a (List.mem_cons_self _ _)), hrec]


/-- `Itoa` in terms of the numeral of the absolute value. -/
theorem Itoa_data (i : Int) :
    (Itoa i).data = if i < 0 then '-' :: (Nat.repr i.natAbs).data else (Nat.repr i.natAbs).data := by
  unfold Itoa
  split_ifs <;> rfl

/-- What `Itoa` writes is read back by `strToInt`, for a value of `int`. -/
theorem strToInt_Itoa (i : Int) (h : isInt i) : strToInt (Itoa i).data = some i := by
  have hnat := strToNat_repr i.natAbs
  rw [Itoa_data]
  by_cases hneg : i < 0
  · rw [if_pos hneg, strToInt_cons, if_neg (by decide), if_pos rfl, hnat, Option.map_some',
      Option.some_bind]
    have e : -Int.ofNat i.natAbs = i := by
      have h1 : ((i.natAbs : Nat) : Int) = -i := Int.ofNat_natAbs_of_nonpos (le_of_lt hneg)
      have h2 : Int.ofNat i.natAbs = ((i.natAbs : Nat) : Int) := rfl
      rw [h2, h1, neg_neg]
    rw [e, if_pos h]
  · rw [if_neg hneg]
    have e : Int.ofNat i.natAbs = i := by
      have h1 : ((i.natAbs : Nat) : Int) = i := Int.natAbs_of_nonneg (not_lt.mp hneg)
      have h2 : Int.ofNat i.natAbs = ((i.natAbs : Nat) : Int) := rfl
      rw [h2, h1]
    have hk : Int.ofNat i.natAbs < 2 ^ 63 := by rw [e]; exact h.2
    rw [(strToInt_repr i.natAbs hk).1, e]

/-- What `Itoa` writes is not empty and has digits and the minus sign only. -/
theorem Itoa_chars (i : Int) :
    (Itoa i).data ≠ [] ∧
    ∀ c ∈ (Itoa i).data, c ≠ '=' ∧ c ≠ ';' ∧ c ≠ ',' ∧ c ≠ '\n' ∧ isSpace c = false := by
  obtain ⟨d, ds, hds, _⟩ := repr_head_isDigit i.natAbs
  rw [Itoa_data]
  have hdig : ∀ c ∈ (Nat.repr i.natAbs).data,
      c ≠ '=' ∧ c ≠ ';' ∧ c ≠ ',' ∧ c ≠ '\n' ∧ isSpace c = false :=
    fun c hc => digit_not_separator c (repr_isDigit _ c hc)
  split_ifs
  · refine ⟨by simp, ?_⟩
    intro c hc
    rcases List.mem_cons.mp hc with rfl | hc
    · decide
    · exact hdig c hc
  · refine ⟨by rw [hds]; simp, hdig⟩


/-- Collecting the results of a reader that succeeds on every element. -/
theorem mapM_some {α β : Type} (f : α → Option β) (g : α → β) :
    ∀ xs : List α, (∀ x ∈ xs, f x = some (g x)) → xs.mapM f = some (xs.map g) := by
  intro xs
  induction xs with
  | nil => intro _; rfl
  | cons x xs ih =>
    intro h
    rw [List.mapM_cons, h x (List.mem_cons_self _ _),
      ih (fun y hy => h y (List.mem_cons_of_mem _ hy))]
    rfl

/-- A comma-joined list of texts without comma is read back element by element. -/
theorem mapM_splitOn_joined {α : Type} (f : List Char → Option α) (write : α → String)
    (items : List α) (hne : items ≠ [])
    (hc : ∀ a ∈ items, ',' ∉ (write a).data)
    (hf : ∀ a ∈ items, f (write a).data = some a) :
    (splitOn ',' (Join (items.map write) ",").data).mapM f = some items := by
  rw [Join_data]
  have e : (",".data : List Char) = [','] := rfl
  rw [e, splitOn_intercalate ',' _ (by simpa using hne)
    (by
      intro p hp
      obtain ⟨s, hs, rfl⟩ := List.mem_map.mp hp
      obtain ⟨a, ha, rfl⟩ := List.mem_map.mp hs
      exact hc a ha)]
  rw [List.map_map]
  have := mapM_some (fun a : α => f (write a).data) (fun a => a) items hf
  rw [List.map_id'] at this
  rw [← this]
  clear this hf hc hne e
  induction items with
  | nil => rfl
  | cons a rest ih =>
    simp only [List.map_cons, List.mapM_cons, Function.comp_apply, ih]

/-- A list of integers of `int`, written comma-joined, is read back. -/
theorem strToInts_joined (vs : List Int) (hne : vs ≠ []) (hv : ∀ v ∈ vs, isInt v) :
    strToInts (Join (vs.map Itoa) ",").data = some vs := by
  unfold strToInts
  exact mapM_splitOn_joined strToInt Itoa vs hne
    (fun a _ hm => ((Itoa_chars a).2 _ hm).2.2.1 rfl)
    (fun a ha => strToInt_Itoa a (hv a ha))


/-- The characters of a weekday token of a day of the week. -/
theorem Weekday_String_data (w : Weekday) :
    w.String.data =
      (if w.N = 0 then [] else if 0 < w.N then '+' :: (Itoa w.N).data else (Itoa w.N).data) ++
        ((index weekdayCodes w.Day).getD "").data := by
  unfold Weekday.String
  split_ifs <;> simp [String.data_append]

/-- What is written for a weekday is read back as the weekday. -/
theorem strToWeekday_String (w : Weekday) (h0 : 0 ≤ w.Day) (h6 : w.Day ≤ 6) (hn : isInt w.N) :
    strToWeekday w.String.data = some w := by
  have hcode := codeToDay_codes w.Day h0 h6
  have hw : (⟨w.Day, w.N⟩ : Weekday) = w := rfl
  rw [Weekday_String_data]
  by_cases hz : w.N = 0
  · rw [if_pos hz, List.nil_append, strToWeekday_bare _ _ hcode]
    have : (⟨w.Day, 0⟩ : Weekday) = w := by rw [← hz]; exact hw
    rw [this]
  · rw [if_neg hz]
    by_cases hp : 0 < w.N
    · rw [if_pos hp]
      have hread : strToInt ('+' :: (Itoa w.N).data) = some w.N := by
        rw [Itoa_data, if_neg (by omega)]
        have e : Int.ofNat w.N.natAbs = w.N := by
          have h1 : ((w.N.natAbs : Nat) : Int) = w.N := Int.natAbs_of_nonneg (le_of_lt hp)
          have h2 : Int.ofNat w.N.natAbs = ((w.N.natAbs : Nat) : Int) := rfl
          rw [h2, h1]
        have hk : Int.ofNat w.N.natAbs < 2 ^ 63 := by rw [e]; exact hn.2
        rw [(strToInt_repr w.N.natAbs hk).2.1, e]
      rw [strToWeekday_ordinal _ _ _ _ hcode (by simp) hread, hw]
    · rw [if_neg hp]
      rw [strToWeekday_ordinal _ _ _ _ hcode (Itoa_chars w.N).1 (strToInt_Itoa w.N hn), hw]

/-- The characters of a weekday token are neither separators of the grammar nor white
space. -/
theorem Weekday_String_chars (w : Weekday) (h0 : 0 ≤ w.Day) (h6 : w.Day ≤ 6) :
    w.String.data ≠ [] ∧
    ∀ c ∈ w.String.data, c ≠ '=' ∧ c ≠ ';' ∧ c ≠ ',' ∧ c ≠ '\n' ∧ isSpace c = false := by
  have hcode := codeToDay_codes w.Day h0 h6
  have hlen := codeToDay_length _ _ hcode
  rw [Weekday_String_data]
  refine ⟨?_, ?_⟩
  · intro h
    have := congrArg List.length h
    rw [List.length_append, hlen] at this
    simp at this
  · apply token_chars _ _ _ hcode
    intro c hc
    split_ifs at hc
    · exact absurd hc (List.not_mem_nil _)
    · rcases List.mem_cons.mp hc with rfl | hc
      · decide
      · exact (Itoa_chars w.N).2 c hc
    · exact (Itoa_chars w.N).2 c hc

/-- A list of weekdays, written comma-joined, is read back. -/
theorem strToWeekdays_joined (ws : List Weekday) (hne : ws ≠ [])
    (hw : ∀ w ∈ ws, 0 ≤ w.Day ∧ w.Day ≤ 6 ∧ isInt w.N) :
    strToWeekdays (Join (ws.map Weekday.String) ",").data = some ws := by
  unfold strToWeekdays
  exact mapM_splitOn_joined strToWeekday Weekday.String ws hne
    (fun a ha hm => ((Weekday_String_chars a (hw a ha).1 (hw a ha).2.1).2 _ hm).2.2.1 rfl)
    (fun a ha => strToWeekday_String a (hw a ha).1 (hw a ha).2.1 (hw a ha).2.2)

/-- The name of a frequency is read back as the frequency. -/
theorem strToFreq_freqName (f : Frequency) : strToFreq (freqName f).data = some f := by
  cases f <;> rfl

/-- The name of a frequency has capital letters only. -/
theorem freqName_chars (f : Frequency) :
    (freqName f).data ≠ [] ∧
    ∀ c ∈ (freqName f).data, c ≠ '=' ∧ c ≠ ';' ∧ c ≠ ',' ∧ c ≠ '\n' ∧ isSpace c = false := by
  cases f <;> exact ⟨by decide, by decide⟩


set_option maxRecDepth 100000 in
/-- The parameter `FREQ` reads its value into the field `Freq`. -/
theorem parseParam_freq_value (p : List Char → Option Time) (acc : ROption × Bool)
    (value : List Char) (hne : value ≠ []) (heq : '=' ∉ value) :
    parseParam p acc ("FREQ=".data ++ value) =
      (strToFreq value).map (fun v => ({ acc.1 with Freq := v }, true)) := by
  have hs : splitOn '=' ("FREQ=".data ++ value) = ["FREQ".data, value] := by
    have := splitOn_append '=' value "FREQ".data (by decide)
    rw [splitOn_not_mem '=' value heq] at this
    exact this
  unfold parseParam
  rw [hs]
  simp only
  rw [if_neg hne]
  rfl

set_option maxRecDepth 100000 in
/-- The parameter `INTERVAL` reads its value into the field `Interval`. -/
theorem parseParam_interval (p : List Char → Option Time) (acc : ROption × Bool)
    (value : List Char) (hne : value ≠ []) (heq : '=' ∉ value) :
    parseParam p acc ("INTERVAL=".data ++ value) =
      (strToInt value).map (fun v => ({ acc.1 with Interval := v }, acc.2)) := by
  have hs : splitOn '=' ("INTERVAL=".data ++ value) = ["INTERVAL".data, value] := by
    have := splitOn_append '=' value "INTERVAL".data (by decide)
    rw [splitOn_not_mem '=' value heq] at this
    exact this
  unfold parseParam
  rw [hs]
  simp only
  rw [if_neg hne]
  rfl

set_option maxRecDepth 100000 in
/-- The parameter `WKST` reads its value into the field `Wkst`. -/
theorem parseParam_wkst (p : List Char → Option Time) (acc : ROption × Bool)
    (value : List Char) (hne : value ≠ []) (heq : '=' ∉ value) :
    parseParam p acc ("WKST=".data ++ value) =
      (strToWeekday value).map (fun v => ({ acc.1 with Wkst := v }, acc.2)) := by
  have hs : splitOn '=' ("WKST=".data ++ value) = ["WKST".data, value] := by
    have := splitOn_append '=' value "WKST".data (by decide)
    rw [splitOn_not_mem '=' value heq] at this
    exact this
  unfold parseParam
  rw [hs]
  simp only
  rw [if_neg hne]
  rfl

set_option maxRecDepth 100000 in
/-- The parameter `COUNT` reads its value into the field `Count`. -/
theorem parseParam_count (p : List Char → Option Time) (acc : ROption × Bool)
    (value : List Char) (hne : value ≠ []) (heq : '=' ∉ value) :
    parseParam p acc ("COUNT=".data ++ value) =
      (strToInt value).map (fun v => ({ acc.1 with Count := v }, acc.2)) := by
  have hs : splitOn '=' ("COUNT=".data ++ value) = ["COUNT".data, value] := by
    have := splitOn_append '=' value "COUNT".data (by decide)
    rw [splitOn_not_mem '=' value heq] at this
    exact this
  unfold parseParam
  rw [hs]
  simp only
  rw [if_neg hne]
  rfl

set_option maxRecDepth 100000 in
/-- The parameter `UNTIL` reads its value into the field `Until`. -/
theorem parseParam_until (p : List Char → Option Time) (acc : ROption × Bool)
    (value : List Char) (hne : value ≠ []) (heq : '=' ∉ value) :
    parseParam p acc ("UNTIL=".data ++ value) =
      (p value).map (fun v => ({ acc.1 with Until := v }, acc.2)) := by
  have hs : splitOn '=' ("UNTIL=".data ++ value) = ["UNTIL".data, value] := by
    have := splitOn_append '=' value "UNTIL".data (by decide)
    rw [splitOn_not_mem '=' value heq] at this
    exact this
  unfold parseParam
  rw [hs]
  simp only
  rw [if_neg hne]
  rfl

set_option maxRecDepth 100000 in
/-- The parameter `BYSETPOS` reads its value into the field `Bysetpos`. -/
theorem parseParam_bysetpos (p : List Char → Option Time) (acc : ROption × Bool)
    (value : List Char) (hne : value ≠ []) (heq : '=' ∉ value) :
    parseParam p acc ("BYSETPOS=".data ++ value) =
      (strToInts value).map (fun v => ({ acc.1 with Bysetpos := v }, acc.2)) := by
  have hs : splitOn '=' ("BYSETPOS=".data ++ value) = ["BYSETPOS".data, value] := by
    have := splitOn_append '=' value "BYSETPOS".data (by decide)
    rw [splitOn_not_mem '=' value heq] at this
    exact this
  unfold parseParam
  rw [hs]
  simp only
  rw [if_neg hne]
  rfl

set_option maxRecDepth 100000 in
/-- The parameter `BYMONTH` reads its value into the field `Bymonth`. -/
theorem parseParam_bymonth (p : List Char → Option Time) (acc : ROption × Bool)
    (value : List Char) (hne : value ≠ []) (heq : '=' ∉ value) :
    parseParam p acc ("BYMONTH=".data ++ value) =
      (strToInts value).map (fun v => ({ acc.1 with Bymonth := v }, acc.2)) := by
  have hs : splitOn '=' ("BYMONTH=".data ++ value) = ["BYMONTH".data, value] := by
    have := splitOn_append '=' value "BYMONTH".data (by decide)
    rw [splitOn_not_mem '=' value heq] at this
    exact this
  unfold parseParam
  rw [hs]
  simp only
  rw [if_neg hne]
  rfl

set_option maxRecDepth 100000 in
/-- The parameter `BYMONTHDAY` reads its value into the field `Bymonthday`. -/
theorem parseParam_bymonthday (p : List Char → Option Time) (acc : ROption × Bool)
    (value : List Char) (hne : value ≠ []) (heq : '=' ∉ value) :
    parseParam p acc ("BYMONTHDAY=".data ++ value) =
      (strToInts value).map (fun v => ({ acc.1 with Bymonthday := v }, acc.2)) := by
  have hs : splitOn '=' ("BYMONTHDAY=".data ++ value) = ["BYMONTHDAY".data, value] := by
    have := splitOn_append '=' value "BYMONTHDAY".data (by decide)
    rw [splitOn_not_mem '=' value heq] at this
    exact this
  unfold parseParam
  rw [hs]
  simp only
  rw [if_neg hne]
  rfl

set_option maxRecDepth 100000 in
/-- The parameter `BYYEARDAY` reads its value into the field `Byyearday`. -/
theorem parseParam_byyearday (p : List Char → Option Time) (acc : ROption × Bool)
    (value : List Char) (hne : value ≠ []) (heq : '=' ∉ value) :
    parseParam p acc ("BYYEARDAY=".data ++ value) =
      (strToInts value).map (fun v => ({ acc.1 with Byyearday := v }, acc.2)) := by
  have hs : splitOn '=' ("BYYEARDAY=".data ++ value) = ["BYYEARDAY".data, value] := by
    have := splitOn_append '=' value "BYYEARDAY".data (by decide)
    rw [splitOn_not_mem '=' value heq] at this
    exact this
  unfold parseParam
  rw [hs]
  simp only
  rw [if_neg hne]
  rfl

set_option maxRecDepth 100000 in
/-- The parameter `BYWEEKNO` reads its value into the field `Byweekno`. -/
theorem parseParam_byweekno (p : List Char → Option Time) (acc : ROption × Bool)
    (value : List Char) (hne : value ≠ []) (heq : '=' ∉ value) :
    parseParam p acc ("BYWEEKNO=".data ++ value) =
      (strToInts value).map (fun v => ({ acc.1 with Byweekno := v }, acc.2)) := by
  have hs : splitOn '=' ("BYWEEKNO=".data ++ value) = ["BYWEEKNO".data, value] := by
    have := splitOn_append '=' value "BYWEEKNO".data (by decide)
    rw [splitOn_not_mem '=' value heq] at this
    exact this
  unfold parseParam
  rw [hs]
  simp only
  rw [if_neg hne]
  rfl

set_option maxRecDepth 100000 in
/-- The parameter `BYHOUR` reads its value into the field `Byhour`. -/
theorem parseParam_byhour (p : List Char → Option Time) (acc : ROption × Bool)
    (value : List Char) (hne : value ≠ []) (heq : '=' ∉ value) :
    parseParam p acc ("BYHOUR=".data ++ value) =
      (strToInts value).map (fun v => ({ acc.1 with Byhour := v }, acc.2)) := by
  have hs : splitOn '=' ("BYHOUR=".data ++ value) = ["BYHOUR".data, value] := by
    have := splitOn_append '=' value "BYHOUR".data (by decide)
    rw [splitOn_not_mem '=' value heq] at this
    exact this
  unfold parseParam
  rw [hs]
  simp only
  rw [if_neg hne]
  rfl

set_option maxRecDepth 100000 in
/-- The parameter `BYMINUTE` reads its value into the field `Byminute`. -/
theorem parseParam_byminute (p : List Char → Option Time) (acc : ROption × Bool)
    (value : List Char) (hne : value ≠ []) (heq : '=' ∉ value) :
    parseParam p acc ("BYMINUTE=".data ++ value) =
      (strToInts value).map (fun v => ({ acc.1 with Byminute := v }, acc.2)) := by
  have hs : splitOn '=' ("BYMINUTE=".data ++ value) = ["BYMINUTE".data, value] := by
    have := splitOn_append '=' value "BYMINUTE".data (by decide)
    rw [splitOn_not_mem '=' value heq] at this
    exact this
  unfold parseParam
  rw [hs]
  simp only
  rw [if_neg hne]
  rfl

set_option maxRecDepth 100000 in
/-- The parameter `BYSECOND` reads its value into the field `Bysecond`. -/
theorem parseParam_bysecond (p : List Char → Option Time) (acc : ROption × Bool)
    (value : List Char) (hne : value ≠ []) (heq : '=' ∉ value) :
    parseParam p acc ("BYSECOND=".data ++ value) =
      (strToInts value).map (fun v => ({ acc.1 with Bysecond := v }, acc.2)) := by
  have hs : splitOn '=' ("BYSECOND=".data ++ value) = ["BYSECOND".data, value] := by
    have := splitOn_append '=' value "BYSECOND".data (by decide)
    rw [splitOn_not_mem '=' value heq] at this
    exact this
  unfold parseParam
  rw [hs]
  simp only
  rw [if_neg hne]
  rfl

set_option maxRecDepth 100000 in
/-- The parameter `BYEASTER` reads its value into the field `Byeaster`. -/
theorem parseParam_byeaster (p : List Char → Option Time) (acc : ROption × Bool)
    (value : List Char) (hne : value ≠ []) (heq : '=' ∉ value) :
    parseParam p acc ("BYEASTER=".data ++ value) =
      (strToInts value).map (fun v => ({ acc.1 with Byeaster := v }, acc.2)) := by
  have hs : splitOn '=' ("BYEASTER=".data ++ value) = ["BYEASTER".data, value] := by
    have := splitOn_append '=' value "BYEASTER".data (by decide)
    rw [splitOn_not_mem '=' value heq] at this
    exact this
  unfold parseParam
  rw [hs]
  simp only
  rw [if_neg hne]
  rfl


/-- The parameters of two lists read one list after the other. -/
theorem parseParams_append (p : List Char → Option Time) (l2 : List (List Char)) :
    ∀ (l1 : List (List Char)) (acc : ROption × Bool),
      parseParams p (l1 ++ l2) acc = (parseParams p l1 acc).bind (parseParams p l2) := by
  intro l1
  induction l1 with
  | nil => intro acc; rfl
  | cons a rest ih =>
    intro acc
    simp only [List.cons_append, parseParams]
    cases parseParam p acc a with
    | none => rfl
    | some r =>
      simp only [Option.some_bind]
      exact ih r

/-- A single parameter read by `parseParams`. -/
theorem parseParams_single (p : List Char → Option Time) (a : List Char) (acc : ROption × Bool) :
    parseParams p [a] acc = parseParam p acc a := by
  simp only [parseParams]
  cases parseParam p acc a <;> rfl

/-- The characters of a written parameter. -/
theorem param_data (k v : String) : (k ++ "=" ++ v).data = (k ++ "=").data ++ v.data := by
  rw [String.data_append]


/-- A character of joined pieces is one of a piece or of the separator. -/
theorem mem_intercalate (sep : List Char) (c : Char) :
    ∀ pieces : List (List Char), c ∈ List.intercalate sep pieces →
      c ∈ sep ∨ ∃ p ∈ pieces, c ∈ p := by
  intro pieces
  induction pieces with
  | nil => intro h; simp [List.intercalate] at h
  | cons a rest ih =>
    intro h
    cases rest with
    | nil =>
      simp only [List.intercalate, List.intersperse, List.flatten, List.append_nil] at h
      exact Or.inr ⟨a, List.mem_cons_self _ _, h⟩
    | cons b rest =>
      have e : List.intercalate sep (a :: b :: rest) =
          a ++ (sep ++ List.intercalate sep (b :: rest)) := by
        simp [List.intercalate, List.intersperse]
      rw [e] at h
      rcases List.mem_append.mp h with h | h
      · exact Or.inr ⟨a, List.mem_cons_self _ _, h⟩
      · rcases List.mem_append.mp h with h | h
        · exact Or.inl h
        · rcases ih h with h | ⟨p, hp, hc⟩
          · exact Or.inl h
          · exact Or.inr ⟨p, List.mem_cons_of_mem _ hp, hc⟩

/-- Joined pieces are not empty when the first piece is not. -/
theorem intercalate_ne_nil (sep : List Char) (a : List Char) (rest : List (List Char))
    (ha : a ≠ []) : List.intercalate sep (a :: rest) ≠ [] := by
  cases rest with
  | nil => simpa [List.intercalate, List.intersperse] using ha
  | cons b rest =>
    have e : List.intercalate sep (a :: b :: rest) =
        a ++ (sep ++ List.intercalate sep (b :: rest)) := by
      simp [List.intercalate, List.intersperse]
    rw [e]
    intro h
    exact ha (List.append_eq_nil.mp h).1

/-- A comma-joined list of texts of the grammar is a value of the grammar. -/
theorem joined_value {α : Type} (write : α → String) (items : List α) (hne : items ≠ [])
    (hw : ∀ a ∈ items, (write a).data ≠ [] ∧
      ∀ c ∈ (write a).data, c ≠ '=' ∧ c ≠ ';' ∧ c ≠ ',' ∧ c ≠ '\n' ∧ isSpace c = false) :
    (Join (items.map write) ",").data ≠ [] ∧
    ∀ c ∈ (Join (items.map write) ",").data,
      c ≠ '=' ∧ c ≠ ';' ∧ c ≠ '\n' ∧ isSpace c = false := by
  rw [Join_data]
  refine ⟨?_, ?_⟩
  · obtain ⟨a, rest, rfl⟩ := List.exists_cons_of_ne_nil hne
    simp only [List.map_cons]
    exact intercalate_ne_nil _ _ _ (hw a (List.mem_cons_self _ _)).1
  · intro c hc
    rcases mem_intercalate _ c _ hc with h | ⟨p, hp, hcp⟩
    · have : c = ',' := by simpa using h
      rw [this]; decide
    · obtain ⟨s, hs, rfl⟩ := List.mem_map.mp hp
      obtain ⟨a, ha, rfl⟩ := List.mem_map.mp hs
      have := (hw a ha).2 c hcp
      exact ⟨this.1, this.2.1, this.2.2.2.1, this.2.2.2.2⟩

/-- An update that writes the value a field has is no update. -/
theorem options_same (acc : ROption × Bool) : (acc.1, acc.2) = acc := rfl


/-- The written parameter `BYSETPOS`, if any, is read back into the field `Bysetpos`. -/
theorem segment_bysetpos (p : List Char → Option Time) (vs : List Int) (hv : ∀ v ∈ vs, isInt v)
    (acc : ROption × Bool) (h : acc.1.Bysetpos = []) :
    parseParams p ((intsParam "BYSETPOS" vs).map paramText) acc =
      some ({ acc.1 with Bysetpos := vs }, acc.2) := by
  unfold intsParam
  by_cases hvs : vs = []
  · rw [if_pos hvs, hvs, ← h]
    rfl
  · rw [if_neg hvs]
    have hval := joined_value Itoa vs hvs (fun a _ => Itoa_chars a)
    have e : paramText ("BYSETPOS", Join (vs.map Itoa) ",") =
        "BYSETPOS=".data ++ (Join (vs.map Itoa) ",").data := rfl
    rw [List.map_cons, List.map_nil, parseParams_single, e,
      parseParam_bysetpos p acc _ hval.1 (fun hm => (hval.2 _ hm).1 rfl),
      strToInts_joined vs hvs hv]
    rfl

/-- The written parameter `BYMONTH`, if any, is read back into the field `Bymonth`. -/
theorem segment_bymonth (p : List Char → Option Time) (vs : List Int) (hv : ∀ v ∈ vs, isInt v)
    (acc : ROption × Bool) (h : acc.1.Bymonth = []) :
    parseParams p ((intsParam "BYMONTH" vs).map paramText) acc =
      some ({ acc.1 with Bymonth := vs }, acc.2) := by
  unfold intsParam
  by_cases hvs : vs = []
  · rw [if_pos hvs, hvs, ← h]
    rfl
  · rw [if_neg hvs]
    have hval := joined_value Itoa vs hvs (fun a _ => Itoa_chars a)
    have e : paramText ("BYMONTH", Join (vs.map Itoa) ",") =
        "BYMONTH=".data ++ (Join (vs.map Itoa) ",").data := rfl
    rw [List.map_cons, List.map_nil, parseParams_single, e,
      parseParam_bymonth p acc _ hval.1 (fun hm => (hval.2 _ hm).1 rfl),
      strToInts_joined vs hvs hv]
    rfl

/-- The written parameter `BYMONTHDAY`, if any, is read back into the field `Bymonthday`. -/
theorem segment_bymonthday (p : List Char → Option Time) (vs : List Int) (hv : ∀ v ∈ vs, isInt v)
    (acc : ROption × Bool) (h : acc.1.Bymonthday = []) :
    parseParams p ((intsParam "BYMONTHDAY" vs).map paramText) acc =
      some ({ acc.1 with Bymonthday := vs }, acc.2) := by
  unfold intsParam
  by_cases hvs : vs = []
  · rw [if_pos hvs, hvs, ← h]
    rfl
  · rw [if_neg hvs]
    have hval := joined_value Itoa vs hvs (fun a _ => Itoa_chars a)
    have e : paramText ("BYMONTHDAY", Join (vs.map Itoa) ",") =
        "BYMONTHDAY=".data ++ (Join (vs.map Itoa) ",").data := rfl
    rw [List.map_cons, List.map_nil, parseParams_single, e,
      parseParam_bymonthday p acc _ hval.1 (fun hm => (hval.2 _ hm).1 rfl),
      strToInts_joined vs hvs hv]
    rfl

/-- The written parameter `BYYEARDAY`, if any, is read back into the field `Byyearday`. -/
theorem segment_byyearday (p : List Char → Option Time) (vs : List Int) (hv : ∀ v ∈ vs, isInt v)
    (acc : ROption × Bool) (h : acc.1.Byyearday = []) :
    parseParams p ((intsParam "BYYEARDAY" vs).map paramText) acc =
      some ({ acc.1 with Byyearday := vs }, acc.2) := by
  unfold intsParam
  by_cases hvs : vs = []
  · rw [if_pos hvs, hvs, ← h]
    rfl
  · rw [if_neg hvs]
    have hval := joined_value Itoa vs hvs (fun a _ => Itoa_chars a)
    have e : paramText ("BYYEARDAY", Join (vs.map Itoa) ",") =
        "BYYEARDAY=".data ++ (Join (vs.map Itoa) ",").data := rfl
    rw [List.map_cons, List.map_nil, parseParams_single, e,
      parseParam_byyearday p acc _ hval.1 (fun hm => (hval.2 _ hm).1 rfl),
      strToInts_joined vs hvs hv]
    rfl

/-- The written parameter `BYWEEKNO`, if any, is read back into the field `Byweekno`. -/
theorem segment_byweekno (p : List Char → Option Time) (vs : List Int) (hv : ∀ v ∈ vs, isInt v)
    (acc : ROption × Bool) (h : acc.1.Byweekno = []) :
    parseParams p ((intsParam "BYWEEKNO" vs).map paramText) acc =
      some ({ acc.1 with Byweekno := vs }, acc.2) := by
  unfold intsParam
  by_cases hvs : vs = []
  · rw [if_pos hvs, hvs, ← h]
    rfl
  · rw [if_neg hvs]
    have hval := joined_value Itoa vs hvs (fun a _ => Itoa_chars a)
    have e : paramText ("BYWEEKNO", Join (vs.map Itoa) ",") =
        "BYWEEKNO=".data ++ (Join (vs.map Itoa) ",").data := rfl
    rw [List.map_cons, List.map_nil, parseParams_single, e,
      parseParam_byweekno p acc _ hval.1 (fun hm => (hval.2 _ hm).1 rfl),
      strToInts_joined vs hvs hv]
    rfl

/-- The written parameter `BYHOUR`, if any, is read back into the field `Byhour`. -/
theorem segment_byhour (p : List Char → Option Time) (vs : List Int) (hv : ∀ v ∈ vs, isInt v)
    (acc : ROption × Bool) (h : acc.1.Byhour = []) :
    parseParams p ((intsParam "BYHOUR" vs).map paramText) acc =
      some ({ acc.1 with Byhour := vs }, acc.2) := by
  unfold intsParam
  by_cases hvs : vs = []
  · rw [if_pos hvs, hvs, ← h]
    rfl
  · rw [if_neg hvs]
    have hval := joined_value Itoa vs hvs (fun a _ => Itoa_chars a)
    have e : paramText ("BYHOUR", Join (vs.map Itoa) ",") =
        "BYHOUR=".data ++ (Join (vs.map Itoa) ",").data := rfl
    rw [List.map_cons, List.map_nil, parseParams_single, e,
      parseParam_byhour p acc _ hval.1 (fun hm => (hval.2 _ hm).1 rfl),
      strToInts_joined vs hvs hv]
    rfl

/-- The written parameter `BYMINUTE`, if any, is read back into the field `Byminute`. -/
theorem segment_byminute (p : List Char → Option Time) (vs : List Int) (hv : ∀ v ∈ vs, isInt v)
    (acc : ROption × Bool) (h : acc.1.Byminute = []) :
    parseParams p ((intsParam "BYMINUTE" vs).map paramText) acc =
      some ({ acc.1 with Byminute := vs }, acc.2) := by
  unfold intsParam
  by_cases hvs : vs = []
  · rw [if_pos hvs, hvs, ← h]
    rfl
  · rw [if_neg hvs]
    have hval := joined_value Itoa vs hvs (fun a _ => Itoa_chars a)
    have e : paramText ("BYMINUTE", Join (vs.map Itoa) ",") =
        "BYMINUTE=".data ++ (Join (vs.map Itoa) ",").data := rfl
    rw [List.map_cons, List.map_nil, parseParams_single, e,
      parseParam_byminute p acc _ hval.1 (fun hm => (hval.2 _ hm).1 rfl),
      strToInts_joined vs hvs hv]
    rfl

/-- The written parameter `BYSECOND`, if any, is read back into the field `Bysecond`. -/
theorem segment_bysecond (p : List Char → Option Time) (vs : List Int) (hv : ∀ v ∈ vs, isInt v)
    (acc : ROption × Bool) (h : acc.1.Bysecond = []) :
    parseParams p ((intsParam "BYSECOND" vs).map paramText) acc =
      some ({ acc.1 with Bysecond := vs }, acc.2) := by
  unfold intsParam
  by_cases hvs : vs = []
  · rw [if_pos hvs, hvs, ← h]
    rfl
  · rw [if_neg hvs]
    have hval := joined_value Itoa vs hvs (fun a _ => Itoa_chars a)
    have e : paramText ("BYSECOND", Join (vs.map Itoa) ",") =
        "BYSECOND=".data ++ (Join (vs.map Itoa) ",").data := rfl
    rw [List.map_cons, List.map_nil, parseParams_single, e,
      parseParam_bysecond p acc _ hval.1 (fun hm => (hval.2 _ hm).1 rfl),
      strToInts_joined vs hvs hv]
    rfl

/-- The written parameter `BYEASTER`, if any, is read back into the field `Byeaster`. -/
theorem segment_byeaster (p : List Char → Option Time) (vs : List Int) (hv : ∀ v ∈ vs, isInt v)
    (acc : ROption × Bool) (h : acc.1.Byeaster = []) :
    parseParams p ((intsParam "BYEASTER" vs).map paramText) acc =
      some ({ acc.1 with Byeaster := vs }, acc.2) := by
  unfold intsParam
  by_cases hvs : vs = []
  · rw [if_pos hvs, hvs, ← h]
    rfl
  · rw [if_neg hvs]
    have hval := joined_value Itoa vs hvs (fun a _ => Itoa_chars a)
    have e : paramText ("BYEASTER", Join (vs.map Itoa) ",") =
        "BYEASTER=".data ++ (Join (vs.map Itoa) ",").data := rfl
    rw [List.map_cons, List.map_nil, parseParams_single, e,
      parseParam_byeaster p acc _ hval.1 (fun hm => (hval.2 _ hm).1 rfl),
      strToInts_joined vs hvs hv]
    rfl

/-- The written parameter `BYDAY`, if any, is read back into the field `Byweekday`. -/
theorem segment_byday (p : List Char → Option Time) (ws : List Weekday)
    (hw : ∀ w ∈ ws, 0 ≤ w.Day ∧ w.Day ≤ 6 ∧ isInt w.N)
    (acc : ROption × Bool) (h : acc.1.Byweekday = []) :
    parseParams p
        ((if ws = [] then [] else [("BYDAY", Join (ws.map Weekday.String) ",")]).map paramText)
        acc =
      some ({ acc.1 with Byweekday := ws }, acc.2) := by
  by_cases hws : ws = []
  · rw [if_pos hws, hws, ← h]
    rfl
  · rw [if_neg hws]
    have hval := joined_value Weekday.String ws hws
      (fun a ha => Weekday_String_chars a (hw a ha).1 (hw a ha).2.1)
    have e : paramText ("BYDAY", Join (ws.map Weekday.String) ",") =
        "BYDAY=".data ++ (Join (ws.map Weekday.String) ",").data := rfl
    rw [List.map_cons, List.map_nil, parseParams_single, e,
      parseParam_byday p acc _ hval.1 (fun hm => (hval.2 _ hm).1 rfl),
      strToWeekdays_joined ws hws hw]
    rfl

/-- The written parameter `FREQ` is read back. -/
theorem segment_freq (p : List Char → Option Time) (f : Frequency) (acc : ROption × Bool) :
    parseParams p ([("FREQ", freqName f)].map paramText) acc =
      some ({ acc.1 with Freq := f }, true) := by
  have e : paramText ("FREQ", freqName f) = "FREQ=".data ++ (freqName f).data := rfl
  rw [List.map_cons, List.map_nil, parseParams_single, e,
    parseParam_freq_value p acc _ (freqName_chars f).1
      (fun hm => ((freqName_chars f).2 _ hm).1 rfl),
    strToFreq_freqName]
  rfl

/-- The written parameter `INTERVAL`, if any, is read back. -/
theorem segment_interval (p : List Char → Option Time) (i : Int) (hi : isInt i)
    (acc : ROption × Bool) (h : acc.1.Interval = 0) :
    parseParams p ((if i = 0 ∨ i = 1 then [] else [("INTERVAL", Itoa i)]).map paramText) acc =
      some ({ acc.1 with Interval := if i = 0 ∨ i = 1 then 0 else i }, acc.2) := by
  by_cases hc : i = 0 ∨ i = 1
  · rw [if_pos hc, if_pos hc, ← h]
    rfl
  · rw [if_neg hc, if_neg hc]
    have e : paramText ("INTERVAL", Itoa i) = "INTERVAL=".data ++ (Itoa i).data := rfl
    rw [List.map_cons, List.map_nil, parseParams_single, e,
      parseParam_interval p acc _ (Itoa_chars i).1 (fun hm => ((Itoa_chars i).2 _ hm).1 rfl),
      strToInt_Itoa i hi]
    rfl

/-- The written parameter `COUNT`, if any, is read back. -/
theorem segment_count (p : List Char → Option Time) (i : Int) (hi : isInt i)
    (acc : ROption × Bool) (h : acc.1.Count = 0) :
    parseParams p ((if i = 0 then [] else [("COUNT", Itoa i)]).map paramText) acc =
      some ({ acc.1 with Count := i }, acc.2) := by
  by_cases hc : i = 0
  · rw [if_pos hc, hc, ← h]
    rfl
  · rw [if_neg hc]
    have e : paramText ("COUNT", Itoa i) = "COUNT=".data ++ (Itoa i).data := rfl
    rw [List.map_cons, List.map_nil, parseParams_single, e,
      parseParam_count p acc _ (Itoa_chars i).1 (fun hm => ((Itoa_chars i).2 _ hm).1 rfl),
      strToInt_Itoa i hi]
    rfl

/-- The written parameter `WKST`, if any, is read back. -/
theorem segment_wkst (p : List Char → Option Time) (w : Weekday)
    (hw : 0 ≤ w.Day ∧ w.Day ≤ 6 ∧ isInt w.N)
    (acc : ROption × Bool) (h : acc.1.Wkst = MO) :
    parseParams p ((if w = MO then [] else [("WKST", w.String)]).map paramText) acc =
      some ({ acc.1 with Wkst := w }, acc.2) := by
  by_cases hc : w = MO
  · rw [if_pos hc, hc, ← h]
    rfl
  · rw [if_neg hc]
    have hch := Weekday_String_chars w hw.1 hw.2.1
    have e : paramText ("WKST", w.String) = "WKST=".data ++ w.String.data := rfl
    rw [List.map_cons, List.map_nil, parseParams_single, e,
      parseParam_wkst p acc _ hch.1 (fun hm => (hch.2 _ hm).1 rfl),
      strToWeekday_String w hw.1 hw.2.1 hw.2.2]
    rfl

/-- The written parameter `UNTIL`, if any, is read back. -/
theorem segment_until (p : List Char → Option Time) (timeToStr : Time → String)
    (hrb : readsBack timeToStr p) (t : Time)
    (acc : ROption × Bool) (h : acc.1.Until = Time.zero) :
    parseParams p ((if t.IsZero then [] else [("UNTIL", timeToStr t)]).map paramText) acc =
      some ({ acc.1 with
              Until := if t.IsZero then Time.zero else (p (timeToStr t).data).getD Time.zero },
            acc.2) := by
  by_cases hc : t.IsZero = true
  · rw [if_pos hc, if_pos hc, ← h]
    rfl
  · rw [if_neg hc, if_neg hc]
    obtain ⟨hne, hplain, u, hu, _, _⟩ := hrb t (by simpa using hc)
    have e : paramText ("UNTIL", timeToStr t) = "UNTIL=".data ++ (timeToStr t).data := rfl
    rw [List.map_cons, List.map_nil, parseParams_single, e,
      parseParam_until p acc _ hne (fun hm => (hplain _ hm).1 rfl), hu]
    rfl


/-- The parameters that `RRuleString` writes are read back, one after the other, into the
options as they are read back. -/
theorem parseParams_params (p : List Char → Option Time) (timeToStr : Time → String)
    (hrb : readsBack timeToStr p) (o : ROption) (hgo : o.inGo) (d : Time) :
    parseParams p ((o.params timeToStr).map paramText) ({ unsetOptions with Dtstart := d }, false) =
      some (canonicalOptions p timeToStr d o, true) := by
  obtain ⟨hi, hc, hwk, hwd, hints⟩ := hgo
  have hin : ∀ (l : List Int), (∀ v ∈ l, v ∈ o.Bysetpos ++ o.Bymonth ++ o.Bymonthday ++
      o.Byyearday ++ o.Byweekno ++ o.Byhour ++ o.Byminute ++ o.Bysecond ++ o.Byeaster) →
      ∀ v ∈ l, isInt v := fun l hl v hv => hints v (hl v hv)
  unfold ROption.params
  simp only [List.map_append, parseParams_append]
  rw [segment_freq]
  simp only [Option.some_bind]
  rw [segment_interval p o.Interval hi _ rfl]
  simp only [Option.some_bind]
  rw [segment_wkst p o.Wkst hwk _ rfl]
  simp only [Option.some_bind]
  rw [segment_count p o.Count hc _ rfl]
  simp only [Option.some_bind]
  rw [segment_until p timeToStr hrb o.Until _ rfl]
  simp only [Option.some_bind]
  rw [segment_bysetpos p o.Bysetpos (hin _ (by intro v hv; simp [hv])) _ rfl]
  simp only [Option.some_bind]
  rw [segment_bymonth p o.Bymonth (hin _ (by intro v hv; simp [hv])) _ rfl]
  simp only [Option.some_bind]
  rw [segment_bymonthday p o.Bymonthday (hin _ (by intro v hv; simp [hv])) _ rfl]
  simp only [Option.some_bind]
  rw [segment_byyearday p o.Byyearday (hin _ (by intro v hv; simp [hv])) _ rfl]
  simp only [Option.some_bind]
  rw [segment_byweekno p o.Byweekno (hin _ (by intro v hv; simp [hv])) _ rfl]
  simp only [Option.some_bind]
  rw [segment_byday p o.Byweekday hwd _ rfl]
  simp only [Option.some_bind]
  rw [segment_byhour p o.Byhour (hin _ (by intro v hv; simp [hv])) _ rfl]
  simp only [Option.some_bind]
  rw [segment_byminute p o.Byminute (hin _ (by intro v hv; simp [hv])) _ rfl]
  simp only [Option.some_bind]
  rw [segment_bysecond p o.Bysecond (hin _ (by intro v hv; simp [hv])) _ rfl]
  simp only [Option.some_bind]
  rw [segment_byeaster p o.Byeaster (hin _ (by intro v hv; simp [hv])) _ rfl]
  rfl


/-- The options as they are read back are written as the options themselves are. -/
theorem canonicalOptions_params (p : List Char → Option Time) (timeToStr : Time → String)
    (hrb : readsBack timeToStr p) (o : ROption) (d : Time) :
    (canonicalOptions p timeToStr d o).params timeToStr = o.params timeToStr := by
  have hint : (if (if o.Interval = 0 ∨ o.Interval = 1 then (0 : Int) else o.Interval) = 0 ∨
        (if o.Interval = 0 ∨ o.Interval = 1 then (0 : Int) else o.Interval) = 1
      then ([] : List (String × String))
      else [("INTERVAL", Itoa (if o.Interval = 0 ∨ o.Interval = 1 then 0 else o.Interval))]) =
      (if o.Interval = 0 ∨ o.Interval = 1 then [] else [("INTERVAL", Itoa o.Interval)]) := by
    by_cases h : o.Interval = 0 ∨ o.Interval = 1
    · simp [h]
    · simp [h]
  have huntil : (if (if o.Until.IsZero then Time.zero
        else (p (timeToStr o.Until).data).getD Time.zero).IsZero = true
      then ([] : List (String × String))
      else [("UNTIL", timeToStr (if o.Until.IsZero then Time.zero
        else (p (timeToStr o.Until).data).getD Time.zero))]) =
      (if o.Until.IsZero = true then [] else [("UNTIL", timeToStr o.Until)]) := by
    by_cases h : o.Until.IsZero = true
    · simp [h, Time.zero]
    · obtain ⟨_, _, u, hu, hz, hs⟩ := hrb o.Until (by simpa using h)
      simp [h, hu, hz, hs]
  unfold ROption.params canonicalOptions
  simp only [hint, huntil]

/-- The options as they are read back are valid when the options are. -/
theorem canonicalOptions_valid (p : List Char → Option Time) (timeToStr : Time → String)
    (o : ROption) (d : Time) (h : validOptions o = true) :
    validOptions (canonicalOptions p timeToStr d o) = true := by
  have hi : (0 : Int) ≤ o.Interval := by
    unfold validOptions at h
    simp only [decide_eq_true_eq, Bool.and_eq_true, Bool.decide_and] at h
    exact h.1
  have hi' : (0 : Int) ≤ (if o.Interval = 0 ∨ o.Interval = 1 then (0 : Int) else o.Interval) := by
    split_ifs
    · exact le_refl _
    · exact hi
  unfold validOptions canonicalOptions
  unfold validOptions at h
  simp only [decide_eq_true_eq, Bool.and_eq_true, Bool.decide_and] at h ⊢
  exact ⟨hi', h.2⟩


/-- A text without white space is trimmed to itself. -/
theorem trimSpace_plain (l : List Char) (h : ∀ c ∈ l, isSpace c = false) : trimSpace l = l := by
  have hd : ∀ m : List Char, (∀ c ∈ m, isSpace c = false) → m.dropWhile isSpace = m := by
    intro m hm
    cases m with
    | nil => rfl
    | cons a rest => simp [List.dropWhile, hm a (List.mem_cons_self _ _)]
  unfold trimSpace
  rw [hd l h, hd l.reverse (fun c hc => h c (List.mem_reverse.mp hc)), List.reverse_reverse]

/-- The characters of the text after `RRULE:`. -/
theorem RRuleString_data (timeToStr : Time → String) (o : ROption) :
    (o.RRuleString timeToStr).data =
      List.intercalate [';'] ((o.params timeToStr).map paramText) := by
  unfold ROption.RRuleString
  rw [Join_data, List.map_map]
  rfl

/-- The keys of the grammar have capital letters only. -/
theorem keyOrder_chars :
    ∀ k ∈ keyOrder, ∀ c ∈ k.data, c ≠ ';' ∧ c ≠ '\n' ∧ isSpace c = false := by
  decide

/-- Every parameter that is written has a key of the grammar and a value of the grammar. -/
theorem params_values (p : List Char → Option Time) (timeToStr : Time → String)
    (hrb : readsBack timeToStr p) (o : ROption) (hgo : o.inGo) :
    ∀ kv ∈ o.params timeToStr, kv.1 ∈ keyOrder ∧ kv.2.data ≠ [] ∧
      ∀ c ∈ kv.2.data, c ≠ '=' ∧ c ≠ ';' ∧ c ≠ '\n' ∧ isSpace c = false := by
  obtain ⟨_, _, hwk, hwd, _⟩ := hgo
  have hints : ∀ (k : String) (vs : List Int), k ∈ keyOrder → ∀ kv ∈ intsParam k vs,
      kv.1 ∈ keyOrder ∧ kv.2.data ≠ [] ∧
        ∀ c ∈ kv.2.data, c ≠ '=' ∧ c ≠ ';' ∧ c ≠ '\n' ∧ isSpace c = false := by
    intro k vs hk kv hkv
    unfold intsParam at hkv
    split_ifs at hkv with hvs
    · exact absurd hkv (List.not_mem_nil _)
    · rw [List.mem_singleton] at hkv
      subst hkv
      exact ⟨hk, joined_value Itoa vs hvs (fun a _ => Itoa_chars a)⟩
  have hnum : ∀ (k : String) (i : Int), k ∈ keyOrder →
      k ∈ keyOrder ∧ (Itoa i).data ≠ [] ∧
        ∀ c ∈ (Itoa i).data, c ≠ '=' ∧ c ≠ ';' ∧ c ≠ '\n' ∧ isSpace c = false :=
    fun k i hk => ⟨hk, (Itoa_chars i).1, fun c hc =>
      ⟨((Itoa_chars i).2 c hc).1, ((Itoa_chars i).2 c hc).2.1, ((Itoa_chars i).2 c hc).2.2.2.1,
        ((Itoa_chars i).2 c hc).2.2.2.2⟩⟩
  intro kv hkv
  unfold ROption.params at hkv
  simp only [List.mem_append] at hkv
  rcases hkv with ((((((((((((((h | h) | h) | h) | h) | h) | h) | h) | h) | h) | h) | h) | h) | h) | h)
  · rw [List.mem_singleton] at h
    subst h
    have := freqName_chars o.Freq
    exact ⟨show ("FREQ" : String) ∈ keyOrder by decide, this.1, fun c hc =>
      ⟨(this.2 c hc).1, (this.2 c hc).2.1, (this.2 c hc).2.2.2.1, (this.2 c hc).2.2.2.2⟩⟩
  · split_ifs at h
    · exact absurd h (List.not_mem_nil _)
    · rw [List.mem_singleton] at h
      subst h
      exact hnum "INTERVAL" _ (by decide)
  · split_ifs at h
    · exact absurd h (List.not_mem_nil _)
    · rw [List.mem_singleton] at h
      subst h
      have := Weekday_String_chars o.Wkst hwk.1 hwk.2.1
      exact ⟨show ("WKST" : String) ∈ keyOrder by decide, this.1, fun c hc =>
        ⟨(this.2 c hc).1, (this.2 c hc).2.1, (this.2 c hc).2.2.2.1, (this.2 c hc).2.2.2.2⟩⟩
  · split_ifs at h
    · exact absurd h (List.not_mem_nil _)
    · rw [List.mem_singleton] at h
      subst h
      exact hnum "COUNT" _ (by decide)
  · split_ifs at h with hz
    · exact absurd h (List.not_mem_nil _)
    · rw [List.mem_singleton] at h
      subst h
      obtain ⟨hne, hplain, _⟩ := hrb o.Until (by simpa using hz)
      exact ⟨show ("UNTIL" : String) ∈ keyOrder by decide, hne, hplain⟩
  · exact hints _ _ (by decide) kv h
  · exact hints _ _ (by decide) kv h
  · exact hints _ _ (by decide) kv h
  · exact hints _ _ (by decide) kv h
  · exact hints _ _ (by decide) kv h
  · split_ifs at h with hws
    · exact absurd h (List.not_mem_nil _)
    · rw [List.mem_singleton] at h
      subst h
      exact ⟨show ("BYDAY" : String) ∈ keyOrder by decide, joined_value Weekday.String o.Byweekday hws
        (fun a ha => Weekday_String_chars a (hwd a ha).1 (hwd a ha).2.1)⟩
  · exact hints _ _ (by decide) kv h
  · exact hints _ _ (by decide) kv h
  · exact hints _ _ (by decide) kv h
  · exact hints _ _ (by decide) kv h

/-- A written parameter has neither a semicolon nor a line break nor white space. -/
theorem paramText_chars (kv : String × String) (hk : kv.1 ∈ keyOrder)
    (hv : ∀ c ∈ kv.2.data, c ≠ '=' ∧ c ≠ ';' ∧ c ≠ '\n' ∧ isSpace c = false) :
    ∀ c ∈ paramText kv, c ≠ ';' ∧ c ≠ '\n' ∧ isSpace c = false := by
  intro c hc
  unfold paramText at hc
  rw [String.data_append, String.data_append] at hc
  rcases List.mem_append.mp hc with hc | hc
  · rcases List.mem_append.mp hc with hc | hc
    · exact keyOrder_chars kv.1 hk c hc
    · have : c = '=' := by simpa using hc
      rw [this]; decide
  · exact ⟨(hv c hc).2.1, (hv c hc).2.2.1, (hv c hc).2.2.2⟩


/-- The text after `RRULE:` splits at the semicolons into the written parameters; it starts
with the letter F and has neither line break nor white space. -/
theorem RRuleString_split (p : List Char → Option Time) (timeToStr : Time → String)
    (hrb : readsBack timeToStr p) (o : ROption) (hgo : o.inGo) :
    splitOn ';' (o.RRuleString timeToStr).data = (o.params timeToStr).map paramText ∧
    (∃ rest, (o.RRuleString timeToStr).data = 'F' :: rest) ∧
    ∀ c ∈ (o.RRuleString timeToStr).data, c ≠ '\n' ∧ isSpace c = false := by
  have hvals := params_values p timeToStr hrb o hgo
  have hchars : ∀ t ∈ (o.params timeToStr).map paramText,
      ∀ c ∈ t, c ≠ ';' ∧ c ≠ '\n' ∧ isSpace c = false := by
    intro t ht
    obtain ⟨kv, hkv, rfl⟩ := List.mem_map.mp ht
    exact paramText_chars kv (hvals kv hkv).1 (hvals kv hkv).2.2
  have hne : (o.params timeToStr).map paramText ≠ [] := by
    unfold ROption.params
    simp
  rw [RRuleString_data]
  refine ⟨?_, ?_, ?_⟩
  · exact splitOn_intercalate ';' _ hne (fun t ht hm => (hchars t ht _ hm).1 rfl)
  · have hp : ∃ rest, o.params timeToStr = ("FREQ", freqName o.Freq) :: rest := by
      unfold ROption.params
      exact ⟨_, rfl⟩
    obtain ⟨rest, hrest⟩ := hp
    rw [hrest, List.map_cons]
    have e : paramText ("FREQ", freqName o.Freq) = 'F' :: ("REQ=".data ++ (freqName o.Freq).data) :=
      rfl
    rw [e]
    cases hr : rest.map paramText with
    | nil => exact ⟨_, rfl⟩
    | cons b more => exact ⟨_, rfl⟩
  · intro c hc
    rcases mem_intercalate _ c _ hc with h | ⟨t, ht, hct⟩
    · have : c = ';' := by simpa using h
      rw [this]; decide
    · exact (hchars t ht c hct).2

/-- A text that neither begins nor ends with white space is trimmed to itself. -/
theorem trimSpace_ends (l : List Char) (h1 : ∀ c, l.head? = some c → isSpace c = false)
    (h2 : ∀ c, l.getLast? = some c → isSpace c = false) : trimSpace l = l := by
  unfold trimSpace
  have hd : ∀ m : List Char, (∀ c, m.head? = some c → isSpace c = false) →
      m.dropWhile isSpace = m := by
    intro m hm
    cases m with
    | nil => rfl
    | cons a t => simp [List.dropWhile, hm a rfl]
  rw [hd l h1, hd l.reverse (by simpa using h2), List.reverse_reverse]

/-- The text of a rule is not empty, begins with F, and has no line break or white space. -/
theorem dropLeading_rule (rest : List Char) :
    dropLeading "RRULE:".data ('F' :: rest) = 'F' :: rest := by
  unfold dropLeading
  rw [if_neg (by simp [List.isPrefixOf])]

/-- The beginning `RRULE:` is dropped. -/
theorem dropLeading_prefixed (l : List Char) :
    dropLeading "RRULE:".data ("RRULE:".data ++ l) = l := by
  unfold dropLeading
  rw [if_pos (by simp [List.isPrefixOf])]
  simp

/-- The written parameters of valid options of Go integers are read back, after any start,
as the canonical options, and the frequency has been seen. -/
theorem readRule_written (p : List Char → Option Time) (timeToStr : Time → String)
    (hrb : readsBack timeToStr p) (o : ROption) (hgo : o.inGo) (d : Time) :
    (parseParams p (splitOn ';' (o.RRuleString timeToStr).data)
        ({ unsetOptions with Dtstart := d }, false)).bind
      (fun r => if r.2 then some r.1 else none) = some (canonicalOptions p timeToStr d o) := by
  rw [(RRuleString_split p timeToStr hrb o hgo).1, parseParams_params p timeToStr hrb o hgo d]
  rfl

/-- Options without start: the text is read back as the canonical options. -/
theorem StrToROption_bare (p q : List Char → Option Time) (timeToStr ds : Time → String)
    (hrb : readsBack timeToStr p) (o : ROption) (hgo : o.inGo) (hz : o.Dtstart.IsZero = true) :
    StrToROption p q (o.String timeToStr ds) =
      some (canonicalOptions p timeToStr Time.zero o) := by
  obtain ⟨hsplit, ⟨rest, hF⟩, hch⟩ := RRuleString_split p timeToStr hrb o hgo
  have hs : o.String timeToStr ds = o.RRuleString timeToStr := by
    unfold ROption.String; rw [if_pos hz]
  unfold StrToROption
  rw [hs, trimSpace_plain _ (fun c hc => (hch c hc).2),
    splitOn_not_mem '\n' _ (fun hm => (hch _ hm).1 rfl)]
  simp only
  rw [hF, dropLeading_rule, ← hF]
  exact readRule_written p timeToStr hrb o hgo Time.zero


/-- The name of a line with its separator, found at the beginning of the line. -/
theorem isPrefixOf_append (a b : List Char) : a.isPrefixOf (a ++ b) = true := by
  induction a with
  | nil => simp [List.isPrefixOf]
  | cons x xs ih => simp [List.isPrefixOf, ih]

/-- Options with a start: the text is read back as the canonical options after the start
that the `DTSTART` line reads. -/
theorem StrToROption_started (p q : List Char → Option Time) (timeToStr ds : Time → String)
    (hrb : readsBack timeToStr p) (hrl : readsBackLine ds q) (o : ROption) (hgo : o.inGo)
    (hz : o.Dtstart.IsZero = false) :
    ∃ u, u.IsZero = false ∧ ds u = ds o.Dtstart ∧
      StrToROption p q (o.String timeToStr ds) = some (canonicalOptions p timeToStr u o) := by
  obtain ⟨hsplit, ⟨rest, hF⟩, hch⟩ := RRuleString_split p timeToStr hrb o hgo
  obtain ⟨c, body, hd, hc, hbody, u, hu, hus⟩ := hrl.2 o.Dtstart hz
  have huz : u.IsZero = false := hrl.1 body u hu
  refine ⟨u, huz, hus, ?_⟩
  have hs : (o.String timeToStr ds).data =
      ("DTSTART".data ++ c :: body) ++ '\n' :: ("RRULE:".data ++ (o.RRuleString timeToStr).data) := by
    unfold ROption.String
    rw [if_neg (by simp [hz])]
    simp only [String.data_append, hd, List.append_assoc]
    rfl
  have hnl : '\n' ∉ "DTSTART".data ++ c :: body := by
    intro hm
    rcases List.mem_append.mp hm with h | h
    · exact absurd h (by decide)
    · rcases List.mem_cons.mp h with h | h
      · rcases hc with e | e <;> rw [e] at h <;> exact absurd h (by decide)
      · exact (hbody _ h).1 rfl
  have hnl2 : '\n' ∉ "RRULE:".data ++ (o.RRuleString timeToStr).data := by
    intro hm
    rcases List.mem_append.mp hm with h | h
    · exact absurd h (by decide)
    · exact (hch _ h).1 rfl
  have htrim : trimSpace (o.String timeToStr ds).data = (o.String timeToStr ds).data := by
    apply trimSpace_ends
    · intro x hx
      rw [hs] at hx
      have : x = 'D' := by
        have e : (("DTSTART".data ++ c :: body) ++
          '\n' :: ("RRULE:".data ++ (o.RRuleString timeToStr).data)).head? = some 'D' := rfl
        rw [e] at hx
        exact (Option.some.inj hx).symm
      rw [this]; rfl
    · intro x hx
      rw [hs, hF] at hx
      have hmem : x ∈ 'F' :: rest := by
        have hne : ('F' :: rest) ≠ [] := List.cons_ne_nil _ _
        have e := List.getLast?_eq_getLast _ hne
        have e2 : (("DTSTART".data ++ c :: body) ++ '\n' :: ("RRULE:".data ++ 'F' :: rest)).getLast? =
            ('F' :: rest).getLast? := by
          have e3 : ("DTSTART".data ++ c :: body) ++ '\n' :: ("RRULE:".data ++ 'F' :: rest) =
              (("DTSTART".data ++ c :: body) ++ '\n' :: "RRULE:".data) ++ ('F' :: rest) := by
            simp only [List.append_assoc, List.cons_append]
          rw [e3, List.getLast?_append_of_ne_nil _ hne]
        rw [e2, e] at hx
        rw [← Option.some.inj hx]
        exact List.getLast_mem hne
      rw [← hF] at hmem
      exact (hch x hmem).2
  unfold StrToROption
  rw [htrim, hs, splitOn_append '\n' _ _ hnl, splitOn_not_mem '\n' _ hnl2]
  simp only
  have hpre : ("DTSTART:".data.isPrefixOf ("DTSTART".data ++ c :: body) = true ∨
      "DTSTART;".data.isPrefixOf ("DTSTART".data ++ c :: body) = true) := by
    rcases hc with e | e
    · left; rw [e]; exact isPrefixOf_append "DTSTART:".data body
    · right; rw [e]; exact isPrefixOf_append "DTSTART;".data body
  rw [if_pos hpre]
  have hdrop : ("DTSTART".data ++ c :: body).drop 8 = body := rfl
  rw [hdrop, hu]
  simp only [Option.some_bind]
  rw [dropLeading_prefixed]
  exact readRule_written p timeToStr hrb o hgo u

/-- For valid options of Go integers the canonical options build a rule whose text is that
of the options, when the start is written as that of the options. -/
theorem NewRRule_canonical (p : List Char → Option Time) (timeToStr ds : Time → String)
    (hrb : readsBack timeToStr p) (normalize : ROption → ROption) (o : ROption) (hv : validOptions o = true) (u : Time)
    (hu : u.IsZero = o.Dtstart.IsZero) (hus : o.Dtstart.IsZero = false → ds u = ds o.Dtstart) :
    ∃ r, NewRRule normalize (canonicalOptions p timeToStr u o) = some r ∧
      r.String timeToStr ds = o.String timeToStr ds := by
  refine ⟨{ OrigOptions := canonicalOptions p timeToStr u o,
            Options := normalize (canonicalOptions p timeToStr u o) }, ?_, ?_⟩
  · unfold NewRRule
    rw [if_pos (canonicalOptions_valid p timeToStr o u hv)]
  · show (canonicalOptions p timeToStr u o).String timeToStr ds = o.String timeToStr ds
    have hp := canonicalOptions_params p timeToStr hrb o u
    have hr : (canonicalOptions p timeToStr u o).RRuleString timeToStr =
        o.RRuleString timeToStr := by
      unfold ROption.RRuleString
      rw [hp]
    unfold ROption.String
    have hd : (canonicalOptions p timeToStr u o).Dtstart = u := rfl
    rw [hr, hd, hu]
    cases hz : o.Dtstart.IsZero with
    | true => rfl
    | false => rw [hus hz]

/-- The rule half of the round trip: the text of valid options of Go integers is read as a
rule whose text is the same. -/
theorem StrToRRule_String (p q : List Char → Option Time) (timeToStr ds : Time → String)
    (normalize : ROption → ROption) (hrb : readsBack timeToStr p) (hrl : readsBackLine ds q)
    (o : ROption) (hgo : o.inGo) (hv : validOptions o = true) :
    ∃ r, StrToRRule p q normalize (o.String timeToStr ds) = some r ∧
      r.String timeToStr ds = o.String timeToStr ds := by
  unfold StrToRRule
  cases hz : o.Dtstart.IsZero with
  | true =>
    rw [StrToROption_bare p q timeToStr ds hrb o hgo hz]
    exact NewRRule_canonical p timeToStr ds hrb normalize o hv Time.zero (by rw [hz]; rfl)
      (fun h => by rw [hz] at h; exact absurd h (by decide))
  | false =>
    obtain ⟨u, huz, hus, hread⟩ := StrToROption_started p q timeToStr ds hrb hrl o hgo hz
    rw [hread]
    exact NewRRule_canonical p timeToStr ds hrb normalize o hv u (by rw [hz, huz]) (fun _ => hus)

/-- An integer that was read is one of Go's `int`. -/
theorem strToInt_isInt (cs : List Char) (i : Int) (h : strToInt cs = some i) : isInt i := by
  unfold strToInt at h
  simp only at h
  obtain ⟨j, _, hj⟩ := Option.bind_eq_some.mp h
  split_ifs at hj with hi
  rw [← Option.some.inj hj]
  exact hi

/-- Every result of a list read element by element is the reading of an element. -/
theorem mapM_mem {α β : Type} (f : α → Option β) :
    ∀ (xs : List α) (ys : List β), xs.mapM f = some ys → ∀ y ∈ ys, ∃ x ∈ xs, f x = some y := by
  intro xs
  induction xs with
  | nil =>
    intro ys h y hy
    have : ys = [] := by
      have e : ([] : List α).mapM f = some [] := rfl
      rw [e] at h
      exact (Option.some.inj h).symm
    rw [this] at hy
    exact absurd hy (List.not_mem_nil _)
  | cons x xs ih =>
    intro ys h y hy
    rw [List.mapM_cons] at h
    obtain ⟨b, hb, h2⟩ := Option.bind_eq_some.mp h
    obtain ⟨bs, hbs, h3⟩ := Option.bind_eq_some.mp h2
    have e : ys = b :: bs := (Option.some.inj h3).symm
    rw [e] at hy
    rcases List.mem_cons.mp hy with hy | hy
    · exact ⟨x, List.mem_cons_self _ _, hy ▸ hb⟩
    · obtain ⟨x', hx', hf⟩ := ih bs hbs y hy
      exact ⟨x', List.mem_cons_of_mem _ hx', hf⟩

/-- The integers of a list that was read are of Go's `int`. -/
theorem strToInts_isInt (cs : List Char) (l : List Int) (h : strToInts cs = some l) :
    ∀ v ∈ l, isInt v := by
  intro v hv
  obtain ⟨x, _, hx⟩ := mapM_mem strToInt _ l h v hv
  exact strToInt_isInt x v hx

/-- The day of a code that was read is a day of the week. -/
theorem codeToDay_range (code : List Char) (d : Int) (h : codeToDay code = some d) :
    0 ≤ d ∧ d ≤ 6 := by
  unfold codeToDay at h
  split_ifs at h <;> (rw [← Option.some.inj h]; decide)

/-- A weekday that was read has a day of the week and an ordinal of Go's `int`. -/
theorem strToWeekday_inGo (cs : List Char) (w : Weekday) (h : strToWeekday cs = some w) :
    0 ≤ w.Day ∧ w.Day ≤ 6 ∧ isInt w.N := by
  unfold strToWeekday at h
  split_ifs at h with h1 h2
  · split at h
    · exact absurd h (by simp)
    · rename_i d hd
      have hr := codeToDay_range _ d hd
      rw [← Option.some.inj h]
      exact ⟨hr.1, hr.2, (by decide : isInt 0)⟩
  · split at h
    · exact absurd h (by simp)
    · rename_i d hd
      have hr := codeToDay_range _ d hd
      obtain ⟨n, hn, hw⟩ := Option.map_eq_some'.mp h
      rw [← hw]
      exact ⟨hr.1, hr.2, strToInt_isInt _ n hn⟩

/-- The weekdays of a list that was read have days of the week and ordinals of Go's `int`. -/
theorem strToWeekdays_inGo (cs : List Char) (l : List Weekday) (h : strToWeekdays cs = some l) :
    ∀ w ∈ l, 0 ≤ w.Day ∧ w.Day ≤ 6 ∧ isInt w.N := by
  intro w hw
  obtain ⟨x, _, hx⟩ := mapM_mem strToWeekday _ l h w hw
  exact strToWeekday_inGo x w hx


/-- Options hold Go integers when each of their fields does. -/
theorem inGo_intro (o : ROption) (hi : isInt o.Interval) (hc : isInt o.Count)
    (hwk : 0 ≤ o.Wkst.Day ∧ o.Wkst.Day ≤ 6 ∧ isInt o.Wkst.N)
    (hwd : ∀ w ∈ o.Byweekday, 0 ≤ w.Day ∧ w.Day ≤ 6 ∧ isInt w.N)
    (h0 : ∀ v ∈ o.Bysetpos, isInt v)
    (h1 : ∀ v ∈ o.Bymonth, isInt v)
    (h2 : ∀ v ∈ o.Bymonthday, isInt v)
    (h3 : ∀ v ∈ o.Byyearday, isInt v)
    (h4 : ∀ v ∈ o.Byweekno, isInt v)
    (h5 : ∀ v ∈ o.Byhour, isInt v)
    (h6 : ∀ v ∈ o.Byminute, isInt v)
    (h7 : ∀ v ∈ o.Bysecond, isInt v)
    (h8 : ∀ v ∈ o.Byeaster, isInt v) : o.inGo := by
  refine ⟨hi, hc, hwk, hwd, ?_⟩
  intro v hv
  simp only [List.mem_append] at hv
  rcases hv with ((((((((hv | hv) | hv) | hv) | hv) | hv) | hv) | hv) | hv)
  · exact h0 v hv
  · exact h1 v hv
  · exact h2 v hv
  · exact h3 v hv
  · exact h4 v hv
  · exact h5 v hv
  · exact h6 v hv
  · exact h7 v hv
  · exact h8 v hv

/-- A parameter read into options of Go integers leaves options of Go integers. -/
theorem parseParam_inGo (p : List Char → Option Time) (acc r : ROption × Bool)
    (attr : List Char) (h : parseParam p acc attr = some r) (hgo : acc.1.inGo) : r.1.inGo := by
  obtain ⟨hi, hc, hwk, hwd, hints⟩ := hgo
  simp only [List.mem_append] at hints
  have hl0 : ∀ v ∈ acc.1.Bysetpos, isInt v := fun v hv => hints v (by tauto)
  have hl1 : ∀ v ∈ acc.1.Bymonth, isInt v := fun v hv => hints v (by tauto)
  have hl2 : ∀ v ∈ acc.1.Bymonthday, isInt v := fun v hv => hints v (by tauto)
  have hl3 : ∀ v ∈ acc.1.Byyearday, isInt v := fun v hv => hints v (by tauto)
  have hl4 : ∀ v ∈ acc.1.Byweekno, isInt v := fun v hv => hints v (by tauto)
  have hl5 : ∀ v ∈ acc.1.Byhour, isInt v := fun v hv => hints v (by tauto)
  have hl6 : ∀ v ∈ acc.1.Byminute, isInt v := fun v hv => hints v (by tauto)
  have hl7 : ∀ v ∈ acc.1.Bysecond, isInt v := fun v hv => hints v (by tauto)
  have hl8 : ∀ v ∈ acc.1.Byeaster, isInt v := fun v hv => hints v (by tauto)
  unfold parseParam at h
  split at h
  · rename_i key value _
    by_cases hval : value = []
    · rw [if_pos hval] at h
      exact absurd h (by simp)
    rw [if_neg hval] at h
    dsimp only at h
    generalize String.mk (List.map Char.toUpper key) = k at h
    by_cases h0 : k = "FREQ"
    · rw [if_pos h0] at h
      obtain ⟨v, hv, hr⟩ := Option.map_eq_some'.mp h
      rw [← hr]
      exact inGo_intro _ hi hc hwk hwd hl0 hl1 hl2 hl3 hl4 hl5 hl6 hl7 hl8
    rw [if_neg h0] at h
    by_cases h1 : k = "DTSTART"
    · rw [if_pos h1] at h
      obtain ⟨v, hv, hr⟩ := Option.map_eq_some'.mp h
      rw [← hr]
      exact inGo_intro _ hi hc hwk hwd hl0 hl1 hl2 hl3 hl4 hl5 hl6 hl7 hl8
    rw [if_neg h1] at h
    by_cases h2 : k = "INTERVAL"
    · rw [if_pos h2] at h
      obtain ⟨v, hv, hr⟩ := Option.map_eq_some'.mp h
      rw [← hr]
      exact inGo_intro _ (strToInt_isInt _ v hv) hc hwk hwd hl0 hl1 hl2 hl3 hl4 hl5 hl6 hl7 hl8
    rw [if_neg h2] at h
    by_cases h3 : k = "WKST"
    · rw [if_pos h3] at h
      obtain ⟨v, hv, hr⟩ := Option.map_eq_some'.mp h
      rw [← hr]
      exact inGo_intro _ hi hc (strToWeekday_inGo _ v hv) hwd hl0 hl1 hl2 hl3 hl4 hl5 hl6 hl7 hl8
    rw [if_neg h3] at h
    by_cases h4 : k = "COUNT"
    · rw [if_pos h4] at h
      obtain ⟨v, hv, hr⟩ := Option.map_eq_some'.mp h
      rw [← hr]
      exact inGo_intro _ hi (strToInt_isInt _ v hv) hwk hwd hl0 hl1 hl2 hl3 hl4 hl5 hl6 hl7 hl8
    rw [if_neg h4] at h
    by_cases h5 : k = "UNTIL"
    · rw [if_pos h5] at h
      obtain ⟨v, hv, hr⟩ := Option.map_eq_some'.mp h
      rw [← hr]
      exact inGo_intro _ hi hc hwk hwd hl0 hl1 hl2 hl3 hl4 hl5 hl6 hl7 hl8
    rw [if_neg h5] at h
    by_cases h6 : k = "BYSETPOS"
    · rw [if_pos h6] at h
      obtain ⟨v, hv, hr⟩ := Option.map_eq_some'.mp h
      rw [← hr]
      exact inGo_intro _ hi hc hwk hwd (strToInts_isInt _ v hv) hl1 hl2 hl3 hl4 hl5 hl6 hl7 hl8
    rw [if_neg h6] at h
    by_cases h7 : k = "BYMONTH"
    · rw [if_pos h7] at h
      obtain ⟨v, hv, hr⟩ := Option.map_eq_some'.mp h
      rw [← hr]
      exact inGo_intro _ hi hc hwk hwd hl0 (strToInts_isInt _ v hv) hl2 hl3 hl4 hl5 hl6 hl7 hl8
    rw [if_neg h7] at h
    by_cases h8 : k = "BYMONTHDAY"
    · rw [if_pos h8] at h
      obtain ⟨v, hv, hr⟩ := Option.map_eq_some'.mp h
      rw [← hr]
      exact inGo_intro _ hi hc hwk hwd hl0 hl1 (strToInts_isInt _ v hv) hl3 hl4 hl5 hl6 hl7 hl8
    rw [if_neg h8] at h
    by_cases h9 : k = "BYYEARDAY"
    · rw [if_pos h9] at h
      obtain ⟨v, hv, hr⟩ := Option.map_eq_some'.mp h
      rw [← hr]
      exact inGo_intro _ hi hc hwk hwd hl0 hl1 hl2 (strToInts_isInt _ v hv) hl4 hl5 hl6 hl7 hl8
    rw [if_neg h9] at h
    by_cases h10 : k = "BYWEEKNO"
    · rw [if_pos h10] at h
      obtain ⟨v, hv, hr⟩ := Option.map_eq_some'.mp h
      rw [← hr]
      exact inGo_intro _ hi hc hwk hwd hl0 hl1 hl2 hl3 (strToInts_isInt _ v hv) hl5 hl6 hl7 hl8
    rw [if_neg h10] at h
    by_cases h11 : k = "BYDAY"
    · rw [if_pos h11] at h
      obtain ⟨v, hv, hr⟩ := Option.map_eq_some'.mp h
      rw [← hr]
      exact inGo_intro _ hi hc hwk (strToWeekdays_inGo _ v hv) hl0 hl1 hl2 hl3 hl4 hl5 hl6 hl7 hl8
    rw [if_neg h11] at h
    by_cases h12 : k = "BYHOUR"
    · rw [if_pos h12] at h
      obtain ⟨v, hv, hr⟩ := Option.map_eq_some'.mp h
      rw [← hr]
      exact inGo_intro _ hi hc hwk hwd hl0 hl1 hl2 hl3 hl4 (strToInts_isInt _ v hv) hl6 hl7 hl8
    rw [if_neg h12] at h
    by_cases h13 : k = "BYMINUTE"
    · rw [if_pos h13] at h
      obtain ⟨v, hv, hr⟩ := Option.map_eq_some'.mp h
      rw [← hr]
      exact inGo_intro _ hi hc hwk hwd hl0 hl1 hl2 hl3 hl4 hl5 (strToInts_isInt _ v hv) hl7 hl8
    rw [if_neg h13] at h
    by_cases h14 : k = "BYSECOND"
    · rw [if_pos h14] at h
      obtain ⟨v, hv, hr⟩ := Option.map_eq_some'.mp h
      rw [← hr]
      exact inGo_intro _ hi hc hwk hwd hl0 hl1 hl2 hl3 hl4 hl5 hl6 (strToInts_isInt _ v hv) hl8
    rw [if_neg h14] at h
    by_cases h15 : k = "BYEASTER"
    · rw [if_pos h15] at h
      obtain ⟨v, hv, hr⟩ := Option.map_eq_some'.mp h
      rw [← hr]
      exact inGo_intro _ hi hc hwk hwd hl0 hl1 hl2 hl3 hl4 hl5 hl6 hl7 (strToInts_isInt _ v hv)
    rw [if_neg h15] at h
    exact absurd h (by simp)
  · exact absurd h (by simp)

/-- Parameters read into options of Go integers leave options of Go integers. -/
theorem parseParams_inGo (p : List Char → Option Time) :
    ∀ (attrs : List (List Char)) (acc r : ROption × Bool),
      parseParams p attrs acc = some r → acc.1.inGo → r.1.inGo := by
  intro attrs
  induction attrs with
  | nil =>
    intro acc r h hgo
    have e : parseParams p [] acc = some acc := rfl
    rw [e] at h
    rw [← Option.some.inj h]
    exact hgo
  | cons a rest ih =>
    intro acc r h hgo
    have e : parseParams p (a :: rest) acc = (parseParam p acc a).bind (parseParams p rest) := rfl
    rw [e] at h
    obtain ⟨m, hm, h2⟩ := Option.bind_eq_some.mp h
    exact ih m r h2 (parseParam_inGo p acc m a hm hgo)


/-- The unset options after any start hold Go integers. -/
theorem unsetOptions_inGo (d : Time) : ({ unsetOptions with Dtstart := d } : ROption).inGo := by
  apply inGo_intro
  · show isInt 0
    decide
  · show isInt 0
    decide
  · show 0 ≤ MO.Day ∧ MO.Day ≤ 6 ∧ isInt MO.N
    decide
  all_goals intro w hw
  all_goals exact absurd hw (List.not_mem_nil _)

/-- A rule read from a line of a set holds valid options of Go integers. -/
theorem readSetRule_wellFormed (p : List Char → Option Time) (n : ROption → ROption)
    (d : Time) (text : List Char) (r : RRule) (h : readSetRule p n d text = some r) :
    r.OrigOptions.inGo ∧ validOptions r.OrigOptions = true := by
  unfold readSetRule at h
  split_ifs at h
  obtain ⟨o, ho, hr⟩ := Option.bind_eq_some.mp h
  obtain ⟨m, hm, hflag⟩ := Option.bind_eq_some.mp ho
  split_ifs at hflag
  have hmo : m.1 = o := Option.some.inj hflag
  have hgo := parseParams_inGo p _ _ m hm (unsetOptions_inGo d)
  unfold NewRRule at hr
  split_ifs at hr with hv
  rw [← Option.some.inj hr]
  exact ⟨hmo ▸ hgo, hv⟩

/-- Instants added one after the other to the inclusions of a set. -/
theorem foldl_RDate (ts : List Time) :
    ∀ s : Set, ts.foldl Set.RDate s = { s with rdate := s.rdate ++ ts } := by
  induction ts with
  | nil => intro s; simp
  | cons t ts ih =>
    intro s
    rw [List.foldl_cons, ih]
    simp [Set.RDate]

/-- Instants added one after the other to the exclusions of a set. -/
theorem foldl_ExDate (ts : List Time) :
    ∀ s : Set, ts.foldl Set.ExDate s = { s with exdate := s.exdate ++ ts } := by
  induction ts with
  | nil => intro s; simp
  | cons t ts ih =>
    intro s
    rw [List.foldl_cons, ih]
    simp [Set.ExDate]

/-- A line read into a well-formed set leaves a well-formed set to which something has been
added, when the readers of instants read set instants and at least one instant. -/
theorem parseSetLine_wellFormed (p q : List Char → Option Time)
    (dates : List Char → Option (List Time)) (n : ROption → ROption)
    (hq : ∀ body d, q body = some d → d.IsZero = false)
    (hd : ∀ body ts, dates body = some ts → ts ≠ [])
    (s s' : Set) (line : List Char) (h : parseSetLine p q dates n s line = some s')
    (hw : s.wellFormed) : s'.wellFormed ∧ s'.inhabited := by
  unfold parseSetLine at h
  split_ifs at h
  · obtain ⟨v, hv, hr⟩ := Option.map_eq_some'.mp h
    rw [← hr]
    exact ⟨hw, Or.inl (hq _ v hv)⟩
  · obtain ⟨v, hv, hr⟩ := Option.map_eq_some'.mp h
    rw [← hr]
    have hwf := readSetRule_wellFormed p n _ _ v hv
    refine ⟨?_, Or.inr (Or.inl ?_)⟩
    · intro r hr
      have : r ∈ s.rrules ++ s.exrules ∨ r = v := by
        simp only [Set.RRule, List.mem_append, List.mem_singleton] at hr ⊢
        tauto
      rcases this with h1 | h1
      · exact hw r h1
      · rw [h1]; exact hwf
    · simp [Set.RRule]
  · obtain ⟨v, hv, hr⟩ := Option.map_eq_some'.mp h
    rw [← hr]
    have hwf := readSetRule_wellFormed p n _ _ v hv
    refine ⟨?_, Or.inr (Or.inr (Or.inl ?_))⟩
    · intro r hr
      have : r ∈ s.rrules ++ s.exrules ∨ r = v := by
        simp only [Set.ExRule, List.mem_append, List.mem_singleton] at hr ⊢
        tauto
      rcases this with h1 | h1
      · exact hw r h1
      · rw [h1]; exact hwf
    · simp [Set.ExRule]
  · obtain ⟨v, hv, hr⟩ := Option.map_eq_some'.mp h
    rw [← hr, foldl_RDate]
    refine ⟨hw, Or.inr (Or.inr (Or.inr (Or.inl ?_)))⟩
    have := hd _ v hv
    simp [this]
  · obtain ⟨v, hv, hr⟩ := Option.map_eq_some'.mp h
    rw [← hr, foldl_ExDate]
    refine ⟨hw, Or.inr (Or.inr (Or.inr (Or.inr ?_)))⟩
    have := hd _ v hv
    simp [this]

/-- Lines read into a well-formed set leave a well-formed set to which something has been
added, when there is a line or something had been added before. -/
theorem foldlM_wellFormed (p q : List Char → Option Time)
    (dates : List Char → Option (List Time)) (n : ROption → ROption)
    (hq : ∀ body d, q body = some d → d.IsZero = false)
    (hd : ∀ body ts, dates body = some ts → ts ≠ []) :
    ∀ (lines : List (List Char)) (s s' : Set),
      lines.foldlM (parseSetLine p q dates n) s = some s' → s.wellFormed →
      (lines ≠ [] ∨ s.inhabited) → s'.wellFormed ∧ s'.inhabited := by
  intro lines
  induction lines with
  | nil =>
    intro s s' h hw hne
    have e : ([] : List (List Char)).foldlM (parseSetLine p q dates n) s = some s := rfl
    rw [e] at h
    rw [← Option.some.inj h]
    rcases hne with hne | hne
    · exact absurd rfl hne
    · exact ⟨hw, hne⟩
  | cons l rest ih =>
    intro s s' h hw _
    rw [List.foldlM_cons] at h
    obtain ⟨m, hm, h2⟩ := Option.bind_eq_some.mp h
    have hm2 := parseSetLine_wellFormed p q dates n hq hd s m l hm hw
    exact ih m s' h2 hm2.1 (Or.inr hm2.2)

/-- There is always a first piece. -/
theorem splitOn_ne_nil (c : Char) : ∀ cs : List Char, splitOn c cs ≠ [] := by
  intro cs
  induction cs with
  | nil => simp [splitOn]
  | cons x xs ih =>
    unfold splitOn
    split_ifs
    · simp
    · split
      · simp
      · simp

/-- A set that was read from a text is well-formed and something has been added to it. -/
theorem StrToRRuleSet_wellFormed (p q : List Char → Option Time)
    (dates : List Char → Option (List Time)) (n : ROption → ROption)
    (hq : ∀ body d, q body = some d → d.IsZero = false)
    (hd : ∀ body ts, dates body = some ts → ts ≠ [])
    (text : String) (s : Set) (h : StrToRRuleSet p q dates n text = some s) :
    s.wellFormed ∧ s.inhabited := by
  unfold StrToRRuleSet at h
  split_ifs at h
  refine foldlM_wellFormed p q dates n hq hd _ Set.empty s h ?_ (Or.inl (splitOn_ne_nil _ _))
  intro r hr
  exact absurd hr (by simp [Set.empty])


/-- No key of the canonical form begins with the letter of the legacy key `DTSTART`. -/
theorem keyOrder_heads : ∀ k ∈ keyOrder, (k.data.headD 'D').toUpper ≠ 'D' := by
  decide

/-- The written parameters have no legacy key. -/
theorem hasLegacyStart_written (p : List Char → Option Time) (timeToStr : Time → String)
    (hrb : readsBack timeToStr p) (o : ROption) (hgo : o.inGo) :
    hasLegacyStart ((o.params timeToStr).map paramText) = false := by
  unfold hasLegacyStart
  rw [List.any_eq_false]
  intro a ha
  obtain ⟨kv, hkv, rfl⟩ := List.mem_map.mp ha
  have hk := keyOrder_heads kv.1 (params_values p timeToStr hrb o hgo kv hkv).1
  have e : paramText kv = kv.1.data ++ ('=' :: kv.2.data) := by
    unfold paramText
    simp [String.data_append]
  rw [e]
  cases hdata : kv.1.data with
  | nil =>
    rw [hdata] at hk
    exact absurd rfl hk
  | cons x xs =>
    rw [hdata] at hk
    have hx : x.toUpper ≠ 'D' := hk
    have hne : ('D' == x.toUpper) = false := by
      rw [beq_eq_false_iff_ne]
      exact fun h => hx h.symm
    show ¬ ("DTSTART=".data.isPrefixOf ((x :: xs ++ '=' :: kv.2.data).map Char.toUpper) = true)
    have e2 : "DTSTART=".data = 'D' :: "TSTART=".data := rfl
    rw [e2, List.cons_append, List.map_cons, List.isPrefixOf, hne]
    simp

/-- The written parameters of a rule with valid options of Go integers are read from a line
of a set with the start `d` as the canonical rule. -/
theorem readSetRule_written (p : List Char → Option Time) (timeToStr : Time → String)
    (hrb : readsBack timeToStr p) (n : ROption → ROption) (d : Time) (r : RRule)
    (hgo : r.OrigOptions.inGo) (hv : validOptions r.OrigOptions = true) :
    readSetRule p n d (r.OrigOptions.RRuleString timeToStr).data =
      some (canonicalRule p timeToStr n d r) := by
  unfold readSetRule
  have hs := (RRuleString_split p timeToStr hrb r.OrigOptions hgo).1
  rw [if_neg (by rw [hs, hasLegacyStart_written p timeToStr hrb _ hgo]; simp),
    readRule_written p timeToStr hrb _ hgo d]
  simp only [Option.some_bind]
  unfold NewRRule
  rw [if_pos (canonicalOptions_valid p timeToStr _ d hv)]
  rfl

/-- A `DTSTART` line gives the set its start. -/
theorem parseSetLine_dtstart (p q : List Char → Option Time)
    (dates : List Char → Option (List Time)) (n : ROption → ROption) (s : Set) (c : Char)
    (body : List Char) (hc : c = ':' ∨ c = ';') :
    parseSetLine p q dates n s ("DTSTART".data ++ c :: body) =
      (q body).map (fun d => s.DTStart d) := by
  unfold parseSetLine
  rcases hc with e | e
  · have h1 : ("DTSTART:".data.isPrefixOf ("DTSTART".data ++ ':' :: body) = true ∨
        "DTSTART;".data.isPrefixOf ("DTSTART".data ++ ':' :: body) = true) :=
      Or.inl (isPrefixOf_append "DTSTART:".data body)
    rw [e, if_pos h1]
    rfl
  · have h1 : ("DTSTART:".data.isPrefixOf ("DTSTART".data ++ ';' :: body) = true ∨
        "DTSTART;".data.isPrefixOf ("DTSTART".data ++ ';' :: body) = true) :=
      Or.inr (isPrefixOf_append "DTSTART;".data body)
    rw [e, if_pos h1]
    rfl

/-- An `RRULE:` line adds the rule that its parameters give. -/
theorem parseSetLine_rrule (p q : List Char → Option Time)
    (dates : List Char → Option (List Time)) (n : ROption → ROption) (s : Set)
    (text : List Char) :
    parseSetLine p q dates n s ("RRULE:".data ++ text) =
      (readSetRule p n s.dtstart text).map (fun r => s.RRule r) := by
  unfold parseSetLine
  rw [if_neg (by simp [List.isPrefixOf]), if_pos (isPrefixOf_append "RRULE:".data text)]
  rfl

/-- An `EXRULE:` line adds the exclusion rule that its parameters give. -/
theorem parseSetLine_exrule (p q : List Char → Option Time)
    (dates : List Char → Option (List Time)) (n : ROption → ROption) (s : Set)
    (text : List Char) :
    parseSetLine p q dates n s ("EXRULE:".data ++ text) =
      (readSetRule p n s.dtstart text).map (fun r => s.ExRule r) := by
  unfold parseSetLine
  rw [if_neg (by simp [List.isPrefixOf]), if_neg (by simp [List.isPrefixOf]),
    if_pos (isPrefixOf_append "EXRULE:".data text)]
  rfl

/-- An `RDATE` line adds its instants to the inclusions. -/
theorem parseSetLine_rdate (p q : List Char → Option Time)
    (dates : List Char → Option (List Time)) (n : ROption → ROption) (s : Set) (c : Char)
    (body : List Char) (hc : c = ':' ∨ c = ';') :
    parseSetLine p q dates n s ("RDATE".data ++ c :: body) =
      (dates body).map (fun ts => ts.foldl Set.RDate s) := by
  unfold parseSetLine
  rw [if_neg (by simp [List.isPrefixOf]), if_neg (by simp [List.isPrefixOf]),
    if_neg (by simp [List.isPrefixOf])]
  rcases hc with e | e
  · have h1 : ("RDATE:".data.isPrefixOf ("RDATE".data ++ ':' :: body) = true ∨
        "RDATE;".data.isPrefixOf ("RDATE".data ++ ':' :: body) = true) :=
      Or.inl (isPrefixOf_append "RDATE:".data body)
    rw [e, if_pos h1]
    rfl
  · have h1 : ("RDATE:".data.isPrefixOf ("RDATE".data ++ ';' :: body) = true ∨
        "RDATE;".data.isPrefixOf ("RDATE".data ++ ';' :: body) = true) :=
      Or.inr (isPrefixOf_append "RDATE;".data body)
    rw [e, if_pos h1]
    rfl

/-- An `EXDATE` line adds its instants to the exclusions. -/
theorem parseSetLine_exdate (p q : List Char → Option Time)
    (dates : List Char → Option (List Time)) (n : ROption → ROption) (s : Set) (c : Char)
    (body : List Char) (hc : c = ':' ∨ c = ';') :
    parseSetLine p q dates n s ("EXDATE".data ++ c :: body) =
      (dates body).map (fun ts => ts.foldl Set.ExDate s) := by
  unfold parseSetLine
  rw [if_neg (by simp [List.isPrefixOf]), if_neg (by simp [List.isPrefixOf]),
    if_neg (by simp [List.isPrefixOf]), if_neg (by simp [List.isPrefixOf])]
  rcases hc with e | e
  · have h1 : ("EXDATE:".data.isPrefixOf ("EXDATE".data ++ ':' :: body) = true ∨
        "EXDATE;".data.isPrefixOf ("EXDATE".data ++ ':' :: body) = true) :=
      Or.inl (isPrefixOf_append "EXDATE:".data body)
    rw [e, if_pos h1]
    rfl
  · have h1 : ("EXDATE:".data.isPrefixOf ("EXDATE".data ++ ';' :: body) = true ∨
        "EXDATE;".data.isPrefixOf ("EXDATE".data ++ ';' :: body) = true) :=
      Or.inr (isPrefixOf_append "EXDATE;".data body)
    rw [e, if_pos h1]
    rfl


/-- A rule that was read after the start of the set leaves that start to the set. -/
theorem RRule_canonical (p : List Char → Option Time) (timeToStr : Time → String)
    (n : ROption → ROption) (acc : Set) (r : RRule) :
    acc.RRule (canonicalRule p timeToStr n acc.dtstart r) =
      { acc with rrules := acc.rrules ++ [canonicalRule p timeToStr n acc.dtstart r] } := by
  unfold Set.RRule
  have e : (canonicalRule p timeToStr n acc.dtstart r).OrigOptions.Dtstart = acc.dtstart := rfl
  rw [e, ite_self]

/-- The `RRULE:` lines of rules with valid options of Go integers are read as the canonical
rules, added after those of the set. -/
theorem foldlM_rrules (p q : List Char → Option Time)
    (dates : List Char → Option (List Time)) (n : ROption → ROption)
    (timeToStr : Time → String) (hrb : readsBack timeToStr p) :
    ∀ (rs : List RRule) (acc : Set),
      (∀ r ∈ rs, r.OrigOptions.inGo ∧ validOptions r.OrigOptions = true) →
      (rs.map (fun r => ("RRULE:" ++ r.OrigOptions.RRuleString timeToStr).data)).foldlM
          (parseSetLine p q dates n) acc =
        some { acc with
               rrules := acc.rrules ++ rs.map (canonicalRule p timeToStr n acc.dtstart) } := by
  intro rs
  induction rs with
  | nil =>
    intro acc _
    simp only [List.map_nil, List.append_nil]
    rfl
  | cons r rs ih =>
    intro acc h
    have hr := h r (List.mem_cons_self _ _)
    rw [List.map_cons, List.foldlM_cons, String.data_append, parseSetLine_rrule,
      readSetRule_written p timeToStr hrb n acc.dtstart r hr.1 hr.2]
    simp only [Option.map_some', Option.bind_eq_bind, Option.some_bind]
    rw [RRule_canonical, ih _ (fun x hx => h x (List.mem_cons_of_mem _ hx))]
    simp only [List.map_cons, List.append_assoc, List.singleton_append]

/-- The `EXRULE:` lines of rules with valid options of Go integers are read as the canonical
rules, added after the exclusion rules of the set. -/
theorem foldlM_exrules (p q : List Char → Option Time)
    (dates : List Char → Option (List Time)) (n : ROption → ROption)
    (timeToStr : Time → String) (hrb : readsBack timeToStr p) :
    ∀ (rs : List RRule) (acc : Set),
      (∀ r ∈ rs, r.OrigOptions.inGo ∧ validOptions r.OrigOptions = true) →
      (rs.map (fun r => ("EXRULE:" ++ r.OrigOptions.RRuleString timeToStr).data)).foldlM
          (parseSetLine p q dates n) acc =
        some { acc with
               exrules := acc.exrules ++ rs.map (canonicalRule p timeToStr n acc.dtstart) } := by
  intro rs
  induction rs with
  | nil =>
    intro acc _
    simp only [List.map_nil, List.append_nil]
    rfl
  | cons r rs ih =>
    intro acc h
    have hr := h r (List.mem_cons_self _ _)
    rw [List.map_cons, List.foldlM_cons, String.data_append, parseSetLine_exrule,
      readSetRule_written p timeToStr hrb n acc.dtstart r hr.1 hr.2]
    simp only [Option.map_some', Option.bind_eq_bind, Option.some_bind]
    rw [ih _ (fun x hx => h x (List.mem_cons_of_mem _ hx))]
    simp only [Set.ExRule, List.map_cons, List.append_assoc, List.singleton_append]

/-- The `RDATE` lines of instants are read as instants that are written the same, added
after the inclusions of the set. -/
theorem foldlM_rdates (p q : List Char → Option Time)
    (dates : List Char → Option (List Time)) (n : ROption → ROption)
    (ds : Time → String) (hrd : readsBackDates ds dates) :
    ∀ (tl : List Time) (acc : Set), ∃ us, us.map ds = tl.map ds ∧
      (tl.map (fun t => ("RDATE" ++ ds t).data)).foldlM (parseSetLine p q dates n) acc =
        some { acc with rdate := acc.rdate ++ us } := by
  intro tl
  induction tl with
  | nil =>
    intro acc
    refine ⟨[], rfl, ?_⟩
    simp only [List.map_nil, List.append_nil]
    rfl
  | cons t tl ih =>
    intro acc
    obtain ⟨c, body, hdat, hc, _, u, hu, hus⟩ := hrd.2 t
    obtain ⟨us, hmap, hfold⟩ := ih (acc.RDate u)
    refine ⟨u :: us, by rw [List.map_cons, List.map_cons, hus, hmap], ?_⟩
    rw [List.map_cons, List.foldlM_cons, String.data_append, hdat,
      parseSetLine_rdate p q dates n acc c body hc, hu]
    simp only [Option.map_some', Option.bind_eq_bind, Option.some_bind, List.foldl_cons,
      List.foldl_nil]
    rw [hfold]
    simp only [Set.RDate, List.append_assoc, List.singleton_append]

/-- The `EXDATE` lines of instants are read as instants that are written the same, added
after the exclusions of the set. -/
theorem foldlM_exdates (p q : List Char → Option Time)
    (dates : List Char → Option (List Time)) (n : ROption → ROption)
    (ds : Time → String) (hrd : readsBackDates ds dates) :
    ∀ (tl : List Time) (acc : Set), ∃ us, us.map ds = tl.map ds ∧
      (tl.map (fun t => ("EXDATE" ++ ds t).data)).foldlM (parseSetLine p q dates n) acc =
        some { acc with exdate := acc.exdate ++ us } := by
  intro tl
  induction tl with
  | nil =>
    intro acc
    refine ⟨[], rfl, ?_⟩
    simp only [List.map_nil, List.append_nil]
    rfl
  | cons t tl ih =>
    intro acc
    obtain ⟨c, body, hdat, hc, _, u, hu, hus⟩ := hrd.2 t
    obtain ⟨us, hmap, hfold⟩ := ih (acc.ExDate u)
    refine ⟨u :: us, by rw [List.map_cons, List.map_cons, hus, hmap], ?_⟩
    rw [List.map_cons, List.foldlM_cons, String.data_append, hdat,
      parseSetLine_exdate p q dates n acc c body hc, hu]
    simp only [Option.map_some', Option.bind_eq_bind, Option.some_bind, List.foldl_cons,
      List.foldl_nil]
    rw [hfold]
    simp only [Set.ExDate, List.append_assoc, List.singleton_append]

/-- The `DTSTART` line of a set is read into the empty set as a start that is written the
same. -/
theorem foldlM_dtstart (p q : List Char → Option Time)
    (dates : List Char → Option (List Time)) (n : ROption → ROption)
    (ds : Time → String) (hrl : readsBackLine ds q) (d : Time) :
    ∃ u, u.IsZero = d.IsZero ∧ (d.IsZero = false → ds u = ds d) ∧
      ((if d.IsZero then [] else ["DTSTART" ++ ds d]).map String.data).foldlM
          (parseSetLine p q dates n) Set.empty = some (Set.empty.DTStart u) := by
  cases hz : d.IsZero with
  | true =>
    refine ⟨Time.zero, rfl, fun h => absurd h (by decide), ?_⟩
    rfl
  | false =>
    obtain ⟨c, body, hdat, hc, _, u, hu, hus⟩ := hrl.2 d hz
    refine ⟨u, hrl.1 body u hu, fun _ => hus, ?_⟩
    simp only [Bool.false_eq_true, if_false, List.map_cons, List.map_nil, List.foldlM_cons,
      String.data_append, hdat]
    rw [parseSetLine_dtstart p q dates n Set.empty c body hc, hu]
    rfl


/-- The canonical rule is written as the rule. -/
theorem canonicalRule_RRuleString (p : List Char → Option Time) (timeToStr : Time → String)
    (hrb : readsBack timeToStr p) (n : ROption → ROption) (d : Time) (r : RRule) :
    (canonicalRule p timeToStr n d r).OrigOptions.RRuleString timeToStr =
      r.OrigOptions.RRuleString timeToStr := by
  show (canonicalOptions p timeToStr d r.OrigOptions).RRuleString timeToStr = _
  unfold ROption.RRuleString
  rw [canonicalOptions_params p timeToStr hrb]

/-- The lines of a well-formed set are read, one after the other, into a set with the same
lines. -/
theorem Recurrence_read (p q : List Char → Option Time)
    (dates : List Char → Option (List Time)) (n : ROption → ROption)
    (timeToStr ds : Time → String) (hrb : readsBack timeToStr p) (hrl : readsBackLine ds q)
    (hrd : readsBackDates ds dates) (s : Set) (hw : s.wellFormed) :
    ∃ s', ((s.Recurrence timeToStr ds).map String.data).foldlM (parseSetLine p q dates n)
        Set.empty = some s' ∧
      s'.Recurrence timeToStr ds = s.Recurrence timeToStr ds := by
  obtain ⟨u, huz, hus, hdt⟩ := foldlM_dtstart p q dates n ds hrl s.dtstart
  have h2 : (s.rrules.map (fun r => ("RRULE:" ++ r.OrigOptions.RRuleString timeToStr).data)).foldlM
      (parseSetLine p q dates n) (Set.empty.DTStart u) =
      some { dtstart := u, rrules := s.rrules.map (canonicalRule p timeToStr n u), rdate := [],
             exrules := [], exdate := [] } :=
    foldlM_rrules p q dates n timeToStr hrb s.rrules (Set.empty.DTStart u)
      (fun r hr => hw r (List.mem_append_left _ hr))
  have h3 : (s.exrules.map
        (fun r => ("EXRULE:" ++ r.OrigOptions.RRuleString timeToStr).data)).foldlM
      (parseSetLine p q dates n)
      { dtstart := u, rrules := s.rrules.map (canonicalRule p timeToStr n u), rdate := [],
        exrules := [], exdate := [] } =
      some { dtstart := u, rrules := s.rrules.map (canonicalRule p timeToStr n u), rdate := [],
             exrules := s.exrules.map (canonicalRule p timeToStr n u), exdate := [] } :=
    foldlM_exrules p q dates n timeToStr hrb s.exrules _
      (fun r hr => hw r (List.mem_append_right _ hr))
  obtain ⟨us, hm, h4⟩ := foldlM_rdates p q dates n ds hrd s.rdate
    { dtstart := u, rrules := s.rrules.map (canonicalRule p timeToStr n u), rdate := [],
      exrules := s.exrules.map (canonicalRule p timeToStr n u), exdate := [] }
  have h4n : (s.rdate.map (fun t => ("RDATE" ++ ds t).data)).foldlM (parseSetLine p q dates n)
      { dtstart := u, rrules := s.rrules.map (canonicalRule p timeToStr n u), rdate := [],
        exrules := s.exrules.map (canonicalRule p timeToStr n u), exdate := [] } =
      some { dtstart := u, rrules := s.rrules.map (canonicalRule p timeToStr n u), rdate := us,
             exrules := s.exrules.map (canonicalRule p timeToStr n u), exdate := [] } := h4
  obtain ⟨us2, hm2, h5⟩ := foldlM_exdates p q dates n ds hrd s.exdate
    { dtstart := u, rrules := s.rrules.map (canonicalRule p timeToStr n u), rdate := us,
      exrules := s.exrules.map (canonicalRule p timeToStr n u), exdate := [] }
  have h5n : (s.exdate.map (fun t => ("EXDATE" ++ ds t).data)).foldlM (parseSetLine p q dates n)
      { dtstart := u, rrules := s.rrules.map (canonicalRule p timeToStr n u), rdate := us,
        exrules := s.exrules.map (canonicalRule p timeToStr n u), exdate := [] } =
      some { dtstart := u, rrules := s.rrules.map (canonicalRule p timeToStr n u), rdate := us,
             exrules := s.exrules.map (canonicalRule p timeToStr n u), exdate := us2 } := h5
  refine ⟨{ dtstart := u, rrules := s.rrules.map (canonicalRule p timeToStr n u), rdate := us,
            exrules := s.exrules.map (canonicalRule p timeToStr n u), exdate := us2 }, ?_, ?_⟩
  · unfold Set.Recurrence
    simp only [List.map_append, List.foldlM_append, List.map_map, Function.comp_def]
    rw [hdt]
    simp only [Option.bind_eq_bind, Option.some_bind]
    rw [h2]
    simp only [Option.bind_eq_bind, Option.some_bind]
    rw [h3]
    simp only [Option.bind_eq_bind, Option.some_bind]
    rw [h4n]
    simp only [Option.bind_eq_bind, Option.some_bind]
    rw [h5n]
  · unfold Set.Recurrence
    simp only [List.map_map, Function.comp_def, canonicalRule_RRuleString p timeToStr hrb]
    have hdate1 : us.map (fun t => "RDATE" ++ ds t) = s.rdate.map (fun t => "RDATE" ++ ds t) := by
      have := congrArg (List.map (fun x => "RDATE" ++ x)) hm
      simpa only [List.map_map, Function.comp_def] using this
    have hdate2 :
        us2.map (fun t => "EXDATE" ++ ds t) = s.exdate.map (fun t => "EXDATE" ++ ds t) := by
      have := congrArg (List.map (fun x => "EXDATE" ++ x)) hm2
      simpa only [List.map_map, Function.comp_def] using this
    rw [hdate1, hdate2, huz]
    cases hz : s.dtstart.IsZero with
    | true => rfl
    | false => simp only [Bool.false_eq_true, if_false, hus hz]


/-- A name of a line followed by a text without line break or white space is such a text. -/
theorem named_chars (name : String) (rest : List Char)
    (hn : ∀ c ∈ name.data, c ≠ '\n' ∧ isSpace c = false)
    (hr : ∀ c ∈ rest, c ≠ '\n' ∧ isSpace c = false) (hne : name.data ≠ []) :
    name.data ++ rest ≠ [] ∧ ∀ c ∈ name.data ++ rest, c ≠ '\n' ∧ isSpace c = false := by
  refine ⟨fun h => hne (List.append_eq_nil.mp h).1, ?_⟩
  intro c hc
  rcases List.mem_append.mp hc with h | h
  · exact hn c h
  · exact hr c h

/-- What a writer of lines writes after the name has no line break or white space. -/
theorem separator_chars (c : Char) (body : List Char) (hc : c = ':' ∨ c = ';')
    (hb : ∀ x ∈ body, x ≠ '\n' ∧ isSpace x = false) :
    ∀ x ∈ c :: body, x ≠ '\n' ∧ isSpace x = false := by
  intro x hx
  rcases List.mem_cons.mp hx with h | h
  · rcases hc with e | e <;> rw [h, e] <;> decide
  · exact hb x h

/-- The lines of a well-formed set are not empty and have no line break or white space. -/
theorem Recurrence_chars (p q : List Char → Option Time)
    (dates : List Char → Option (List Time))
    (timeToStr ds : Time → String) (hrb : readsBack timeToStr p) (hrl : readsBackLine ds q)
    (hrd : readsBackDates ds dates) (s : Set) (hw : s.wellFormed) :
    ∀ l ∈ (s.Recurrence timeToStr ds).map String.data,
      l ≠ [] ∧ ∀ c ∈ l, c ≠ '\n' ∧ isSpace c = false := by
  have hrule : ∀ r ∈ s.rrules ++ s.exrules,
      ∀ c ∈ (r.OrigOptions.RRuleString timeToStr).data, c ≠ '\n' ∧ isSpace c = false :=
    fun r hr => (RRuleString_split p timeToStr hrb r.OrigOptions (hw r hr).1).2.2
  have hdate : ∀ t : Time, ∀ c ∈ (ds t).data, c ≠ '\n' ∧ isSpace c = false := by
    intro t
    obtain ⟨c, body, hdat, hc, hb, _⟩ := hrd.2 t
    rw [hdat]
    exact separator_chars c body hc hb
  intro l hl
  obtain ⟨line, hline, rfl⟩ := List.mem_map.mp hl
  unfold Set.Recurrence at hline
  simp only [List.mem_append, List.mem_map] at hline
  rcases hline with (((h | ⟨r, hr, rfl⟩) | ⟨r, hr, rfl⟩) | ⟨t, _, rfl⟩) | ⟨t, _, rfl⟩
  · split_ifs at h with hz
    · exact absurd h (List.not_mem_nil _)
    · rw [List.mem_singleton] at h
      rw [h, String.data_append]
      obtain ⟨c, body, hdat, hc, hb, _⟩ := hrl.2 s.dtstart (by simpa using hz)
      rw [hdat]
      exact named_chars "DTSTART" _ (by decide) (separator_chars c body hc hb) (by decide)
  · rw [String.data_append]
    exact named_chars "RRULE:" _ (by decide) (hrule r (List.mem_append_left _ hr)) (by decide)
  · rw [String.data_append]
    exact named_chars "EXRULE:" _ (by decide) (hrule r (List.mem_append_right _ hr)) (by decide)
  · rw [String.data_append]
    exact named_chars "RDATE" _ (by decide) (hdate t) (by decide)
  · rw [String.data_append]
    exact named_chars "EXDATE" _ (by decide) (hdate t) (by decide)

/-- Something has been added to the set: it has a line. -/
theorem Recurrence_ne_nil (timeToStr ds : Time → String) (s : Set) (hi : s.inhabited) :
    s.Recurrence timeToStr ds ≠ [] := by
  unfold Set.Recurrence
  rcases hi with h | h | h | h | h
  · simp [h]
  · simp [h]
  · simp [h]
  · simp [h]
  · simp [h]

/-- Lines without white space, one below the other, end with a character that is not white
space. -/
theorem intercalate_last (ls : List (List Char)) :
    (∀ l ∈ ls, l ≠ [] ∧ ∀ c ∈ l, c ≠ '\n' ∧ isSpace c = false) →
    ∀ c, (List.intercalate ['\n'] ls).getLast? = some c → isSpace c = false := by
  induction ls with
  | nil =>
    intro _ c h
    simp [List.intercalate] at h
  | cons a rest ih =>
    intro hl c h
    cases rest with
    | nil =>
      simp only [List.intercalate, List.intersperse, List.flatten, List.append_nil] at h
      exact ((hl a (List.mem_cons_self _ _)).2 c (List.mem_of_getLast?_eq_some h)).2
    | cons b rest =>
      have e : List.intercalate ['\n'] (a :: b :: rest) =
          (a ++ ['\n']) ++ List.intercalate ['\n'] (b :: rest) := by
        simp [List.intercalate, List.intersperse]
      have hne : List.intercalate ['\n'] (b :: rest) ≠ [] :=
        intercalate_ne_nil _ b rest (hl b (List.mem_cons_of_mem _ (List.mem_cons_self _ _))).1
      rw [e, List.getLast?_append_of_ne_nil _ hne] at h
      exact ih (fun l hm => hl l (List.mem_cons_of_mem _ hm)) c h

/-- Lines without white space, one below the other, are a text without white space around
it, that is not empty and splits into the lines. -/
theorem lines_text (ls : List (List Char)) (hne : ls ≠ [])
    (hl : ∀ l ∈ ls, l ≠ [] ∧ ∀ c ∈ l, c ≠ '\n' ∧ isSpace c = false) :
    trimSpace (List.intercalate ['\n'] ls) = List.intercalate ['\n'] ls ∧
    List.intercalate ['\n'] ls ≠ [] ∧
    splitOn '\n' (List.intercalate ['\n'] ls) = ls := by
  refine ⟨?_, ?_, ?_⟩
  · apply trimSpace_ends
    · intro c hc
      cases ls with
      | nil => exact absurd rfl hne
      | cons a rest =>
        have ha := hl a (List.mem_cons_self _ _)
        cases a with
        | nil => exact absurd rfl ha.1
        | cons x xs =>
          have e : (List.intercalate ['\n'] ((x :: xs) :: rest)).head? = some x := by
            cases rest with
            | nil => simp [List.intercalate, List.intersperse]
            | cons b rest => simp [List.intercalate, List.intersperse]
          rw [e] at hc
          rw [← Option.some.inj hc]
          exact (ha.2 x (List.mem_cons_self _ _)).2
    · exact intercalate_last ls hl
  · cases ls with
    | nil => exact absurd rfl hne
    | cons a rest => exact intercalate_ne_nil _ a rest (hl a (List.mem_cons_self _ _)).1
  · exact splitOn_intercalate '\n' ls hne (fun l hm hc => (hl l hm).2 _ hc |>.1 rfl)

/-- The set half of the round trip: the text of a well-formed set to which something has
been added is read as a set whose text is the same. -/
theorem StrToRRuleSet_String (p q : List Char → Option Time)
    (dates : List Char → Option (List Time)) (n : ROption → ROption)
    (timeToStr ds : Time → String) (hrb : readsBack timeToStr p) (hrl : readsBackLine ds q)
    (hrd : readsBackDates ds dates) (s : Set) (hw : s.wellFormed) (hi : s.inhabited) :
    ∃ s', StrToRRuleSet p q dates n (s.String timeToStr ds) = some s' ∧
      s'.String timeToStr ds = s.String timeToStr ds := by
  obtain ⟨s', hread, hsame⟩ := Recurrence_read p q dates n timeToStr ds hrb hrl hrd s hw
  obtain ⟨htrim, hne, hsplit⟩ := lines_text _
    (fun h => Recurrence_ne_nil timeToStr ds s hi (List.map_eq_nil_iff.mp h))
    (Recurrence_chars p q dates timeToStr ds hrb hrl hrd s hw)
  refine ⟨s', ?_, ?_⟩
  · have hdata : (s.String timeToStr ds).data =
        List.intercalate ['\n'] ((s.Recurrence timeToStr ds).map String.data) :=
      Join_data "\n" _
    unfold StrToRRuleSet
    rw [hdata, htrim, if_neg hne, hsplit, hread]
  · unfold Set.String
    rw [hsame]

/-- The year that the calendar of years writes is read back. -/
theorem strToYear_yearToStr (t : Time) :
    ∃ u, strToYear (yearToStr t).data = some u ∧ u.IsZero = false ∧
      yearToStr u = yearToStr t := by
  have hy : isInt (if isInt t.Year then t.Year else 0) := by
    split_ifs with h
    · exact h
    · decide
  refine ⟨⟨if isInt t.Year then t.Year else 0, 1, 1, false⟩, ?_, rfl, ?_⟩
  · unfold strToYear yearToStr
    rw [strToInt_Itoa _ hy]
    rfl
  · show Itoa (if isInt (if isInt t.Year then t.Year else 0) then
        (if isInt t.Year then t.Year else 0) else 0) = yearToStr t
    rw [if_pos hy]
    rfl

/-- The calendar of years reads back the instants that it writes. -/
theorem readsBack_year : readsBack yearToStr strToYear := by
  intro t _
  have hc := Itoa_chars (if isInt t.Year then t.Year else 0)
  refine ⟨hc.1, ?_, strToYear_yearToStr t⟩
  intro c hm
  have := hc.2 c hm
  exact ⟨this.1, this.2.1, this.2.2.2.1, this.2.2.2.2⟩

/-- The calendar of years reads back the start line that it writes, as a set instant. -/
theorem readsBackLine_year : readsBackLine yearLine strToYear := by
  refine ⟨?_, ?_⟩
  · intro body d h
    obtain ⟨y, _, hd⟩ := Option.map_eq_some'.mp h
    rw [← hd]
  · intro t _
    have hc := Itoa_chars (if isInt t.Year then t.Year else 0)
    obtain ⟨u, hu, _, hus⟩ := strToYear_yearToStr t
    refine ⟨':', (yearToStr t).data, rfl, Or.inl rfl, ?_, u, hu, ?_⟩
    · intro x hx
      have := hc.2 x hx
      exact ⟨this.2.2.2.1, this.2.2.2.2⟩
    · unfold yearLine
      rw [hus]

/-- A list read element by element from a list that is not empty is not empty. -/
theorem mapM_ne_nil {α β : Type} (f : α → Option β) (xs : List α) (ys : List β)
    (hne : xs ≠ []) (h : xs.mapM f = some ys) : ys ≠ [] := by
  cases xs with
  | nil => exact absurd rfl hne
  | cons x xs =>
    rw [List.mapM_cons] at h
    obtain ⟨b, _, h2⟩ := Option.bind_eq_some.mp h
    obtain ⟨bs, _, h3⟩ := Option.bind_eq_some.mp h2
    rw [← Option.some.inj h3]
    exact List.cons_ne_nil _ _

/-- The calendar of years reads back the lines of instants that it writes, and reads at least
one instant. -/
theorem readsBackDates_year : readsBackDates yearLine strToYears := by
  refine ⟨?_, ?_⟩
  · intro body ts h
    exact mapM_ne_nil strToYear _ ts (splitOn_ne_nil _ _) h
  · intro t
    have hc := Itoa_chars (if isInt t.Year then t.Year else 0)
    obtain ⟨u, hu, _, hus⟩ := strToYear_yearToStr t
    refine ⟨':', (yearToStr t).data, rfl, Or.inl rfl, ?_, u, ?_, ?_⟩
    · intro x hx
      have := hc.2 x hx
      exact ⟨this.2.2.2.1, this.2.2.2.2⟩
    · unfold strToYears
      have hsplit : splitOn ',' (yearToStr t).data = [(yearToStr t).data] :=
        splitOn_not_mem ',' _ (fun hm => (hc.2 _ hm).2.2.1 rfl)
      rw [hsplit, List.mapM_cons, hu]
      rfl
    · unfold yearLine
      rw [hus]


/-- The callback results over the indices from the length of `pre`, on the slice `pre`
followed by `ws`, are the callback results over `ws`. -/
theorem mapM_indices_from (f : Weekday → Option String) :
    ∀ (ws pre : List Weekday),
      ((List.range' pre.length ws.length).map Int.ofNat).mapM
          (fun i => (weekdayAt (pre ++ ws) i).bind f) = ws.mapM f := by
  intro ws
  induction ws with
  | nil => intro pre; rfl
  | cons w ws ih =>
    intro pre
    have hat : weekdayAt (pre ++ w :: ws) (Int.ofNat pre.length) = some w := by
      unfold weekdayAt
      have h0 : (0 : Int) ≤ Int.ofNat pre.length := Int.ofNat_nonneg _
      rw [if_pos h0]
      show (pre ++ w :: ws).get? pre.length = some w
      rw [List.get?_eq_getElem?, List.getElem?_append_right (le_refl _), Nat.sub_self]
      exact List.getElem?_cons_zero
    have hpre : pre ++ w :: ws = (pre ++ [w]) ++ ws := by simp
    have hlen : pre.length + 1 = (pre ++ [w]).length := by simp
    have hih := ih (pre ++ [w])
    rw [← hpre, ← hlen] at hih
    rw [List.length_cons, List.range'_succ, List.map_cons, List.mapM_cons, List.mapM_cons, hat,
      hih]
    rfl

/-- The callback results over the indices of a slice are the callback results over the
slice. -/
theorem mapM_indices (f : Weekday → Option String) (ws : List Weekday) :
    (indices ws.length).mapM (fun i => (weekdayAt ws i).bind f) = ws.mapM f := by
  have h := mapM_indices_from f ws []
  unfold indices
  rw [List.range_eq_range']
  exact h

/-- A text that splits into one piece is that piece. -/
theorem splitOn_single (c : Char) : ∀ (xs v : List Char), splitOn c xs = [v] → xs = v := by
  intro xs
  induction xs with
  | nil =>
    intro v h
    have e : splitOn c [] = [[]] := rfl
    rw [e] at h
    exact (List.cons.inj h).1
  | cons x xs ih =>
    intro v h
    unfold splitOn at h
    by_cases hx : x = c
    · rw [if_pos hx] at h
      exact absurd (List.cons.inj h).2 (splitOn_ne_nil c xs)
    · rw [if_neg hx] at h
      cases hs : splitOn c xs with
      | nil => exact absurd hs (splitOn_ne_nil c xs)
      | cons p ps =>
        rw [hs] at h
        simp only at h
        obtain ⟨h1, h2⟩ := List.cons.inj h
        rw [h2] at hs
        rw [← h1, ih p hs]

/-- A text that splits into two pieces is the pieces around the separator. -/
theorem splitOn_pair (c : Char) :
    ∀ (xs k v : List Char), splitOn c xs = [k, v] → xs = k ++ c :: v := by
  intro xs
  induction xs with
  | nil =>
    intro k v h
    have e : splitOn c [] = [[]] := rfl
    rw [e] at h
    exact absurd (List.cons.inj h).2 (by simp)
  | cons x xs ih =>
    intro k v h
    unfold splitOn at h
    by_cases hx : x = c
    · rw [if_pos hx] at h
      obtain ⟨h1, h2⟩ := List.cons.inj h
      rw [← h1, splitOn_single c xs v h2, hx]
      rfl
    · rw [if_neg hx] at h
      cases hs : splitOn c xs with
      | nil => exact absurd hs (splitOn_ne_nil c xs)
      | cons p ps =>
        rw [hs] at h
        simp only at h
        obtain ⟨h1, h2⟩ := List.cons.inj h
        rw [h2] at hs
        rw [← h1, ih p v hs]
        rfl

/-- The key of an optional parameter is written exactly when its field is set. -/
theorem optional_key (k v : String) (c : Prop) [Decidable c] :
    (if c then ([] : List (String × String)) else [(k, v)]).map Prod.fst =
      if decide (¬ c) then [k] else [] := by
  by_cases h : c <;> simp [h]

/-- The key of a list of integers is written exactly when the list is not empty. -/
theorem intsParam_key (k : String) (vs : List Int) :
    (intsParam k vs).map Prod.fst = if decide (¬ vs = []) then [k] else [] := by
  unfold intsParam
  by_cases h : vs = [] <;> simp [h]

set_option maxRecDepth 100000 in
/-- The keys of the parameters are the keys that are set, in the order of `keyOrder`. -/
theorem params_keys (timeToStr : Time → String) (o : ROption) :
    (o.params timeToStr).map Prod.fst = keyOrder.filter (keyIsSet o) := by
  have hk : keyOrder = ["FREQ"] ++ ["INTERVAL"] ++ ["WKST"] ++ ["COUNT"] ++ ["UNTIL"] ++
      ["BYSETPOS"] ++ ["BYMONTH"] ++ ["BYMONTHDAY"] ++ ["BYYEARDAY"] ++ ["BYWEEKNO"] ++
      ["BYDAY"] ++ ["BYHOUR"] ++ ["BYMINUTE"] ++ ["BYSECOND"] ++ ["BYEASTER"] := rfl
  have hf : ∀ k : String, List.filter (keyIsSet o) [k] = if keyIsSet o k then [k] else [] := by
    intro k
    by_cases h : keyIsSet o k = true <;> simp [h]
  rw [hk]
  unfold ROption.params
  simp only [List.map_append, List.filter_append, hf, optional_key, intsParam_key]
  rfl


/-- No key of the canonical form has an equals sign, and each is in upper case. -/
theorem keyOrder_plain :
    ∀ k ∈ keyOrder, '=' ∉ k.data ∧ k.data.map Char.toUpper = k.data := by
  decide

/-- What stands before the first separator of a text that has none before it. -/
theorem takeWhile_before (c : Char) (k v : List Char) (h : c ∉ k) :
    (k ++ c :: v).takeWhile (fun x => x ≠ c) = k := by
  induction k with
  | nil =>
    rw [List.nil_append, List.takeWhile_cons, if_neg (by simp)]
  | cons x xs ih =>
    have hx : x ≠ c := fun e => h (e ▸ List.mem_cons_self _ _)
    have hxs : c ∉ xs := fun hm => h (List.mem_cons_of_mem _ hm)
    rw [List.cons_append, List.takeWhile_cons, if_pos (by simpa using hx), ih hxs]

/-- The written parameter begins with its key. -/
theorem paramText_key (kv : String × String) (hk : kv.1 ∈ keyOrder) :
    (paramText kv).takeWhile (fun x => x ≠ '=') = kv.1.data ∧ paramKey (paramText kv) = kv.1.data := by
  have e : paramText kv = kv.1.data ++ ('=' :: kv.2.data) := by
    unfold paramText
    simp [String.data_append]
  have h1 := takeWhile_before '=' kv.1.data kv.2.data (keyOrder_plain kv.1 hk).1
  refine ⟨by rw [e, h1], ?_⟩
  unfold paramKey
  rw [e, h1, (keyOrder_plain kv.1 hk).2]

/-- The keys that appear in the text after `RRULE:`, in the order of the text, are the keys
that are set, in the order of `keyOrder`. -/
theorem RRuleString_keys (p : List Char → Option Time) (timeToStr : Time → String)
    (hrb : readsBack timeToStr p) (o : ROption) (hgo : o.inGo) :
    (splitOn ';' (o.RRuleString timeToStr).data).map
        (fun a => a.takeWhile (fun c => c ≠ '=')) =
      (keyOrder.filter (keyIsSet o)).map String.data := by
  rw [(RRuleString_split p timeToStr hrb o hgo).1, ← params_keys timeToStr o, List.map_map,
    List.map_map]
  apply List.map_congr_left
  intro kv hkv
  exact (paramText_key kv (params_values p timeToStr hrb o hgo kv hkv).1).1

set_option maxRecDepth 100000 in
/-- A parameter is read by reading what it sets and setting it. -/
theorem parseParam_update (p : List Char → Option Time) (acc : ROption × Bool)
    (a : List Char) : parseParam p acc a = (parseUpdate p a).map (Update.apply acc) := by
  unfold parseParam parseUpdate
  generalize splitOn '=' a = l
  match l with
  | [] => rfl
  | [_] => rfl
  | _ :: _ :: _ :: _ => rfl
  | [key, value] =>
    dsimp only
    by_cases hval : value = []
    · rw [if_pos hval, if_pos hval]
      rfl
    rw [if_neg hval, if_neg hval]
    generalize String.mk (List.map Char.toUpper key) = k
    by_cases h0 : k = "FREQ"
    · rw [if_pos h0, if_pos h0, Option.map_map]
      rfl
    rw [if_neg h0, if_neg h0]
    by_cases h1 : k = "DTSTART"
    · rw [if_pos h1, if_pos h1, Option.map_map]
      rfl
    rw [if_neg h1, if_neg h1]
    by_cases h2 : k = "INTERVAL"
    · rw [if_pos h2, if_pos h2, Option.map_map]
      rfl
    rw [if_neg h2, if_neg h2]
    by_cases h3 : k = "WKST"
    · rw [if_pos h3, if_pos h3, Option.map_map]
      rfl
    rw [if_neg h3, if_neg h3]
    by_cases h4 : k = "COUNT"
    · rw [if_pos h4, if_pos h4, Option.map_map]
      rfl
    rw [if_neg h4, if_neg h4]
    by_cases h5 : k = "UNTIL"
    · rw [if_pos h5, if_pos h5, Option.map_map]
      rfl
    rw [if_neg h5, if_neg h5]
    by_cases h6 : k = "BYSETPOS"
    · rw [if_pos h6, if_pos h6, Option.map_map]
      rfl
    rw [if_neg h6, if_neg h6]
    by_cases h7 : k = "BYMONTH"
    · rw [if_pos h7, if_pos h7, Option.map_map]
      rfl
    rw [if_neg h7, if_neg h7]
    by_cases h8 : k = "BYMONTHDAY"
    · rw [if_pos h8, if_pos h8, Option.map_map]
      rfl
    rw [if_neg h8, if_neg h8]
    by_cases h9 : k = "BYYEARDAY"
    · rw [if_pos h9, if_pos h9, Option.map_map]
      rfl
    rw [if_neg h9, if_neg h9]
    by_cases h10 : k = "BYWEEKNO"
    · rw [if_pos h10, if_pos h10, Option.map_map]
      rfl
    rw [if_neg h10, if_neg h10]
    by_cases h11 : k = "BYDAY"
    · rw [if_pos h11, if_pos h11, Option.map_map]
      rfl
    rw [if_neg h11, if_neg h11]
    by_cases h12 : k = "BYHOUR"
    · rw [if_pos h12, if_pos h12, Option.map_map]
      rfl
    rw [if_neg h12, if_neg h12]
    by_cases h13 : k = "BYMINUTE"
    · rw [if_pos h13, if_pos h13, Option.map_map]
      rfl
    rw [if_neg h13, if_neg h13]
    by_cases h14 : k = "BYSECOND"
    · rw [if_pos h14, if_pos h14, Option.map_map]
      rfl
    rw [if_neg h14, if_neg h14]
    by_cases h15 : k = "BYEASTER"
    · rw [if_pos h15, if_pos h15, Option.map_map]
      rfl
    rw [if_neg h15, if_neg h15]
    rfl

/-- Setting two fields of different keys in either order gives the same options. -/
theorem Update_apply_comm (acc : ROption × Bool) (u v : Update) (h : u.key ≠ v.key) :
    Update.apply (Update.apply acc u) v = Update.apply (Update.apply acc v) u := by
  cases u <;> cases v <;> first
    | rfl
    | exact absurd rfl h


/-- The first piece of a split text has no separator. -/
theorem splitOn_first (c : Char) :
    ∀ (xs k : List Char) (rest : List (List Char)), splitOn c xs = k :: rest → c ∉ k := by
  intro xs
  induction xs with
  | nil =>
    intro k rest h
    have e : splitOn c [] = [[]] := rfl
    rw [e] at h
    rw [← (List.cons.inj h).1]
    exact List.not_mem_nil _
  | cons x xs ih =>
    intro k rest h
    unfold splitOn at h
    by_cases hx : x = c
    · rw [if_pos hx] at h
      rw [← (List.cons.inj h).1]
      exact List.not_mem_nil _
    · rw [if_neg hx] at h
      cases hs : splitOn c xs with
      | nil => exact absurd hs (splitOn_ne_nil c xs)
      | cons p ps =>
        rw [hs] at h
        simp only at h
        rw [← (List.cons.inj h).1]
        intro hm
        rcases List.mem_cons.mp hm with e | e
        · exact hx e.symm
        · exact ih p ps hs e

set_option maxRecDepth 100000 in
/-- What a parameter sets has the key of the parameter. -/
theorem parseUpdate_key (p : List Char → Option Time) (a : List Char) (u : Update)
    (h : parseUpdate p a = some u) : String.mk (paramKey a) = u.key := by
  unfold parseUpdate at h
  split at h
  · rename_i key value hsplit
    have ha := splitOn_pair '=' a key value hsplit
    have hk := splitOn_first '=' a key [value] hsplit
    have hkey : paramKey a = key.map Char.toUpper := by
      unfold paramKey
      rw [ha, takeWhile_before '=' key value hk]
    rw [hkey]
    by_cases hval : value = []
    · rw [if_pos hval] at h
      exact absurd h (by simp)
    rw [if_neg hval] at h
    dsimp only at h
    generalize String.mk (List.map Char.toUpper key) = k at h ⊢
    by_cases h0 : k = "FREQ"
    · rw [if_pos h0] at h
      obtain ⟨v, _, hu⟩ := Option.map_eq_some'.mp h
      rw [← hu, h0]
      rfl
    rw [if_neg h0] at h
    by_cases h1 : k = "DTSTART"
    · rw [if_pos h1] at h
      obtain ⟨v, _, hu⟩ := Option.map_eq_some'.mp h
      rw [← hu, h1]
      rfl
    rw [if_neg h1] at h
    by_cases h2 : k = "INTERVAL"
    · rw [if_pos h2] at h
      obtain ⟨v, _, hu⟩ := Option.map_eq_some'.mp h
      rw [← hu, h2]
      rfl
    rw [if_neg h2] at h
    by_cases h3 : k = "WKST"
    · rw [if_pos h3] at h
      obtain ⟨v, _, hu⟩ := Option.map_eq_some'.mp h
      rw [← hu, h3]
      rfl
    rw [if_neg h3] at h
    by_cases h4 : k = "COUNT"
    · rw [if_pos h4] at h
      obtain ⟨v, _, hu⟩ := Option.map_eq_some'.mp h
      rw [← hu, h4]
      rfl
    rw [if_neg h4] at h
    by_cases h5 : k = "UNTIL"
    · rw [if_pos h5] at h
      obtain ⟨v, _, hu⟩ := Option.map_eq_some'.mp h
      rw [← hu, h5]
      rfl
    rw [if_neg h5] at h
    by_cases h6 : k = "BYSETPOS"
    · rw [if_pos h6] at h
      obtain ⟨v, _, hu⟩ := Option.map_eq_some'.mp h
      rw [← hu, h6]
      rfl
    rw [if_neg h6] at h
    by_cases h7 : k = "BYMONTH"
    · rw [if_pos h7] at h
      obtain ⟨v, _, hu⟩ := Option.map_eq_some'.mp h
      rw [← hu, h7]
      rfl
    rw [if_neg h7] at h
    by_cases h8 : k = "BYMONTHDAY"
    · rw [if_pos h8] at h
      obtain ⟨v, _, hu⟩ := Option.map_eq_some'.mp h
      rw [← hu, h8]
      rfl
    rw [if_neg h8] at h
    by_cases h9 : k = "BYYEARDAY"
    · rw [if_pos h9] at h
      obtain ⟨v, _, hu⟩ := Option.map_eq_some'.mp h
      rw [← hu, h9]
      rfl
    rw [if_neg h9] at h
    by_cases h10 : k = "BYWEEKNO"
    · rw [if_pos h10] at h
      obtain ⟨v, _, hu⟩ := Option.map_eq_some'.mp h
      rw [← hu, h10]
      rfl
    rw [if_neg h10] at h
    by_cases h11 : k = "BYDAY"
    · rw [if_pos h11] at h
      obtain ⟨v, _, hu⟩ := Option.map_eq_some'.mp h
      rw [← hu, h11]
      rfl
    rw [if_neg h11] at h
    by_cases h12 : k = "BYHOUR"
    · rw [if_pos h12] at h
      obtain ⟨v, _, hu⟩ := Option.map_eq_some'.mp h
      rw [← hu, h12]
      rfl
    rw [if_neg h12] at h
    by_cases h13 : k = "BYMINUTE"
    · rw [if_pos h13] at h
      obtain ⟨v, _, hu⟩ := Option.map_eq_some'.mp h
      rw [← hu, h13]
      rfl
    rw [if_neg h13] at h
    by_cases h14 : k = "BYSECOND"
    · rw [if_pos h14] at h
      obtain ⟨v, _, hu⟩ := Option.map_eq_some'.mp h
      rw [← hu, h14]
      rfl
    rw [if_neg h14] at h
    by_cases h15 : k = "BYEASTER"
    · rw [if_pos h15] at h
      obtain ⟨v, _, hu⟩ := Option.map_eq_some'.mp h
      rw [← hu, h15]
      rfl
    rw [if_neg h15] at h
    exact absurd h (by simp)
  · exact absurd h (by simp)

/-- Two parameters of different keys are read in either order with the same result. -/
theorem parseParam_swap (p : List Char → Option Time) (x y : List Char)
    (hxy : paramKey x ≠ paramKey y) (acc : ROption × Bool)
    (f : ROption × Bool → Option (ROption × Bool)) :
    (parseParam p acc y).bind (fun m => (parseParam p m x).bind f) =
      (parseParam p acc x).bind (fun m => (parseParam p m y).bind f) := by
  simp only [parseParam_update]
  cases hx : parseUpdate p x with
  | none =>
    cases hy : parseUpdate p y with
    | none => rfl
    | some v => rfl
  | some u =>
    cases hy : parseUpdate p y with
    | none => rfl
    | some v =>
      have hkey : u.key ≠ v.key := by
        rw [← parseUpdate_key p x u hx, ← parseUpdate_key p y v hy]
        intro e
        exact hxy (congrArg String.data e)
      simp only [Option.map_some', Option.some_bind]
      rw [Update_apply_comm acc u v hkey]

/-- Parameters of different keys are read in any order with the same result. -/
theorem parseParams_perm (p : List Char → Option Time) (l1 l2 : List (List Char))
    (hperm : l1.Perm l2) :
    (l1.map paramKey).Nodup → ∀ acc, parseParams p l1 acc = parseParams p l2 acc := by
  induction hperm with
  | nil => intro _ _; rfl
  | cons x _ ih =>
    intro hnd acc
    rw [List.map_cons, List.nodup_cons] at hnd
    have hnd2 := hnd.2
    show (parseParam p acc x).bind (parseParams p _) = (parseParam p acc x).bind (parseParams p _)
    congr 1
    funext m
    exact ih hnd2 m
  | swap x y l =>
    intro hnd acc
    rw [List.map_cons, List.nodup_cons, List.map_cons] at hnd
    have hne : paramKey x ≠ paramKey y :=
      fun e => hnd.1 (e ▸ List.mem_cons_self _ _)
    exact parseParam_swap p x y hne acc (parseParams p l)
  | trans h1 _ ih1 ih2 =>
    intro hnd acc
    rw [ih1 hnd acc]
    exact ih2 ((List.Perm.nodup_iff (List.Perm.map paramKey h1)).mp hnd) acc


/-- A text that does not begin with the letter R keeps its beginning. -/
theorem dropLeading_head (l : List Char) (h : l.head? ≠ some 'R') :
    dropLeading "RRULE:".data l = l := by
  unfold dropLeading
  cases l with
  | nil => rfl
  | cons x xs =>
    have hx : x ≠ 'R' := fun e => h (by rw [e]; rfl)
    have e2 : "RRULE:".data = 'R' :: "RULE:".data := rfl
    have hb : ('R' == x) = false := by
      rw [beq_eq_false_iff_ne]
      exact fun e => hx e.symm
    rw [if_neg]
    rw [e2, List.isPrefixOf, hb]
    simp

/-- The text of plain parameters joined by semicolons is read as its parameters, one after
the other, from the unset options. -/
theorem StrToROption_joined (p q : List Char → Option Time) (attrs : List (List Char))
    (h : plainParams attrs) :
    StrToROption p q (String.mk (List.intercalate [';'] attrs)) =
      (parseParams p attrs (unsetOptions, false)).bind
        (fun r => if r.2 then some r.1 else none) := by
  obtain ⟨hne, hall⟩ := h
  have hchars : ∀ c ∈ List.intercalate [';'] attrs, c ≠ '\n' ∧ isSpace c = false := by
    intro c hc
    rcases mem_intercalate _ c _ hc with h1 | ⟨a, ha, hca⟩
    · have : c = ';' := by simpa using h1
      rw [this]; decide
    · exact ((hall a ha).2 c hca).2
  have hhead : (List.intercalate [';'] attrs).head? ≠ some 'R' := by
    cases attrs with
    | nil => exact absurd rfl hne
    | cons a rest =>
      have ha := (hall a (List.mem_cons_self _ _)).1
      cases rest with
      | nil =>
        have e : List.intercalate [';'] [a] = a := by
          simp [List.intercalate, List.intersperse]
        rw [e]
        exact ha
      | cons b rest =>
        have e : List.intercalate [';'] (a :: b :: rest) =
            a ++ ([';'] ++ List.intercalate [';'] (b :: rest)) := by
          simp [List.intercalate, List.intersperse]
        rw [e]
        cases a with
        | nil => simp
        | cons x xs => exact ha
  unfold StrToROption
  show (match splitOn '\n' (trimSpace (List.intercalate [';'] attrs)) with
    | [rule] => _
    | [dtstart, rule] => _
    | _ => _) = _
  rw [trimSpace_plain _ (fun c hc => (hchars c hc).2),
    splitOn_not_mem '\n' _ (fun hm => (hchars _ hm).1 rfl)]
  simp only
  rw [dropLeading_head _ hhead,
    splitOn_intercalate ';' attrs hne (fun a ha hm => ((hall a ha).2 _ hm).1 rfl)]

/-- Plain parameters stay plain in another order. -/
theorem plainParams_perm (l1 l2 : List (List Char)) (hperm : l1.Perm l2)
    (h : plainParams l1) : plainParams l2 := by
  refine ⟨?_, fun a ha => h.2 a (hperm.mem_iff.mpr ha)⟩
  intro e
  rw [e] at hperm
  exact h.1 (List.Perm.eq_nil hperm)

/-- The text of plain parameters of different keys is read as the same rule in any order of
the parameters. -/
theorem StrToRRule_perm (p q : List Char → Option Time) (n : ROption → ROption)
    (l1 l2 : List (List Char)) (hperm : l1.Perm l2) (hnd : (l1.map paramKey).Nodup)
    (h : plainParams l1) :
    StrToRRule p q n (String.mk (List.intercalate [';'] l1)) =
      StrToRRule p q n (String.mk (List.intercalate [';'] l2)) := by
  unfold StrToRRule
  rw [StrToROption_joined p q l1 h, StrToROption_joined p q l2 (plainParams_perm l1 l2 hperm h),
    parseParams_perm p l1 l2 hperm hnd]

/-- The keys of the canonical form are different, none begins with the letter R and none is
empty. -/
theorem keyOrder_nodup :
    keyOrder.Nodup ∧ ∀ k ∈ keyOrder, k.data.head? ≠ some 'R' ∧ k.data ≠ [] := by
  decide

/-- The written parameters are plain and have different keys. -/
theorem params_plain (p : List Char → Option Time) (timeToStr : Time → String)
    (hrb : readsBack timeToStr p) (o : ROption) (hgo : o.inGo) :
    plainParams ((o.params timeToStr).map paramText) ∧
    (((o.params timeToStr).map paramText).map paramKey).Nodup := by
  have hvals := params_values p timeToStr hrb o hgo
  refine ⟨⟨?_, ?_⟩, ?_⟩
  · unfold ROption.params
    simp
  · intro a ha
    obtain ⟨kv, hkv, rfl⟩ := List.mem_map.mp ha
    refine ⟨?_, paramText_chars kv (hvals kv hkv).1 (hvals kv hkv).2.2⟩
    have e : paramText kv = kv.1.data ++ ('=' :: kv.2.data) := by
      unfold paramText
      simp [String.data_append]
    have hk := keyOrder_nodup.2 kv.1 (hvals kv hkv).1
    rw [e]
    cases hd : kv.1.data with
    | nil => exact absurd hd hk.2
    | cons x xs =>
      rw [hd] at hk
      exact hk.1
  · have e : ((o.params timeToStr).map paramText).map paramKey =
        (keyOrder.filter (keyIsSet o)).map String.data := by
      rw [← params_keys timeToStr o, List.map_map, List.map_map]
      apply List.map_congr_left
      intro kv hkv
      exact (paramText_key kv (hvals kv hkv).1).2
    rw [e]
    exact List.Nodup.map (fun a b hab => String.ext hab) (keyOrder_nodup.1.filter _)

/-- The canonical parameters of valid options of Go integers, in any order, are read as a
rule whose parameters are written in the canonical order. -/
theorem StrToRRule_canonical (p q : List Char → Option Time) (n : ROption → ROption)
    (timeToStr : Time → String) (hrb : readsBack timeToStr p) (o : ROption) (hgo : o.inGo)
    (hv : validOptions o = true) (attrs : List (List Char))
    (hperm : attrs.Perm ((o.params timeToStr).map paramText)) :
    ∃ r, StrToRRule p q n (String.mk (List.intercalate [';'] attrs)) = some r ∧
      r.OrigOptions.RRuleString timeToStr = o.RRuleString timeToStr := by
  obtain ⟨hplain, hnd⟩ := params_plain p timeToStr hrb o hgo
  rw [← StrToRRule_perm p q n _ _ hperm.symm hnd hplain]
  unfold StrToRRule
  have hread : parseParams p ((o.params timeToStr).map paramText) (unsetOptions, false) =
      some (canonicalOptions p timeToStr Time.zero o, true) :=
    parseParams_params p timeToStr hrb o hgo Time.zero
  rw [StrToROption_joined p q _ hplain, hread]
  simp only [Option.some_bind, if_true]
  unfold NewRRule
  rw [if_pos (canonicalOptions_valid p timeToStr o Time.zero hv)]
  refine ⟨_, rfl, ?_⟩
  show (canonicalOptions p timeToStr Time.zero o).RRuleString timeToStr = _
  unfold ROption.RRuleString
  rw [canonicalOptions_params p timeToStr hrb o Time.zero]

/-! ## The properties -/

/-- Claim C1. A rule of frequency DAILY, WEEKLY, MONTHLY, YEARLY, HOURLY or MINUTELY
with interval `n ≥ 1`, zero until, count 0, no original BYMONTH, BYMONTHDAY, BYDAY or
BYHOUR and empty normalized BYYEARDAY and BYWEEKNO is summarized, with the English
localizer and the default formatter, as "every <unit>" when `n = 1` and as
"every <n> <unit>s" otherwise. -/
theorem basic_summary (rule : RRule)
    (hf : rule.Options.Freq ≠ Frequency.SECONDLY)
    (hn : 1 ≤ rule.Options.Interval)
    (hu : rule.Options.Until.IsZero = true)
    (hc : rule.Options.Count = 0)
    (hm : rule.OrigOptions.Bymonth = [])
    (hmd : rule.OrigOptions.Bymonthday = [])
    (hwd : rule.OrigOptions.Byweekday = [])
    (hh : rule.OrigOptions.Byhour = [])
    (hyd : rule.Options.Byyearday = [])
    (hwn : rule.Options.Byweekno = []) :
    (newToText rule enLocalizer defaultFormatter).ToString =
      some (if rule.Options.Interval = 1 then "every " ++ unitName rule.Options.Freq
            else "every " ++ Itoa rule.Options.Interval ++ " " ++ unitName rule.Options.Freq ++ "s") := by
  have ht : newToText rule enLocalizer defaultFormatter =
      { bymonthday := [], byweekday := none, option := rule.Options,
        origOption := rule.OrigOptions, loc := enLocalizer, formatter := defaultFormatter } := by
    simp [newToText, hmd, hwd]
  rw [ht]
  have hone : rule.Options.Interval = 1 ↔ rule.Options.Interval.natAbs = 1 := by omega
  by_cases h1 : rule.Options.Interval = 1
  · have h1' := hone.mp h1
    rcases hfr : rule.Options.Freq with _ | _ | _ | _ | _ | _ | _ <;>
      simp [toText.ToString, toText.writeFreq, toText.writeEnd, hfr, hu, hc, localize_other,
        localize_plural, toText.yearly, toText.monthly, toText.weekly, toText.daily,
        toText.hourly, toText.minutely, writeInterval, toText.byMonthDayOrWeekDay, hm, hh, hyd,
        hwn, h1, unitName, cfgWeeklyWeeks, cfgWeekdays]
    exact absurd hfr hf
  · have h1' : ¬ rule.Options.Interval.natAbs = 1 := fun h => h1 (hone.mpr h)
    rcases hfr : rule.Options.Freq with _ | _ | _ | _ | _ | _ | _ <;>
      simp [toText.ToString, toText.writeFreq, toText.writeEnd, hfr, hu, hc, localize_other,
        localize_plural, toText.yearly, toText.monthly, toText.weekly, toText.daily,
        toText.hourly, toText.minutely, writeInterval, toText.byMonthDayOrWeekDay, hm, hh, hyd,
        hwn, h1, h1', unitName, cfgWeeklyWeeks, cfgWeekdays, String.append_assoc]
    all_goals first | exact absurd hfr hf | (rw [← String.append_assoc]; rfl)

/-- Claim C1 at `FREQ=MONTHLY;INTERVAL=6`: the summary is "every 6 months". -/
theorem basic_summary_witness :
    (newToText everySixMonths enLocalizer defaultFormatter).ToString = some "every 6 months" :=
  (basic_summary everySixMonths (by decide) (by decide) (by decide) (by decide) (by decide)
    (by decide) (by decide) (by decide) (by decide) (by decide)).trans (by decide)

/-- Claim C2. When the normalized until is not the zero instant, the summary is what the
frequency part wrote followed by " until " and the formatted until, and it is the same
for every value of the count: no count clause is written. -/
theorem until_precedence (rule : RRule) (fmt : TimeFormatter)
    (hu : rule.Options.Until.IsZero = false) (pre f : String)
    (hpre : (newToText rule enLocalizer fmt).writeFreq "every" = some pre)
    (hf : fmt.Format rule.Options.Until = some f) :
    (newToText rule enLocalizer fmt).ToString = some (pre ++ " until " ++ f) ∧
    ∀ c : Int,
      (newToText (rule.withCount c) enLocalizer fmt).ToString = some (pre ++ " until " ++ f) := by
  have key : ∀ c : Int,
      (newToText (rule.withCount c) enLocalizer fmt).ToString = some (pre ++ " until " ++ f) := by
    intro c
    obtain ⟨ho, _, hl, hfm⟩ := newToText_fields (rule.withCount c) enLocalizer fmt
    rw [ToString_eq _ hl, writeFreq_count, hpre, Option.some_bind]
    apply writeEnd_until _ hl
    · rw [ho]; exact hu
    · rw [ho, hfm]; exact hf
  exact ⟨key rule.Options.Count, key⟩

/-- Claim C2 at `FREQ=WEEKLY;UNTIL=20070101T080000Z`: "every week until January 1, 2007",
also when a count of 20 is set. -/
theorem until_precedence_witness :
    (newToText weeklyUntil2007 enLocalizer defaultFormatter).ToString =
      some ("every week" ++ " until " ++ "January 1, 2007") ∧
    (newToText (weeklyUntil2007.withCount 20) enLocalizer defaultFormatter).ToString =
      some ("every week" ++ " until " ++ "January 1, 2007") :=
  have h := until_precedence weeklyUntil2007 defaultFormatter (by decide) "every week"
    "January 1, 2007" (by decide) (by decide)
  ⟨h.1, h.2 20⟩

/-- Claim C3. With a zero until and the English messages, the summary is what the
frequency part wrote followed by " for 1 time" when the count is 1, by
" for <count> times" when the count is at least 2, and by nothing when the count is 0. -/
theorem count_clause (rule : RRule) (fmt : TimeFormatter)
    (hu : rule.Options.Until.IsZero = true) (pre : String)
    (hpre : (newToText rule enLocalizer fmt).writeFreq "every" = some pre) :
    (rule.Options.Count = 1 →
      (newToText rule enLocalizer fmt).ToString = some (pre ++ " for 1 time")) ∧
    (2 ≤ rule.Options.Count →
      (newToText rule enLocalizer fmt).ToString =
        some (pre ++ " for " ++ Itoa rule.Options.Count ++ " times")) ∧
    (rule.Options.Count = 0 → (newToText rule enLocalizer fmt).ToString = some pre) := by
  obtain ⟨ho, _, hl, hfm⟩ := newToText_fields rule enLocalizer fmt
  have hstart : (newToText rule enLocalizer fmt).ToString =
      (newToText rule enLocalizer fmt).writeEnd pre := by
    rw [ToString_eq _ hl, hpre, Option.some_bind]
  rw [hstart]
  unfold toText.writeEnd
  refine ⟨fun h1 => ?_, fun h2 => ?_, fun h0 => ?_⟩
  · simp [ho, hl, hu, h1, localize_timeCount, String.append_assoc]
    rfl
  · have hne : ¬ rule.Options.Count.natAbs = 1 := by omega
    simp [ho, hl, hu, localize_timeCount, hne, String.append_assoc,
      show 0 < rule.Options.Count by omega]
    rfl
  · simp [ho, hu, h0]

/-- Claim C3 at `FREQ=WEEKLY;COUNT=20`: "every week for 20 times". -/
theorem count_clause_witness :
    (newToText weeklyTwentyTimes enLocalizer defaultFormatter).ToString =
      some ("every week" ++ " for " ++ Itoa weeklyTwentyTimes.Options.Count ++ " times") :=
  (count_clause weeklyTwentyTimes defaultFormatter (by decide) "every week" (by decide)).2.1
    (by decide)

/-- Claim C4 fails for `FREQ=DAILY;BYDAY=MO;BYHOUR=10`: the summary is
"every day on Monday", the hour list is "10", and " at 10" does not occur in it. -/
theorem daily_hours_counterexample :
    dailyMondayAtTen.Options.Freq = Frequency.DAILY ∧
    dailyMondayAtTen.OrigOptions.Byhour = [10] ∧
    phrase ", " " and " (dailyMondayAtTen.OrigOptions.Byhour.map Itoa) = "10" ∧
    (newToText dailyMondayAtTen enLocalizer defaultFormatter).ToString =
      some "every day on Monday" ∧
    ¬ containsText "every day on Monday" (" at " ++ "10") := by
  decide

/-- Claim C4, amended. A DAILY rule whose original options give a non-empty BYHOUR list
and neither BYMONTHDAY nor BYDAY (BYMONTH may be set, its normalized values in 1..12) has
a summary that contains " at " followed by the hours in decimal, separated by ", " with
a final " and ". -/
theorem daily_hours (rule : RRule)
    (hfreq : rule.Options.Freq = Frequency.DAILY)
    (hh : rule.OrigOptions.Byhour ≠ [])
    (hmd : rule.OrigOptions.Bymonthday = [])
    (hwd : rule.OrigOptions.Byweekday = [])
    (hm : ∀ m ∈ rule.Options.Bymonth, 1 ≤ m ∧ m ≤ 12) :
    ∃ pre post, (newToText rule enLocalizer defaultFormatter).ToString =
      some (pre ++ " at " ++ phrase ", " " and " (rule.OrigOptions.Byhour.map Itoa) ++ post) := by
  have ht : newToText rule enLocalizer defaultFormatter =
      { bymonthday := [], byweekday := none, option := rule.Options,
        origOption := rule.OrigOptions, loc := enLocalizer, formatter := defaultFormatter } := by
    simp [newToText, hmd, hwd]
  obtain ⟨post, hpost⟩ := writeEnd_default (newToText rule enLocalizer defaultFormatter)
    (by rw [ht]) (by rw [ht])
  obtain ⟨months, hmonths⟩ := byMonth_default (newToText rule enLocalizer defaultFormatter)
    (by rw [ht]) (by rw [ht]) (by rw [ht]; exact hm)
  have hhour := byHour_en (newToText rule enLocalizer defaultFormatter) (by rw [ht])
  have hhlen : 0 < rule.OrigOptions.Byhour.length := List.length_pos.mpr hh
  have hfr : ∃ pre, (newToText rule enLocalizer defaultFormatter).writeFreq "every" =
      some (pre ++ " at " ++ phrase ", " " and " (rule.OrigOptions.Byhour.map Itoa)) := by
    unfold toText.writeFreq
    have hfreq2 : (newToText rule enLocalizer defaultFormatter).option.Freq = Frequency.DAILY := by
      rw [ht]; exact hfreq
    rw [hfreq2]
    simp only
    unfold toText.daily
    simp only [hmonths, hhour]
    rw [ht]
    simp only [Option.any_none, Bool.false_eq_true, if_false, localize_plural,
      Option.bind_eq_bind, Option.some_bind, localize_langIn, List.length_nil, lt_self_iff_false,
      Option.isSome_none, hhlen, if_true, pure]
    split_ifs <;> exact ⟨_, rfl⟩
  obtain ⟨pre, hpre⟩ := hfr
  refine ⟨pre, post, ?_⟩
  rw [ToString_eq _ (by rw [ht]), hpre, Option.some_bind, hpost]

/-- Claim C4, amended, at `FREQ=DAILY;BYHOUR=10,12,17`. -/
theorem daily_hours_witness :
    ∃ pre post, (newToText dailyAtHours enLocalizer defaultFormatter).ToString =
      some (pre ++ " at " ++
        phrase ", " " and " (dailyAtHours.OrigOptions.Byhour.map Itoa) ++ post) :=
  daily_hours dailyAtHours (by decide) (by decide) (by decide) (by decide) (by decide)

/-- Claim C5 at `FREQ=MONTHLY;INTERVAL=2;BYMONTH=1`: the summary is
"every 2 month in January", the noun following the number of the list of months and not
the interval. -/
theorem monthly_plural_by_month_count :
    everyTwoMonthsInJanuary.Options.Freq = Frequency.MONTHLY ∧
    everyTwoMonthsInJanuary.Options.Interval = 2 ∧
    (newToText everyTwoMonthsInJanuary enLocalizer defaultFormatter).ToString =
      some "every 2 month in January" := by
  decide

/-- Claim C6. For `1 ≤ i ≤ 31` the default `Nth` is the decimal numeral of `i` followed
by its English ordinal suffix, which is "st" exactly for 1, 21, 31, "nd" exactly for
2, 22, "rd" exactly for 3, 23 and "th" for every other value. -/
theorem Nth_month_days (i : Int) (h1 : 1 ≤ i) (h31 : i ≤ 31) :
    defaultFormatter.Nth i = some (Itoa i ++ ordinalSuffix i) ∧
    (ordinalSuffix i = "st" ↔ i = 1 ∨ i = 21 ∨ i = 31) ∧
    (ordinalSuffix i = "nd" ↔ i = 2 ∨ i = 22) ∧
    (ordinalSuffix i = "rd" ↔ i = 3 ∨ i = 23) ∧
    (ordinalSuffix i = "th" ↔
      ¬ (i = 1 ∨ i = 21 ∨ i = 31) ∧ ¬ (i = 2 ∨ i = 22) ∧ ¬ (i = 3 ∨ i = 23)) := by
  interval_cases i <;> decide

/-- Claim C6 at 22 and at 11: "22nd" and "11th". -/
theorem Nth_month_days_witness :
    defaultFormatter.Nth 22 = some "22nd" ∧ defaultFormatter.Nth 11 = some "11th" :=
  ⟨(Nth_month_days 22 (by decide) (by decide)).1.trans (by decide),
   (Nth_month_days 11 (by decide) (by decide)).1.trans (by decide)⟩

/-- Claim C7 at 41 and 101 (a BYDAY ordinal and a BYYEARDAY value): `Nth` gives "41th"
and "101th" where the English ordinals are "41st" and "101st"; the rule
`FREQ=YEARLY;BYDAY=+41MO` reads "every year on the 41th Monday". -/
theorem Nth_beyond_month_days :
    defaultFormatter.Nth 41 = some "41th" ∧ Itoa 41 ++ ordinalSuffix 41 = "41st" ∧
    defaultFormatter.Nth 101 = some "101th" ∧ Itoa 101 ++ ordinalSuffix 101 = "101st" ∧
    (newToText yearlyFortyFirstMonday enLocalizer defaultFormatter).ToString =
      some "every year on the 41th Monday" := by
  decide

/-- Claim C8. `Nth(-1)` is "last"; for every `i ≤ -2` whose negation is an `int`,
`Nth(i)` is `Nth(-i)` followed by " last"; for every `i ≥ 1` the text "last" does not
occur in `Nth(i)`. -/
theorem Nth_negative :
    defaultFormatter.Nth (-1) = some "last" ∧
    (∀ i : Int, i ≤ -2 → isInt (-i) →
      ∃ s, defaultFormatter.Nth (-i) = some s ∧ defaultFormatter.Nth i = some (s ++ " last")) ∧
    (∀ i : Int, 1 ≤ i →
      ∃ s, defaultFormatter.Nth i = some s ∧ ¬ containsText s "last") := by
  refine ⟨by decide, fun i hi hint => Nth_neg i hi hint, fun i hi => ?_⟩
  obtain ⟨s, hs⟩ := Nth_total i
  exact ⟨s, hs, Nth_not_last i hi s hs⟩

/-- Claim C8 at -4 and -2: "4th last" and "2nd last". -/
theorem Nth_negative_witness :
    defaultFormatter.Nth (-4) = some ("4th" ++ " last") ∧
    defaultFormatter.Nth (-2) = some ("2nd" ++ " last") ∧
    ¬ containsText "4th" "last" := by
  obtain ⟨s4, h4, h4l⟩ := Nth_negative.2.1 (-4) (by decide) (by decide)
  obtain ⟨s2, h2, h2l⟩ := Nth_negative.2.1 (-2) (by decide) (by decide)
  obtain ⟨t4, g4, g4l⟩ := Nth_negative.2.2 4 (by decide)
  have e4 : s4 = "4th" := Option.some.inj (h4.symm.trans (by decide))
  have e2 : s2 = "2nd" := Option.some.inj (h2.symm.trans (by decide))
  have f4 : t4 = "4th" := Option.some.inj (g4.symm.trans (by decide))
  subst e4 e2 f4
  exact ⟨h4l, h2l, g4l⟩

/-- Claim C9. For a weekday whose day is in 0..6, the default `WeekDayName` is the
English day name (Monday for 0 .. Sunday for 6) when the ordinal is 0, and `Nth` of the
ordinal, a space and the day name otherwise. -/
theorem WeekDayName_spec (w : Weekday) (h0 : 0 ≤ w.Day) (h6 : w.Day ≤ 6) :
    (w.N = 0 → defaultFormatter.WeekDayName w = some (dayName w.Day)) ∧
    (w.N ≠ 0 → ∃ nth, defaultFormatter.Nth w.N = some nth ∧
      defaultFormatter.WeekDayName w = some (nth ++ " " ++ dayName w.Day)) := by
  constructor
  · intro hn
    simp [defaultFormatter.WeekDayName, index_weekdayNames w.Day h0 h6, hn]
  · intro hn
    obtain ⟨s, hs⟩ := Nth_total w.N
    refine ⟨s, hs, ?_⟩
    simp [defaultFormatter.WeekDayName, index_weekdayNames w.Day h0 h6, hn, hs]

/-- Claim C9 at +3TU and -1MO: "3rd Tuesday" and "last Monday". -/
theorem WeekDayName_spec_witness :
    defaultFormatter.WeekDayName ⟨1, 3⟩ = some "3rd Tuesday" ∧
    defaultFormatter.WeekDayName ⟨0, -1⟩ = some "last Monday" ∧
    defaultFormatter.WeekDayName ⟨6, 0⟩ = some (dayName 6) := by
  refine ⟨?_, ?_, (WeekDayName_spec ⟨6, 0⟩ (by decide) (by decide)).1 (by decide)⟩
  · obtain ⟨nth, hn, hw⟩ := (WeekDayName_spec ⟨1, 3⟩ (by decide) (by decide)).2 (by decide)
    have e : nth = "3rd" := Option.some.inj (hn.symm.trans (by decide))
    subst e
    exact hw
  · obtain ⟨nth, hn, hw⟩ := (WeekDayName_spec ⟨0, -1⟩ (by decide) (by decide)).2 (by decide)
    have e : nth = "last" := Option.some.inj (hn.symm.trans (by decide))
    subst e
    exact hw

/-- Claim C10. For a callback that returns, `list` gives the empty string for no item,
the callback result for one item, for two or more items and a non-empty final delimiter
the results but the last joined by the delimiter and a space, then a space, the final
delimiter, a space and the last result, and for an empty final delimiter all results
joined by the delimiter and a space. -/
theorem list_joins (xs : List Int) (g : Int → String) (fd d : String) :
    (xs = [] → toText.list xs (fun x => some (g x)) fd d = some "") ∧
    (∀ x, xs = [x] → toText.list xs (fun x => some (g x)) fd d = some (g x)) ∧
    (∀ init last, xs = init ++ [last] → init ≠ [] → fd ≠ "" →
      toText.list xs (fun x => some (g x)) fd d =
        some (String.intercalate (d ++ " ") (init.map g) ++ " " ++ fd ++ " " ++ g last)) ∧
    (fd = "" →
      toText.list xs (fun x => some (g x)) fd d =
        some (String.intercalate (d ++ " ") (xs.map g))) := by
  have h := list_total xs (fun x => some (g x)) g (fun _ _ => rfl) fd d
  refine ⟨?_, ?_, ?_, ?_⟩
  · rintro rfl
    rw [h]; split_ifs <;> rfl
  · rintro x rfl
    rw [h]; split_ifs
    · simp [delimJoin, delimJoinLoop]
    · rfl
  · rintro init last rfl hinit hfd
    rw [h, if_pos hfd]
    cases init with
    | nil => exact absurd rfl hinit
    | cons a mid =>
      simp only [List.cons_append, List.map_cons, List.map_append, List.map_nil]
      rw [delimJoin_snoc]
  · intro hfd
    rw [h, if_neg (by simpa using hfd), Join_eq_intercalate]

/-- Claim C10 at [10, 12, 17] and [11, 12] with "," and "and": "10, 12 and 17" and
"11 and 12". -/
theorem list_joins_witness :
    toText.list [10, 12, 17] (fun x => some (Itoa x)) "and" "," = some "10, 12 and 17" ∧
    toText.list [11, 12] (fun x => some (Itoa x)) "and" "," = some "11 and 12" :=
  ⟨((list_joins [10, 12, 17] Itoa "and" ",").2.2.1 [10, 12] 17 (by decide) (by decide)
      (by decide)).trans (by decide),
   ((list_joins [11, 12] Itoa "and" ",").2.2.1 [11] 12 (by decide) (by decide)
      (by decide)).trans (by decide)⟩

/-- Claim C11. For a WEEKLY rule whose weekdays flag is set, the frequency part of the
summary is "every weekday" when the interval is 1 and "every <n> weeks on weekdays" when it
is `n ≥ 2`, and the summary is that text followed by the until or count clause only. -/
theorem weekday_shortcut (rule : RRule) (fmt : TimeFormatter) (b : byweekday)
    (hfreq : rule.Options.Freq = Frequency.WEEKLY)
    (hb : (newToText rule enLocalizer fmt).byweekday = some b)
    (hflag : b.isWeekdays = true) :
    (rule.Options.Interval = 1 →
      (newToText rule enLocalizer fmt).writeFreq "every" = some "every weekday" ∧
      (newToText rule enLocalizer fmt).ToString =
        (newToText rule enLocalizer fmt).writeEnd "every weekday") ∧
    (2 ≤ rule.Options.Interval →
      (newToText rule enLocalizer fmt).writeFreq "every" =
        some ("every " ++ Itoa rule.Options.Interval ++ " weeks on weekdays") ∧
      (newToText rule enLocalizer fmt).ToString =
        (newToText rule enLocalizer fmt).writeEnd
          ("every " ++ Itoa rule.Options.Interval ++ " weeks on weekdays")) := by
  obtain ⟨ho, _, hl, _⟩ := newToText_fields rule enLocalizer fmt
  have hany : (newToText rule enLocalizer fmt).byweekday.any (fun b => b.isWeekdays) = true := by
    rw [hb]; simpa using hflag
  have hw : (newToText rule enLocalizer fmt).writeFreq "every" =
      (newToText rule enLocalizer fmt).weekly "every" := by
    unfold toText.writeFreq
    rw [ho, hfreq]
  constructor
  · intro h1
    have hres : (newToText rule enLocalizer fmt).writeFreq "every" = some "every weekday" := by
      rw [hw]
      unfold toText.weekly
      simp [hany, ho, hl, h1, cfgWeekdays, cfgWeeklyWeeks, localize_plural, localize_other]
    exact ⟨hres, by rw [ToString_eq _ hl, hres, Option.some_bind]⟩
  · intro h2
    have hne : ¬ rule.Options.Interval = 1 := by omega
    have hna : ¬ rule.Options.Interval.natAbs = 1 := by omega
    have hres : (newToText rule enLocalizer fmt).writeFreq "every" =
        some ("every " ++ Itoa rule.Options.Interval ++ " weeks on weekdays") := by
      rw [hw]
      unfold toText.weekly
      simp [hany, ho, hl, hne, hna, cfgWeekdays, cfgWeeklyWeeks, localize_plural,
        localize_other, String.append_assoc]
    exact ⟨hres, by rw [ToString_eq _ hl, hres, Option.some_bind]⟩

/-- Claim C11 at `FREQ=WEEKLY;BYDAY=MO,TU,WE,TH,FR`, with interval 1 and with interval 3. -/
theorem weekday_shortcut_witness :
    (newToText weeklyOnWeekdays enLocalizer defaultFormatter).ToString = some "every weekday" ∧
    (newToText thirdWeekOnWeekdays enLocalizer defaultFormatter).writeFreq "every" =
      some ("every " ++ Itoa thirdWeekOnWeekdays.Options.Interval ++ " weeks on weekdays") :=
  ⟨((weekday_shortcut weeklyOnWeekdays defaultFormatter
      { allWeeks := [MO, TU, WE, TH, FR], someWeeks := [], isWeekdays := true,
        isEveryDay := false } (by decide) (by decide) (by decide)).1 (by decide)).2.trans
      (by decide),
   ((weekday_shortcut thirdWeekOnWeekdays defaultFormatter
      { allWeeks := [MO, TU, WE, TH, FR], someWeeks := [], isWeekdays := true,
        isEveryDay := false } (by decide) (by decide) (by decide)).2 (by decide)).1⟩

/-- Claim C12. For a WEEKLY rule with interval 1, no original BYMONTH or BYMONTHDAY, zero
until, count 0 and a non-empty original BYDAY of weekdays without ordinal that sets neither
the weekdays nor the every-day flag, the summary is "every week on ", the day names of the
sorted weekdays separated by ", " and, when the original BYHOUR is not empty, " at " and
the hours with a final " and ". -/
theorem weekly_days (rule : RRule) (b : byweekday)
    (hfreq : rule.Options.Freq = Frequency.WEEKLY)
    (hint : rule.Options.Interval = 1)
    (hm : rule.OrigOptions.Bymonth = [])
    (hmd : rule.OrigOptions.Bymonthday = [])
    (hu : rule.Options.Until.IsZero = true)
    (hc : rule.Options.Count = 0)
    (hne : rule.OrigOptions.Byweekday ≠ [])
    (hord : ∀ w ∈ rule.OrigOptions.Byweekday, w.N = 0)
    (hday : ∀ w ∈ rule.OrigOptions.Byweekday, 0 ≤ w.Day ∧ w.Day ≤ 6)
    (hb : (newToText rule enLocalizer defaultFormatter).byweekday = some b)
    (hwk : b.isWeekdays = false) (hev : b.isEveryDay = false) :
    (newToText rule enLocalizer defaultFormatter).ToString =
      some ("every week on " ++
        String.intercalate ", " (b.allWeeks.map (fun w => dayName w.Day)) ++
        (if rule.OrigOptions.Byhour = [] then ""
         else " at " ++ phrase ", " " and " (rule.OrigOptions.Byhour.map Itoa))) := by
  obtain ⟨ho, hoo, hl, hfm⟩ := newToText_fields rule enLocalizer defaultFormatter
  obtain ⟨b', hb', hall, hsome, _⟩ := newToText_byweekday rule enLocalizer defaultFormatter hne
  have hbb : b' = b := Option.some.inj (hb'.symm.trans hb)
  subst hbb
  have hmdt := newToText_bymonthday rule enLocalizer defaultFormatter
  rw [if_pos hmd] at hmdt
  have hfilter : rule.OrigOptions.Byweekday.filter (fun w => w.N ≠ 0) = [] := by
    rw [List.filter_eq_nil_iff]
    intro w hw
    simp [hord w hw]
  have hsome' : b'.someWeeks = [] := by rw [hsome, hfilter]; rfl
  have hallne : b'.allWeeks ≠ [] := by
    obtain ⟨w, hw⟩ := List.exists_mem_of_ne_nil _ hne
    have : w ∈ b'.allWeeks := by
      rw [hall, mem_weekDaysSort, List.mem_filter]
      exact ⟨hw, by simp [hord w hw]⟩
    exact List.ne_nil_of_mem this
  have hmem : ∀ w, w ∈ b'.allWeeks ∨ w ∈ b'.someWeeks →
      (newToText rule enLocalizer defaultFormatter).formatter.WeekDayName w =
        some (dayName w.Day) := by
    intro w hw
    rw [hfm]
    have hw' : w ∈ rule.OrigOptions.Byweekday := by
      rcases hw with hw | hw
      · rw [hall, mem_weekDaysSort] at hw; exact (List.mem_filter.mp hw).1
      · rw [hsome'] at hw; exact absurd hw (List.not_mem_nil _)
    exact WeekDayName_plain w (hord w hw') (hday w hw').1 (hday w hw').2
  have hbw := byWeekDay_en _ b' hl hb (fun w => dayName w.Day) hmem
  have hhour := byHour_en (newToText rule enLocalizer defaultFormatter) hl
  rw [ToString_eq _ hl]
  unfold toText.writeFreq
  rw [ho, hfreq]
  simp only
  unfold toText.weekly toText.byMonthDayOrWeekDay
  simp only [hbw, hhour]
  by_cases hh : rule.OrigOptions.Byhour = []
  · simp [ho, hoo, hl, hb, hwk, hev, hint, hm, hmdt, hh, hsome', hallne, cfgWeeklyWeeks,
      localize_plural, toText.writeEnd, hu, hc, String.append_assoc]
    rfl
  · have hlen : 0 < rule.OrigOptions.Byhour.length := List.length_pos.mpr hh
    simp [ho, hoo, hl, hb, hwk, hev, hint, hm, hmdt, hh, hlen, hsome', hallne, cfgWeeklyWeeks,
      localize_plural, toText.writeEnd, hu, hc, String.append_assoc]
    rfl

/-- Claim C12 at `FREQ=WEEKLY;BYDAY=SU;BYHOUR=10,12,17` and at `FREQ=WEEKLY;BYDAY=WE,MO`. -/
theorem weekly_days_witness :
    (newToText weeklySundayAtHours enLocalizer defaultFormatter).ToString =
      some "every week on Sunday at 10, 12 and 17" ∧
    (newToText weeklyWednesdayMonday enLocalizer defaultFormatter).ToString =
      some "every week on Monday, Wednesday" :=
  ⟨(weekly_days weeklySundayAtHours
      { allWeeks := [SU], someWeeks := [], isWeekdays := false, isEveryDay := false }
      (by decide) (by decide) (by decide) (by decide) (by decide) (by decide) (by decide)
      (by decide) (by decide) (by decide) (by decide) (by decide)).trans (by decide),
   (weekly_days weeklyWednesdayMonday
      { allWeeks := [MO, WE], someWeeks := [], isWeekdays := false, isEveryDay := false }
      (by decide) (by decide) (by decide) (by decide) (by decide) (by decide) (by decide)
      (by decide) (by decide) (by decide) (by decide) (by decide)).trans (by decide)⟩

/-- Claim C14. For a MONTHLY rule with interval 1, no original BYMONTH or BYDAY, zero until,
count 0 and a non-empty original BYMONTHDAY, the summary is "every month on the " followed
by `Nth` of the month days in the order of `newToText`, separated by ", " with a final
" and ". -/
theorem month_days (rule : RRule)
    (hfreq : rule.Options.Freq = Frequency.MONTHLY)
    (hint : rule.Options.Interval = 1)
    (hm : rule.OrigOptions.Bymonth = [])
    (hwd : rule.OrigOptions.Byweekday = [])
    (hu : rule.Options.Until.IsZero = true)
    (hc : rule.Options.Count = 0)
    (hne : rule.OrigOptions.Bymonthday ≠ []) :
    ∃ nths, (newToText rule enLocalizer defaultFormatter).bymonthday.mapM defaultFormatter.Nth =
        some nths ∧
      (newToText rule enLocalizer defaultFormatter).ToString =
        some ("every month on the " ++ phrase ", " " and " nths) := by
  obtain ⟨ho, hoo, hl, hfm⟩ := newToText_fields rule enLocalizer defaultFormatter
  have hbn := newToText_byweekday_none rule enLocalizer defaultFormatter hwd
  have hmdt := newToText_bymonthday rule enLocalizer defaultFormatter
  rw [if_neg hne] at hmdt
  have hmdne : (newToText rule enLocalizer defaultFormatter).bymonthday ≠ [] := by
    rw [hmdt]
    unfold sortMonthDays
    intro hnil
    have hlen := congrArg List.length hnil
    simp only [List.length_append, List.length_insertionSort, List.length_nil] at hlen
    obtain ⟨d, hd⟩ := List.exists_mem_of_ne_nil _ hne
    by_cases hpos : 0 < d
    · have : d ∈ rule.OrigOptions.Bymonthday.filter (fun d => 0 < d) :=
        List.mem_filter.mpr ⟨hd, by simpa using hpos⟩
      have := List.length_pos_of_mem this
      omega
    · have : d ∈ rule.OrigOptions.Bymonthday.filter (fun d => ¬ 0 < d) :=
        List.mem_filter.mpr ⟨hd, by simpa using hpos⟩
      have := List.length_pos_of_mem this
      omega
  have hlen : 0 < (newToText rule enLocalizer defaultFormatter).bymonthday.length :=
    List.length_pos.mpr hmdne
  have ha : (newToText rule enLocalizer defaultFormatter).allWeeksOf = [] := by
    simp [toText.allWeeksOf, hbn]
  have hbmd := byMonthDay_en (newToText rule enLocalizer defaultFormatter) hl
    (fun w => (defaultFormatter.WeekDayName w).getD "")
    (fun i => (defaultFormatter.Nth i).getD "")
    (by rw [ha]; intro w hw; exact absurd hw (List.not_mem_nil _))
    (by rw [hfm]; intro d _; exact Nth_valid d)
  rw [ha] at hbmd
  refine ⟨(newToText rule enLocalizer defaultFormatter).bymonthday.map
    (fun i => (defaultFormatter.Nth i).getD ""), mapM_total _ _ _ (fun d _ => Nth_valid d), ?_⟩
  rw [ToString_eq _ hl]
  unfold toText.writeFreq
  rw [ho, hfreq]
  simp only
  unfold toText.monthly
  simp only [hbmd]
  simp [ho, hoo, hl, hlen, hint, hm, writeInterval, localize_plural, toText.writeEnd, hu, hc,
    String.append_assoc]
  rfl

/-- Claim C14 at `BYMONTHDAY=4` and at `BYMONTHDAY=-4`: "every month on the 4th" and
"every month on the 4th last". -/
theorem month_days_witness :
    (newToText monthlyOnFourth enLocalizer defaultFormatter).ToString =
      some "every month on the 4th" ∧
    (newToText monthlyOnFourthLast enLocalizer defaultFormatter).ToString =
      some "every month on the 4th last" := by
  obtain ⟨n1, h1, s1⟩ := month_days monthlyOnFourth (by decide) (by decide) (by decide)
    (by decide) (by decide) (by decide) (by decide)
  obtain ⟨n2, h2, s2⟩ := month_days monthlyOnFourthLast (by decide) (by decide) (by decide)
    (by decide) (by decide) (by decide) (by decide)
  have e1 : n1 = ["4th"] := Option.some.inj (h1.symm.trans (by decide))
  have e2 : n2 = ["4th last"] := Option.some.inj (h2.symm.trans (by decide))
  subst e1 e2
  exact ⟨s1.trans (by decide), s2.trans (by decide)⟩

/-- Claim C15. Over a store of backing arrays, building the summary (`newToText`, then
`ToString`) leaves every slice over an array that was in use with the same elements in the
same order; so the rule read through its slices is the same before and after. The summary
built is that of this rule, when its two original lists lie within their arrays. -/
theorem summary_read_only (m : Memory) (r : RuleSlices) (rule : RRule) (loc : Localizer)
    (formatter : TimeFormatter)
    (h1 : r.origBymonthday.within m.ints) (h2 : r.bymonthday.within m.ints)
    (h3 : r.origByweekday.within m.days) (h4 : r.byweekday.within m.days) :
    readRule (summaryMem m r rule loc formatter).1 r rule = readRule m r rule ∧
    (∀ s : Slice, s.within m.ints →
      (summaryMem m r rule loc formatter).1.ints.read s = m.ints.read s) ∧
    (∀ s : Slice, s.within m.days →
      (summaryMem m r rule loc formatter).1.days.read s = m.days.read s) ∧
    (r.origBymonthday.fits m.ints → r.origByweekday.fits m.days →
      (summaryMem m r rule loc formatter).2 =
        (newToText (readRule m r rule) loc formatter).ToString) := by
  have hi := monthDaysMem_keeps m.ints r
  have hd := weekDaysMem_keeps m.days r
  have e1 : (summaryMem m r rule loc formatter).1.ints = (monthDaysMem m.ints r).1 := rfl
  have e2 : (summaryMem m r rule loc formatter).1.days = (weekDaysMem m.days r).1 := rfl
  have ri : ∀ s : Slice, s.within m.ints →
      (summaryMem m r rule loc formatter).1.ints.read s = m.ints.read s := by
    intro s hs; rw [e1]; exact keeps_read hi s hs
  have rd : ∀ s : Slice, s.within m.days →
      (summaryMem m r rule loc formatter).1.days.read s = m.days.read s := by
    intro s hs; rw [e2]; exact keeps_read hd s hs
  refine ⟨?_, ri, rd, fun f1 f3 => summaryMem_text m r rule loc formatter h1 h2 h3 h4 f1 f3⟩
  unfold readRule
  rw [ri _ h1, ri _ h2, rd _ h3, rd _ h4]

/-- Claim C15 on the sample store: the month days `[15, -1, 1, -2]` and the weekdays
`[FR, +2TU, MO]` of the rule are as before, while the summary lists them sorted. -/
theorem summary_read_only_witness :
    readRule (summaryMem ⟨sampleInts, sampleDays⟩ sampleSlices monthlyOnFourth enLocalizer
        defaultFormatter).1 sampleSlices monthlyOnFourth =
      readRule ⟨sampleInts, sampleDays⟩ sampleSlices monthlyOnFourth ∧
    (readRule ⟨sampleInts, sampleDays⟩ sampleSlices monthlyOnFourth).OrigOptions.Bymonthday =
      [15, -1, 1, -2] ∧
    (readRule ⟨sampleInts, sampleDays⟩ sampleSlices monthlyOnFourth).OrigOptions.Byweekday =
      [FR, ⟨1, 2⟩, MO] ∧
    (summaryMem ⟨sampleInts, sampleDays⟩ sampleSlices monthlyOnFourth enLocalizer
        defaultFormatter).2 =
      some "every month on Monday or Friday the 1st, 15th, last or 2nd last" :=
  ⟨(summary_read_only ⟨sampleInts, sampleDays⟩ sampleSlices monthlyOnFourth enLocalizer
      defaultFormatter (Nat.lt_succ_self 0) (Nat.lt_succ_self 0) (Nat.lt_succ_self 0)
      (Nat.lt_succ_self 0)).1,
   by decide, by decide, by decide⟩

/-- Claim C16. The default `MonthName` returns the English month name for 1..12 and
indexes out of range (a panic) for every other value; `byMonth` returns when every
normalized BYMONTH value is in 1..12, and the default `WeekDayName` returns when the day is
in 0..6. -/
theorem formatter_safety :
    (∀ i : Int, 1 ≤ i → i ≤ 12 → defaultFormatter.MonthName i = some (englishMonth i)) ∧
    (∀ i : Int, ¬ (1 ≤ i ∧ i ≤ 12) → defaultFormatter.MonthName i = none) ∧
    (∀ t : toText, t.loc = enLocalizer → t.formatter = defaultFormatter →
      (∀ m ∈ t.option.Bymonth, 1 ≤ m ∧ m ≤ 12) →
      ∀ sb, ∃ s, t.byMonth sb = some s) ∧
    (∀ w : Weekday, 0 ≤ w.Day → w.Day ≤ 6 → ∃ s, defaultFormatter.WeekDayName w = some s) := by
  refine ⟨MonthName_english, MonthName_panics, ?_, ?_⟩
  · intro t hl hf hm sb
    obtain ⟨months, hmonths⟩ := byMonth_default t hl hf hm
    exact ⟨_, hmonths sb⟩
  · intro w h0 h6
    exact ⟨_, WeekDayName_valid w h0 h6⟩

/-- Claim C16 at month 12, at month 13, at a writer with BYMONTH 3 and 11, and at Sunday. -/
theorem formatter_safety_witness :
    defaultFormatter.MonthName 12 = some "December" ∧
    defaultFormatter.MonthName 13 = none ∧
    (∃ s, marchNovemberWriter.byMonth "every" = some s) ∧
    (∃ s, defaultFormatter.WeekDayName SU = some s) :=
  ⟨(formatter_safety.1 12 (by decide) (by decide)).trans (by decide),
   formatter_safety.2.1 13 (by decide),
   formatter_safety.2.2.1 marchNovemberWriter rfl rfl (by decide) "every",
   formatter_safety.2.2.2 SU (by decide) (by decide)⟩

set_option maxRecDepth 100000 in
/-- Claim C17 fails on the options of `TestCompatibility`: their serialization is the string
that the test expects, with BYSETPOS right after UNTIL and before BYMONTH, so the keys are
not in the order that the claim gives. -/
theorem serialization_order_counterexample :
    compatibilityOptions.RRuleString (fun _ => "20130130T230000Z") =
      "FREQ=WEEKLY;INTERVAL=5;WKST=TU;COUNT=2;UNTIL=20130130T230000Z;BYSETPOS=2;BYMONTH=3;BYYEARDAY=95;BYWEEKNO=1;BYDAY=MO,+2FR;BYHOUR=9;BYMINUTE=30;BYSECOND=0;BYEASTER=-1" ∧
    ¬ List.Sublist ((compatibilityOptions.params (fun _ => "")).map Prod.fst) specKeyOrder := by
  decide

/-- Claim C17, amended. For valid options of Go integers and a reader of instants that reads
back what is written: the keys of the `RRULE` part, as parameters and as they appear in the
written text, are exactly the keys that are set, in the fixed order FREQ, INTERVAL, WKST,
COUNT, UNTIL, BYSETPOS, BYMONTH, BYMONTHDAY, BYYEARDAY, BYWEEKNO, BYDAY, BYHOUR, BYMINUTE,
BYSECOND, BYEASTER; an input that holds the written parameters in any order is read as a
rule whose `RRULE` part is the same text in the fixed order; and any two inputs that hold the
same plain parameters of different keys in different orders are read as the same rule. -/
theorem serialization_order (p q : List Char → Option Time) (n : ROption → ROption)
    (timeToStr : Time → String) (hrb : readsBack timeToStr p) (o : ROption) (hgo : o.inGo)
    (hv : validOptions o = true) :
    (o.params timeToStr).map Prod.fst = keyOrder.filter (keyIsSet o) ∧
    (splitOn ';' (o.RRuleString timeToStr).data).map
        (fun a => a.takeWhile (fun c => c ≠ '=')) =
      (keyOrder.filter (keyIsSet o)).map String.data ∧
    (∀ attrs : List (List Char), attrs.Perm ((o.params timeToStr).map paramText) →
      ∃ r, StrToRRule p q n (String.mk (List.intercalate [';'] attrs)) = some r ∧
        r.OrigOptions.RRuleString timeToStr = o.RRuleString timeToStr) ∧
    (∀ l1 l2 : List (List Char), l1.Perm l2 → (l1.map paramKey).Nodup → plainParams l1 →
      StrToRRule p q n (String.mk (List.intercalate [';'] l1)) =
        StrToRRule p q n (String.mk (List.intercalate [';'] l2))) :=
  ⟨params_keys timeToStr o, RRuleString_keys p timeToStr hrb o hgo,
    fun attrs hperm => StrToRRule_canonical p q n timeToStr hrb o hgo hv attrs hperm,
    fun l1 l2 hperm hnd h => StrToRRule_perm p q n l1 l2 hperm hnd h⟩

set_option maxRecDepth 100000 in
/-- Claim C17, amended, at the options of `TestCompatibility` in the calendar of years: the
keys are the fourteen keys that are set, BYSETPOS right after UNTIL, and the input with the
parameters in the opposite order is read as a rule whose `RRULE` part is in the fixed
order. -/
theorem serialization_order_witness :
    (compatibilityOptions.params yearToStr).map Prod.fst =
      ["FREQ", "INTERVAL", "WKST", "COUNT", "UNTIL", "BYSETPOS", "BYMONTH", "BYYEARDAY",
       "BYWEEKNO", "BYDAY", "BYHOUR", "BYMINUTE", "BYSECOND", "BYEASTER"] ∧
    ∃ r, StrToRRule strToYear strToYear (fun o => o)
        "BYEASTER=-1;BYSECOND=0;BYMINUTE=30;BYHOUR=9;BYDAY=MO,+2FR;BYWEEKNO=1;BYYEARDAY=95;BYMONTH=3;BYSETPOS=2;UNTIL=2013;COUNT=2;WKST=TU;INTERVAL=5;FREQ=WEEKLY" =
          some r ∧
      r.OrigOptions.RRuleString yearToStr =
        "FREQ=WEEKLY;INTERVAL=5;WKST=TU;COUNT=2;UNTIL=2013;BYSETPOS=2;BYMONTH=3;BYYEARDAY=95;BYWEEKNO=1;BYDAY=MO,+2FR;BYHOUR=9;BYMINUTE=30;BYSECOND=0;BYEASTER=-1" := by
  have h := serialization_order strToYear strToYear (fun o => o) yearToStr readsBack_year
    compatibilityOptions (by decide) (by decide)
  refine ⟨h.1.trans (by decide), ?_⟩
  obtain ⟨r, hr, hs⟩ := h.2.2.1 ((compatibilityOptions.params yearToStr).map paramText).reverse
    (List.reverse_perm _)
  have e : String.mk (List.intercalate [';']
      ((compatibilityOptions.params yearToStr).map paramText).reverse) =
      "BYEASTER=-1;BYSECOND=0;BYMINUTE=30;BYHOUR=9;BYDAY=MO,+2FR;BYWEEKNO=1;BYYEARDAY=95;BYMONTH=3;BYSETPOS=2;UNTIL=2013;COUNT=2;WKST=TU;INTERVAL=5;FREQ=WEEKLY" := by
    decide
  rw [e] at hr
  exact ⟨r, hr, hs.trans (by decide)⟩

set_option maxRecDepth 100000 in
/-- Claim C18 fails for the token `21MO`: the rule string of `TestStrToOption` and the bare
`FREQ=MONTHLY;BYDAY=21MO` are read, the ordinal being 21. -/
theorem weekday_ordinal_tokens_counterexample :
    StrToRRule noInstant noInstant (fun o => o) "FREQ=MONTHLY;BYDAY=21MO" =
      some { OrigOptions := { unsetOptions with Freq := .MONTHLY, Byweekday := [⟨0, 21⟩] },
             Options := { unsetOptions with Freq := .MONTHLY, Byweekday := [⟨0, 21⟩] } } ∧
    (StrToRRule anyInstant anyInstant (fun o => o)
      "DTSTART:20241102T090000Z\nRRULE:FREQ=MONTHLY;BYDAY=21MO;BYMONTH=08;UNTIL=20270306T175200Z;INTERVAL=9").isSome
      = true := by
  decide

/-- Claim C18, amended. For every weekday code `W` and every `k` below 2^63, the parser reads
`FREQ=WEEKLY;BYDAY=<k>W` and `FREQ=WEEKLY;BYDAY=+<k>W` with ordinal `k`,
`FREQ=WEEKLY;BYDAY=-<k>W` with ordinal `-k` and `FREQ=WEEKLY;BYDAY=W` without ordinal, and it
rejects a sign without digits. -/
theorem weekday_ordinal_tokens (p q : List Char → Option Time) (d : Int) (k : Nat)
    (h0 : 0 ≤ d) (h6 : d ≤ 6) (hk : Int.ofNat k < 2 ^ 63) :
    StrToROption p q ("FREQ=WEEKLY;BYDAY=" ++ Nat.repr k ++ (index weekdayCodes d).getD "") =
      some (weeklyOn ⟨d, Int.ofNat k⟩) ∧
    StrToROption p q
        ("FREQ=WEEKLY;BYDAY=" ++ "+" ++ Nat.repr k ++ (index weekdayCodes d).getD "") =
      some (weeklyOn ⟨d, Int.ofNat k⟩) ∧
    StrToROption p q
        ("FREQ=WEEKLY;BYDAY=" ++ "-" ++ Nat.repr k ++ (index weekdayCodes d).getD "") =
      some (weeklyOn ⟨d, -Int.ofNat k⟩) ∧
    StrToROption p q ("FREQ=WEEKLY;BYDAY=" ++ (index weekdayCodes d).getD "") =
      some (weeklyOn ⟨d, 0⟩) ∧
    StrToROption p q ("FREQ=WEEKLY;BYDAY=" ++ "+" ++ (index weekdayCodes d).getD "") = none ∧
    StrToROption p q ("FREQ=WEEKLY;BYDAY=" ++ "-" ++ (index weekdayCodes d).getD "") = none := by
  have hcode := codeToDay_codes d h0 h6
  generalize hW : (index weekdayCodes d).getD "" = W at hcode ⊢
  have hlen := codeToDay_length W.data d hcode
  have hWne : W.data ≠ [] := by intro e; rw [e] at hlen; exact absurd hlen (by decide)
  obtain ⟨hr1, hr2, hr3⟩ := strToInt_repr k hk
  have hdig : ∀ c ∈ (Nat.repr k).data, c ≠ '=' ∧ c ≠ ';' ∧ c ≠ ',' ∧ c ≠ '\n' ∧
      isSpace c = false := fun c hc => digit_not_separator c (repr_isDigit k c hc)
  obtain ⟨c0, cs0, hcs0, _⟩ := repr_head_isDigit k
  have hrne : (Nat.repr k).data ≠ [] := by rw [hcs0]; exact List.cons_ne_nil _ _
  have hsign : ∀ s : Char, (s = '+' ∨ s = '-') →
      ∀ c ∈ s :: (Nat.repr k).data, c ≠ '=' ∧ c ≠ ';' ∧ c ≠ ',' ∧ c ≠ '\n' ∧
        isSpace c = false := by
    intro s hs c hc
    rcases List.mem_cons.mp hc with e | hc
    · rcases hs with e' | e' <;> (subst e; subst e'; decide)
    · exact hdig c hc
  have hsign1 : ∀ s : Char, (s = '+' ∨ s = '-') →
      ∀ c ∈ [s], c ≠ '=' ∧ c ≠ ';' ∧ c ≠ ',' ∧ c ≠ '\n' ∧ isSpace c = false := by
    intro s hs c hc
    rcases List.mem_singleton.mp hc with e
    rcases hs with e' | e' <;> (subst e; subst e'; decide)
  refine ⟨?_, ?_, ?_, ?_, ?_, ?_⟩
  · have h := StrToROption_byday p q ((Nat.repr k).data ++ W.data) (by simp [hrne])
      (token_chars _ _ d hcode hdig)
    rw [strToWeekday_ordinal _ _ d _ hcode hrne hr1] at h
    exact h
  · have h := StrToROption_byday p q (('+' :: (Nat.repr k).data) ++ W.data) (by simp)
      (token_chars _ _ d hcode (hsign '+' (Or.inl rfl)))
    rw [strToWeekday_ordinal _ _ d _ hcode (List.cons_ne_nil _ _) hr2] at h
    exact h
  · have h := StrToROption_byday p q (('-' :: (Nat.repr k).data) ++ W.data) (by simp)
      (token_chars _ _ d hcode (hsign '-' (Or.inr rfl)))
    rw [strToWeekday_ordinal _ _ d _ hcode (List.cons_ne_nil _ _) hr3] at h
    exact h
  · have h := StrToROption_byday p q W.data hWne
      (fun c hc => code_not_separator _ d hcode c hc)
    rw [strToWeekday_bare _ d hcode] at h
    exact h
  · have h := StrToROption_byday p q (['+'] ++ W.data) (by simp)
      (token_chars _ _ d hcode (hsign1 '+' (Or.inl rfl)))
    rw [strToWeekday_fail _ _ d hcode (List.cons_ne_nil _ _) strToInt_sign_only.1] at h
    exact h
  · have h := StrToROption_byday p q (['-'] ++ W.data) (by simp)
      (token_chars _ _ d hcode (hsign1 '-' (Or.inr rfl)))
    rw [strToWeekday_fail _ _ d hcode (List.cons_ne_nil _ _) strToInt_sign_only.2] at h
    exact h

/-- Claim C18, amended, at `2MO`, `+2MO`, `-2MO`, `MO`, `+MO` with a reader of instants that
accepts nothing. -/
theorem weekday_ordinal_tokens_witness :
    StrToROption noInstant noInstant "FREQ=WEEKLY;BYDAY=2MO" = some (weeklyOn ⟨0, 2⟩) ∧
    StrToROption noInstant noInstant "FREQ=WEEKLY;BYDAY=+2MO" = some (weeklyOn ⟨0, 2⟩) ∧
    StrToROption noInstant noInstant "FREQ=WEEKLY;BYDAY=-2MO" = some (weeklyOn ⟨0, -2⟩) ∧
    StrToROption noInstant noInstant "FREQ=WEEKLY;BYDAY=MO" = some (weeklyOn ⟨0, 0⟩) ∧
    StrToROption noInstant noInstant "FREQ=WEEKLY;BYDAY=+MO" = none :=
  have h := weekday_ordinal_tokens noInstant noInstant 0 2 (by decide) (by decide) (by decide)
  ⟨h.1, h.2.1, h.2.2.1, h.2.2.2.1, h.2.2.2.2.1⟩

/-- Claim C19 fails on the set of `TestSetStrCompatibility`: after the DAILY and then the
WEEKLY rule are added, the accessor returns the WEEKLY rule, which is not the first one. -/
theorem set_accessor_counterexample :
    ((Set.empty.RRule setFirstRule).RRule setSecondRule).rrules = [setFirstRule, setSecondRule] ∧
    ((Set.empty.RRule setFirstRule).RRule setSecondRule).GetRRule = some setSecondRule ∧
    setSecondRule ≠ setFirstRule ∧
    setSecondRule.OrigOptions.RRuleString (fun _ => "") = "FREQ=WEEKLY;INTERVAL=2;BYDAY=MO,TU" := by
  decide

/-- Claim C19, amended. After any number of inclusion rules and then `r` have been added to
a set, the accessor `GetRRule` returns `r`, the rule added last. -/
theorem set_accessor_last (s : Set) (rs : List RRule) (r : RRule) :
    ((rs.foldl Set.RRule s).RRule r).GetRRule = some r := by
  unfold Set.GetRRule Set.RRule
  simp

/-- Claim C21. Canonical-form idempotence, for readers and writers of instants that read back
what they write (`readsBack`, `readsBackLine`, `readsBackDates`) and any normalization.  For
every valid rule `r`, a rule that `NewRRule` builds from options of Go integers, the text
`r.String` is read by `StrToRRule` as a rule whose text is the same.  For every set `s` that
`StrToRRuleSet` returns for a text, the text `s.String` is read by `StrToRRuleSet` as a set
whose text is the same. -/
theorem canonical_round_trip (strToTime strToDtStart : List Char → Option Time)
    (strToDates : List Char → Option (List Time)) (normalize : ROption → ROption)
    (timeToStr dtStartToStr : Time → String)
    (hrb : readsBack timeToStr strToTime) (hrl : readsBackLine dtStartToStr strToDtStart)
    (hrd : readsBackDates dtStartToStr strToDates) :
    (∀ o r, o.inGo → NewRRule normalize o = some r →
      ∃ r2, StrToRRule strToTime strToDtStart normalize (r.String timeToStr dtStartToStr) =
          some r2 ∧
        r2.String timeToStr dtStartToStr = r.String timeToStr dtStartToStr) ∧
    (∀ text s, StrToRRuleSet strToTime strToDtStart strToDates normalize text = some s →
      ∃ s2, StrToRRuleSet strToTime strToDtStart strToDates normalize
          (s.String timeToStr dtStartToStr) = some s2 ∧
        s2.String timeToStr dtStartToStr = s.String timeToStr dtStartToStr) := by
  refine ⟨?_, ?_⟩
  · intro o r hgo hr
    unfold NewRRule at hr
    split_ifs at hr with hv
    rw [← Option.some.inj hr]
    exact StrToRRule_String strToTime strToDtStart timeToStr dtStartToStr normalize hrb hrl o
      hgo hv
  · intro text s hs
    obtain ⟨hw, hi⟩ := StrToRRuleSet_wellFormed strToTime strToDtStart strToDates normalize
      hrl.1 hrd.1 text s hs
    exact StrToRRuleSet_String strToTime strToDtStart strToDates normalize timeToStr
      dtStartToStr hrb hrl hrd s hw hi

set_option maxRecDepth 100000 in
/-- Claim C21 at the calendar of years, without normalization: the rule of
`TestCompatibility` and the set of a text with a start, a rule and two exclusion instants are
read back from their texts with the same texts. -/
theorem canonical_round_trip_witness :
    readsBack yearToStr strToYear ∧ readsBackLine yearLine strToYear ∧
    readsBackDates yearLine strToYears ∧
    (∃ r2, StrToRRule strToYear strToYear id
        (RRule.String yearToStr yearLine ⟨compatibilityOptions, compatibilityOptions⟩) = some r2 ∧
      r2.String yearToStr yearLine =
        RRule.String yearToStr yearLine ⟨compatibilityOptions, compatibilityOptions⟩) ∧
    (∃ s2, StrToRRuleSet strToYear strToYear strToYears id (yearSet.String yearToStr yearLine) =
        some s2 ∧
      s2.String yearToStr yearLine = yearSet.String yearToStr yearLine) :=
  ⟨readsBack_year, readsBackLine_year, readsBackDates_year,
    (canonical_round_trip strToYear strToYear strToYears id yearToStr yearLine readsBack_year
      readsBackLine_year readsBackDates_year).1 compatibilityOptions
      ⟨compatibilityOptions, compatibilityOptions⟩ (by decide) (by decide),
    (canonical_round_trip strToYear strToYear strToYears id yearToStr yearLine readsBack_year
      readsBackLine_year readsBackDates_year).2
      "DTSTART:2018\nRRULE:FREQ=DAILY;COUNT=5\nEXDATE:2019,2020" yearSet (by decide)⟩

/-- Claim C23. The month days that `newToText` builds are a rearrangement of the original
BYMONTHDAY list (same length, same elements with their multiplicities): first the strictly
positive values in ascending order, then the other values in descending order; for an
empty original list the built list is empty. -/
theorem month_day_order (rule : RRule) (loc : Localizer) (fmt : TimeFormatter) :
    (rule.OrigOptions.Bymonthday = [] → (newToText rule loc fmt).bymonthday = []) ∧
    (newToText rule loc fmt).bymonthday.Perm rule.OrigOptions.Bymonthday ∧
    (newToText rule loc fmt).bymonthday.length = rule.OrigOptions.Bymonthday.length ∧
    ∃ pos neg : List Int, (newToText rule loc fmt).bymonthday = pos ++ neg ∧
      (∀ d ∈ pos, 0 < d) ∧ (∀ d ∈ neg, d ≤ 0) ∧
      pos.Sorted (fun a b => a ≤ b) ∧ neg.Sorted (fun a b => b ≤ a) := by
  have hs := newToText_bymonthday_sort rule loc fmt
  have hperm : (newToText rule loc fmt).bymonthday.Perm rule.OrigOptions.Bymonthday := by
    rw [hs]
    unfold sortMonthDays
    exact ((List.perm_insertionSort _ _).append (List.perm_insertionSort _ _)).trans
      (filter_not_perm (fun d : Int => 0 < d) _)
  refine ⟨fun h => ?_, hperm, hperm.length_eq, ?_⟩
  · rw [hs, h]; rfl
  · refine ⟨(rule.OrigOptions.Bymonthday.filter (fun d => 0 < d)).insertionSort
        (fun a b => a ≤ b),
      (rule.OrigOptions.Bymonthday.filter (fun d => ¬ 0 < d)).insertionSort
        (fun a b => b ≤ a), by rw [hs]; rfl, ?_, ?_, ?_, ?_⟩
    · intro d hd
      have := (List.perm_insertionSort _ _).mem_iff.mp hd
      simpa using (List.mem_filter.mp this).2
    · intro d hd
      have := (List.perm_insertionSort _ _).mem_iff.mp hd
      simpa using (List.mem_filter.mp this).2
    · exact List.sorted_insertionSort (fun a b : Int => a ≤ b) _
    · haveI : IsTotal Int (fun a b => b ≤ a) := ⟨fun a b => le_total b a⟩
      haveI : IsTrans Int (fun a b => b ≤ a) := ⟨fun a b c h1 h2 => le_trans h2 h1⟩
      exact List.sorted_insertionSort (fun a b : Int => b ≤ a) _

/-- Claim C23 at `BYMONTHDAY=15,-1,1,-2,3`, built as `[1, 3, 15, -1, -2]`, and at a rule
without BYMONTHDAY. -/
theorem month_day_order_witness :
    (newToText monthDaysMixed enLocalizer defaultFormatter).bymonthday = [1, 3, 15, -1, -2] ∧
    ([1, 3, 15, -1, -2] : List Int).Perm [15, -1, 1, -2, 3] ∧
    (newToText monthlyThirdTuesday enLocalizer defaultFormatter).bymonthday = [] :=
  have e : (newToText monthDaysMixed enLocalizer defaultFormatter).bymonthday =
      [1, 3, 15, -1, -2] := by decide
  ⟨e, e ▸ (month_day_order monthDaysMixed enLocalizer defaultFormatter).2.1,
   (month_day_order monthlyThirdTuesday enLocalizer defaultFormatter).1 (by decide)⟩

/-- Claim C24. `newToText` leaves `byweekday` nil exactly when the original BYDAY list is
empty; otherwise `allWeeks` followed by `someWeeks` is a rearrangement of the original
BYDAY list, every element of `allWeeks` has ordinal 0, every element of `someWeeks` has an
ordinal other than 0, and the flags `isWeekdays` and `isEveryDay` are not both set. -/
theorem weekday_partition (rule : RRule) (loc : Localizer) (fmt : TimeFormatter) :
    ((newToText rule loc fmt).byweekday = none ↔ rule.OrigOptions.Byweekday = []) ∧
    ∀ b, (newToText rule loc fmt).byweekday = some b →
      (b.allWeeks ++ b.someWeeks).Perm rule.OrigOptions.Byweekday ∧
      (∀ w ∈ b.allWeeks, w.N = 0) ∧ (∀ w ∈ b.someWeeks, w.N ≠ 0) ∧
      ¬ (b.isWeekdays = true ∧ b.isEveryDay = true) := by
  refine ⟨⟨fun h => ?_, newToText_byweekday_none rule loc fmt⟩, fun b hb => ?_⟩
  · by_contra hne
    obtain ⟨b, hb, _⟩ := newToText_byweekday rule loc fmt hne
    rw [h] at hb
    exact absurd hb (by simp)
  · obtain ⟨_, hall, hsome, hwk, hev⟩ := newToText_byweekday_flags rule loc fmt b hb
    refine ⟨?_, ?_, ?_, fun h => hev h.2 (hwk h.1)⟩
    · rw [hall, hsome]
      unfold weekDaysSort
      exact ((List.perm_insertionSort _ _).append (List.perm_insertionSort _ _)).trans
        (filter_not_perm (fun w : Weekday => w.N = 0) _)
    · intro w hw
      rw [hall, mem_weekDaysSort] at hw
      simpa using (List.mem_filter.mp hw).2
    · intro w hw
      rw [hsome, mem_weekDaysSort] at hw
      simpa using (List.mem_filter.mp hw).2

/-- Claim C24 at `BYDAY=FR,+2TU,MO,-1SU`: Monday and Friday without ordinal, the second
Tuesday and the last Sunday with one, no flag set. -/
theorem weekday_partition_witness :
    (newToText weekdaysMixed enLocalizer defaultFormatter).byweekday =
      some { allWeeks := [MO, FR], someWeeks := [⟨1, 2⟩, ⟨6, -1⟩], isWeekdays := false,
             isEveryDay := false } ∧
    ([MO, FR] ++ [⟨1, 2⟩, ⟨6, -1⟩] : List Weekday).Perm weekdaysMixed.OrigOptions.Byweekday ∧
    ((newToText monthlyOnFourth enLocalizer defaultFormatter).byweekday = none ↔
      monthlyOnFourth.OrigOptions.Byweekday = []) :=
  ⟨by decide,
   ((weekday_partition weekdaysMixed enLocalizer defaultFormatter).2
      { allWeeks := [MO, FR], someWeeks := [⟨1, 2⟩, ⟨6, -1⟩], isWeekdays := false,
        isEveryDay := false } (by decide)).1,
   (weekday_partition monthlyOnFourth enLocalizer defaultFormatter).1⟩

/-- Claim C25. For a rule of frequency SECONDLY the frequency part writes nothing after
"every": the summary is "every until <date>" when the normalized until is not zero, else
"every for <count> time(s)" when the count is positive, else "every". -/
theorem secondly_summary (rule : RRule) (fmt : TimeFormatter)
    (hfreq : rule.Options.Freq = Frequency.SECONDLY) :
    (newToText rule enLocalizer fmt).writeFreq "every" = some "every" ∧
    (newToText rule enLocalizer fmt).ToString =
      if rule.Options.Until.IsZero = false then
        (fmt.Format rule.Options.Until).map (fun f => "every until " ++ f)
      else if 0 < rule.Options.Count then
        some ("every for " ++ Itoa rule.Options.Count ++
          (if rule.Options.Count = 1 then " time" else " times"))
      else some "every" := by
  obtain ⟨ho, _, hl, hfm⟩ := newToText_fields rule enLocalizer fmt
  have hw : (newToText rule enLocalizer fmt).writeFreq "every" = some "every" := by
    unfold toText.writeFreq
    rw [ho, hfreq]
  refine ⟨hw, ?_⟩
  rw [ToString_eq _ hl, hw, Option.some_bind]
  unfold toText.writeEnd
  rw [ho, hl, hfm]
  by_cases hu : rule.Options.Until.IsZero = false
  · cases hF : fmt.Format rule.Options.Until with
    | none => simp [hu, hF, localize_other]
    | some f =>
      simp [hu, hF, localize_other, String.append_assoc]
      rfl
  · have hu' : rule.Options.Until.IsZero = true := by simpa using hu
    by_cases hc : 0 < rule.Options.Count
    · have h1 : rule.Options.Count.natAbs = 1 ↔ rule.Options.Count = 1 := by omega
      by_cases hone : rule.Options.Count = 1
      · simp [hu', hc, localize_timeCount, hone, String.append_assoc]
        rfl
      · simp [hu', hc, localize_timeCount, hone, h1, String.append_assoc]
        rfl
    · simp [hu', hc]

/-- Claim C25 at `FREQ=SECONDLY;COUNT=3` and at a SECONDLY rule with an interval, BYHOUR,
BYDAY and an until. -/
theorem secondly_summary_witness :
    (newToText secondlyThreeTimes enLocalizer defaultFormatter).ToString =
      some "every for 3 times" ∧
    (newToText secondlyFiltered enLocalizer defaultFormatter).ToString =
      some "every until January 1, 2007" :=
  ⟨((secondly_summary secondlyThreeTimes defaultFormatter (by decide)).2).trans (by decide),
   ((secondly_summary secondlyFiltered defaultFormatter (by decide)).2).trans (by decide)⟩

/-- Claim C26. For a WEEKLY rule whose every-day flag is set, with zero until and count 0,
the summary is "every day" when the interval is 1 and "every <n> weeks days" when it is
`n ≥ 2`; nothing else is written. -/
theorem weekly_every_day (rule : RRule) (fmt : TimeFormatter) (b : byweekday)
    (hfreq : rule.Options.Freq = Frequency.WEEKLY)
    (hb : (newToText rule enLocalizer fmt).byweekday = some b)
    (hflag : b.isEveryDay = true)
    (hu : rule.Options.Until.IsZero = true)
    (hc : rule.Options.Count = 0) :
    (rule.Options.Interval = 1 →
      (newToText rule enLocalizer fmt).ToString = some "every day") ∧
    (2 ≤ rule.Options.Interval →
      (newToText rule enLocalizer fmt).ToString =
        some ("every " ++ Itoa rule.Options.Interval ++ " weeks days")) := by
  obtain ⟨ho, _, hl, _⟩ := newToText_fields rule enLocalizer fmt
  obtain ⟨_, _, _, hwk, hev⟩ := newToText_byweekday_flags rule enLocalizer fmt b hb
  have hnw : b.isWeekdays = false := by
    cases h : b.isWeekdays with
    | false => rfl
    | true => exact absurd (hwk h) (hev hflag)
  have hany : (newToText rule enLocalizer fmt).byweekday.any (fun b => b.isEveryDay) = true := by
    rw [hb]; simpa using hflag
  have hnone : (newToText rule enLocalizer fmt).byweekday.any (fun b => b.isWeekdays) = false := by
    rw [hb]; simpa using hnw
  have hw : (newToText rule enLocalizer fmt).writeFreq "every" =
      (newToText rule enLocalizer fmt).weekly "every" := by
    unfold toText.writeFreq
    rw [ho, hfreq]
  have hend : ∀ pre, (newToText rule enLocalizer fmt).writeEnd pre = some pre := by
    intro pre
    unfold toText.writeEnd
    simp [ho, hu, hc]
  constructor
  · intro h1
    have hres : (newToText rule enLocalizer fmt).writeFreq "every" = some "every day" := by
      rw [hw]
      unfold toText.weekly
      simp [hany, hnone, ho, hl, h1, localize_plural]
    rw [ToString_eq _ hl, hres, Option.some_bind, hend]
  · intro h2
    have hne : ¬ rule.Options.Interval = 1 := by omega
    have hna : ¬ rule.Options.Interval.natAbs = 1 := by omega
    have hres : (newToText rule enLocalizer fmt).writeFreq "every" =
        some ("every " ++ Itoa rule.Options.Interval ++ " weeks days") := by
      rw [hw]
      unfold toText.weekly
      simp [hany, hnone, ho, hl, hne, hna, cfgWeeklyWeeks, localize_plural,
        String.append_assoc]
    rw [ToString_eq _ hl, hres, Option.some_bind, hend]

/-- Claim C26 at `FREQ=WEEKLY;BYDAY=MO,TU,WE,TH,FR,SA,SU;BYMONTH=3;BYHOUR=10` and at the
same weekdays every second week. -/
theorem weekly_every_day_witness :
    (newToText weeklyEveryDay enLocalizer defaultFormatter).ToString = some "every day" ∧
    (newToText secondWeekEveryDay enLocalizer defaultFormatter).ToString =
      some "every 2 weeks days" :=
  ⟨(weekly_every_day weeklyEveryDay defaultFormatter
      { allWeeks := [MO, TU, WE, TH, FR, SA, SU], someWeeks := [], isWeekdays := false,
        isEveryDay := true } (by decide) (by decide) (by decide) (by decide) (by decide)).1
      (by decide),
   ((weekly_every_day secondWeekEveryDay defaultFormatter
      { allWeeks := [MO, TU, WE, TH, FR, SA, SU], someWeeks := [], isWeekdays := false,
        isEveryDay := true } (by decide) (by decide) (by decide) (by decide) (by decide)).2
      (by decide)).trans (by decide)⟩

/-- Claim C27. With the English messages and the default formatter, `byMonthDay` on a writer
with month days and weekdays without ordinal appends " on ", the day names with a final
" or ", " the " and the ordinals of the month days with a final " or ".  For every writer
with month days the summary is the same whatever the weekdays that carry an ordinal. -/
theorem month_days_with_weekdays :
    (∀ (t : toText) (b : byweekday), t.loc = enLocalizer → t.formatter = defaultFormatter →
      t.byweekday = some b → t.bymonthday ≠ [] → b.allWeeks ≠ [] →
      (∀ w ∈ b.allWeeks, w.N = 0 ∧ 0 ≤ w.Day ∧ w.Day ≤ 6) →
      ∃ nths, t.bymonthday.mapM defaultFormatter.Nth = some nths ∧
        ∀ sb, t.byMonthDay sb = some (sb ++ " on " ++
          phrase ", " " or " (b.allWeeks.map (fun w => dayName w.Day)) ++ " the " ++
          phrase ", " " or " nths)) ∧
    (∀ (t : toText) (ws : List Weekday), t.bymonthday ≠ [] →
      (t.withSomeWeeks ws).ToString = t.ToString) := by
  constructor
  · intro t b hl hf hb hmd ha hplain
    refine ⟨t.bymonthday.map (fun d => (defaultFormatter.Nth d).getD ""),
      mapM_total _ _ _ (fun d _ => Nth_valid d), fun sb => ?_⟩
    have hall : t.allWeeksOf = b.allWeeks := by simp [toText.allWeeksOf, hb]
    have h := byMonthDay_en t hl (fun w => dayName w.Day)
      (fun d => (defaultFormatter.Nth d).getD "")
      (by
        intro w hw
        rw [hall] at hw
        rw [hf]
        exact WeekDayName_plain w (hplain w hw).1 (hplain w hw).2.1 (hplain w hw).2.2)
      (by intro d _; rw [hf]; exact Nth_valid d) sb
    rw [h, hall, if_pos ha]
    simp only [String.append_assoc]
  · intro t ws hmd
    have hlen : 0 < t.bymonthday.length := List.length_pos.mpr hmd
    have hlen' : 0 < (t.withSomeWeeks ws).bymonthday.length := hlen
    have hbm : ∀ sb, (t.withSomeWeeks ws).byMonth sb = t.byMonth sb := fun _ => rfl
    have hbh : ∀ sb, (t.withSomeWeeks ws).byHour sb = t.byHour sb := fun _ => rfl
    have hmdw := byMonthDay_withSomeWeeks t ws
    have hwk : (t.withSomeWeeks ws).byweekday.any (fun b => b.isWeekdays) =
        t.byweekday.any (fun b => b.isWeekdays) := by
      unfold toText.withSomeWeeks; cases t.byweekday <;> rfl
    have hev : (t.withSomeWeeks ws).byweekday.any (fun b => b.isEveryDay) =
        t.byweekday.any (fun b => b.isEveryDay) := by
      unfold toText.withSomeWeeks; cases t.byweekday <;> rfl
    have ho : (t.withSomeWeeks ws).option = t.option := rfl
    have hoo : (t.withSomeWeeks ws).origOption = t.origOption := rfl
    have hl : (t.withSomeWeeks ws).loc = t.loc := rfl
    have hf : (t.withSomeWeeks ws).formatter = t.formatter := rfl
    have hbmd : (t.withSomeWeeks ws).bymonthday = t.bymonthday := rfl
    have hor : ∀ sb, (t.withSomeWeeks ws).byMonthDayOrWeekDay sb = t.byMonthDayOrWeekDay sb := by
      intro sb
      unfold toText.byMonthDayOrWeekDay
      rw [if_pos hlen', if_pos hlen, hmdw]
    have hfreq : ∀ sb, (t.withSomeWeeks ws).writeFreq sb = t.writeFreq sb := by
      intro sb
      unfold toText.writeFreq
      rw [ho]
      cases t.option.Freq
      · show (t.withSomeWeeks ws).yearly sb = t.yearly sb
        unfold toText.yearly
        simp only [hor]
        rfl
      · show (t.withSomeWeeks ws).monthly sb = t.monthly sb
        unfold toText.monthly
        simp only [hlen, hlen', if_true, hmdw]
        rfl
      · show (t.withSomeWeeks ws).weekly sb = t.weekly sb
        unfold toText.weekly
        simp only [hor, hwk, hev]
        rfl
      · show (t.withSomeWeeks ws).daily sb = t.daily sb
        unfold toText.daily
        simp only [hlen, hlen', if_true, hmdw, hwk]
        rfl
      · rfl
      · rfl
      · rfl
    have hend : ∀ sb, (t.withSomeWeeks ws).writeEnd sb = t.writeEnd sb := fun _ => rfl
    unfold toText.ToString
    simp only [hfreq, hend, hl]

set_option maxRecDepth 100000 in
/-- Claim C27 at the rule of `ExampleRRule`, `BYDAY=TU;BYMONTHDAY=2,3,4,5,6,7,8`, also with
the first Monday put among the weekdays that carry an ordinal. -/
theorem month_days_with_weekdays_witness :
    (newToText electionDay enLocalizer defaultFormatter).byMonthDay "every 4 years November" =
      some "every 4 years November on Tuesday the 2nd, 3rd, 4th, 5th, 6th, 7th or 8th" ∧
    ((newToText electionDay enLocalizer defaultFormatter).withSomeWeeks [⟨0, 1⟩]).ToString =
      some "every 4 years November on Tuesday the 2nd, 3rd, 4th, 5th, 6th, 7th or 8th for 3 times" := by
  obtain ⟨nths, h1, h2⟩ := month_days_with_weekdays.1
    (newToText electionDay enLocalizer defaultFormatter)
    { allWeeks := [TU], someWeeks := [], isWeekdays := false, isEveryDay := false }
    rfl rfl (by decide) (by decide) (by decide) (by decide)
  have e : nths = ["2nd", "3rd", "4th", "5th", "6th", "7th", "8th"] :=
    Option.some.inj (h1.symm.trans (by decide))
  subst e
  exact ⟨(h2 _).trans (by decide),
    (month_days_with_weekdays.2 (newToText electionDay enLocalizer defaultFormatter) [⟨0, 1⟩]
      (by decide)).trans (by decide)⟩

/-- Claim C28 fails for a writer whose weekdays flag is set and that has the first Monday
and no weekday without ordinal: `byWeekDay` appends " on the 1st Monday", which does not
start with " and on the ". -/
theorem mixed_weekday_clause_counterexample :
    flaggedFirstMonday.byweekday.map (fun b => (b.isWeekdays, b.someWeeks)) =
      some (true, [⟨0, 1⟩]) ∧
    flaggedFirstMonday.byWeekDay "" = some " on the 1st Monday" ∧
    ¬ (" and on the ".data <+: " on the 1st Monday".data) := by
  decide

/-- Claim C28, amended. With the English messages, when the weekdays flag is not set
`byWeekDay` appends " on " and the names of `allWeeks` separated by ", " if there are any,
then, if `someWeeks` is not empty, " and" if `allWeeks` is not empty, " on the " and the
names of `someWeeks` with a final " and "; nothing for two empty lists.  When the flag is
set the names of `allWeeks` are not written, and a non-empty `someWeeks` is written after
" and on the " if `allWeeks` is not empty and after " on the " if it is empty. -/
theorem mixed_weekday_clause (t : toText) (b : byweekday) (g : Weekday → String)
    (hl : t.loc = enLocalizer) (hb : t.byweekday = some b)
    (hg : ∀ w ∈ b.allWeeks ++ b.someWeeks, t.formatter.WeekDayName w = some (g w))
    (sb : String) :
    (b.isWeekdays = false →
      t.byWeekDay sb = some (sb ++
        (if b.allWeeks ≠ [] then " on " ++ String.intercalate ", " (b.allWeeks.map g) else "") ++
        (if b.someWeeks ≠ []
          then (if b.allWeeks ≠ [] then " and" else "") ++ " on the " ++
            phrase ", " " and " (b.someWeeks.map g)
          else ""))) ∧
    (b.isWeekdays = false → b.allWeeks = [] → b.someWeeks = [] → t.byWeekDay sb = some sb) ∧
    (b.isWeekdays = true → b.someWeeks ≠ [] →
      t.byWeekDay sb = some (sb ++
        (if b.allWeeks ≠ [] then " and on the " else " on the ") ++
        phrase ", " " and " (b.someWeeks.map g))) ∧
    (b.isWeekdays = true → b.someWeeks = [] → t.byWeekDay sb = some sb) := by
  have h := byWeekDay_en t b hl hb g (fun w hw => hg w (List.mem_append.mpr hw)) sb
  refine ⟨fun hw => ?_, fun hw ha hs => ?_, fun hw hs => ?_, fun hw hs => ?_⟩
  · rw [h]
    simp [hw]
  · rw [h]
    simp [ha, hs]
  · rw [h]
    by_cases ha : b.allWeeks = []
    · simp [hw, hs, ha, String.append_assoc]
    · simp [hw, hs, ha, String.append_assoc]
  · rw [h]
    simp [hw, hs]

/-- Claim C28, amended, at Monday, Wednesday, the first Friday and the last Sunday. -/
theorem mixed_weekday_clause_witness :
    mixedWeekdays.byWeekDay "every day" =
      some "every day on Monday, Wednesday and on the 1st Friday and last Sunday" :=
  ((mixed_weekday_clause mixedWeekdays
      { allWeeks := [MO, WE], someWeeks := [⟨4, 1⟩, ⟨6, -1⟩], isWeekdays := false,
        isEveryDay := false }
      (fun w => (defaultFormatter.WeekDayName w).getD "") rfl rfl (by decide) "every day").1
    rfl).trans (by decide)

/-- Claim C29. For a YEARLY rule with a non-empty original BYMONTH, no original BYMONTHDAY or
BYDAY, empty normalized BYYEARDAY and BYWEEKNO, zero until and count 0, whose normalized
months are in 1..12, the summary is "every " and the month names with a final " and " when
the interval is 1, and "every <n> years " and the month names when it is `n ≥ 2`. -/
theorem yearly_months (rule : RRule)
    (hfreq : rule.Options.Freq = Frequency.YEARLY)
    (hm : rule.OrigOptions.Bymonth ≠ [])
    (hmd : rule.OrigOptions.Bymonthday = [])
    (hwd : rule.OrigOptions.Byweekday = [])
    (hyd : rule.Options.Byyearday = [])
    (hwn : rule.Options.Byweekno = [])
    (hu : rule.Options.Until.IsZero = true)
    (hc : rule.Options.Count = 0)
    (hv : ∀ m ∈ rule.Options.Bymonth, 1 ≤ m ∧ m ≤ 12) :
    (rule.Options.Interval = 1 →
      (newToText rule enLocalizer defaultFormatter).ToString =
        some ("every " ++ phrase ", " " and " (rule.Options.Bymonth.map englishMonth))) ∧
    (2 ≤ rule.Options.Interval →
      (newToText rule enLocalizer defaultFormatter).ToString =
        some ("every " ++ Itoa rule.Options.Interval ++ " years " ++
          phrase ", " " and " (rule.Options.Bymonth.map englishMonth))) := by
  have ht : newToText rule enLocalizer defaultFormatter =
      { bymonthday := [], byweekday := none, option := rule.Options,
        origOption := rule.OrigOptions, loc := enLocalizer, formatter := defaultFormatter } := by
    simp [newToText, hmd, hwd]
  have hbm := byMonth_english (newToText rule enLocalizer defaultFormatter)
    (by rw [ht]) (by rw [ht]) (by rw [ht]; exact hv)
  have hmlen : 0 < rule.OrigOptions.Bymonth.length := List.length_pos.mpr hm
  have hw : (newToText rule enLocalizer defaultFormatter).writeFreq "every" =
      (newToText rule enLocalizer defaultFormatter).yearly "every" := by
    unfold toText.writeFreq
    rw [ht]
    simp only [hfreq]
  have hend : ∀ pre, (newToText rule enLocalizer defaultFormatter).writeEnd pre = some pre := by
    intro pre
    unfold toText.writeEnd
    rw [ht]
    simp [hu, hc]
  constructor
  · intro h1
    have hres : (newToText rule enLocalizer defaultFormatter).writeFreq "every" =
        some ("every " ++ phrase ", " " and " (rule.Options.Bymonth.map englishMonth)) := by
      rw [hw]
      unfold toText.yearly
      simp only [hbm]
      rw [ht]
      simp [hmlen, h1, hyd, hwn, toText.byMonthDayOrWeekDay, String.append_assoc]
      rfl
    rw [ToString_eq _ (by rw [ht]), hres, Option.some_bind, hend]
  · intro h2
    have hne : ¬ rule.Options.Interval = 1 := by omega
    have hna : ¬ rule.Options.Interval.natAbs = 1 := by omega
    have hres : (newToText rule enLocalizer defaultFormatter).writeFreq "every" =
        some ("every " ++ Itoa rule.Options.Interval ++ " years " ++
          phrase ", " " and " (rule.Options.Bymonth.map englishMonth)) := by
      rw [hw]
      unfold toText.yearly
      simp only [hbm]
      rw [ht]
      simp [hmlen, hne, hna, hyd, hwn, toText.byMonthDayOrWeekDay, localize_plural,
        String.append_assoc]
      rfl
    rw [ToString_eq _ (by rw [ht]), hres, Option.some_bind, hend]

/-- Claim C29 at `FREQ=YEARLY;BYMONTH=1,3` and at `FREQ=YEARLY;INTERVAL=2;BYMONTH=6`. -/
theorem yearly_months_witness :
    (newToText yearlyJanuaryMarch enLocalizer defaultFormatter).ToString =
      some "every January and March" ∧
    (newToText secondYearInJune enLocalizer defaultFormatter).ToString =
      some "every 2 years June" :=
  ⟨((yearly_months yearlyJanuaryMarch (by decide) (by decide) (by decide) (by decide)
      (by decide) (by decide) (by decide) (by decide) (by decide)).1 (by decide)).trans
      (by decide),
   ((yearly_months secondYearInJune (by decide) (by decide) (by decide) (by decide)
      (by decide) (by decide) (by decide) (by decide) (by decide)).2 (by decide)).trans
      (by decide)⟩

/-- Claim C30. With the English messages and the default formatter, the frequency part of a
YEARLY summary is that of the same writer without BYYEARDAY and BYWEEKNO, followed by
" on the ", `Nth` of the year days with a final " and " and " day" when BYYEARDAY is not
empty, then by " in week " for one week number or " in weeks " for more and the week
numbers with a final " and " when BYWEEKNO is not empty; the until or count clause
follows. -/
theorem yearly_day_and_week_clauses (t : toText)
    (hl : t.loc = enLocalizer) (hf : t.formatter = defaultFormatter)
    (hfreq : t.option.Freq = Frequency.YEARLY) :
    ∃ nths, t.option.Byyearday.mapM defaultFormatter.Nth = some nths ∧
      (∀ sb, t.yearly sb = (t.withoutYearClauses.yearly sb).map (fun pre => pre ++
        (if t.option.Byyearday = [] then ""
          else " on the " ++ phrase ", " " and " nths ++ " day") ++
        (if t.option.Byweekno = [] then ""
          else (if t.option.Byweekno.length = 1 then " in week " else " in weeks ") ++
            phrase ", " " and " (t.option.Byweekno.map Itoa)))) ∧
      t.ToString = ((t.withoutYearClauses.writeFreq "every").map (fun pre => pre ++
        (if t.option.Byyearday = [] then ""
          else " on the " ++ phrase ", " " and " nths ++ " day") ++
        (if t.option.Byweekno = [] then ""
          else (if t.option.Byweekno.length = 1 then " in week " else " in weeks ") ++
            phrase ", " " and " (t.option.Byweekno.map Itoa)))).bind t.writeEnd := by
  refine ⟨t.option.Byyearday.map (fun d => (defaultFormatter.Nth d).getD ""),
    mapM_total _ _ _ (fun d _ => Nth_valid d), ?_⟩
  have hyd := list_total t.option.Byyearday defaultFormatter.Nth
    (fun d => (defaultFormatter.Nth d).getD "") (fun d _ => Nth_valid d) "and" ","
  have hwn := list_total t.option.Byweekno (fun i => some (Itoa i)) Itoa
    (fun _ _ => rfl) "and" ","
  rw [if_pos (by decide), delimJoin_eq_phrase] at hyd hwn
  have e1 : ("," ++ " " : String) = ", " := by decide
  have e2 : (" " ++ "and" ++ " " : String) = " and " := by decide
  rw [e1, e2] at hyd hwn
  have hbm : ∀ sb, t.withoutYearClauses.byMonth sb = t.byMonth sb := fun _ => rfl
  have hor : ∀ sb, t.withoutYearClauses.byMonthDayOrWeekDay sb = t.byMonthDayOrWeekDay sb :=
    fun _ => rfl
  have key : ∀ sb, t.yearly sb = (t.withoutYearClauses.yearly sb).map (fun pre => pre ++
        (if t.option.Byyearday = [] then ""
          else " on the " ++ phrase ", " " and "
            (t.option.Byyearday.map (fun d => (defaultFormatter.Nth d).getD "")) ++ " day") ++
        (if t.option.Byweekno = [] then ""
          else (if t.option.Byweekno.length = 1 then " in week " else " in weeks ") ++
            phrase ", " " and " (t.option.Byweekno.map Itoa))) := by
    intro sb
    have htail : ∀ s : String,
        (do
          let sb ←
            if 0 < t.option.Byyearday.length then do
              let sb := s ++ " "
              let sb := sb ++ (← t.loc.MustLocalize langOnThe)
              let sb := sb ++ " "
              let sb := sb ++ (← toText.list t.option.Byyearday t.formatter.Nth
                (← t.loc.MustLocalize langAnd) ",")
              let sb := sb ++ " "
              pure (sb ++ (← t.loc.MustLocalize
                { DefaultMessage := otherMessage "YearlyDays" "day" }))
            else pure s
          if 0 < t.option.Byweekno.length then
            let sb := sb ++ " "
            let sb := sb ++ (← t.loc.MustLocalize langIn)
            let sb := sb ++ " "
            let sb := sb ++ (← t.loc.MustLocalize
              { DefaultMessage := pluralMessage "YearlyWeeks" "week" "weeks",
                PluralCount := some (t.option.Byweekno.length : Int) })
            let sb := sb ++ " "
            let sb := sb ++ (← toText.list t.option.Byweekno (fun i => some (Itoa i))
              (← t.loc.MustLocalize langAnd) ",")
            pure sb
          else
            pure sb : Option String) =
        some (s ++
          (if t.option.Byyearday = [] then ""
            else " on the " ++ phrase ", " " and "
              (t.option.Byyearday.map (fun d => (defaultFormatter.Nth d).getD "")) ++ " day") ++
          (if t.option.Byweekno = [] then ""
            else (if t.option.Byweekno.length = 1 then " in week " else " in weeks ") ++
              phrase ", " " and " (t.option.Byweekno.map Itoa))) := by
      intro s
      have hydlen : (0 < t.option.Byyearday.length) ↔ t.option.Byyearday ≠ [] :=
        List.length_pos
      have hwnlen : (0 < t.option.Byweekno.length) ↔ t.option.Byweekno ≠ [] :=
        List.length_pos
      have hnat : ((t.option.Byweekno.length : Int)).natAbs = t.option.Byweekno.length := by
        simp
      rw [hl, hf]
      simp only [defaultFormatter]
      by_cases c1 : t.option.Byyearday = [] <;> by_cases c2 : t.option.Byweekno = [] <;>
        by_cases c3 : t.option.Byweekno.length = 1 <;>
        simp [c1, c2, c3, hydlen, hwnlen, hyd, hwn, hnat, localize_langOnThe, localize_langAnd,
          localize_langIn, localize_other, localize_plural, String.append_assoc]
      all_goals rfl
    have h1 : t.yearly sb = (t.withoutYearClauses.yearly sb).bind (fun s => do
          let sb ←
            if 0 < t.option.Byyearday.length then do
              let sb := s ++ " "
              let sb := sb ++ (← t.loc.MustLocalize langOnThe)
              let sb := sb ++ " "
              let sb := sb ++ (← toText.list t.option.Byyearday t.formatter.Nth
                (← t.loc.MustLocalize langAnd) ",")
              let sb := sb ++ " "
              pure (sb ++ (← t.loc.MustLocalize
                { DefaultMessage := otherMessage "YearlyDays" "day" }))
            else pure s
          if 0 < t.option.Byweekno.length then
            let sb := sb ++ " "
            let sb := sb ++ (← t.loc.MustLocalize langIn)
            let sb := sb ++ " "
            let sb := sb ++ (← t.loc.MustLocalize
              { DefaultMessage := pluralMessage "YearlyWeeks" "week" "weeks",
                PluralCount := some (t.option.Byweekno.length : Int) })
            let sb := sb ++ " "
            let sb := sb ++ (← toText.list t.option.Byweekno (fun i => some (Itoa i))
              (← t.loc.MustLocalize langAnd) ",")
            pure sb
          else
            pure sb) := by
      have g1 : t.withoutYearClauses.origOption = t.origOption := rfl
      have g2 : t.withoutYearClauses.option.Interval = t.option.Interval := rfl
      have g3 : t.withoutYearClauses.option.Byyearday = [] := rfl
      have g4 : t.withoutYearClauses.option.Byweekno = [] := rfl
      have g5 : t.withoutYearClauses.loc = t.loc := rfl
      have g6 : writeInterval t.withoutYearClauses sb = writeInterval t sb := rfl
      unfold toText.yearly
      simp only [g1, g2, g3, g4, g5, g6, hbm, hor, List.length_nil, lt_self_iff_false, if_false]
      split_ifs <;>
        simp only [Option.bind_eq_bind, Option.bind_assoc, Option.some_bind, pure,
          Option.bind_some]
    rw [h1]
    simp only [htail]
    cases t.withoutYearClauses.yearly sb <;> rfl
  refine ⟨key, ?_⟩
  rw [ToString_eq t hl]
  unfold toText.writeFreq
  have ho : t.withoutYearClauses.option.Freq = t.option.Freq := rfl
  rw [ho, hfreq]
  simp only
  rw [key]

set_option maxRecDepth 100000 in
/-- Claim C30 at `FREQ=YEARLY;BYYEARDAY=1,100,-1;BYWEEKNO=20` and at
`FREQ=YEARLY;BYMONTH=3;BYWEEKNO=10,11,12;COUNT=2`. -/
theorem yearly_day_and_week_clauses_witness :
    (newToText yearlyDaysAndWeek enLocalizer defaultFormatter).withoutYearClauses.ToString =
      some "every year" ∧
    (newToText yearlyDaysAndWeek enLocalizer defaultFormatter).ToString =
      some "every year on the 1st, 100th and last day in week 20" ∧
    (newToText yearlyMarchWeeks enLocalizer defaultFormatter).ToString =
      some "every March in weeks 10, 11 and 12 for 2 times" := by
  obtain ⟨n1, a1, _, a3⟩ := yearly_day_and_week_clauses
    (newToText yearlyDaysAndWeek enLocalizer defaultFormatter) rfl rfl (by decide)
  obtain ⟨n2, b1, _, b3⟩ := yearly_day_and_week_clauses
    (newToText yearlyMarchWeeks enLocalizer defaultFormatter) rfl rfl (by decide)
  have e1 : n1 = ["1st", "100th", "last"] := Option.some.inj (a1.symm.trans (by decide))
  have e2 : n2 = [] := Option.some.inj (b1.symm.trans (by decide))
  subst e1 e2
  exact ⟨by decide, a3.trans (by decide), b3.trans (by decide)⟩

/-- Claim C31. `listWeekDay` and `list` are the same joining function of the callback
results.  For every weekday slice `ws`, callback `f`, final delimiter `fd` and delimiter
`d`, `listWeekDay ws f fd d` is `list` on the indices `0 .. len(ws) - 1` with the callback
`i -> f(ws[i])`, also when a callback panics.  Whenever the callback results of two calls
are the same, the two calls give the same text: `list` against `listWeekDay`, `listWeekDay`
against itself and `list` against itself. -/
theorem list_same_join (ws : List Weekday) (f : Weekday → Option String) (fd d : String) :
    toText.listWeekDay ws f fd d =
      toText.list (indices ws.length) (fun i => (weekdayAt ws i).bind f) fd d ∧
    (∀ (xs : List Int) (g : Int → Option String), xs.mapM g = ws.mapM f →
      toText.list xs g fd d = toText.listWeekDay ws f fd d) ∧
    (∀ (ws2 : List Weekday) (f2 : Weekday → Option String), ws2.mapM f2 = ws.mapM f →
      toText.listWeekDay ws2 f2 fd d = toText.listWeekDay ws f fd d) ∧
    (∀ (xs xs2 : List Int) (g g2 : Int → Option String), xs.mapM g = xs2.mapM g2 →
      toText.list xs g fd d = toText.list xs2 g2 fd d) := by
  have cross : ∀ (xs : List Int) (g : Int → Option String), xs.mapM g = ws.mapM f →
      toText.list xs g fd d = toText.listWeekDay ws f fd d := by
    intro xs g h
    unfold toText.list toText.listWeekDay
    rw [h]
  refine ⟨(cross _ _ (mapM_indices f ws)).symm, cross, ?_, ?_⟩
  · intro ws2 f2 h
    unfold toText.listWeekDay
    rw [h]
  · intro xs xs2 g g2 h
    unfold toText.list
    rw [h]

set_option maxRecDepth 100000 in
/-- Claim C31 at Monday, Wednesday, Friday with the English day names: both functions give
"Monday, Wednesday and Friday", and with a callback that panics on Wednesday both panic. -/
theorem list_same_join_witness :
    toText.listWeekDay [MO, WE, FR] (fun w => index weekdayNames w.Day) "and" "," =
      some "Monday, Wednesday and Friday" ∧
    toText.list (indices 3) (fun i => (weekdayAt [MO, WE, FR] i).bind
        (fun w => index weekdayNames w.Day)) "and" "," = some "Monday, Wednesday and Friday" ∧
    toText.list (indices 3) (fun i => (weekdayAt [MO, WE, FR] i).bind
        (fun w => if w = WE then none else index weekdayNames w.Day)) "and" "," = none :=
  ⟨by decide,
    (list_same_join [MO, WE, FR] (fun w => index weekdayNames w.Day) "and" ",").1.symm.trans
      (by decide),
    (list_same_join [MO, WE, FR] (fun w => if w = WE then none else index weekdayNames w.Day)
      "and" ",").1.symm.trans (by decide)⟩

end rrule
